import Mathlib

/-! # Name mangling of the Cforall translator

A shallow embedding of `src/SymTab/Mangler.cc` (the `Mangle::Mangler` pass), of the
basic-type table of `src/BasicTypes-gen.cc`, and of the parts of the AST they read,
followed by the properties established about them.

Conventions of the embedding:

* the mangler is a state record `Mangle.Mangler`; every member function of the C++
  class is a function from states to `Option` states, `none` standing for a failed
  `assert`/`assertf` (the translator aborts);
* `mangleName += s` is `Mangler.emit`;
* `GuardValue( inFunctionType )` registers the restoration of the flag for the moment
  the pass leaves the node being visited; `Mangle.cleanup` performs it;
* `std::string::size()` is the byte length, `String.utf8ByteSize`.
-/

set_option autoImplicit false
set_option linter.unusedVariables false

/-! ## Qualifiers (`ast::CV`) -/

namespace CV

/-- The qualifier bits of a type node, in the order of `Type::QualifiersNames`. -/
structure Qualifiers where
  is_const : Bool
  is_restrict : Bool
  is_volatile : Bool
  is_mutex : Bool
  is_atomic : Bool
deriving DecidableEq, Repr

/-- The keys of the table `Encoding::qualifiers` that the mangler reads. -/
inductive Flag where
  | Const
  | Volatile
  | Atomic
  | Mutex
deriving DecidableEq, Repr

/-- No qualifier set. -/
def none : Qualifiers := ⟨false, false, false, false, false⟩

/-- The qualifier set `q` with the mutex bit set to `b`. -/
def Qualifiers.withMutex (q : Qualifiers) (b : Bool) : Qualifiers :=
  { q with is_mutex := b }

/-- The qualifier set `q` with the const bit set to `b`. -/
def Qualifiers.withConst (q : Qualifiers) (b : Bool) : Qualifiers :=
  { q with is_const := b }

end CV

/-! ## Basic types and the generator table (`BasicTypes-gen.cc`) -/

namespace BasicType

/-- The enumeration `Kind` of `BasicTypes-gen.cc`, in declaration order. -/
inductive Kind where
  | Bool
  | Char
  | SignedChar
  | UnsignedChar
  | ShortSignedInt
  | ShortUnsignedInt
  | SignedInt
  | UnsignedInt
  | LongSignedInt
  | LongUnsignedInt
  | LongLongSignedInt
  | LongLongUnsignedInt
  | SignedInt128
  | UnsignedInt128
  | uFloat16
  | uFloat16Complex
  | uFloat32
  | uFloat32Complex
  | Float
  | FloatComplex
  | uFloat32x
  | uFloat32xComplex
  | uFloat64
  | uFloat64Complex
  | Double
  | DoubleComplex
  | uFloat64x
  | uFloat64xComplex
  | uuFloat80
  | uFloat128
  | uFloat128Complex
  | uuFloat128
  | LongDouble
  | LongDoubleComplex
  | uFloat128x
  | uFloat128xComplex
deriving DecidableEq, Repr

/-- The enumerator `NUMBER_OF_BASIC_TYPES`, which closes the enumeration. -/
def NUMBER_OF_BASIC_TYPES : Nat := 36

/-- The enumeration `NumSort`. -/
inductive NumSort where
  | Signed
  | Unsigned
  | Floating
deriving DecidableEq, Repr

/-- One row of the generator table `graph` (`struct Node`); a child that the source
writes as `-1` is `none`. -/
structure Node where
  basicType : Kind
  name : String
  abbrev_ : String
  type : String
  mangled : String
  sign : NumSort
  left : Option Kind
  middle : Option Kind
  right : Option Kind
  rank : Nat

/-- The table `graph[NUMBER_OF_BASIC_TYPES]` of `BasicTypes-gen.cc`. -/
def graph : List Node := [
  ⟨.Bool, "Bool", "B", "_Bool", "b", .Signed, some .Char, some .SignedChar, none, 0⟩,
  ⟨.Char, "Char", "C", "char", "c", .Signed, some .SignedChar, some .UnsignedChar, some .ShortSignedInt, 1⟩,
  ⟨.SignedChar, "SignedChar", "SC", "signed char", "a", .Signed, some .UnsignedChar, some .ShortSignedInt, none, 1⟩,
  ⟨.UnsignedChar, "UnsignedChar", "UC", "unsigned char", "h", .Unsigned, some .ShortUnsignedInt, some .ShortSignedInt, none, 1⟩,
  ⟨.ShortSignedInt, "ShortSignedInt", "SI", "signed short int", "s", .Signed, some .ShortUnsignedInt, some .SignedInt, none, 2⟩,
  ⟨.ShortUnsignedInt, "ShortUnsignedInt", "SUI", "unsigned short int", "t", .Unsigned, some .UnsignedInt, some .SignedInt, none, 2⟩,
  ⟨.SignedInt, "SignedInt", "I", "signed int", "i", .Signed, some .UnsignedInt, some .LongSignedInt, none, 3⟩,
  ⟨.UnsignedInt, "UnsignedInt", "UI", "unsigned int", "j", .Unsigned, some .LongUnsignedInt, some .LongSignedInt, none, 3⟩,
  ⟨.LongSignedInt, "LongSignedInt", "LI", "signed long int", "l", .Signed, some .LongUnsignedInt, some .LongLongSignedInt, none, 4⟩,
  ⟨.LongUnsignedInt, "LongUnsignedInt", "LUI", "unsigned long int", "m", .Unsigned, some .LongLongSignedInt, some .LongLongUnsignedInt, none, 4⟩,
  ⟨.LongLongSignedInt, "LongLongSignedInt", "LLI", "signed long long int", "x", .Signed, some .LongLongUnsignedInt, some .SignedInt128, none, 5⟩,
  ⟨.LongLongUnsignedInt, "LongLongUnsignedInt", "LLUI", "unsigned long long int", "y", .Unsigned, some .SignedInt128, some .UnsignedInt128, none, 5⟩,
  ⟨.SignedInt128, "SignedInt128", "IB", "__int128", "n", .Signed, some .UnsignedInt128, some .uFloat16, none, 6⟩,
  ⟨.UnsignedInt128, "UnsignedInt128", "UIB", "unsigned __int128", "o", .Unsigned, some .uFloat16, none, none, 6⟩,
  ⟨.uFloat16, "uFloat16", "_FH", "_Float16", "DF16_", .Floating, some .uFloat32, some .uFloat16Complex, none, 7⟩,
  ⟨.uFloat16Complex, "uFloat16Complex", "_FH", "_Float16 _Complex", "CDF16_", .Floating, some .uFloat32Complex, none, none, 7⟩,
  ⟨.uFloat32, "uFloat32", "_F", "_Float32", "DF32_", .Floating, some .Float, some .uFloat32Complex, none, 8⟩,
  ⟨.uFloat32Complex, "uFloat32Complex", "_FC", "_Float32 _Complex", "CDF32_", .Floating, some .FloatComplex, none, none, 8⟩,
  ⟨.Float, "Float", "F", "float", "f", .Floating, some .uFloat32x, some .FloatComplex, none, 9⟩,
  ⟨.FloatComplex, "FloatComplex", "FC", "float _Complex", "Cf", .Floating, some .uFloat32xComplex, none, none, 9⟩,
  ⟨.uFloat32x, "uFloat32x", "_FX", "_Float32x", "DF32x_", .Floating, some .uFloat64, some .uFloat32xComplex, none, 10⟩,
  ⟨.uFloat32xComplex, "uFloat32xComplex", "_FXC", "_Float32x _Complex", "CDF32x_", .Floating, some .uFloat64Complex, none, none, 10⟩,
  ⟨.uFloat64, "uFloat64", "FD", "_Float64", "DF64_", .Floating, some .Double, some .uFloat64Complex, none, 11⟩,
  ⟨.uFloat64Complex, "uFloat64Complex", "_FDC", "_Float64 _Complex", "CDF64_", .Floating, some .DoubleComplex, none, none, 11⟩,
  ⟨.Double, "Double", "D", "double", "d", .Floating, some .uFloat64x, some .DoubleComplex, none, 12⟩,
  ⟨.DoubleComplex, "DoubleComplex", "DC", "double _Complex", "Cd", .Floating, some .uFloat64xComplex, none, none, 12⟩,
  ⟨.uFloat64x, "uFloat64x", "F80X", "_Float64x", "DF64x_", .Floating, some .uuFloat80, some .uFloat64xComplex, none, 13⟩,
  ⟨.uFloat64xComplex, "uFloat64xComplex", "_FDXC", "_Float64x _Complex", "CDF64x_", .Floating, some .uFloat128Complex, none, none, 13⟩,
  ⟨.uuFloat80, "uuFloat80", "F80", "__float80", "Dq", .Floating, some .uFloat128, some .uFloat64xComplex, none, 14⟩,
  ⟨.uFloat128, "uFloat128", "_FB", "_Float128", "DF128_", .Floating, some .uuFloat128, some .uFloat128Complex, none, 15⟩,
  ⟨.uFloat128Complex, "uFloat128Complex", "_FLDC", "_Float128 _Complex", "CDF128_", .Floating, some .LongDoubleComplex, none, none, 15⟩,
  ⟨.uuFloat128, "uuFloat128", "FB", "__float128", "g", .Floating, some .LongDouble, some .uFloat128Complex, none, 16⟩,
  ⟨.LongDouble, "LongDouble", "LD", "long double", "e", .Floating, some .uFloat128x, some .LongDoubleComplex, none, 17⟩,
  ⟨.LongDoubleComplex, "LongDoubleComplex", "LDC", "long double _Complex", "Ce", .Floating, some .uFloat128xComplex, none, none, 17⟩,
  ⟨.uFloat128x, "uFloat128x", "_FBX", "_Float128x", "DF128x_", .Floating, some .uFloat128xComplex, none, none, 18⟩,
  ⟨.uFloat128xComplex, "uFloat128xComplex", "_FLDXC", "_Float128x _Complex", "CDF128x_", .Floating, none, none, none, 18⟩
]

/-- The array `basicTypes` that `main` of `BasicTypes-gen.cc` writes into
`ManglerCommon.cc`: the column `mangled` of `graph`, row by row. -/
def basicTypes : List String := graph.map (fun node => node.mangled)

end BasicType

/-! ## Linkage and type-variable kinds -/

namespace Linkage

/-- Modelled from the spec: the named linkages of a declaration (`LinkageSpec.hpp` is
not among the sources at hand); the spec lists Cforall, C, AutoGen and Intrinsic. `Empty`
is the specifier `ast::Linkage::Spec()` without any flag, which `getMangledNameOfMain`
of `FixMain.cc` hands to the declarations it builds. -/
inductive Name where
  | Cforall
  | C
  | AutoGen
  | Intrinsic
  | Empty
deriving DecidableEq, Repr

/-- Modelled from the spec: the linkage specifier `ast::Linkage::Spec` of a declaration
(`LinkageSpec.hpp` is not among the sources at hand), a named linkage together with the
overrideable flag that `mangleDecl` reads as `linkage.is_overrideable`. -/
structure Spec where
  name : Name
  is_overrideable : Bool
deriving DecidableEq, Repr

/-- Ordinary Cforall linkage, the default of the declaration constructors. -/
def Cforall : Spec := ⟨Name.Cforall, false⟩

/-- C linkage. -/
def C : Spec := ⟨Name.C, false⟩

/-- The constant `ast::Linkage::AutoGen` (built by the translator, overrideable). -/
def AutoGen : Spec := ⟨Name.AutoGen, true⟩

/-- The constant `ast::Linkage::Intrinsic` (prelude built-in, overrideable). -/
def Intrinsic : Spec := ⟨Name.Intrinsic, true⟩

/-- The specifier `ast::Linkage::Spec()`: no flag is set, so it is not overrideable. -/
def Spec.empty : Spec := ⟨Name.Empty, false⟩

end Linkage

namespace TypeDecl

/-- The enumeration `TypeDecl::Kind` of `AST/Decl.hpp`. -/
inductive Kind where
  | Dtype
  | DStype
  | Otype
  | Ftype
  | Ttype
  | Dimension
deriving DecidableEq, Repr

end TypeDecl

/-- An element of a `forall` list, of which the mangler reads `name` and `kind`. -/
structure TypeDecl where
  name : String
  kind : TypeDecl.Kind
deriving DecidableEq, Repr

/-! ## Type nodes (`ast::Type` and its subclasses) -/

mutual

/-- The type nodes of the AST. The first field of every variant is the qualifier set
of the node; attributes, which the mangler never reads, are left out. The field `base`
of an enum instance is the declaration it refers to (`none` for a null pointer), reduced
to the only member that is read, the base type of the enum (`none` for a null pointer). -/
inductive Ty where
  | VoidType (qualifiers : CV.Qualifiers)
  | BasicType (qualifiers : CV.Qualifiers) (kind : BasicType.Kind)
  | PointerType (qualifiers : CV.Qualifiers) (base : Ty)
      (dimension : Option Expr) (isVarLen : Bool) (isStatic : Bool)
  | ArrayType (qualifiers : CV.Qualifiers) (base : Ty)
      (dimension : Option Expr) (isVarLen : Bool) (isStatic : Bool)
  | ReferenceType (qualifiers : CV.Qualifiers) (base : Ty)
  | FunctionType (qualifiers : CV.Qualifiers) (forall_ : List TypeDecl)
      (assertions : List DeclWithType) (returns : List Ty) (params : List Ty)
      (isVarArgs : Bool)
  | StructInstType (qualifiers : CV.Qualifiers) (name : String) (params : List Expr)
  | UnionInstType (qualifiers : CV.Qualifiers) (name : String) (params : List Expr)
  | EnumInstType (qualifiers : CV.Qualifiers) (name : String) (params : List Expr)
      (base : Option (Option Ty))
  | TypeInstType (qualifiers : CV.Qualifiers) (name : String) (params : List Expr)
      (kind : TypeDecl.Kind)
  | TraitInstType (qualifiers : CV.Qualifiers) (name : String) (params : List Expr)
  | TupleType (qualifiers : CV.Qualifiers) (types : List Ty)
  | VarArgsType (qualifiers : CV.Qualifiers)
  | ZeroType (qualifiers : CV.Qualifiers)
  | OneType (qualifiers : CV.Qualifiers)
  | GlobalScopeType
  | TypeofType (qualifiers : CV.Qualifiers) (expr : Expr) (isBasetypeof : Bool)
  | VTableType (qualifiers : CV.Qualifiers) (base : Ty)
  | QualifiedType (qualifiers : CV.Qualifiers) (parent : Ty) (child : Ty)

/-- Expressions, as far as types refer to them: a type used as an expression
(`ast::TypeExpr`), or any other expression, kept as its source text. -/
inductive Expr where
  | TypeExpr (type : Ty)
  | Other (text : String)

/-- A declaration with a type (`ast::ObjectDecl`, `ast::FunctionDecl`): the fields
that `mangleDecl` reads. For a function declaration `type` is its function type. -/
inductive DeclWithType where
  | mk (name : String) (linkage : Linkage.Spec) (type : Ty)

end

namespace Ty

/-- The qualifier set of a node (`Type::qualifiers`). -/
def quals : Ty → CV.Qualifiers
  | VoidType q => q
  | BasicType q _ => q
  | PointerType q _ _ _ _ => q
  | ArrayType q _ _ _ _ => q
  | ReferenceType q _ => q
  | FunctionType q _ _ _ _ _ => q
  | StructInstType q _ _ => q
  | UnionInstType q _ _ => q
  | EnumInstType q _ _ _ => q
  | TypeInstType q _ _ _ => q
  | TraitInstType q _ _ => q
  | TupleType q _ => q
  | VarArgsType q => q
  | ZeroType q => q
  | OneType q => q
  | GlobalScopeType => CV.none
  | TypeofType q _ _ => q
  | VTableType q _ => q
  | QualifiedType q _ _ => q

/-- Whether the node is a function type: `dynamic_cast<const ast::FunctionType *>`
and `base.as<ast::FunctionType>()` succeed. -/
def isFunctionType : Ty → Bool
  | FunctionType _ _ _ _ _ _ => true
  | _ => false

/-- The `forall` list of a function type; no other node binds type variables. -/
def forallList : Ty → List TypeDecl
  | FunctionType _ fa _ _ _ _ => fa
  | _ => []

/-- The node `t` with the qualifier set of its outermost node replaced by `q`. -/
def withQuals (q : CV.Qualifiers) : Ty → Ty
  | .VoidType _ => .VoidType q
  | .BasicType _ kind => .BasicType q kind
  | .PointerType _ base dim vl st => .PointerType q base dim vl st
  | .ArrayType _ base dim vl st => .ArrayType q base dim vl st
  | .ReferenceType _ base => .ReferenceType q base
  | .FunctionType _ fa assertions returns params va =>
    .FunctionType q fa assertions returns params va
  | .StructInstType _ name params => .StructInstType q name params
  | .UnionInstType _ name params => .UnionInstType q name params
  | .EnumInstType _ name params eb => .EnumInstType q name params eb
  | .TypeInstType _ name params kind => .TypeInstType q name params kind
  | .TraitInstType _ name params => .TraitInstType q name params
  | .TupleType _ types => .TupleType q types
  | .VarArgsType _ => .VarArgsType q
  | .ZeroType _ => .ZeroType q
  | .OneType _ => .OneType q
  | .GlobalScopeType => .GlobalScopeType
  | .TypeofType _ expr b => .TypeofType q expr b
  | .VTableType _ base => .VTableType q base
  | .QualifiedType _ parent child => .QualifiedType q parent child

end Ty

namespace DeclWithType

/-- The field `name` of a declaration. -/
def name : DeclWithType → String
  | mk n _ _ => n

/-- The field `linkage` of a declaration. -/
def linkage : DeclWithType → Linkage.Spec
  | mk _ l _ => l

/-- The result of `get_type()`. -/
def get_type : DeclWithType → Ty
  | mk _ _ t => t

end DeclWithType

/-! ## The mangler (`SymTab/Mangler.cc`) -/

namespace Mangle

/-- The tokens of namespace `Encoding`. Their definitions (`ManglerCommon.cc`) are not
among the sources at hand, so they are parameters of the development; only
`Encoding::basicTypes`, which `BasicTypes-gen.cc` generates, is fixed (see
`BasicType.basicTypes`). `qualifiers` is the table read with `.at( ast::CV::... )`,
`typeVariables` the array indexed by `TypeDecl::Kind`. -/
structure Encoding where
  manglePrefix : String
  qualifiers : CV.Flag → String
  void_t : String
  zero : String
  one : String
  function : String
  tuple : String
  pointer : String
  array : String
  qualifiedTypeStart : String
  qualifiedTypeEnd : String
  forall_ : String
  typeVariables : TypeDecl.Kind → String
  struct_t : String
  union_t : String
  enum_t : String
  type : String
  autogen : String
  intrinsic : String

/-- The entry `Encoding::basicTypes[ kind ]`. -/
def Encoding.basicTypes (kind : BasicType.Kind) : String :=
  BasicType.basicTypes.getD kind.toCtorIdx ""

/-- The part of `CodeGen::OperatorInfo` that `mangleDecl` reads. -/
structure OperatorInfo where
  outputName : String

/-- What the mangler takes from outside `Mangler.cc`: the tokens and the operator
table behind `CodeGen::operatorLookup` (`none` is the null pointer). -/
structure Env where
  enc : Encoding
  operatorLookup : String → Option OperatorInfo

/-- The flags of `Mangle::Mode` that the constructor of `Mangler` reads. -/
structure Mode where
  no_overrideable : Bool
  type : Bool
  no_generic_params : Bool
deriving DecidableEq, Repr

/-- The default mode, all flags clear. -/
def Mode.default : Mode := ⟨false, false, false⟩

/-- The mode `Mangle::Type`: only the flag `type` is set. -/
def Type_ : Mode := ⟨false, true, false⟩

/-- The map `VarMapType` from type-variable names to (index, kind), as an association
list: `varNums[ n ] = v` puts the binding in front, `find` returns the first binding
of the name, `clear` is the empty list. -/
abbrev VarMapType := List (String × (Int × TypeDecl.Kind))

/-- The data members of `struct Mangler`. -/
structure Mangler where
  mangleName : String
  varNums : VarMapType
  nextVarNum : Int
  isTopLevel : Bool
  mangleOverridable : Bool
  typeMode : Bool
  mangleGenericParams : Bool
  inFunctionType : Bool
  inQualifiedType : Bool
deriving DecidableEq, Repr

/-- The constructor `Mangler( Mangle::Mode mode )`. -/
def Mangler.ofMode (mode : Mode) : Mangler :=
  { mangleName := "", varNums := [], nextVarNum := 0, isTopLevel := true,
    mangleOverridable := !mode.no_overrideable, typeMode := mode.type,
    mangleGenericParams := !mode.no_generic_params,
    inFunctionType := false, inQualifiedType := false }

/-- The private constructor
`Mangler( mangleOverridable, typeMode, mangleGenericParams, nextVarNum, varNums )`. -/
def Mangler.nested (mangleOverridable typeMode mangleGenericParams : Bool)
    (nextVarNum : Int) (varNums : VarMapType) : Mangler :=
  { mangleName := "", varNums := varNums, nextVarNum := nextVarNum, isTopLevel := false,
    mangleOverridable := mangleOverridable, typeMode := typeMode,
    mangleGenericParams := mangleGenericParams,
    inFunctionType := false, inQualifiedType := false }

/-- The statement `mangleName += s`. -/
def Mangler.emit (m : Mangler) (s : String) : Mangler :=
  { m with mangleName := m.mangleName ++ s }

/-- The assignment `inFunctionType = b`. -/
def Mangler.setInFunctionType (m : Mangler) (b : Bool) : Mangler :=
  { m with inFunctionType := b }

/-- The assignment `inQualifiedType = b`. -/
def Mangler.setInQualifiedType (m : Mangler) (b : Bool) : Mangler :=
  { m with inQualifiedType := b }

/-- The assignment `isTopLevel = b`. -/
def Mangler.setIsTopLevel (m : Mangler) (b : Bool) : Mangler :=
  { m with isTopLevel := b }

/-- The map `varNums` replaced by `v`. -/
def Mangler.setVarNums (m : Mangler) (v : VarMapType) : Mangler :=
  { m with varNums := v }

/-- The assignment `nextVarNum = n`. -/
def Mangler.setNextVarNum (m : Mangler) (n : Int) : Mangler :=
  { m with nextVarNum := n }

/-- The member `result()`. -/
def Mangler.result (m : Mangler) : String := m.mangleName

/-- What the pass does when it leaves a node: the values saved by `GuardValue` are
put back. The only guarded member is `inFunctionType`; every `GuardValue` of a visit
precedes the visits of the children, which leave the flag as they found it, so the
value put back last is the one the flag had on entry. -/
def cleanup (entry : Mangler) (r : Option Mangler) : Option Mangler :=
  r.map (fun m => m.setInFunctionType entry.inFunctionType)

/-- The counters `dcount`, `fcount`, `vcount` of `printQualifiers`. -/
structure ForallCounts where
  dcount : Nat
  fcount : Nat
  vcount : Nat
deriving DecidableEq, Repr

/-- The loop `for ( auto & decl : funcType->forall )` of `printQualifiers`: counts
the kinds and binds every name to `( nextVarNum, kind )`; a kind other than Dtype,
Ftype, Ttype runs into `assertf( false, ... )`. -/
def forallLoop (nextVarNum : Int) :
    List TypeDecl → ForallCounts → VarMapType → Option (ForallCounts × VarMapType)
  | [], c, varNums => some (c, varNums)
  | decl :: rest, c, varNums =>
    match decl.kind with
    | .Dtype => forallLoop nextVarNum rest { c with dcount := c.dcount + 1 }
        ((decl.name, (nextVarNum, decl.kind)) :: varNums)
    | .Ftype => forallLoop nextVarNum rest { c with fcount := c.fcount + 1 }
        ((decl.name, (nextVarNum, decl.kind)) :: varNums)
    | .Ttype => forallLoop nextVarNum rest { c with vcount := c.vcount + 1 }
        ((decl.name, (nextVarNum, decl.kind)) :: varNums)
    | _ => none

/-- The text that `printQualifiers` appends after the token `Encoding::forall`: the
four counts, each followed by an underscore, the assertion names, an underscore. -/
def forallText (c : ForallCounts) (assertionNames : List String) : String :=
  toString c.dcount ++ "_" ++ toString c.fcount ++ "_" ++ toString c.vcount ++ "_"
    ++ toString assertionNames.length ++ "_" ++ String.join assertionNames ++ "_"

/-- The first half of `printQualifiers` (the block `if ( funcType && ... )`). The
nested manglers that read the assertions are run by `readAssertions`, which is given
the map `varNums` reached after the loop over the `forall` list. -/
def printForall (enc : Encoding) (type : Ty)
    (readAssertions : VarMapType → Option (List String)) (m : Mangler) : Option Mangler :=
  if type.isFunctionType && !type.forallList.isEmpty then
    match forallLoop m.nextVarNum type.forallList ⟨0, 0, 0⟩ m.varNums with
    | none => none
    | some (c, varNums) =>
      match readAssertions varNums with
      | none => none
      | some assertionNames =>
        some (((m.emit enc.forall_).setVarNums varNums).emit (forallText c assertionNames))
  else some m

/-- The second half of `printQualifiers` (from `if ( ! inFunctionType )` on): the
tokens of const, volatile and atomic outside parameter position, the token of mutex
always, and the flag `inFunctionType` turned off. -/
def printCV (enc : Encoding) (q : CV.Qualifiers) (m : Mangler) : Mangler :=
  let m := if !m.inFunctionType then
      let m := if q.is_const then m.emit (enc.qualifiers .Const) else m
      let m := if q.is_volatile then m.emit (enc.qualifiers .Volatile) else m
      if q.is_atomic then m.emit (enc.qualifiers .Atomic) else m
    else m
  let m := if q.is_mutex then m.emit (enc.qualifiers .Mutex) else m
  if m.inFunctionType then m.setInFunctionType false else m

/-- The member `printQualifiers( type )`: nothing in type mode, else the `forall`
block of a function type followed by the qualifier tokens. -/
def printQualifiers (enc : Encoding) (type : Ty)
    (readAssertions : VarMapType → Option (List String)) (m : Mangler) : Option Mangler :=
  if m.typeMode then some m
  else (printForall enc type readAssertions m).map (printCV enc type.quals)

/-- The assertion reader of a node that is not a function type: there is nothing to
read. -/
def noAssertions : VarMapType → Option (List String) := fun _ => some []

/-- The member `mangleRef( refType, prefix )`; `acceptParams` runs the loop over
`refType->params`. -/
def mangleRef (enc : Encoding) (refType : Ty) (name : String) (paramsEmpty : Bool)
    (acceptParams : Mangler → Option Mangler) (pre : String) (m : Mangler) :
    Option Mangler :=
  match printQualifiers enc refType noAssertions m with
  | none => none
  | some m =>
    let m := m.emit (pre ++ toString name.utf8ByteSize ++ name)
    if m.mangleGenericParams && !paramsEmpty then
      match acceptParams (m.emit "_") with
      | none => none
      | some m => some (m.emit "_")
    else some m

/-- The name of the variadic-argument list type in `postvisit( VarArgsType )`. -/
def vargs : String := "__builtin_va_list"

/-- The first block `if ( !inqual )` of `postvisit( QualifiedType )`. -/
def qualifiedStart (enc : Encoding) (inqual : Bool) (m : Mangler) : Mangler :=
  if !inqual then (m.setInQualifiedType true).emit enc.qualifiedTypeStart else m

/-- The second block `if ( !inqual )` of `postvisit( QualifiedType )`. -/
def qualifiedEnd (enc : Encoding) (inqual : Bool) (m : Mangler) : Mangler :=
  if !inqual then (m.setInQualifiedType false).emit enc.qualifiedTypeEnd else m

/-- The beginning of `mangleDecl`: the reset at top level, the mangle prefix and the
length-prefixed name, translated by the operator table when it has the name. -/
def mangleDeclBegin (env : Env) (name : String) (m : Mangler) : Mangler :=
  let m := if m.isTopLevel then
      ((m.setVarNums []).setNextVarNum 0).setIsTopLevel false
    else m
  let m := m.emit env.enc.manglePrefix
  match env.operatorLookup name with
  | some opInfo => m.emit (toString opInfo.outputName.utf8ByteSize ++ opInfo.outputName)
  | none => m.emit (toString name.utf8ByteSize ++ name)

/-- The end of `mangleDecl`: the suffix of an overrideable declaration (an
overrideable linkage other than AutoGen and Intrinsic runs into `assert( false )`),
and the flag `isTopLevel` put back. -/
def mangleDeclEnd (enc : Encoding) (linkage : Linkage.Spec) (wasTopLevel : Bool)
    (m : Mangler) : Option Mangler :=
  let r : Option Mangler :=
    if m.mangleOverridable && linkage.is_overrideable then
      if linkage = Linkage.AutoGen then some (m.emit enc.autogen)
      else if linkage = Linkage.Intrinsic then some (m.emit enc.intrinsic)
      else none
    else some m
  r.map (fun m => m.setIsTopLevel wasTopLevel)

mutual

/-- The visit of a type node by the pass, `type->accept( *visitor )`: `previsit` turns
the automatic visit of the children off, the `postvisit` of the node kind runs, and the
guarded values are put back. Node kinds without a `postvisit` leave the state alone. -/
def accept (env : Env) : Ty → Mangler → Option Mangler
  | .VoidType q, m => cleanup m <|
    match printQualifiers env.enc (.VoidType q) noAssertions m with
    | none => none
    | some m => some (m.emit env.enc.void_t)
  | .BasicType q kind, m => cleanup m <|
    match printQualifiers env.enc (.BasicType q kind) noAssertions m with
    | none => none
    | some m => some (m.emit (Encoding.basicTypes kind))
  | .PointerType q base dim vl st, m => cleanup m <|
    match printQualifiers env.enc (.PointerType q base dim vl st) noAssertions m with
    | none => none
    | some m =>
      accept env base (if !base.isFunctionType then m.emit env.enc.pointer else m)
  | .ArrayType q base dim vl st, m => cleanup m <|
    match printQualifiers env.enc (.ArrayType q base dim vl st) noAssertions m with
    | none => none
    | some m => accept env base (m.emit (env.enc.array ++ "0"))
  | .ReferenceType q base, m => cleanup m <|
    match printQualifiers env.enc (.ReferenceType q base) noAssertions
        (m.setInFunctionType true) with
    | none => none
    | some m => accept env base m
  | .FunctionType q fa assertions returns params va, m => cleanup m <|
    match printQualifiers env.enc (.FunctionType q fa assertions returns params va)
        (fun varNums => readAssertions env assertions m.mangleOverridable m.typeMode
          m.mangleGenericParams m.nextVarNum varNums) m with
    | none => none
    | some m =>
      match (if returns.isEmpty
             then some (((m.emit env.enc.function).setInFunctionType true).emit
               env.enc.void_t)
             else accept_each env returns
               ((m.emit env.enc.function).setInFunctionType true)) with
      | none => none
      | some m =>
        match accept_each env params (m.emit "_") with
        | none => none
        | some m => some (m.emit "_")
  | .StructInstType q name params, m => cleanup m <|
    mangleRef env.enc (.StructInstType q name params) name params.isEmpty
      (fun cur => acceptParams env params cur) env.enc.struct_t m
  | .UnionInstType q name params, m => cleanup m <|
    mangleRef env.enc (.UnionInstType q name params) name params.isEmpty
      (fun cur => acceptParams env params cur) env.enc.union_t m
  | .EnumInstType q name params eb, m => cleanup m <|
    mangleRef env.enc (.EnumInstType q name params eb) name params.isEmpty
      (fun cur => acceptParams env params cur) env.enc.enum_t m
  | .TypeInstType q name params kind, m => cleanup m <|
    match m.varNums.lookup name with
    | none =>
      mangleRef env.enc (.TypeInstType q name params kind) name params.isEmpty
        (fun cur => acceptParams env params cur) env.enc.type m
    | some varNum =>
      match printQualifiers env.enc (.TypeInstType q name params kind) noAssertions m with
      | none => none
      | some m => some (m.emit (env.enc.typeVariables varNum.2 ++ toString varNum.1))
  | .TraitInstType q name params, m => cleanup m <|
    match printQualifiers env.enc (.TraitInstType q name params) noAssertions m with
    | none => none
    | some m => some (m.emit (toString name.utf8ByteSize ++ name))
  | .TupleType q types, m => cleanup m <|
    match printQualifiers env.enc (.TupleType q types) noAssertions m with
    | none => none
    | some m => accept_each env types (m.emit (env.enc.tuple ++ toString types.length))
  | .VarArgsType q, m => cleanup m <|
    match printQualifiers env.enc (.VarArgsType q) noAssertions m with
    | none => none
    | some m => some (m.emit (env.enc.type ++ toString vargs.utf8ByteSize ++ vargs))
  | .ZeroType _, m => cleanup m (some (m.emit env.enc.zero))
  | .OneType _, m => cleanup m (some (m.emit env.enc.one))
  | .GlobalScopeType, m => cleanup m (some m)
  | .TypeofType _ _ _, m => cleanup m (some m)
  | .VTableType _ _, m => cleanup m (some m)
  | .QualifiedType _ parent child, m => cleanup m <|
    match accept env parent (qualifiedStart env.enc m.inQualifiedType m) with
    | none => none
    | some m1 =>
      match accept env child m1 with
      | none => none
      | some m2 => some (qualifiedEnd env.enc m.inQualifiedType m2)

/-- The call `accept_each( types, *visitor )`: the nodes are visited in order. -/
def accept_each (env : Env) : List Ty → Mangler → Option Mangler
  | [], m => some m
  | t :: ts, m =>
    match accept env t m with
    | none => none
    | some m => accept_each env ts m

/-- The loop of `mangleRef` over `refType->params`: every parameter has to be a type
expression (`assertf( paramType, ... )`), whose type is visited. -/
def acceptParams (env : Env) : List Expr → Mangler → Option Mangler
  | [], m => some m
  | .TypeExpr type :: rest, m =>
    match accept env type m with
    | none => none
    | some m => acceptParams env rest m
  | .Other _ :: _, _ => none

/-- The member `mangleDecl( decl )`, which both `postvisit( ObjectDecl )` and
`postvisit( FunctionDecl )` call. -/
def mangleDecl (env : Env) : DeclWithType → Mangler → Option Mangler
  | .mk name linkage type, m =>
    match accept env type (mangleDeclBegin env name m) with
    | none => none
    | some m1 => mangleDeclEnd env.enc linkage m.isTopLevel m1

/-- The loop `for ( auto & assert : funcType->assertions )` of `printQualifiers`: each
assertion is mangled by `ast::Pass<Mangler>::read( assert->var, mangleOverridable,
typeMode, mangleGenericParams, nextVarNum, varNums )`, a nested mangler built from the
members of the current one; the names are collected in order. -/
def readAssertions (env : Env) :
    List DeclWithType → Bool → Bool → Bool → Int → VarMapType → Option (List String)
  | [], _, _, _, _, _ => some []
  | assert :: rest, mangleOverridable, typeMode, mangleGenericParams, nextVarNum,
      varNums =>
    match mangleDecl env assert (Mangler.nested mangleOverridable typeMode
        mangleGenericParams nextVarNum varNums) with
    | none => none
    | some sub =>
      match readAssertions env rest mangleOverridable typeMode mangleGenericParams
          nextVarNum varNums with
      | none => none
      | some names => some (sub.result :: names)

end

/-- A node handed to `Mangle::mangle`: a declaration with a type, a type, or the
declaration of a type variable. -/
inductive Node where
  | decl (d : DeclWithType)
  | type (t : Ty)
  | typeDecl (d : TypeDecl)

/-- The function `Mangle::mangle( decl, mode )`, that is
`ast::Pass<Mangler>::read( decl, mode )`: a fresh mangler visits the node and its
result is returned. `postvisit( TypeDecl )` starts with `assertf( false, ... )`. -/
def mangle (env : Env) (node : Node) (mode : Mode) : Option String :=
  match node with
  | .decl d => (mangleDecl env d (Mangler.ofMode mode)).map Mangler.result
  | .type t => (accept env t (Mangler.ofMode mode)).map Mangler.result
  | .typeDecl _ => none

/-- Modelled from the spec: a concrete choice of the tokens of namespace `Encoding`
(`ManglerCommon.cc` is not among the sources at hand), one- and two-letter tokens over
letters, digits and underscore as the spec describes them, with `N`/`E` delimiting a
qualified type as the comments of `postvisit( QualifiedType )` say. Used to evaluate
the mangler on concrete inputs. -/
def sampleEncoding : Encoding :=
  { manglePrefix := "_X",
    qualifiers := fun f => match f with
      | .Const => "K"
      | .Volatile => "V"
      | .Atomic => "DA"
      | .Mutex => "X",
    void_t := "v", zero := "Z", one := "O", function := "F", tuple := "T",
    pointer := "P", array := "A", qualifiedTypeStart := "N", qualifiedTypeEnd := "E",
    forall_ := "Q",
    typeVariables := fun k => match k with
      | .Dtype => "BD"
      | .DStype => "BDS"
      | .Otype => "BO"
      | .Ftype => "BF"
      | .Ttype => "BT"
      | .Dimension => "BAL",
    struct_t := "S", union_t := "U", enum_t := "M", type := "Y",
    autogen := "autogen__", intrinsic := "intrinsic__" }

/-- Modelled from the spec: an operator table for concrete evaluation (the table of
`CodeGen/OperatorTable.h` is not among the sources at hand); it translates the infix
addition name and has no other entry. -/
def sampleOperatorLookup : String → Option OperatorInfo := fun name =>
  if name = "?+?" then some ⟨"_operator_add"⟩ else none

/-- The sample environment. -/
def sampleEnv : Env := ⟨sampleEncoding, sampleOperatorLookup⟩

end Mangle

/-! ## Auxiliary definitions for the statements -/

namespace Mangle

/-- The state `m` with `p` put in front of the name constructed so far. -/
def Mangler.pre (p : String) (m : Mangler) : Mangler :=
  { m with mangleName := p ++ m.mangleName }

/-- The members that no visit changes, `inFunctionType` apart. -/
def Mangler.frame (m : Mangler) : Bool × Bool × Bool × Int × Bool × Bool :=
  (m.typeMode, m.mangleOverridable, m.mangleGenericParams, m.nextVarNum, m.isTopLevel,
    m.inQualifiedType)

/-- The state in which `postvisit( FunctionType )` starts to visit the parameters of
the function type of a declaration handed to `Mangle::mangle`: the name of the
declaration, the output of `printQualifiers`, the function token and the return types
followed by an underscore have been appended, and `inFunctionType` is set. -/
def paramsEntry (env : Env) (name : String) (q : CV.Qualifiers) (fa : List TypeDecl)
    (assertions : List DeclWithType) (returns : List Ty) (va : Bool) (mode : Mode) :
    Option Mangler :=
  match printQualifiers env.enc (.FunctionType q fa assertions returns [] va)
      (fun varNums => readAssertions env assertions (!mode.no_overrideable) mode.type
        (!mode.no_generic_params) 0 varNums)
      (mangleDeclBegin env name (Mangler.ofMode mode)) with
  | none => none
  | some m =>
    match (if returns.isEmpty
           then some (((m.emit env.enc.function).setInFunctionType true).emit
             env.enc.void_t)
           else accept_each env returns
             ((m.emit env.enc.function).setInFunctionType true)) with
    | none => none
    | some m => some (m.emit "_")

/-- What `Mangle::mangle` does with the state reached after the last parameter of the
function type of a declaration: the closing underscore, the flag `inFunctionType` put
back, the suffix of `mangleDecl`, and the result. -/
def afterParams (env : Env) (linkage : Linkage.Spec) (m : Mangler) : Option String :=
  (mangleDeclEnd env.enc linkage true ((m.emit "_").setInFunctionType false)).map
    Mangler.result

/-- The state `m` with the name constructed so far emptied. -/
def Mangler.clear (m : Mangler) : Mangler :=
  { m with mangleName := "" }

/-- A step of the traversal that only appends to the name constructed so far. -/
def Equivariant (F : Mangler → Option Mangler) : Prop :=
  ∀ (p : String) (m : Mangler), F (m.pre p) = (F m).map (Mangler.pre p)

/-- A traversal to the final name that only appends to the name constructed so far. -/
def EquivariantS (G : Mangler → Option String) : Prop :=
  ∀ (p : String) (m : Mangler), G (m.pre p) = (G m).map (fun s => p ++ s)

/-- The part of `mangleRef` that follows the call of `printQualifiers`. -/
def mangleRefRest (name : String) (paramsEmpty : Bool)
    (acceptParams : Mangler → Option Mangler) (pre : String) (m : Mangler) :
    Option Mangler :=
  let m := m.emit (pre ++ toString name.utf8ByteSize ++ name)
  if m.mangleGenericParams && !paramsEmpty then
    match acceptParams (m.emit "_") with
    | none => none
    | some m => some (m.emit "_")
  else some m

/-- Basic types, pointers and the instances of aggregates (struct, union, enum). -/
def isBasicPointerOrAggregate : Ty → Bool
  | .BasicType _ _ => true
  | .PointerType _ _ _ _ _ => true
  | .StructInstType _ _ _ => true
  | .UnionInstType _ _ _ => true
  | .EnumInstType _ _ _ _ => true
  | _ => false

/-- The declaration `forall( dtype T, dtype U ) void f( T, T )`. -/
def declTT : DeclWithType :=
  .mk "f" Linkage.Cforall (.FunctionType CV.none [⟨"T", .Dtype⟩, ⟨"U", .Dtype⟩] [] []
    [.TypeInstType CV.none "T" [] .Dtype, .TypeInstType CV.none "T" [] .Dtype] false)

/-- The declaration `forall( dtype T, dtype U ) void f( T, U )`. -/
def declTU : DeclWithType :=
  .mk "f" Linkage.Cforall (.FunctionType CV.none [⟨"T", .Dtype⟩, ⟨"U", .Dtype⟩] [] []
    [.TypeInstType CV.none "T" [] .Dtype, .TypeInstType CV.none "U" [] .Dtype] false)

/-- The kinds of basic types, in the order of the enumeration. -/
def allKinds : List BasicType.Kind :=
  [.Bool, .Char, .SignedChar, .UnsignedChar, .ShortSignedInt, .ShortUnsignedInt, .SignedInt,
    .UnsignedInt, .LongSignedInt, .LongUnsignedInt, .LongLongSignedInt, .LongLongUnsignedInt,
    .SignedInt128, .UnsignedInt128, .uFloat16, .uFloat16Complex, .uFloat32, .uFloat32Complex,
    .Float, .FloatComplex, .uFloat32x, .uFloat32xComplex, .uFloat64, .uFloat64Complex,
    .Double, .DoubleComplex, .uFloat64x, .uFloat64xComplex, .uuFloat80, .uFloat128,
    .uFloat128Complex, .uuFloat128, .LongDouble, .LongDoubleComplex, .uFloat128x,
    .uFloat128xComplex]

/-- The text appended for a list of unqualified basic types: their tokens in order. -/
def basicCode : List BasicType.Kind → String
  | [] => ""
  | k :: ks => Encoding.basicTypes k ++ basicCode ks

/-- The check that no token of a basic type is empty or a prefix of the token of another
basic type. -/
def basicTokensPrefixFree : Bool :=
  allKinds.all fun k1 =>
    !(Encoding.basicTypes k1).data.isEmpty &&
    allKinds.all fun k2 =>
      !((Encoding.basicTypes k1).data.isPrefixOf (Encoding.basicTypes k2).data) || k1 == k2

/-- The node kinds whose `postvisit` starts with `printQualifiers` of the node, in the
state in which the node is entered. -/
def printsQualifiers : Ty → Bool
  | .VoidType _ => true
  | .BasicType _ _ => true
  | .PointerType _ _ _ _ _ => true
  | .ArrayType _ _ _ _ _ => true
  | .FunctionType _ _ _ _ _ _ => true
  | .StructInstType _ _ _ => true
  | .UnionInstType _ _ _ => true
  | .EnumInstType _ _ _ _ => true
  | .TypeInstType _ _ _ _ => true
  | .TraitInstType _ _ _ => true
  | .TupleType _ _ => true
  | .VarArgsType _ => true
  | _ => false

/-- No const, volatile or atomic in the qualifier set. -/
def plainQuals (q : CV.Qualifiers) : Bool :=
  !q.is_const && !q.is_volatile && !q.is_atomic

/-- No const, volatile or atomic on the outermost node of the type; for a qualified
type, on the outermost nodes of its parent and its child. Node kinds that never print
their own const, volatile, atomic (references, and the kinds that print no qualifier)
pass. -/
def outerPlain : Ty → Bool
  | .QualifiedType _ parent child => outerPlain parent && outerPlain child
  | .ReferenceType _ _ => true
  | .ZeroType _ => true
  | .OneType _ => true
  | .GlobalScopeType => true
  | .TypeofType _ _ _ => true
  | .VTableType _ _ => true
  | .VoidType q => plainQuals q
  | .BasicType q _ => plainQuals q
  | .PointerType q _ _ _ _ => plainQuals q
  | .ArrayType q _ _ _ _ => plainQuals q
  | .FunctionType q _ _ _ _ _ => plainQuals q
  | .StructInstType q _ _ => plainQuals q
  | .UnionInstType q _ _ => plainQuals q
  | .EnumInstType q _ _ _ => plainQuals q
  | .TypeInstType q _ _ _ => plainQuals q
  | .TraitInstType q _ _ => plainQuals q
  | .TupleType q _ => plainQuals q
  | .VarArgsType q => plainQuals q

/-- The relation between the outcome `rt` of a visit in parameter position and the
outcome `rf` of the same visit outside parameter position. -/
def FlagRel (plain : Bool) (rt rf : Option Mangler) : Prop :=
  match rt, rf with
  | none, none => True
  | some a, some b =>
    (a.setInFunctionType false).clear = b.clear ∧
      a.mangleName.length ≤ b.mangleName.length ∧
      (plain = true → a.mangleName = b.mangleName)
  | _, _ => False

/-- The type `base` under `n` unqualified pointers. -/
def ptrN : Nat → Ty → Ty
  | 0, base => base
  | n + 1, base => .PointerType CV.none (ptrN n base) none false false

/-- The tokens that the `n` pointers of `ptrN n base` append, the outermost first: the
pointer token for every pointer whose base is not a function type. -/
def pointerText (enc : Encoding) (base : Ty) : Nat → String
  | 0 => ""
  | n + 1 => (if (ptrN n base).isFunctionType then "" else enc.pointer)
      ++ pointerText enc base n

/-- The state in which the base of an unqualified pointer is visited, the pointer token
apart: `printQualifiers` has turned `inFunctionType` off, unless in type mode. -/
def underPointer (x : Mangler) : Mangler :=
  if x.typeMode then x else x.setInFunctionType false

/-- The renaming of a `forall` list: the names go through `ρ`, kinds and order stay. -/
def renameForall (ρ : String → String) (fa : List TypeDecl) : List TypeDecl :=
  fa.map fun d => ⟨ρ d.name, d.kind⟩

mutual

/-- The type `t` with every type-variable name, in the `forall` lists and in the
instances of type variables, sent through `ρ`. -/
def renameTy (ρ : String → String) : Ty → Ty
  | .VoidType q => .VoidType q
  | .BasicType q kind => .BasicType q kind
  | .PointerType q base dim vl st =>
    .PointerType q (renameTy ρ base) (renameOptExpr ρ dim) vl st
  | .ArrayType q base dim vl st =>
    .ArrayType q (renameTy ρ base) (renameOptExpr ρ dim) vl st
  | .ReferenceType q base => .ReferenceType q (renameTy ρ base)
  | .FunctionType q fa assertions returns params va =>
    .FunctionType q (renameForall ρ fa) (renameDecls ρ assertions)
      (renameTys ρ returns) (renameTys ρ params) va
  | .StructInstType q name params => .StructInstType q name (renameExprs ρ params)
  | .UnionInstType q name params => .UnionInstType q name (renameExprs ρ params)
  | .EnumInstType q name params eb => .EnumInstType q name (renameExprs ρ params) eb
  | .TypeInstType q name params kind =>
    .TypeInstType q (ρ name) (renameExprs ρ params) kind
  | .TraitInstType q name params => .TraitInstType q name (renameExprs ρ params)
  | .TupleType q types => .TupleType q (renameTys ρ types)
  | .VarArgsType q => .VarArgsType q
  | .ZeroType q => .ZeroType q
  | .OneType q => .OneType q
  | .GlobalScopeType => .GlobalScopeType
  | .TypeofType q expr b => .TypeofType q (renameExpr ρ expr) b
  | .VTableType q base => .VTableType q (renameTy ρ base)
  | .QualifiedType q parent child => .QualifiedType q (renameTy ρ parent) (renameTy ρ child)

/-- The renaming of a list of types. -/
def renameTys (ρ : String → String) : List Ty → List Ty
  | [] => []
  | t :: ts => renameTy ρ t :: renameTys ρ ts

/-- The renaming of an expression. -/
def renameExpr (ρ : String → String) : Expr → Expr
  | .TypeExpr t => .TypeExpr (renameTy ρ t)
  | .Other text => .Other text

/-- The renaming of an optional expression. -/
def renameOptExpr (ρ : String → String) : Option Expr → Option Expr
  | none => none
  | some e => some (renameExpr ρ e)

/-- The renaming of a list of expressions. -/
def renameExprs (ρ : String → String) : List Expr → List Expr
  | [] => []
  | e :: es => renameExpr ρ e :: renameExprs ρ es

/-- The renaming of a declaration: its type is renamed, its own name is not a type
variable and stays. -/
def renameDecl (ρ : String → String) : DeclWithType → DeclWithType
  | .mk name linkage type => .mk name linkage (renameTy ρ type)

/-- The renaming of a list of declarations. -/
def renameDecls (ρ : String → String) : List DeclWithType → List DeclWithType
  | [] => []
  | d :: ds => renameDecl ρ d :: renameDecls ρ ds

end

mutual

/-- The type-variable names that the mangler can meet in a type: the names of the
`forall` lists and of the instances of type variables, in the parts of the type that it
visits. -/
def tyNames : Ty → List String
  | .PointerType _ base _ _ _ => tyNames base
  | .ArrayType _ base _ _ _ => tyNames base
  | .ReferenceType _ base => tyNames base
  | .FunctionType _ fa assertions returns params _ =>
    fa.map (fun d => d.name) ++ (declsNames assertions ++ (tysNames returns ++ tysNames params))
  | .StructInstType _ _ params => exprsNames params
  | .UnionInstType _ _ params => exprsNames params
  | .EnumInstType _ _ params _ => exprsNames params
  | .TypeInstType _ name params _ => name :: exprsNames params
  | .TupleType _ types => tysNames types
  | .QualifiedType _ parent child => tyNames parent ++ tyNames child
  | .VoidType _ => []
  | .BasicType _ _ => []
  | .TraitInstType _ _ _ => []
  | .VarArgsType _ => []
  | .ZeroType _ => []
  | .OneType _ => []
  | .GlobalScopeType => []
  | .TypeofType _ _ _ => []
  | .VTableType _ _ => []

/-- The type-variable names of a list of types. -/
def tysNames : List Ty → List String
  | [] => []
  | t :: ts => tyNames t ++ tysNames ts

/-- The type-variable names of a list of expressions. -/
def exprsNames : List Expr → List String
  | [] => []
  | .TypeExpr t :: es => tyNames t ++ exprsNames es
  | .Other _ :: es => exprsNames es

/-- The type-variable names of a list of declarations. -/
def declsNames : List DeclWithType → List String
  | [] => []
  | .mk _ _ type :: ds => tyNames type ++ declsNames ds

end

/-- The maps `v1` and `v2` agree along the renaming `ρ` on the names of `N`: the map `v2`
binds `ρ n` to what `v1` binds `n` to. -/
def VRel (N : String → Prop) (ρ : String → String) (v1 v2 : VarMapType) : Prop :=
  ∀ n, N n → v2.lookup (ρ n) = v1.lookup n

/-- Every name of `N` that the renaming `ρ` moves is bound in the map `v1`. -/
def Bound (N : String → Prop) (ρ : String → String) (v1 : VarMapType) : Prop :=
  ∀ n, N n → ρ n ≠ n → (v1.lookup n).isSome = true

/-- Two results of a visit correspond along the renaming: both fail, or both succeed with
states that are equal but for the maps `varNums`, which agree along the renaming and
bind every renamed name. -/
def SimOpt (N : String → Prop) (ρ : String → String) :
    Option Mangler → Option Mangler → Prop
  | some a, some b => ∃ v, b = a.setVarNums v ∧ VRel N ρ a.varNums v ∧ Bound N ρ a.varNums
  | none, none => True
  | _, _ => False

/-- Two results of the loop over a `forall` list correspond along the renaming: both fail,
or the counts are equal, the maps agree along the renaming, no binding of the map `v1` at
entry is lost, and every name of the list `fa` is bound. -/
def LoopRel (N : String → Prop) (ρ : String → String) (v1 : VarMapType)
    (fa : List TypeDecl) :
    Option (ForallCounts × VarMapType) → Option (ForallCounts × VarMapType) → Prop
  | some p1, some p2 => p1.1 = p2.1 ∧ VRel N ρ p1.2 p2.2
      ∧ (∀ n, (v1.lookup n).isSome = true → (p1.2.lookup n).isSome = true)
      ∧ ∀ d ∈ fa, (p1.2.lookup d.name).isSome = true
  | none, none => True
  | _, _ => False

/-- The renaming that sends the name `T` to `S` and leaves every other name alone. -/
def renameTS : String → String := fun s => if s = "T" then "S" else s

/-- The type of `forall( dtype T ) void f( T )`. -/
def typeForallT : Ty :=
  .FunctionType CV.none [⟨"T", .Dtype⟩] [] [] [.TypeInstType CV.none "T" [] .Dtype] false

/-- The state `m` with the flag `isTopLevel` set to `b`. -/
def Mangler.top (b : Bool) (m : Mangler) : Mangler :=
  m.setIsTopLevel b

/-- The name that `mangleDecl` writes for a declaration named `name`: the output name
of the operator table when `operatorLookup` finds the name, the name itself otherwise. -/
def mangledDeclName (env : Env) (name : String) : String :=
  match env.operatorLookup name with
  | some opInfo => opInfo.outputName
  | none => name

/-- The suffix that the end of `mangleDecl` appends for a linkage, `none` when it runs
into `assert( false )`. -/
def overrideSuffix (enc : Encoding) (mangleOverridable : Bool) (linkage : Linkage.Spec) :
    Option String :=
  if mangleOverridable && linkage.is_overrideable then
    if linkage = Linkage.AutoGen then some enc.autogen
    else if linkage = Linkage.Intrinsic then some enc.intrinsic
    else none
  else some ""

/-- The tokens that `printQualifiers` appends for a node that is not a function type:
none in type mode; else those of const, volatile and atomic outside parameter position,
and that of mutex. -/
def qualifierText (enc : Encoding) (typeMode inFunctionType : Bool) (q : CV.Qualifiers) :
    String :=
  if typeMode then ""
  else
    (if !inFunctionType then
        (if q.is_const then enc.qualifiers .Const else "")
          ++ (if q.is_volatile then enc.qualifiers .Volatile else "")
          ++ (if q.is_atomic then enc.qualifiers .Atomic else "")
      else "")
      ++ (if q.is_mutex then enc.qualifiers .Mutex else "")

/-- The three kinds of aggregate instances. -/
inductive AggregateKind where
  | struct
  | union
  | enum
deriving DecidableEq, Repr

/-- The instance node of an aggregate kind; `eb` is read by an enum instance only. -/
def AggregateKind.inst (k : AggregateKind) (q : CV.Qualifiers) (name : String)
    (params : List Expr) (eb : Option (Option Ty)) : Ty :=
  match k with
  | .struct => .StructInstType q name params
  | .union => .UnionInstType q name params
  | .enum => .EnumInstType q name params eb

/-- The token that the `postvisit` of an aggregate instance hands to `mangleRef`. -/
def AggregateKind.token (enc : Encoding) : AggregateKind → String
  | .struct => enc.struct_t
  | .union => enc.union_t
  | .enum => enc.enum_t

/-- The characters of a symbol name: ASCII letters, digits and the underscore. -/
def isSymbolChar (c : Char) : Bool :=
  c.isAlphanum || c == '_'

/-- A string that consists of ASCII letters, digits and underscores only. -/
def symbolString (s : String) : Bool :=
  s.data.all isSymbolChar

/-- Every token of the encoding consists of ASCII letters, digits and underscores. -/
def Encoding.symbolTokens (enc : Encoding) : Bool :=
  symbolString enc.manglePrefix
    && [CV.Flag.Const, .Volatile, .Atomic, .Mutex].all (fun f => symbolString (enc.qualifiers f))
    && symbolString enc.void_t && symbolString enc.zero && symbolString enc.one
    && symbolString enc.function && symbolString enc.tuple && symbolString enc.pointer
    && symbolString enc.array && symbolString enc.qualifiedTypeStart
    && symbolString enc.qualifiedTypeEnd && symbolString enc.forall_
    && [TypeDecl.Kind.Dtype, .DStype, .Otype, .Ftype, .Ttype, .Dimension].all
        (fun k => symbolString (enc.typeVariables k))
    && symbolString enc.struct_t && symbolString enc.union_t && symbolString enc.enum_t
    && symbolString enc.type && symbolString enc.autogen && symbolString enc.intrinsic

mutual

/-- The names that the mangler writes when it visits a type: the names of the aggregate,
trait and type instances it reaches, and the names of the assertions of the function
types, translated by the operator table. -/
def mangledNames (env : Env) : Ty → List String
  | .VoidType _ => []
  | .BasicType _ _ => []
  | .PointerType _ base _ _ _ => mangledNames env base
  | .ArrayType _ base _ _ _ => mangledNames env base
  | .ReferenceType _ base => mangledNames env base
  | .FunctionType _ _ assertions returns params _ =>
    declsMangledNames env assertions ++ (tysMangledNames env returns
      ++ tysMangledNames env params)
  | .StructInstType _ name params => name :: exprsMangledNames env params
  | .UnionInstType _ name params => name :: exprsMangledNames env params
  | .EnumInstType _ name params _ => name :: exprsMangledNames env params
  | .TypeInstType _ name params _ => name :: exprsMangledNames env params
  | .TraitInstType _ name _ => [name]
  | .TupleType _ types => tysMangledNames env types
  | .VarArgsType _ => []
  | .ZeroType _ => []
  | .OneType _ => []
  | .GlobalScopeType => []
  | .TypeofType _ _ _ => []
  | .VTableType _ _ => []
  | .QualifiedType _ parent child => mangledNames env parent ++ mangledNames env child

/-- The names that the mangler writes for a list of types. -/
def tysMangledNames (env : Env) : List Ty → List String
  | [] => []
  | t :: ts => mangledNames env t ++ tysMangledNames env ts

/-- The names that the mangler writes for the parameters of an instance. -/
def exprsMangledNames (env : Env) : List Expr → List String
  | [] => []
  | .TypeExpr t :: es => mangledNames env t ++ exprsMangledNames env es
  | .Other _ :: es => exprsMangledNames env es

/-- The names that the mangler writes for a list of declarations. -/
def declsMangledNames (env : Env) : List DeclWithType → List String
  | [] => []
  | .mk name _ type :: ds =>
    mangledDeclName env name :: (mangledNames env type ++ declsMangledNames env ds)

end

/-- The names that the mangler writes for a node handed to `Mangle::mangle`. -/
def nodeMangledNames (env : Env) : Node → List String
  | .decl (.mk name _ type) => mangledDeclName env name :: mangledNames env type
  | .type t => mangledNames env t
  | .typeDecl d => [d.name]

/-- The state of a mangler whose name so far consists of ASCII letters, digits and
underscores, and whose indices are not negative. -/
def Mangler.Symbolic (m : Mangler) : Prop :=
  symbolString m.mangleName = true ∧ 0 ≤ m.nextVarNum
    ∧ ∀ e ∈ m.varNums, (0 : Int) ≤ e.2.1

mutual

/-- The node `t` without any qualifier, at every depth that the mangler visits, and with
the `forall` list and the assertions of every function type taken away. -/
def bare : Ty → Ty
  | .VoidType _ => .VoidType CV.none
  | .BasicType _ kind => .BasicType CV.none kind
  | .PointerType _ base dim vl st => .PointerType CV.none (bare base) dim vl st
  | .ArrayType _ base dim vl st => .ArrayType CV.none (bare base) dim vl st
  | .ReferenceType _ base => .ReferenceType CV.none (bare base)
  | .FunctionType _ _ _ returns params va =>
    .FunctionType CV.none [] [] (bareTys returns) (bareTys params) va
  | .StructInstType _ name params => .StructInstType CV.none name (bareExprs params)
  | .UnionInstType _ name params => .UnionInstType CV.none name (bareExprs params)
  | .EnumInstType _ name params eb => .EnumInstType CV.none name (bareExprs params) eb
  | .TypeInstType _ name params kind => .TypeInstType CV.none name (bareExprs params) kind
  | .TraitInstType _ name params => .TraitInstType CV.none name (bareExprs params)
  | .TupleType _ types => .TupleType CV.none (bareTys types)
  | .VarArgsType _ => .VarArgsType CV.none
  | .ZeroType _ => .ZeroType CV.none
  | .OneType _ => .OneType CV.none
  | .GlobalScopeType => .GlobalScopeType
  | .TypeofType _ expr b => .TypeofType CV.none expr b
  | .VTableType _ base => .VTableType CV.none (bare base)
  | .QualifiedType _ parent child => .QualifiedType CV.none (bare parent) (bare child)

/-- The list of types `ts`, each without qualifiers. -/
def bareTys : List Ty → List Ty
  | [] => []
  | t :: ts => bare t :: bareTys ts

/-- The parameters `es` of an instance, every type among them without qualifiers. -/
def bareExprs : List Expr → List Expr
  | [] => []
  | .TypeExpr t :: es => .TypeExpr (bare t) :: bareExprs es
  | .Other text :: es => .Other text :: bareExprs es

end

end Mangle

/-! ## The entry point (`CodeGen/FixMain.cc`) -/

namespace CodeGen

/-- Modelled from the spec: the polymorphic constructor of `ast::FunctionDecl` (it is
defined in `AST/Decl.cpp`, which is not among the sources at hand). The declared type is
derived from the parameter declarations, as the comment on the member `type` in
`AST/Decl.hpp` says: an unqualified function type with the given `forall` list and
assertions and the types of the parameters and of the return values. -/
def FunctionDecl (name : String) (forall_ : List TypeDecl) (assertions : List DeclWithType)
    (params returns : List DeclWithType) (linkage : Linkage.Spec) (isVarArgs : Bool) :
    DeclWithType :=
  .mk name linkage (.FunctionType CV.none forall_ assertions
    (returns.map DeclWithType.get_type) (params.map DeclWithType.get_type) isVarArgs)

/-- The function `makeIntObj()`: an object declaration without a name, of type signed
int; the linkage is the default `Linkage::Cforall` of the constructor of `ObjectDecl`. -/
def makeIntObj : DeclWithType :=
  .mk "" Linkage.Cforall (.BasicType CV.none .SignedInt)

/-- The function `makeCharStarStarObj()`: an object declaration without a name, of type
pointer to pointer to char. -/
def makeCharStarStarObj : DeclWithType :=
  .mk "" Linkage.Cforall
    (.PointerType CV.none
      (.PointerType CV.none (.BasicType CV.none .Char) none false false) none false false)

/-- The function `getMangledNameOfMain( params, isVarArgs )`: the declaration of a
function `main` with the given parameters that returns a signed int is built and mangled
in the default mode. `isVarArgs` is true for `ast::VariableArgs`. -/
def getMangledNameOfMain (env : Mangle.Env) (params : List DeclWithType) (isVarArgs : Bool) :
    Option String :=
  Mangle.mangle env
    (.decl (FunctionDecl "main" [] [] params [makeIntObj] Linkage.Spec.empty isVarArgs))
    Mangle.Mode.default

/-- The function `getMangledNameOf0ParameterMain()`. -/
def getMangledNameOf0ParameterMain (env : Mangle.Env) : Option String :=
  getMangledNameOfMain env [] true

/-- The function `getMangledNameOf2ParameterMain()`. -/
def getMangledNameOf2ParameterMain (env : Mangle.Env) : Option String :=
  getMangledNameOfMain env [makeIntObj, makeCharStarStarObj] false

/-- The function `is_main( mangled_name )`: the array `mangled_mains` is filled when the
function is entered for the first time, and the name is compared with its elements in
order. -/
def is_main (env : Mangle.Env) (mangled_name : String) : Option Bool :=
  match getMangledNameOf0ParameterMain env with
  | none => none
  | some main0 =>
    match getMangledNameOf2ParameterMain env with
    | none => none
    | some main2 =>
      if main0 = mangled_name then some true
      else if main2 = mangled_name then some true
      else some false

namespace FixMain

/-- The function `FixMain::isMain( const ast::FunctionDecl * decl )`. -/
def isMain (env : Mangle.Env) (decl : DeclWithType) : Option Bool :=
  if "main" ≠ decl.name then some false
  else
    match Mangle.mangle env (.decl decl) Mangle.Type_ with
    | none => none
    | some mangled => is_main env mangled

end FixMain

/-- The data member of `struct FindMainCore_new`. -/
structure FindMainCore_new where
  main_declaration : Option DeclWithType

/-- How a visit ends: it returns with the state of the core, or `SemanticError( decl,
msg )` throws, or an assertion fails. -/
inductive Visit where
  | done (core : FindMainCore_new)
  | semanticError (decl : DeclWithType) (msg : String)
  | abort

/-- The member `FindMainCore_new::previsit( decl )`. -/
def FindMainCore_new.previsit (env : Mangle.Env) (core : FindMainCore_new)
    (decl : DeclWithType) : Visit :=
  match FixMain.isMain env decl with
  | none => .abort
  | some true =>
    match core.main_declaration with
    | some _ => .semanticError decl "Multiple definition of main routine\n"
    | none => .done ⟨some decl⟩
  | some false => .done core

/-- Modelled from the spec: the traversal `ast::accept_all( translationUnit, main_finder )`
of `FixMain::fix` (`AST/Pass.hpp` is not among the sources at hand), restricted to the
function declarations of the translation unit: they are visited in order, and the error
of a duplicate entry point halts the processing of the translation unit. -/
def findMain (env : Mangle.Env) : List DeclWithType → FindMainCore_new → Visit
  | [], core => .done core
  | decl :: rest, core =>
    match core.previsit env decl with
    | .done core => findMain env rest core
    | .semanticError d msg => .semanticError d msg
    | .abort => .abort

end CodeGen

/-! ## The renderer of types (`CodeGen/GenType.cc`, the pass `GenType_new`) -/

namespace BasicType

/-- The table `BasicType::typeNames` of `AST/Type.cpp`. -/
def typeNames : List String := [
  "_Bool",
  "char",
  "signed char",
  "unsigned char",
  "signed short int",
  "unsigned short int",
  "signed int",
  "unsigned int",
  "signed long int",
  "unsigned long int",
  "signed long long int",
  "unsigned long long int",
  "__int128",
  "unsigned __int128",
  "_Float16",
  "_Float16 _Complex",
  "_Float32",
  "_Float32 _Complex",
  "float",
  "float _Complex",
  "_Float32x",
  "_Float32x _Complex",
  "_Float64",
  "_Float64 _Complex",
  "double",
  "double _Complex",
  "_Float64x",
  "_Float64x _Complex",
  "__float80",
  "_Float128",
  "_Float128 _Complex",
  "__float128",
  "long double",
  "long double _Complex",
  "_Float128x",
  "_Float128x _Complex"]

end BasicType

namespace CodeGen

/-- Modelled from the spec: the bundle `Options` (`CodeGen/Options.h` is not among the
sources at hand), in the order of the arguments of its constructor,
`Options( pretty, genC, lineMarks, printExprTypes )`; the spec calls `genC` emitAsC. -/
structure Options where
  pretty : Bool
  genC : Bool
  lineMarks : Bool
  printExprTypes : Bool
deriving DecidableEq, Repr

/-- The collaborators of the renderer that are not among the sources at hand, as
parameters: the code generator for attributes, expressions and lists, and the generator
of parameter names. -/
structure GenEnv where
  /-- What `genType` puts in front for the attributes of a node: the output of
  `genAttributes( type->attributes )` when the list is not empty, nothing when it is. The
  attribute list is not among the fields of `Ty`. -/
  genAttributes : Options → Ty → String
  /-- The output of `ast::Pass<CodeGenerator_new>::read( dimension, os, options )`. -/
  genDimension : Options → Expr → String
  /-- The output of `ast::Pass<CodeGenerator_new>::read( type, os, options )` in
  `postvisit( TypeofType )`, which is handed the node itself. -/
  genTypeof : Options → Ty → String
  /-- The output of `cg.core.genCommaList( type->forall )`. -/
  genForall : Options → List TypeDecl → String
  /-- The output of `cg.core.genCommaList( type->params )` in `handleGeneric`. -/
  genParams : Options → List Expr → String
  /-- The name that the call number `k` (from 0) of `param.newName()` returns, for
  `UniqueName param( "__param_" )`. -/
  newName : Nat → String

namespace GenType_new

/-- The member `handleQualifiers( type )`, on the qualifiers of the node. -/
def handleQualifiers (q : CV.Qualifiers) (result : String) : String :=
  let result := if q.is_const then "const " ++ result else result
  let result := if q.is_volatile then "volatile " ++ result else result
  let result := if q.is_restrict then "__restrict " ++ result else result
  if q.is_atomic then "_Atomic " ++ result else result

/-- The member `handleGeneric( type )`, on the parameters of the instance. -/
def handleGeneric (env : GenEnv) (options : Options) (params : List Expr) : String :=
  if !params.isEmpty then "(" ++ env.genParams options params ++ ") " else ""

/-- The block `if ( result != "" ) { ... }` with which `genArray` and
`postvisit( FunctionType )` start their output: the declarator built so far, in
parentheses when its first character is `*`. -/
def declarator (result : String) : String :=
  if result ≠ "" then
    if result.front = '*' then "(" ++ result ++ ")" else result
  else ""

/-- The member `genArray`, up to the assignment `result = os.str()`. -/
def genArrayText (env : GenEnv) (options : Options) (qualifiers : CV.Qualifiers)
    (dimension : Option Expr) (isVarLen isStatic : Bool) (result : String) : String :=
  let os := declarator result ++ "["
  let os := if isStatic then os ++ "static " else os
  let os := if qualifiers.is_const then os ++ "const " else os
  let os := if qualifiers.is_volatile then os ++ "volatile " else os
  let os := if qualifiers.is_restrict then os ++ "__restrict " else os
  let os := if qualifiers.is_atomic then os ++ "_Atomic " else os
  let os := match dimension with
    | some d => os ++ env.genDimension options d
    | none => if isVarLen then os ++ "*" else os
  os ++ "]"

mutual

/-- The visit of a type node by the pass, `type->accept( *visitor )`, from the string
`result` built so far to the new one; `none` is a failed `assertf`. A call of
`genType( t, base, options )` inside a visit is the text of the attributes of `t`
followed by the visit of `t` from `base`. -/
def accept (env : GenEnv) (options : Options) : Ty → String → Option String
  | .VoidType q, result => some (handleQualifiers q ("void " ++ result))
  | .BasicType q kind, result =>
    if kind.toCtorIdx < BasicType.NUMBER_OF_BASIC_TYPES then
      some (handleQualifiers q
        (BasicType.typeNames.getD kind.toCtorIdx "" ++ " " ++ result))
    else none
  | .PointerType q base dimension isVarLen isStatic, result =>
    if isStatic || isVarLen || dimension.isSome then
      accept env options base
        (genArrayText env options q dimension isVarLen isStatic result)
    else
      let result := handleQualifiers q result
      let result := if result.front = '?' then "* " ++ result else "*" ++ result
      accept env options base result
  | .ArrayType q base dimension isVarLen isStatic, result =>
    accept env options base (genArrayText env options q dimension isVarLen isStatic result)
  | .ReferenceType q base, result =>
    if options.genC then none
    else accept env options base ("&" ++ handleQualifiers q result)
  | .FunctionType _ fa _ returns params isVarArgs, result =>
    match (if params.isEmpty then some (if isVarArgs then "()" else "(void)")
           else (genParamList env options 0 params).map fun list =>
             "(" ++ list ++ (if isVarArgs then ", ..." else "") ++ ")") with
    | none => none
    | some paramText =>
      match acceptFront env options returns (declarator result ++ paramText) with
      | none => none
      | some result =>
        some (if !fa.isEmpty && !options.genC
              then "forall(" ++ env.genForall options fa ++ ")" ++ "\n" ++ result
              else result)
  | .StructInstType q name params, result =>
    let result := name ++ handleGeneric env options params ++ " " ++ result
    let result := if options.genC then "struct " ++ result else result
    some (handleQualifiers q result)
  | .UnionInstType q name params, result =>
    let result := name ++ handleGeneric env options params ++ " " ++ result
    let result := if options.genC then "union " ++ result else result
    some (handleQualifiers q result)
  | .EnumInstType q name _ (some (some base)), result =>
    match accept env options base result with
    | none => none
    | some text => some (handleQualifiers q (env.genAttributes options base ++ text))
  | .EnumInstType q name _ _, result =>
    let result := name ++ " " ++ result
    let result := if options.genC then "enum " ++ result else result
    some (handleQualifiers q result)
  | .TypeInstType q name _ _, result =>
    if options.genC then none
    else some (handleQualifiers q (name ++ " " ++ result))
  | .TupleType _ types, result =>
    if options.genC then none
    else
      match genTupleList env options types with
      | none => none
      | some list => some ("[" ++ list ++ "] " ++ result)
  | .VarArgsType q, result => some (handleQualifiers q ("__builtin_va_list " ++ result))
  | .ZeroType q, result =>
    some (handleQualifiers q ((if options.pretty then "zero_t " else "long int ") ++ result))
  | .OneType q, result =>
    some (handleQualifiers q ((if options.pretty then "one_t " else "long int ") ++ result))
  | .GlobalScopeType, result =>
    if options.genC then none
    else some (handleQualifiers Ty.GlobalScopeType.quals result)
  | .TraitInstType q name _, result =>
    if options.genC then none
    else some (handleQualifiers q (name ++ " " ++ result))
  | .TypeofType q expr isBasetypeof, result =>
    some (handleQualifiers q
      ("typeof(" ++ env.genTypeof options (.TypeofType q expr isBasetypeof) ++ ") " ++ result))
  | .VTableType q base, result =>
    if options.genC then none
    else
      match accept env options base "" with
      | none => none
      | some text =>
        some (handleQualifiers q
          ("vtable(" ++ (env.genAttributes options base ++ text) ++ ") " ++ result))
  | .QualifiedType q parent child, result =>
    if options.genC then none
    else
      match accept env options parent "" with
      | none => none
      | some parentText =>
        match accept env options child "" with
        | none => none
        | some childText =>
          some (handleQualifiers q
            ((env.genAttributes options parent ++ parentText) ++ "."
              ++ (env.genAttributes options child ++ childText) ++ result))

/-- The end of `postvisit( FunctionType )` on the return values: `"void "` is put in
front when there is none, else the first one is visited. -/
def acceptFront (env : GenEnv) (options : Options) : List Ty → String → Option String
  | [], result => some ("void " ++ result)
  | front :: _, result => accept env options front result

/-- The member `genParamList( range )`, from the parameter of position `k` on: the
parameters are rendered by `genType`, each from a new name when C is generated and from
the empty string otherwise, and separated by `", "`. -/
def genParamList (env : GenEnv) (options : Options) (k : Nat) : List Ty → Option String
  | [] => some ""
  | cur :: rest =>
    match accept env options cur (if options.genC then env.newName k else "") with
    | none => none
    | some text =>
      if rest.isEmpty then some (env.genAttributes options cur ++ text)
      else
        match genParamList env options (k + 1) rest with
        | none => none
        | some list => some (env.genAttributes options cur ++ text ++ ", " ++ list)

/-- The loop of `postvisit( TupleType )`: the elements are rendered by
`genType( t, "", options )`, each but the last followed by `", "`. -/
def genTupleList (env : GenEnv) (options : Options) : List Ty → Option String
  | [] => some ""
  | t :: rest =>
    match accept env options t "" with
    | none => none
    | some text =>
      match genTupleList env options rest with
      | none => none
      | some list =>
        some (env.genAttributes options t ++ text ++ (if rest.isEmpty then "" else ", ")
          ++ list)

end

end GenType_new

/-- The function `genTypeNoAttr( type, base, options )`, that is
`ast::Pass<GenType_new>::read( type, base, options )`. -/
def genTypeNoAttr (env : GenEnv) (type : Ty) (base : String) (options : Options) :
    Option String :=
  GenType_new.accept env options type base

/-- The function `genType( type, base, options )` on a node of the new AST. -/
def genType (env : GenEnv) (type : Ty) (base : String) (options : Options) :
    Option String :=
  (GenType_new.accept env options type base).map fun text =>
    env.genAttributes options type ++ text

/-- Modelled from the spec: collaborators for concrete evaluation. No node has attributes,
a dimension or another expression is printed as its source text and a type expression as
`type`, the elements of a `forall` list and of a parameter list are printed by name and
separated by `", "`, and the names of parameters are `__param_0`, `__param_1`, and so
on. -/
def sampleGenEnv : GenEnv :=
  { genAttributes := fun _ _ => "",
    genDimension := fun _ e => match e with
      | .Other text => text
      | .TypeExpr _ => "type",
    genTypeof := fun _ _ => "expr",
    genForall := fun _ fa => ", ".intercalate (fa.map fun d => d.name),
    genParams := fun _ ps => ", ".intercalate (ps.map fun e => match e with
      | .Other text => text
      | .TypeExpr _ => "type"),
    newName := fun k => "__param_" ++ toString k }

end CodeGen

namespace CodeGen

/-- The declarations of a translation unit that `FixMain::isMain` accepts, in order. -/
def mains (env : Mangle.Env) (translationUnit : List DeclWithType) : List DeclWithType :=
  translationUnit.filter fun decl => FixMain.isMain env decl == some true

/-- The message of the error of a duplicate entry point. -/
def multipleMain : String := "Multiple definition of main routine\n"

/-- The declaration `int main()`. -/
def declMain0 : DeclWithType :=
  .mk "main" Linkage.Cforall (.FunctionType CV.none [] [] [.BasicType CV.none .SignedInt] [] false)

/-- The declaration `int main( int, char ** )`. -/
def declMain2 : DeclWithType :=
  .mk "main" Linkage.Cforall (.FunctionType CV.none [] [] [.BasicType CV.none .SignedInt]
    [.BasicType CV.none .SignedInt,
      .PointerType CV.none (.PointerType CV.none (.BasicType CV.none .Char) none false false)
        none false false] false)

/-- The declaration `void f( int )`. -/
def declF : DeclWithType :=
  .mk "f" Linkage.Cforall (.FunctionType CV.none [] [] [] [.BasicType CV.none .SignedInt] false)

end CodeGen

namespace CodeGen

/-- The declarator `s` as an array or function suffix is appended to it: in parentheses
when it is not empty and its first character is `*`, unchanged otherwise. -/
def wrapped (s : String) : String :=
  if s ≠ "" ∧ s.data.head? = some '*' then "(" ++ s ++ ")" else s

/-- The parameter list that `postvisit( FunctionType )` writes after the declarator. -/
def paramText (env : GenEnv) (options : Options) (params : List Ty) (isVarArgs : Bool) :
    Option String :=
  if params.isEmpty then some (if isVarArgs then "()" else "(void)")
  else (GenType_new.genParamList env options 0 params).map fun list =>
    "(" ++ list ++ (if isVarArgs then ", ..." else "") ++ ")"

/-- The `forall` clause that `postvisit( FunctionType )` puts in front, the empty string
when there is none. -/
def forallClause (env : GenEnv) (options : Options) (fa : List TypeDecl) : String :=
  if !fa.isEmpty && !options.genC
  then "forall(" ++ env.genForall options fa ++ ")" ++ "\n"
  else ""

/-- Whether a pointer node has an array-like field set. -/
def arrayLike (dimension : Option Expr) (isVarLen isStatic : Bool) : Bool :=
  isStatic || isVarLen || dimension.isSome

end CodeGen

namespace CodeGen

/-- The renderings of the parameters of a function type, from the parameter of position
`k` on: each is `genType` of the parameter, from a new name when C is generated and from
the empty string otherwise. -/
def paramRenderings (env : GenEnv) (options : Options) : Nat → List Ty → Option (List String)
  | _, [] => some []
  | k, t :: rest =>
    match genType env t (if options.genC then env.newName k else "") options with
    | none => none
    | some text => (paramRenderings env options (k + 1) rest).map fun texts => text :: texts

/-- The parameter list of a function type as the specification words it: `()` without
parameters when variadic, `(void)` without parameters otherwise, else the renderings of
the parameters joined by `", "`, followed by `", ..."` when variadic, in parentheses. -/
def paramListSpec (env : GenEnv) (options : Options) (params : List Ty) (isVarArgs : Bool) :
    Option String :=
  match params with
  | [] => some (if isVarArgs then "()" else "(void)")
  | _ :: _ =>
    (paramRenderings env options 0 params).map fun texts =>
      "(" ++ ", ".intercalate texts ++ (if isVarArgs then ", ..." else "") ++ ")"

/-- The node kinds of the source dialect only: instances of type variables and traits,
the global scope, references, qualified types and virtual tables. -/
def sourceDialectOnly : Ty → Bool
  | .TypeInstType _ _ _ _ => true
  | .TraitInstType _ _ _ => true
  | .GlobalScopeType => true
  | .ReferenceType _ _ => true
  | .QualifiedType _ _ _ => true
  | .VTableType _ _ => true
  | _ => false

/-- The type pointer to array of signed int, with the dimension `d`. -/
def pointerToArray (d : Expr) : Ty :=
  .PointerType CV.none
    (.ArrayType CV.none (.BasicType CV.none .SignedInt) (some d) false false) none false false

end CodeGen

namespace CodeGen

/-- The keywords that `handleQualifiers` puts in front for the qualifiers `q`, in the
order in which they stand in the text: `_Atomic`, `__restrict`, `volatile`, `const`. -/
def qualifierKeywords (q : CV.Qualifiers) : String :=
  (if q.is_atomic then "_Atomic " else "") ++ (if q.is_restrict then "__restrict " else "")
    ++ (if q.is_volatile then "volatile " else "") ++ (if q.is_const then "const " else "")

/-- The keyword that goes in front of the name of an aggregate when C is generated. -/
def aggregateKeyword (options : Options) (keyword : String) : String :=
  if options.genC then keyword else ""

end CodeGen

namespace CodeGen

/-- The qualifiers that the renderer prints: const, volatile, restrict and atomic. -/
def displayed (q : CV.Qualifiers) : Bool × Bool × Bool × Bool :=
  (q.is_const, q.is_volatile, q.is_restrict, q.is_atomic)

/-- The keywords that `genArray` writes inside the brackets for the qualifiers `q`. -/
def bracketKeywords (q : CV.Qualifiers) : String :=
  (if q.is_const then "const " else "") ++ (if q.is_volatile then "volatile " else "")
    ++ (if q.is_restrict then "__restrict " else "") ++ (if q.is_atomic then "_Atomic " else "")

/-- The node kinds whose visit prints the qualifiers of the node: all but function types
and tuples, whose visits do not call `handleQualifiers`, and the global scope, which has
no qualifier. -/
def printsOwnQualifiers : Ty → Bool
  | .FunctionType _ _ _ _ _ _ => false
  | .TupleType _ _ => false
  | .GlobalScopeType => false
  | _ => true

/-- The first character of a string, if there is one. -/
def firstChar (s : String) : Option Char := s.data.head?

/-- Two declarators that differ and start with the same character. -/
def Distinct (a b : String) : Prop := a ≠ b ∧ firstChar a = firstChar b

/-- The text `w` occurs in the text `s`. -/
def Occurs (w s : String) : Prop := ∃ u v : String, s = u ++ w ++ v

end CodeGen

namespace CodeGen

/-- The statement of the amended claim on the qualifiers of a node: for a node with the
qualifiers `q` whose visit gives `out`, the keyword of each printed qualifier of `q`
occurs in `out`, and the visit `other q2` of the node with qualifiers `q2` that differ
from `q` in a printed qualifier does not give `out`. -/
def QualifiersShow (q : CV.Qualifiers) (out : String)
    (other : CV.Qualifiers → Option String) : Prop :=
  (q.is_const = true → Occurs "const" out)
  ∧ (q.is_volatile = true → Occurs "volatile" out)
  ∧ (q.is_restrict = true → Occurs "__restrict" out)
  ∧ (q.is_atomic = true → Occurs "_Atomic" out)
  ∧ ∀ q2 : CV.Qualifiers, displayed q2 ≠ displayed q → other q2 ≠ some out

end CodeGen

namespace SynTree

namespace BasicType

/-- The table `BasicType::typeNames` of `SynTree/Type.cc`. -/
def typeNames : List String := [
  "_Bool",
  "char",
  "signed char",
  "unsigned char",
  "signed short int",
  "unsigned short int",
  "signed int",
  "unsigned int",
  "signed long int",
  "unsigned long int",
  "signed long long int",
  "unsigned long long int",
  "__int128",
  "unsigned __int128",
  "_Float16",
  "_Float16 _Complex",
  "_Float32",
  "_Float32 _Complex",
  "float",
  "float _Complex",
  "_Float32x",
  "_Float32x _Complex",
  "_Float64",
  "_Float64 _Complex",
  "double",
  "double _Complex",
  "_Float64x",
  "_Float64x _Complex",
  "__float80",
  "_Float128",
  "_Float128 _Complex",
  "__float128",
  "long double",
  "long double _Complex",
  "_Float128x",
  "_Float128x _Complex"]

end BasicType

end SynTree

/-! ## The type of an object declaration (`ResolvExpr/ResolveTypeof.cc`) -/

namespace ResolvExpr

/-- An object declaration (`ast::ObjectDecl`): the members that `fixObjectType` reads or
writes; the other members are copied by `mutate` and play no part. -/
structure ObjectDecl where
  name : String
  linkage : Linkage.Spec
  type : Ty
  mangleName : String
  isTypeFixed : Bool

/-- What `fixObjectType` takes from outside: the tokens and the operator table of the
mangler, and the three passes over the type of the declaration, `resolveTypeof`,
`fixArrayType` and `renameTyVars( type, GEN_EXPR_ID )`, in the resolution context of the
call. The passes rest on the resolver of expressions and on `AST/Pass.hpp`, which are not
among the sources at hand, so they are parameters; `none` is a failed assertion. -/
structure Env where
  mangler : Mangle.Env
  resolveTypeof : Ty → Option Ty
  fixArrayType : Ty → Option Ty
  renameTyVars : Ty → Option Ty

/-- The function `fixObjectType( decl, context )`. The call `Mangle::mangle( mutDecl )`
is in the default mode. -/
def fixObjectType (env : Env) (decl : ObjectDecl) : Option ObjectDecl :=
  if decl.isTypeFixed then some decl
  else
    match env.resolveTypeof decl.type with
    | none => none
    | some resolvedType =>
      match env.fixArrayType resolvedType with
      | none => none
      | some resolvedType =>
        let mutDecl := { decl with type := resolvedType }
        match (if mutDecl.name ≠ "" then
            (Mangle.mangle env.mangler
              (.decl (.mk mutDecl.name mutDecl.linkage mutDecl.type))
              Mangle.Mode.default).map (fun s => { mutDecl with mangleName := s })
          else some mutDecl) with
        | none => none
        | some mutDecl =>
          match env.renameTyVars mutDecl.type with
          | none => none
          | some type => some { mutDecl with type := type, isTypeFixed := true }

/-- Collaborators for concrete evaluation: the three passes leave the type as it is. -/
def sampleEnv : Env :=
  ⟨Mangle.sampleEnv, fun t => some t, fun t => some t, fun t => some t⟩

end ResolvExpr

namespace CodeGen

/-- The function `genTypeAt( types, at )` of `FixMain.cc`: `genType` of the element at
the index, from the empty string, with `Options( false, false, false, false )`. -/
def genTypeAt (env : GenEnv) (types : List Ty) (idx : Nat) : Option String :=
  match types.get? idx with
  | none => none
  | some type => genType env type "" ⟨false, false, false, false⟩

namespace FixMain

/-- The statement `switch ( params.size() )` of `FixMain::fix`, on the parameters of the
type of the entry point: the arguments written between the parentheses of the call of
`main`; the default branch is `assert( false )`. -/
def fixArguments (env : GenEnv) (params : List Ty) : Option String :=
  match params.length with
  | 3 =>
    match genTypeAt env params 0, genTypeAt env params 1, genTypeAt env params 2 with
    | some t0, some t1, some t2 =>
      some ("(" ++ t0 ++ ")argc, (" ++ t1 ++ ")argv, (" ++ t2 ++ ")envp")
    | _, _, _ => none
  | 2 =>
    match genTypeAt env params 0, genTypeAt env params 1 with
    | some t0, some t1 => some ("(" ++ t0 ++ ")argc, (" ++ t1 ++ ")argv")
    | _, _ => none
  | 0 => some ""
  | _ => none

end FixMain

end CodeGen

/-! # Properties -/

/-! ## The name constructed so far only grows

Every visit appends to `mangleName` and reads nothing of it: putting a text in front of
the name before a visit is the same as putting it in front afterwards. -/

namespace Mangle

theorem Mangler.pre_emit (p s : String) (m : Mangler) :
    (m.pre p).emit s = (m.emit s).pre p := by
  simp [Mangler.pre, Mangler.emit, String.append_assoc]

theorem Mangler.pre_setInFunctionType (p : String) (b : Bool) (m : Mangler) :
    (m.pre p).setInFunctionType b = (m.setInFunctionType b).pre p := rfl

theorem Mangler.pre_setInQualifiedType (p : String) (b : Bool) (m : Mangler) :
    (m.pre p).setInQualifiedType b = (m.setInQualifiedType b).pre p := rfl

theorem Mangler.pre_setIsTopLevel (p : String) (b : Bool) (m : Mangler) :
    (m.pre p).setIsTopLevel b = (m.setIsTopLevel b).pre p := rfl

theorem Mangler.pre_setVarNums (p : String) (v : VarMapType) (m : Mangler) :
    (m.pre p).setVarNums v = (m.setVarNums v).pre p := rfl

theorem Mangler.pre_setNextVarNum (p : String) (n : Int) (m : Mangler) :
    (m.pre p).setNextVarNum n = (m.setNextVarNum n).pre p := rfl

theorem Mangler.pre_empty (m : Mangler) : m.pre "" = m := by
  cases m; simp [Mangler.pre]

theorem cleanup_pre (p : String) (m : Mangler) (r : Option Mangler) :
    cleanup (m.pre p) (r.map (Mangler.pre p)) = (cleanup m r).map (Mangler.pre p) := by
  cases r <;> rfl

theorem printCV_pre (enc : Encoding) (q : CV.Qualifiers) (p : String) (m : Mangler) :
    printCV enc q (m.pre p) = (printCV enc q m).pre p := by
  obtain ⟨c, r, v, mu, a⟩ := q
  obtain ⟨n, vn, nv, tl, mo, tm, gp, ift, iqt⟩ := m
  cases c <;> cases v <;> cases mu <;> cases a <;> cases ift <;>
    simp [printCV, Mangler.pre, Mangler.emit, Mangler.setInFunctionType, String.append_assoc]

theorem printForall_pre (enc : Encoding) (t : Ty)
    (r : VarMapType → Option (List String)) (p : String) (m : Mangler) :
    printForall enc t r (m.pre p) = (printForall enc t r m).map (Mangler.pre p) := by
  unfold printForall
  split
  · show (match forallLoop m.nextVarNum t.forallList ⟨0, 0, 0⟩ m.varNums with
      | none => none
      | some (c, varNums) => _) = _
    cases forallLoop m.nextVarNum t.forallList ⟨0, 0, 0⟩ m.varNums with
    | none => rfl
    | some cv =>
      obtain ⟨c, v⟩ := cv
      simp only []
      cases r v with
      | none => rfl
      | some names =>
        simp only [Option.map_some', Mangler.pre_emit, Mangler.pre_setVarNums]
  · rfl

theorem printQualifiers_pre (enc : Encoding) (t : Ty)
    (r : VarMapType → Option (List String)) (p : String) (m : Mangler) :
    printQualifiers enc t r (m.pre p) = (printQualifiers enc t r m).map (Mangler.pre p) := by
  unfold printQualifiers
  have h1 : (m.pre p).typeMode = m.typeMode := rfl
  rw [h1, printForall_pre]
  split
  · rfl
  · cases printForall enc t r m with
    | none => rfl
    | some m1 => simp only [Option.map_some', printCV_pre]

theorem mangleRef_pre (enc : Encoding) (t : Ty) (name : String) (pe : Bool)
    (k : Mangler → Option Mangler) (pfx p : String) (m : Mangler)
    (hk : ∀ m, k (Mangler.pre p m) = (k m).map (Mangler.pre p)) :
    mangleRef enc t name pe k pfx (m.pre p) = (mangleRef enc t name pe k pfx m).map (Mangler.pre p) := by
  unfold mangleRef
  rw [printQualifiers_pre]
  cases printQualifiers enc t noAssertions m with
  | none => rfl
  | some m1 =>
    simp only [Option.map_some', Mangler.pre_emit]
    have h : ((m1.emit (pfx ++ toString name.utf8ByteSize ++ name)).pre p).mangleGenericParams
        = (m1.emit (pfx ++ toString name.utf8ByteSize ++ name)).mangleGenericParams := rfl
    rw [h]
    split
    · rw [hk]
      cases k ((m1.emit (pfx ++ toString name.utf8ByteSize ++ name)).emit "_") with
      | none => rfl
      | some m2 => simp only [Option.map_some', Mangler.pre_emit]
    · rfl

theorem qualifiedStart_pre (enc : Encoding) (b : Bool) (p : String) (m : Mangler) :
    qualifiedStart enc b (m.pre p) = (qualifiedStart enc b m).pre p := by
  unfold qualifiedStart; split
  · rw [Mangler.pre_setInQualifiedType, Mangler.pre_emit]
  · rfl

theorem qualifiedEnd_pre (enc : Encoding) (b : Bool) (p : String) (m : Mangler) :
    qualifiedEnd enc b (m.pre p) = (qualifiedEnd enc b m).pre p := by
  unfold qualifiedEnd; split
  · rw [Mangler.pre_setInQualifiedType, Mangler.pre_emit]
  · rfl

theorem mangleDeclBegin_pre (env : Env) (name p : String) (m : Mangler) :
    mangleDeclBegin env name (m.pre p) = (mangleDeclBegin env name m).pre p := by
  unfold mangleDeclBegin
  have h : (m.pre p).isTopLevel = m.isTopLevel := rfl
  rw [h]
  cases env.operatorLookup name <;> split <;>
    simp only [Mangler.pre_emit, Mangler.pre_setVarNums, Mangler.pre_setNextVarNum,
      Mangler.pre_setIsTopLevel]

theorem mangleDeclEnd_pre (enc : Encoding) (l : Linkage.Spec) (w : Bool) (p : String)
    (m : Mangler) :
    mangleDeclEnd enc l w (m.pre p) = (mangleDeclEnd enc l w m).map (Mangler.pre p) := by
  unfold mangleDeclEnd
  have h : (m.pre p).mangleOverridable = m.mangleOverridable := rfl
  rw [h]
  split_ifs <;> simp [Mangler.pre_emit, Mangler.pre_setIsTopLevel]

end Mangle

namespace Mangle

mutual

theorem accept_pre (env : Env) : ∀ (t : Ty) (p : String) (m : Mangler),
    accept env t (m.pre p) = (accept env t m).map (Mangler.pre p)
  | .VoidType q, p, m => by
    simp only [accept]
    rw [printQualifiers_pre, ← cleanup_pre]
    cases printQualifiers env.enc (.VoidType q) noAssertions m with
    | none => rfl
    | some m1 => simp only [Option.map_some', Mangler.pre_emit]
  | .BasicType q kind, p, m => by
    simp only [accept]
    rw [printQualifiers_pre, ← cleanup_pre]
    cases printQualifiers env.enc (.BasicType q kind) noAssertions m with
    | none => rfl
    | some m1 => simp only [Option.map_some', Mangler.pre_emit]
  | .PointerType q base dim vl st, p, m => by
    simp only [accept]
    rw [printQualifiers_pre, ← cleanup_pre]
    cases printQualifiers env.enc (.PointerType q base dim vl st) noAssertions m with
    | none => rfl
    | some m1 =>
      simp only [Option.map_some']
      split
      · rw [Mangler.pre_emit, accept_pre env base]
      · rw [accept_pre env base]
  | .ArrayType q base dim vl st, p, m => by
    simp only [accept]
    rw [printQualifiers_pre, ← cleanup_pre]
    cases printQualifiers env.enc (.ArrayType q base dim vl st) noAssertions m with
    | none => rfl
    | some m1 =>
      simp only [Option.map_some']
      rw [Mangler.pre_emit, accept_pre env base]
  | .ReferenceType q base, p, m => by
    simp only [accept]
    rw [Mangler.pre_setInFunctionType, printQualifiers_pre, ← cleanup_pre]
    cases printQualifiers env.enc (.ReferenceType q base) noAssertions
        (m.setInFunctionType true) with
    | none => rfl
    | some m1 =>
      simp only [Option.map_some']
      rw [accept_pre env base]
  | .FunctionType q fa assertions returns params va, p, m => by
    simp only [accept]
    have h1 : (m.pre p).mangleOverridable = m.mangleOverridable := rfl
    have h2 : (m.pre p).typeMode = m.typeMode := rfl
    have h3 : (m.pre p).mangleGenericParams = m.mangleGenericParams := rfl
    have h4 : (m.pre p).nextVarNum = m.nextVarNum := rfl
    rw [h1, h2, h3, h4, printQualifiers_pre, ← cleanup_pre]
    cases printQualifiers env.enc (.FunctionType q fa assertions returns params va)
        (fun varNums => readAssertions env assertions m.mangleOverridable m.typeMode
          m.mangleGenericParams m.nextVarNum varNums) m with
    | none => rfl
    | some m1 =>
      simp only [Option.map_some', Mangler.pre_emit, Mangler.pre_setInFunctionType]
      by_cases hr : returns.isEmpty = true
      · simp only [hr, if_true, Mangler.pre_emit]
        rw [accept_each_pre env params]
        cases accept_each env params
            ((((m1.emit env.enc.function).setInFunctionType true).emit env.enc.void_t).emit "_") with
        | none => rfl
        | some m3 => simp only [Option.map_some', Mangler.pre_emit]
      · simp only [hr, Bool.false_eq_true, if_false]
        rw [accept_each_pre env returns]
        cases accept_each env returns ((m1.emit env.enc.function).setInFunctionType true) with
        | none => rfl
        | some m2 =>
          simp only [Option.map_some', Mangler.pre_emit]
          rw [accept_each_pre env params]
          cases accept_each env params (m2.emit "_") with
          | none => rfl
          | some m3 => simp only [Option.map_some', Mangler.pre_emit]
  | .StructInstType q name params, p, m => by
    simp only [accept]
    rw [mangleRef_pre _ _ _ _ _ _ _ _ (fun m => acceptParams_pre env params p m), ← cleanup_pre]
  | .UnionInstType q name params, p, m => by
    simp only [accept]
    rw [mangleRef_pre _ _ _ _ _ _ _ _ (fun m => acceptParams_pre env params p m), ← cleanup_pre]
  | .EnumInstType q name params eb, p, m => by
    simp only [accept]
    rw [mangleRef_pre _ _ _ _ _ _ _ _ (fun m => acceptParams_pre env params p m), ← cleanup_pre]
  | .TypeInstType q name params kind, p, m => by
    simp only [accept]
    have h1 : (m.pre p).varNums = m.varNums := rfl
    rw [h1]
    cases List.lookup name m.varNums with
    | none =>
      simp only []
      rw [mangleRef_pre _ _ _ _ _ _ _ _ (fun m => acceptParams_pre env params p m), ← cleanup_pre]
    | some vn =>
      simp only []
      rw [printQualifiers_pre, ← cleanup_pre]
      cases printQualifiers env.enc (.TypeInstType q name params kind) noAssertions m with
      | none => rfl
      | some m1 => simp only [Option.map_some', Mangler.pre_emit]
  | .TraitInstType q name params, p, m => by
    simp only [accept]
    rw [printQualifiers_pre, ← cleanup_pre]
    cases printQualifiers env.enc (.TraitInstType q name params) noAssertions m with
    | none => rfl
    | some m1 => simp only [Option.map_some', Mangler.pre_emit]
  | .TupleType q types, p, m => by
    simp only [accept]
    rw [printQualifiers_pre, ← cleanup_pre]
    cases printQualifiers env.enc (.TupleType q types) noAssertions m with
    | none => rfl
    | some m1 =>
      simp only [Option.map_some']
      rw [Mangler.pre_emit, accept_each_pre env types]
  | .VarArgsType q, p, m => by
    simp only [accept]
    rw [printQualifiers_pre, ← cleanup_pre]
    cases printQualifiers env.enc (.VarArgsType q) noAssertions m with
    | none => rfl
    | some m1 => simp only [Option.map_some', Mangler.pre_emit]
  | .ZeroType _, p, m => by
    simp only [accept]
    rw [Mangler.pre_emit, ← cleanup_pre]; rfl
  | .OneType _, p, m => by
    simp only [accept]
    rw [Mangler.pre_emit, ← cleanup_pre]; rfl
  | .GlobalScopeType, p, m => by
    simp only [accept]
    rw [← cleanup_pre]; rfl
  | .TypeofType _ _ _, p, m => by
    simp only [accept]
    rw [← cleanup_pre]; rfl
  | .VTableType _ _, p, m => by
    simp only [accept]
    rw [← cleanup_pre]; rfl
  | .QualifiedType _ parent child, p, m => by
    simp only [accept]
    have h1 : (m.pre p).inQualifiedType = m.inQualifiedType := rfl
    rw [h1, qualifiedStart_pre, accept_pre env parent, ← cleanup_pre]
    cases accept env parent (qualifiedStart env.enc m.inQualifiedType m) with
    | none => rfl
    | some m1 =>
      simp only [Option.map_some']
      rw [accept_pre env child]
      cases accept env child m1 with
      | none => rfl
      | some m2 => simp only [Option.map_some', qualifiedEnd_pre]

theorem accept_each_pre (env : Env) : ∀ (ts : List Ty) (p : String) (m : Mangler),
    accept_each env ts (m.pre p) = (accept_each env ts m).map (Mangler.pre p)
  | [], p, m => by simp only [accept_each, Option.map_some']
  | t :: ts, p, m => by
    simp only [accept_each]
    rw [accept_pre env t]
    cases accept env t m with
    | none => rfl
    | some m1 =>
      simp only [Option.map_some']
      rw [accept_each_pre env ts]

theorem acceptParams_pre (env : Env) : ∀ (ps : List Expr) (p : String) (m : Mangler),
    acceptParams env ps (m.pre p) = (acceptParams env ps m).map (Mangler.pre p)
  | [], p, m => by simp only [acceptParams, Option.map_some']
  | .TypeExpr t :: ps, p, m => by
    simp only [acceptParams]
    rw [accept_pre env t]
    cases accept env t m with
    | none => rfl
    | some m1 =>
      simp only [Option.map_some']
      rw [acceptParams_pre env ps]
  | .Other _ :: _, p, m => by simp only [acceptParams, Option.map_none']

end

theorem mangleDecl_pre (env : Env) (d : DeclWithType) (p : String) (m : Mangler) :
    mangleDecl env d (m.pre p) = (mangleDecl env d m).map (Mangler.pre p) := by
  obtain ⟨name, linkage, type⟩ := d
  simp only [mangleDecl]
  have h1 : (m.pre p).isTopLevel = m.isTopLevel := rfl
  rw [h1, mangleDeclBegin_pre, accept_pre]
  cases accept env type (mangleDeclBegin env name m) with
  | none => rfl
  | some m1 => simp only [Option.map_some', mangleDeclEnd_pre]

end Mangle

/-! ## What a visit leaves unchanged

A visit changes `mangleName` and `varNums` only: the modes, `nextVarNum`, `isTopLevel`
and the two traversal flags have on exit the values they had on entry. -/

namespace Mangle

theorem Mangler.frame_emit (m : Mangler) (s : String) : (m.emit s).frame = m.frame := rfl

theorem Mangler.frame_setInFunctionType (m : Mangler) (b : Bool) :
    (m.setInFunctionType b).frame = m.frame := rfl

theorem Mangler.frame_setVarNums (m : Mangler) (v : VarMapType) :
    (m.setVarNums v).frame = m.frame := rfl

theorem Mangler.frame_pre (m : Mangler) (p : String) : (m.pre p).frame = m.frame := rfl

theorem cleanup_some {m m' : Mangler} {r : Option Mangler} (h : cleanup m r = some m') :
    ∃ m1, r = some m1 ∧ m' = m1.setInFunctionType m.inFunctionType := by
  cases r with
  | none => cases h
  | some m1 => exact ⟨m1, rfl, (Option.some.inj h).symm⟩

theorem cleanup_frame {m m' : Mangler} {r : Option Mangler} (h : cleanup m r = some m') :
    ∃ m1, r = some m1 ∧ m'.frame = m1.frame := by
  obtain ⟨m1, h1, rfl⟩ := cleanup_some h
  exact ⟨m1, h1, rfl⟩

theorem printCV_frame (enc : Encoding) (q : CV.Qualifiers) (m : Mangler) :
    (printCV enc q m).frame = m.frame := by
  obtain ⟨c, r, v, mu, a⟩ := q
  obtain ⟨n, vn, nv, tl, mo, tm, gp, ift, iqt⟩ := m
  cases c <;> cases v <;> cases mu <;> cases a <;> cases ift <;> rfl

theorem printCV_varNums (enc : Encoding) (q : CV.Qualifiers) (m : Mangler) :
    (printCV enc q m).varNums = m.varNums := by
  obtain ⟨c, r, v, mu, a⟩ := q
  obtain ⟨n, vn, nv, tl, mo, tm, gp, ift, iqt⟩ := m
  cases c <;> cases v <;> cases mu <;> cases a <;> cases ift <;> rfl

theorem printCV_inFunctionType (enc : Encoding) (q : CV.Qualifiers) (m : Mangler) :
    (printCV enc q m).inFunctionType = false := by
  obtain ⟨c, r, v, mu, a⟩ := q
  obtain ⟨n, vn, nv, tl, mo, tm, gp, ift, iqt⟩ := m
  cases c <;> cases v <;> cases mu <;> cases a <;> cases ift <;> rfl

theorem printForall_frame {enc : Encoding} {t : Ty} {r : VarMapType → Option (List String)}
    {m m' : Mangler} (h : printForall enc t r m = some m') :
    m'.frame = m.frame ∧ m'.inFunctionType = m.inFunctionType := by
  unfold printForall at h
  split at h
  · split at h
    · cases h
    · split at h
      · cases h
      · cases h; exact ⟨rfl, rfl⟩
  · cases h; exact ⟨rfl, rfl⟩

theorem printQualifiers_frame {enc : Encoding} {t : Ty}
    {r : VarMapType → Option (List String)} {m m' : Mangler}
    (h : printQualifiers enc t r m = some m') : m'.frame = m.frame := by
  unfold printQualifiers at h
  split at h
  · cases h; rfl
  · cases hf : printForall enc t r m with
    | none => rw [hf] at h; cases h
    | some m1 =>
      rw [hf] at h
      cases h
      rw [printCV_frame]
      exact (printForall_frame hf).1

theorem mangleRef_frame {enc : Encoding} {t : Ty} {name : String} {pe : Bool}
    {k : Mangler → Option Mangler} {pfx : String} {m m' : Mangler}
    (hk : ∀ a b, k a = some b → b.frame = a.frame)
    (h : mangleRef enc t name pe k pfx m = some m') : m'.frame = m.frame := by
  unfold mangleRef at h
  cases hq : printQualifiers enc t noAssertions m with
  | none => rw [hq] at h; cases h
  | some m1 =>
    rw [hq] at h
    simp only [] at h
    have h1 := printQualifiers_frame hq
    split at h
    · cases hk2 : k ((m1.emit (pfx ++ toString name.utf8ByteSize ++ name)).emit "_") with
      | none => rw [hk2] at h; cases h
      | some m2 =>
        rw [hk2] at h
        cases h
        have := hk _ _ hk2
        exact this.trans h1
    · cases h; exact h1

theorem qualifiedStart_frame (enc : Encoding) (m : Mangler) :
    ((qualifiedStart enc m.inQualifiedType m).typeMode,
      (qualifiedStart enc m.inQualifiedType m).mangleOverridable,
      (qualifiedStart enc m.inQualifiedType m).mangleGenericParams,
      (qualifiedStart enc m.inQualifiedType m).nextVarNum,
      (qualifiedStart enc m.inQualifiedType m).isTopLevel, true) =
    (m.typeMode, m.mangleOverridable, m.mangleGenericParams, m.nextVarNum, m.isTopLevel,
      true) ∧ (qualifiedStart enc m.inQualifiedType m).inQualifiedType = true := by
  obtain ⟨n, vn, nv, tl, mo, tm, gp, ift, iqt⟩ := m
  cases iqt <;> exact ⟨rfl, rfl⟩

theorem qualified_frame (enc : Encoding) (m m1 m2 : Mangler)
    (h : m2.frame = (qualifiedStart enc m.inQualifiedType m).frame) :
    (qualifiedEnd enc m.inQualifiedType m2).frame = m.frame := by
  obtain ⟨n, vn, nv, tl, mo, tm, gp, ift, iqt⟩ := m
  obtain ⟨n2, vn2, nv2, tl2, mo2, tm2, gp2, ift2, iqt2⟩ := m2
  cases iqt <;>
    simp_all [Mangler.frame, qualifiedEnd, qualifiedStart, Mangler.emit,
      Mangler.setInQualifiedType]

mutual

theorem accept_frame (env : Env) : ∀ (t : Ty) (m m' : Mangler),
    accept env t m = some m' → m'.frame = m.frame
  | .VoidType q, m, m', h => by
    simp only [accept] at h
    obtain ⟨m2, h2, e⟩ := cleanup_frame h
    rw [e]
    cases hq : printQualifiers env.enc (.VoidType q) noAssertions m with
    | none => rw [hq] at h2; cases h2
    | some m1 => rw [hq] at h2; cases h2; exact (printQualifiers_frame hq : m1.frame = _)
  | .BasicType q kind, m, m', h => by
    simp only [accept] at h
    obtain ⟨m2, h2, e⟩ := cleanup_frame h
    rw [e]
    cases hq : printQualifiers env.enc (.BasicType q kind) noAssertions m with
    | none => rw [hq] at h2; cases h2
    | some m1 => rw [hq] at h2; cases h2; exact (printQualifiers_frame hq : m1.frame = _)
  | .PointerType q base dim vl st, m, m', h => by
    simp only [accept] at h
    obtain ⟨m2, h2, e⟩ := cleanup_frame h
    rw [e]
    cases hq : printQualifiers env.enc (.PointerType q base dim vl st) noAssertions m with
    | none => rw [hq] at h2; cases h2
    | some m1 =>
      rw [hq] at h2
      have := accept_frame env base _ _ h2
      have h1 := printQualifiers_frame hq
      refine Eq.trans this ?_
      split <;> exact h1
  | .ArrayType q base dim vl st, m, m', h => by
    simp only [accept] at h
    obtain ⟨m2, h2, e⟩ := cleanup_frame h
    rw [e]
    cases hq : printQualifiers env.enc (.ArrayType q base dim vl st) noAssertions m with
    | none => rw [hq] at h2; cases h2
    | some m1 =>
      rw [hq] at h2
      have := accept_frame env base _ _ h2
      exact this.trans ((printQualifiers_frame hq : m1.frame = _))
  | .ReferenceType q base, m, m', h => by
    simp only [accept] at h
    obtain ⟨m2, h2, e⟩ := cleanup_frame h
    rw [e]
    cases hq : printQualifiers env.enc (.ReferenceType q base) noAssertions
        (m.setInFunctionType true) with
    | none => rw [hq] at h2; cases h2
    | some m1 =>
      rw [hq] at h2
      have := accept_frame env base _ _ h2
      exact this.trans ((printQualifiers_frame hq : m1.frame = _))
  | .FunctionType q fa assertions returns params va, m, m', h => by
    simp only [accept] at h
    obtain ⟨m2, h2, e⟩ := cleanup_frame h
    rw [e]
    cases hq : printQualifiers env.enc (.FunctionType q fa assertions returns params va)
        (fun varNums => readAssertions env assertions m.mangleOverridable m.typeMode
          m.mangleGenericParams m.nextVarNum varNums) m with
    | none => rw [hq] at h2; cases h2
    | some m1 =>
      rw [hq] at h2
      have h1 := printQualifiers_frame hq
      simp only [] at h2
      by_cases hr : returns.isEmpty = true
      · simp only [hr, if_true] at h2
        cases hp : accept_each env params
            ((((m1.emit env.enc.function).setInFunctionType true).emit env.enc.void_t).emit "_") with
        | none => rw [hp] at h2; cases h2
        | some m3 =>
          rw [hp] at h2; cases h2
          exact ((accept_each_frame env params _ m3 hp).trans h1 :)
      · simp only [hr, Bool.false_eq_true, if_false] at h2
        cases hrs : accept_each env returns ((m1.emit env.enc.function).setInFunctionType true) with
        | none => rw [hrs] at h2; cases h2
        | some m2' =>
          rw [hrs] at h2
          simp only [] at h2
          cases hp : accept_each env params (m2'.emit "_") with
          | none => rw [hp] at h2; cases h2
          | some m3 =>
            rw [hp] at h2; cases h2
            exact ((accept_each_frame env params _ m3 hp).trans
              (accept_each_frame env returns _ m2' hrs)).trans h1
  | .StructInstType q name params, m, m', h => by
    simp only [accept] at h
    obtain ⟨m2, h2, e⟩ := cleanup_frame h
    rw [e]
    exact mangleRef_frame (fun a b hab => acceptParams_frame env params a b hab) h2
  | .UnionInstType q name params, m, m', h => by
    simp only [accept] at h
    obtain ⟨m2, h2, e⟩ := cleanup_frame h
    rw [e]
    exact mangleRef_frame (fun a b hab => acceptParams_frame env params a b hab) h2
  | .EnumInstType q name params eb, m, m', h => by
    simp only [accept] at h
    obtain ⟨m2, h2, e⟩ := cleanup_frame h
    rw [e]
    exact mangleRef_frame (fun a b hab => acceptParams_frame env params a b hab) h2
  | .TypeInstType q name params kind, m, m', h => by
    simp only [accept] at h
    obtain ⟨m2, h2, e⟩ := cleanup_frame h
    rw [e]
    cases hl : List.lookup name m.varNums with
    | none =>
      rw [hl] at h2
      exact mangleRef_frame (fun a b hab => acceptParams_frame env params a b hab) h2
    | some vn =>
      rw [hl] at h2
      simp only [] at h2
      cases hq : printQualifiers env.enc (.TypeInstType q name params kind) noAssertions m with
      | none => rw [hq] at h2; cases h2
      | some m1 => rw [hq] at h2; cases h2; exact (printQualifiers_frame hq : m1.frame = _)
  | .TraitInstType q name params, m, m', h => by
    simp only [accept] at h
    obtain ⟨m2, h2, e⟩ := cleanup_frame h
    rw [e]
    cases hq : printQualifiers env.enc (.TraitInstType q name params) noAssertions m with
    | none => rw [hq] at h2; cases h2
    | some m1 => rw [hq] at h2; cases h2; exact (printQualifiers_frame hq : m1.frame = _)
  | .TupleType q types, m, m', h => by
    simp only [accept] at h
    obtain ⟨m2, h2, e⟩ := cleanup_frame h
    rw [e]
    cases hq : printQualifiers env.enc (.TupleType q types) noAssertions m with
    | none => rw [hq] at h2; cases h2
    | some m1 =>
      rw [hq] at h2
      have := accept_each_frame env types _ _ h2
      exact this.trans ((printQualifiers_frame hq : m1.frame = _))
  | .VarArgsType q, m, m', h => by
    simp only [accept] at h
    obtain ⟨m2, h2, e⟩ := cleanup_frame h
    rw [e]
    cases hq : printQualifiers env.enc (.VarArgsType q) noAssertions m with
    | none => rw [hq] at h2; cases h2
    | some m1 => rw [hq] at h2; cases h2; exact (printQualifiers_frame hq : m1.frame = _)
  | .ZeroType _, m, m', h => by
    simp only [accept] at h
    obtain ⟨m2, h2, e⟩ := cleanup_frame h
    rw [e]
    cases h2; rfl
  | .OneType _, m, m', h => by
    simp only [accept] at h
    obtain ⟨m2, h2, e⟩ := cleanup_frame h
    rw [e]
    cases h2; rfl
  | .GlobalScopeType, m, m', h => by
    simp only [accept] at h
    obtain ⟨m2, h2, e⟩ := cleanup_frame h
    rw [e]
    cases h2; rfl
  | .TypeofType _ _ _, m, m', h => by
    simp only [accept] at h
    obtain ⟨m2, h2, e⟩ := cleanup_frame h
    rw [e]
    cases h2; rfl
  | .VTableType _ _, m, m', h => by
    simp only [accept] at h
    obtain ⟨m2, h2, e⟩ := cleanup_frame h
    rw [e]
    cases h2; rfl
  | .QualifiedType _ parent child, m, m', h => by
    simp only [accept] at h
    obtain ⟨m3, h3, e⟩ := cleanup_frame h
    rw [e]
    cases hp : accept env parent (qualifiedStart env.enc m.inQualifiedType m) with
    | none => rw [hp] at h3; cases h3
    | some m1 =>
      rw [hp] at h3
      simp only [] at h3
      cases hc : accept env child m1 with
      | none => rw [hc] at h3; cases h3
      | some m2 =>
        rw [hc] at h3; cases h3
        have e1 := accept_frame env parent _ _ hp
        have e2 := accept_frame env child _ _ hc
        exact qualified_frame env.enc m m1 m2 (e2.trans e1)

theorem accept_each_frame (env : Env) : ∀ (ts : List Ty) (m m' : Mangler),
    accept_each env ts m = some m' → m'.frame = m.frame
  | [], m, m', h => by
    simp only [accept_each] at h
    cases h; rfl
  | t :: ts, m, m', h => by
    simp only [accept_each] at h
    cases ht : accept env t m with
    | none => rw [ht] at h; cases h
    | some m1 =>
      rw [ht] at h
      exact (accept_each_frame env ts _ _ h).trans (accept_frame env t _ _ ht)

theorem acceptParams_frame (env : Env) : ∀ (ps : List Expr) (m m' : Mangler),
    acceptParams env ps m = some m' → m'.frame = m.frame
  | [], m, m', h => by
    simp only [acceptParams] at h
    cases h; rfl
  | .TypeExpr t :: ps, m, m', h => by
    simp only [acceptParams] at h
    cases ht : accept env t m with
    | none => rw [ht] at h; cases h
    | some m1 =>
      rw [ht] at h
      exact (acceptParams_frame env ps _ _ h).trans (accept_frame env t _ _ ht)
  | .Other _ :: _, m, m', h => by
    simp only [acceptParams] at h
    cases h

end

end Mangle

/-! ## Lists of nodes, and the mangling of a function declaration -/

namespace Mangle

theorem accept_eq_cleanup (env : Env) (t : Ty) (m : Mangler) :
    ∃ r, accept env t m = cleanup m r := by
  cases t <;> exact ⟨_, by rw [accept]⟩

theorem accept_inFunctionType {env : Env} {t : Ty} {m m' : Mangler}
    (h : accept env t m = some m') : m'.inFunctionType = m.inFunctionType := by
  obtain ⟨r, hr⟩ := accept_eq_cleanup env t m
  rw [hr] at h
  obtain ⟨m1, -, rfl⟩ := cleanup_some h
  rfl

theorem accept_each_inFunctionType (env : Env) : ∀ (ts : List Ty) (m m' : Mangler),
    accept_each env ts m = some m' → m'.inFunctionType = m.inFunctionType
  | [], m, m', h => by
    simp only [accept_each] at h
    cases h; rfl
  | t :: ts, m, m', h => by
    simp only [accept_each] at h
    cases ht : accept env t m with
    | none => rw [ht] at h; cases h
    | some m1 =>
      rw [ht] at h
      exact (accept_each_inFunctionType env ts _ _ h).trans (accept_inFunctionType ht)

theorem accept_each_append (env : Env) : ∀ (xs ys : List Ty) (m : Mangler),
    accept_each env (xs ++ ys) m =
      match accept_each env xs m with
      | none => none
      | some m1 => accept_each env ys m1
  | [], ys, m => by simp only [List.nil_append, accept_each]
  | x :: xs, ys, m => by
    simp only [List.cons_append, accept_each]
    cases accept env x m with
    | none => rfl
    | some m1 => exact accept_each_append env xs ys m1

/-- Visiting a list of nodes with one node in the middle singled out. -/
theorem accept_each_middle (env : Env) (xs ys : List Ty) (t : Ty) (m : Mangler) :
    accept_each env (xs ++ t :: ys) m =
      match accept_each env xs m with
      | none => none
      | some m1 =>
        match accept env t m1 with
        | none => none
        | some m2 => accept_each env ys m2 := by
  rw [accept_each_append]
  cases accept_each env xs m with
  | none => rfl
  | some m1 =>
    simp only [accept_each]

theorem mangle_functionDecl (env : Env) (name : String) (linkage : Linkage.Spec)
    (q : CV.Qualifiers) (fa : List TypeDecl) (assertions : List DeclWithType)
    (returns params : List Ty) (va : Bool) (mode : Mode) :
    mangle env (.decl (.mk name linkage (.FunctionType q fa assertions returns params va)))
        mode =
      match paramsEntry env name q fa assertions returns va mode with
      | none => none
      | some m0 =>
        match accept_each env params m0 with
        | none => none
        | some m1 => afterParams env linkage m1 := by
  have hb : ∀ m : Mangler, m.isTopLevel = true →
      (mangleDeclBegin env name m).inFunctionType = m.inFunctionType := by
    intro m hm
    unfold mangleDeclBegin
    cases env.operatorLookup name <;> simp only [hm, if_true] <;> rfl
  have hmo : (mangleDeclBegin env name (Mangler.ofMode mode)).mangleOverridable
      = !mode.no_overrideable := by
    unfold mangleDeclBegin
    cases env.operatorLookup name <;> rfl
  have htm : (mangleDeclBegin env name (Mangler.ofMode mode)).typeMode = mode.type := by
    unfold mangleDeclBegin
    cases env.operatorLookup name <;> rfl
  have hgp : (mangleDeclBegin env name (Mangler.ofMode mode)).mangleGenericParams
      = !mode.no_generic_params := by
    unfold mangleDeclBegin
    cases env.operatorLookup name <;> rfl
  have hnv : (mangleDeclBegin env name (Mangler.ofMode mode)).nextVarNum = 0 := by
    unfold mangleDeclBegin
    cases env.operatorLookup name <;> rfl
  have hift : (mangleDeclBegin env name (Mangler.ofMode mode)).inFunctionType = false :=
    hb _ rfl
  have hpq : ∀ r m, printQualifiers env.enc
      (.FunctionType q fa assertions returns params va) r m =
      printQualifiers env.enc (.FunctionType q fa assertions returns [] va) r m := by
    intro r m; rfl
  simp only [mangle, mangleDecl, accept, paramsEntry, afterParams]
  rw [hmo, htm, hgp, hnv, hpq]
  have htl : (Mangler.ofMode mode).isTopLevel = true := rfl
  rw [htl]
  cases printQualifiers env.enc (.FunctionType q fa assertions returns [] va)
      (fun varNums => readAssertions env assertions (!mode.no_overrideable) mode.type
        (!mode.no_generic_params) 0 varNums)
      (mangleDeclBegin env name (Mangler.ofMode mode)) with
  | none => rfl
  | some m =>
    simp only []
    cases (if returns.isEmpty = true
           then some (((m.emit env.enc.function).setInFunctionType true).emit
             env.enc.void_t)
           else accept_each env returns
             ((m.emit env.enc.function).setInFunctionType true)) with
    | none => rfl
    | some m2 =>
      simp only []
      cases accept_each env params (m2.emit "_") with
      | none => rfl
      | some m3 =>
        simp only [cleanup, Option.map_some', hift]

theorem paramsEntry_inFunctionType {env : Env} {name : String} {q : CV.Qualifiers}
    {fa : List TypeDecl} {assertions : List DeclWithType} {returns : List Ty} {va : Bool}
    {mode : Mode} {m0 : Mangler}
    (h : paramsEntry env name q fa assertions returns va mode = some m0) :
    m0.inFunctionType = true := by
  unfold paramsEntry at h
  split at h
  · cases h
  · rename_i m hq
    by_cases hr : returns.isEmpty = true
    · simp only [hr, if_true] at h
      cases h; rfl
    · simp only [hr, Bool.false_eq_true, if_false] at h
      cases hrs : accept_each env returns ((m.emit env.enc.function).setInFunctionType true) with
      | none => rw [hrs] at h; cases h
      | some m2 =>
        rw [hrs] at h
        cases h
        exact accept_each_inFunctionType env returns _ _ hrs

theorem paramsEntry_typeMode {env : Env} {name : String} {q : CV.Qualifiers}
    {fa : List TypeDecl} {assertions : List DeclWithType} {returns : List Ty} {va : Bool}
    {mode : Mode} {m0 : Mangler}
    (h : paramsEntry env name q fa assertions returns va mode = some m0) :
    m0.typeMode = mode.type := by
  have htm : (mangleDeclBegin env name (Mangler.ofMode mode)).frame.1 = mode.type := by
    unfold mangleDeclBegin
    cases env.operatorLookup name <;> rfl
  unfold paramsEntry at h
  split at h
  · cases h
  · rename_i m hq
    have h1 := printQualifiers_frame hq
    by_cases hr : returns.isEmpty = true
    · simp only [hr, if_true] at h
      cases h
      rw [← htm, ← h1]; rfl
    · simp only [hr, Bool.false_eq_true, if_false] at h
      cases hrs : accept_each env returns ((m.emit env.enc.function).setInFunctionType true) with
      | none => rw [hrs] at h; cases h
      | some m2 =>
        rw [hrs] at h
        cases h
        have h2 := accept_each_frame env returns _ _ hrs
        rw [← htm, ← h1]
        exact congrArg Prod.fst h2

theorem afterParams_pre (env : Env) (linkage : Linkage.Spec) (p : String) (m : Mangler) :
    afterParams env linkage (m.pre p) = (afterParams env linkage m).map (fun s => p ++ s) := by
  unfold afterParams
  rw [Mangler.pre_emit, Mangler.pre_setInFunctionType, mangleDeclEnd_pre]
  cases mangleDeclEnd env.enc linkage true ((m.emit "_").setInFunctionType false) with
  | none => rfl
  | some m1 => rfl

end Mangle

/-! ## Qualifiers on the outermost node of a parameter -/

namespace Mangle

theorem printCV_outer (enc : Encoding) (q1 q2 : CV.Qualifiers) (m : Mangler)
    (hf : m.inFunctionType = true) (hm : q1.is_mutex = q2.is_mutex) :
    printCV enc q1 m = printCV enc q2 m := by
  obtain ⟨c1, r1, v1, mu1, a1⟩ := q1
  obtain ⟨c2, r2, v2, mu2, a2⟩ := q2
  obtain ⟨n, vn, nv, tl, mo, tm, gp, ift, iqt⟩ := m
  simp only at hf hm
  subst hf hm
  simp [printCV, Mangler.emit]

theorem printQualifiers_outer (enc : Encoding) (t1 t2 : Ty)
    (r : VarMapType → Option (List String)) (m : Mangler)
    (hf : m.inFunctionType = true) (h1 : t1.isFunctionType = t2.isFunctionType)
    (h2 : t1.forallList = t2.forallList) (hm : t1.quals.is_mutex = t2.quals.is_mutex) :
    printQualifiers enc t1 r m = printQualifiers enc t2 r m := by
  have hpf : printForall enc t1 r m = printForall enc t2 r m := by
    unfold printForall
    rw [h1, h2]
  unfold printQualifiers
  rw [hpf]
  split
  · rfl
  · cases hp : printForall enc t2 r m with
    | none => rfl
    | some m1 =>
      simp only [Option.map_some']
      rw [printCV_outer enc _ _ m1 ((printForall_frame hp).2.trans hf) hm]

theorem mangleRef_outer (enc : Encoding) (t1 t2 : Ty) (name : String) (pe : Bool)
    (k : Mangler → Option Mangler) (pfx : String) (m : Mangler)
    (hf : m.inFunctionType = true) (h1 : t1.isFunctionType = t2.isFunctionType)
    (h2 : t1.forallList = t2.forallList) (hm : t1.quals.is_mutex = t2.quals.is_mutex) :
    mangleRef enc t1 name pe k pfx m = mangleRef enc t2 name pe k pfx m := by
  unfold mangleRef
  rw [printQualifiers_outer enc t1 t2 _ m hf h1 h2 hm]

/-- In parameter position the visit of a node does not depend on the const, volatile,
atomic and restrict bits of the node. -/
theorem accept_withQuals (env : Env) (t : Ty) (q : CV.Qualifiers) (m : Mangler)
    (hf : m.inFunctionType = true) (hm : q.is_mutex = t.quals.is_mutex) :
    accept env (t.withQuals q) m = accept env t m := by
  cases t with
  | VoidType q0 =>
    simp only [Ty.withQuals, accept]
    rw [printQualifiers_outer env.enc (.VoidType q) (.VoidType q0) _ m hf rfl rfl hm]
  | BasicType q0 kind =>
    simp only [Ty.withQuals, accept]
    rw [printQualifiers_outer env.enc (.BasicType q kind) (.BasicType q0 kind) _ m hf rfl rfl hm]
  | PointerType q0 base dim vl st =>
    simp only [Ty.withQuals, accept]
    rw [printQualifiers_outer env.enc (.PointerType q base dim vl st) (.PointerType q0 base dim vl st) _ m hf rfl rfl hm]
  | ArrayType q0 base dim vl st =>
    simp only [Ty.withQuals, accept]
    rw [printQualifiers_outer env.enc (.ArrayType q base dim vl st) (.ArrayType q0 base dim vl st) _ m hf rfl rfl hm]
  | ReferenceType q0 base =>
    simp only [Ty.withQuals, accept]
    rw [printQualifiers_outer env.enc (.ReferenceType q base) (.ReferenceType q0 base) _ (m.setInFunctionType true) rfl rfl rfl hm]
  | FunctionType q0 fa assertions returns params va =>
    simp only [Ty.withQuals, accept]
    rw [printQualifiers_outer env.enc (.FunctionType q fa assertions returns params va) (.FunctionType q0 fa assertions returns params va) _ m hf rfl rfl hm]
  | StructInstType q0 name params =>
    simp only [Ty.withQuals, accept]
    rw [mangleRef_outer env.enc (.StructInstType q name params) (.StructInstType q0 name params) _ _ _ _ m hf rfl rfl hm]
  | UnionInstType q0 name params =>
    simp only [Ty.withQuals, accept]
    rw [mangleRef_outer env.enc (.UnionInstType q name params) (.UnionInstType q0 name params) _ _ _ _ m hf rfl rfl hm]
  | EnumInstType q0 name params eb =>
    simp only [Ty.withQuals, accept]
    rw [mangleRef_outer env.enc (.EnumInstType q name params eb) (.EnumInstType q0 name params eb) _ _ _ _ m hf rfl rfl hm]
  | TypeInstType q0 name params kind =>
    simp only [Ty.withQuals, accept]
    rw [mangleRef_outer env.enc (.TypeInstType q name params kind) (.TypeInstType q0 name params kind) _ _ _ _ m hf rfl rfl hm,
      printQualifiers_outer env.enc (.TypeInstType q name params kind) (.TypeInstType q0 name params kind) _ m hf rfl rfl hm]
  | TraitInstType q0 name params =>
    simp only [Ty.withQuals, accept]
    rw [printQualifiers_outer env.enc (.TraitInstType q name params) (.TraitInstType q0 name params) _ m hf rfl rfl hm]
  | TupleType q0 types =>
    simp only [Ty.withQuals, accept]
    rw [printQualifiers_outer env.enc (.TupleType q types) (.TupleType q0 types) _ m hf rfl rfl hm]
  | VarArgsType q0 =>
    simp only [Ty.withQuals, accept]
    rw [printQualifiers_outer env.enc (.VarArgsType q) (.VarArgsType q0) _ m hf rfl rfl hm]
  | ZeroType q0 =>
    simp only [Ty.withQuals, accept]
  | OneType q0 =>
    simp only [Ty.withQuals, accept]
  | GlobalScopeType  =>
    simp only [Ty.withQuals, accept]
  | TypeofType q0 expr b =>
    simp only [Ty.withQuals, accept]
  | VTableType q0 base =>
    simp only [Ty.withQuals, accept]
  | QualifiedType q0 parent child =>
    simp only [Ty.withQuals, accept]

/-- **C3.** For every function declaration and each of its parameters: replacing the
qualifier set on the outermost node of the parameter type by one that differs from it in
const, volatile, atomic or restrict only (the mutex bit is kept) leaves the mangled name
unchanged, in every mode. -/
theorem outer_parameter_qualifiers_suppressed (env : Env) (name : String)
    (linkage : Linkage.Spec) (q : CV.Qualifiers) (fa : List TypeDecl)
    (assertions : List DeclWithType) (returns before after : List Ty) (va : Bool)
    (t : Ty) (q' : CV.Qualifiers) (mode : Mode)
    (hmutex : q'.is_mutex = t.quals.is_mutex) :
    mangle env (.decl (.mk name linkage
        (.FunctionType q fa assertions returns (before ++ t.withQuals q' :: after) va))) mode
      = mangle env (.decl (.mk name linkage
        (.FunctionType q fa assertions returns (before ++ t :: after) va))) mode := by
  rw [mangle_functionDecl, mangle_functionDecl]
  cases h0 : paramsEntry env name q fa assertions returns va mode with
  | none => rfl
  | some m0 =>
    simp only []
    rw [accept_each_middle, accept_each_middle]
    cases hb : accept_each env before m0 with
    | none => rfl
    | some m1 =>
      simp only []
      have hf : m1.inFunctionType = true :=
        (accept_each_inFunctionType env before _ _ hb).trans (paramsEntry_inFunctionType h0)
      rw [accept_withQuals env t q' m1 hf hmutex]

end Mangle

namespace Mangle

/-- Witness of C3: `f(const volatile int)` and `f(int)` in the sample environment. -/
theorem outer_parameter_qualifiers_suppressed_witness :
    (⟨true, false, true, false, false⟩ : CV.Qualifiers).is_mutex
        = (Ty.BasicType CV.none .SignedInt).quals.is_mutex ∧
      mangle sampleEnv (.decl (.mk "f" Linkage.Cforall (.FunctionType CV.none [] [] []
        ([] ++ (Ty.BasicType CV.none .SignedInt).withQuals ⟨true, false, true, false, false⟩
          :: []) false))) Mode.default
      = mangle sampleEnv (.decl (.mk "f" Linkage.Cforall (.FunctionType CV.none [] [] []
        ([] ++ Ty.BasicType CV.none .SignedInt :: []) false))) Mode.default :=
  ⟨rfl, outer_parameter_qualifiers_suppressed sampleEnv "f" Linkage.Cforall CV.none [] [] []
    [] [] false (.BasicType CV.none .SignedInt) ⟨true, false, true, false, false⟩
    Mode.default rfl⟩

end Mangle

/-! ## Pointers to functions -/

namespace Mangle

theorem cleanup_cleanup (m : Mangler) (b : Bool) (r : Option Mangler) :
    cleanup m (cleanup (m.setInFunctionType b) r) = cleanup m r := by
  cases r <;> rfl

theorem cleanup_idem (m : Mangler) (r : Option Mangler) :
    cleanup m (cleanup m r) = cleanup m r := by
  cases r <;> rfl

theorem printForall_setInFunctionType (enc : Encoding) (t : Ty)
    (r : VarMapType → Option (List String)) (b : Bool) (m : Mangler) :
    printForall enc t r (m.setInFunctionType b)
      = (printForall enc t r m).map (fun m1 => m1.setInFunctionType b) := by
  unfold printForall
  split
  · show (match forallLoop m.nextVarNum t.forallList ⟨0, 0, 0⟩ m.varNums with
      | none => none
      | some (c, varNums) => _) = _
    cases forallLoop m.nextVarNum t.forallList ⟨0, 0, 0⟩ m.varNums with
    | none => rfl
    | some cv =>
      obtain ⟨c, v⟩ := cv
      simp only []
      cases r v with
      | none => rfl
      | some names => rfl
  · rfl

theorem printCV_plain (enc : Encoding) (q : CV.Qualifiers) (m : Mangler)
    (hc : q.is_const = false) (hv : q.is_volatile = false) (ha : q.is_atomic = false) :
    printCV enc q (m.setInFunctionType false) = printCV enc q m := by
  obtain ⟨c, r, v, mu, a⟩ := q
  obtain ⟨n, vn, nv, tl, mo, tm, gp, ift, iqt⟩ := m
  simp only at hc hv ha
  subst hc hv ha
  cases mu <;> cases ift <;> rfl

/-- Outside type mode, a node without const, volatile and atomic gets the same output
of `printQualifiers` inside and outside parameter position. -/
theorem printQualifiers_plain (enc : Encoding) (t : Ty)
    (r : VarMapType → Option (List String)) (m : Mangler)
    (htm : m.typeMode = false)
    (hc : t.quals.is_const = false) (hv : t.quals.is_volatile = false)
    (ha : t.quals.is_atomic = false) :
    printQualifiers enc t r (m.setInFunctionType false) = printQualifiers enc t r m := by
  unfold printQualifiers
  have h1 : (m.setInFunctionType false).typeMode = m.typeMode := rfl
  rw [h1, htm, printForall_setInFunctionType]
  simp only [Bool.false_eq_true, if_false]
  cases printForall enc t r m with
  | none => rfl
  | some m1 =>
    simp only [Option.map_some']
    rw [printCV_plain enc t.quals m1 hc hv ha]

theorem printQualifiers_pointer_param (enc : Encoding) (qp : CV.Qualifiers) (base : Ty)
    (dim : Option Expr) (vl st : Bool) (m : Mangler) (htm : m.typeMode = false)
    (hf : m.inFunctionType = true) (hmu : qp.is_mutex = false) :
    printQualifiers enc (.PointerType qp base dim vl st) noAssertions m
      = some (m.setInFunctionType false) := by
  obtain ⟨c, r, v, mu, a⟩ := qp
  obtain ⟨n, vn, nv, tl, mo, tm, gp, ift, iqt⟩ := m
  simp only at htm hf hmu
  subst htm hf hmu
  rfl

/-- In parameter position a pointer to a function type is visited like the function
type itself, when the pointer is not mutex-qualified and the function type carries none
of const, volatile, atomic. -/
theorem accept_pointer_to_function (env : Env) (qp : CV.Qualifiers) (dim : Option Expr)
    (vl st : Bool) (qf : CV.Qualifiers) (fa : List TypeDecl)
    (assertions : List DeclWithType) (returns params : List Ty) (va : Bool) (m : Mangler)
    (hf : m.inFunctionType = true) (hmu : qp.is_mutex = false)
    (hc : qf.is_const = false) (hv : qf.is_volatile = false) (ha : qf.is_atomic = false) :
    accept env (.PointerType qp (.FunctionType qf fa assertions returns params va) dim vl st) m
      = accept env (.FunctionType qf fa assertions returns params va) m := by
  rw [accept]
  cases htm : m.typeMode with
  | true =>
    have hq : printQualifiers env.enc
        (.PointerType qp (.FunctionType qf fa assertions returns params va) dim vl st)
        noAssertions m = some m := by
      unfold printQualifiers; rw [htm]; rfl
    rw [hq]
    simp only [Ty.isFunctionType, Bool.not_true, Bool.false_eq_true, if_false]
    obtain ⟨r, hr⟩ := accept_eq_cleanup env (.FunctionType qf fa assertions returns params va) m
    rw [hr, cleanup_idem]
  | false =>
    rw [printQualifiers_pointer_param env.enc qp _ dim vl st m htm hf hmu]
    simp only [Ty.isFunctionType, Bool.not_true, Bool.false_eq_true, if_false]
    rw [accept, accept]
    have e1 : (m.setInFunctionType false).mangleOverridable = m.mangleOverridable := rfl
    have e2 : (m.setInFunctionType false).typeMode = m.typeMode := rfl
    have e3 : (m.setInFunctionType false).mangleGenericParams = m.mangleGenericParams := rfl
    have e4 : (m.setInFunctionType false).nextVarNum = m.nextVarNum := rfl
    rw [e1, e2, e3, e4, printQualifiers_plain env.enc
      (.FunctionType qf fa assertions returns params va) _ m htm hc hv ha, cleanup_cleanup]

/-- **C6.** A function parameter whose type is a pointer to a function type `F` mangles
like a parameter of the bare type `F`, in every mode, when the pointer is not
mutex-qualified and `F` carries none of const, volatile, atomic: the two enclosing
declarations have the same mangled name. -/
theorem pointer_to_function_conflated (env : Env) (name : String)
    (linkage : Linkage.Spec) (q : CV.Qualifiers) (fa : List TypeDecl)
    (assertions : List DeclWithType) (returns before after : List Ty) (va : Bool)
    (mode : Mode)
    (qp : CV.Qualifiers) (dim : Option Expr) (vl st : Bool) (qf : CV.Qualifiers)
    (fa1 : List TypeDecl) (assertions1 : List DeclWithType) (returns1 params1 : List Ty)
    (va1 : Bool)
    (hmu : qp.is_mutex = false)
    (hc : qf.is_const = false) (hv : qf.is_volatile = false) (ha : qf.is_atomic = false) :
    mangle env (.decl (.mk name linkage (.FunctionType q fa assertions returns
        (before ++ .PointerType qp (.FunctionType qf fa1 assertions1 returns1 params1 va1)
          dim vl st :: after) va))) mode
      = mangle env (.decl (.mk name linkage (.FunctionType q fa assertions returns
        (before ++ .FunctionType qf fa1 assertions1 returns1 params1 va1 :: after) va)))
        mode := by
  rw [mangle_functionDecl, mangle_functionDecl]
  cases h0 : paramsEntry env name q fa assertions returns va mode with
  | none => rfl
  | some m0 =>
    simp only []
    rw [accept_each_middle, accept_each_middle]
    cases hb : accept_each env before m0 with
    | none => rfl
    | some m1 =>
      simp only []
      have hf : m1.inFunctionType = true :=
        (accept_each_inFunctionType env before _ _ hb).trans (paramsEntry_inFunctionType h0)
      rw [accept_pointer_to_function env qp dim vl st qf fa1 assertions1 returns1 params1
        va1 m1 hf hmu hc hv ha]

/-- Witness of C6: `void g( int (*)(char) )` and `void g( int (char) )` in the sample
environment, the pointer being const. -/
theorem pointer_to_function_conflated_witness :
    ((⟨true, false, false, false, false⟩ : CV.Qualifiers).is_mutex = false ∧
      CV.none.is_const = false ∧ CV.none.is_volatile = false ∧ CV.none.is_atomic = false) ∧
    mangle sampleEnv (.decl (.mk "g" Linkage.Cforall (.FunctionType CV.none [] [] []
        ([] ++ .PointerType ⟨true, false, false, false, false⟩
          (.FunctionType CV.none [] [] [.BasicType CV.none .SignedInt]
            [.BasicType CV.none .Char] false) none false false :: []) false)))
        Mode.default
      = mangle sampleEnv (.decl (.mk "g" Linkage.Cforall (.FunctionType CV.none [] [] []
        ([] ++ .FunctionType CV.none [] [] [.BasicType CV.none .SignedInt]
            [.BasicType CV.none .Char] false :: []) false))) Mode.default :=
  ⟨⟨rfl, rfl, rfl, rfl⟩,
    pointer_to_function_conflated sampleEnv "g" Linkage.Cforall CV.none [] [] [] [] [] false
      Mode.default ⟨true, false, false, false, false⟩ none false false CV.none [] []
      [.BasicType CV.none .SignedInt] [.BasicType CV.none .Char] false rfl rfl rfl rfl⟩

end Mangle

/-! ## Telling two mangled names apart

Two states that differ in the name constructed so far only, run through the same rest
of a traversal, end in names that differ exactly as the two names did. -/

namespace Mangle

theorem string_append_right_cancel {a b s : String} (h : a ++ s = b ++ s) : a = b := by
  have h1 := congrArg String.data h
  simp only [String.data_append] at h1
  exact String.ext (List.append_cancel_right h1)

theorem string_append_left_cancel {a b s : String} (h : s ++ a = s ++ b) : a = b := by
  have h1 := congrArg String.data h
  simp only [String.data_append] at h1
  exact String.ext (List.append_cancel_left h1)

theorem string_append_ne_self {a s : String} (hs : s ≠ "") : a ++ s ≠ a := by
  intro h
  have h1 := congrArg String.length h
  simp only [String.length_append] at h1
  have h2 : s.length = 0 := by omega
  apply hs
  apply String.ext
  exact List.length_eq_zero.mp h2

theorem string_append_ne_self_left {a s : String} (hs : s ≠ "") : s ++ a ≠ a := by
  intro h
  have h1 := congrArg String.length h
  simp only [String.length_append] at h1
  have h2 : s.length = 0 := by omega
  apply hs
  apply String.ext
  exact List.length_eq_zero.mp h2

theorem Mangler.pre_clear (m : Mangler) : m.clear.pre m.mangleName = m := by
  obtain ⟨n, vn, nv, tl, mo, tm, gp, ift, iqt⟩ := m
  simp [Mangler.pre, Mangler.clear]

theorem Mangler.clear_emit (m : Mangler) (s : String) : (m.emit s).clear = m.clear := rfl

theorem Mangler.eq_of_clear {a b : Mangler} (h : a.clear = b.clear) :
    a = b.clear.pre a.mangleName := by
  rw [← h, Mangler.pre_clear]

theorem equivariant_accept (env : Env) (t : Ty) : Equivariant (accept env t) :=
  fun p m => accept_pre env t p m

theorem equivariant_accept_each (env : Env) (ts : List Ty) :
    Equivariant (accept_each env ts) :=
  fun p m => accept_each_pre env ts p m

theorem equivariant_cleanup {F : Mangler → Option Mangler} (hF : Equivariant F)
    (entry : Mangler) : Equivariant (fun x => cleanup entry (F x)) := by
  intro p m
  show cleanup entry (F (m.pre p)) = Option.map (Mangler.pre p) (cleanup entry (F m))
  rw [hF]
  cases F m <;> rfl

theorem equivariant_emit (s : String) : Equivariant (fun x => some (x.emit s)) := by
  intro p m
  show some ((m.pre p).emit s) = Option.map (Mangler.pre p) (some (m.emit s))
  rw [Mangler.pre_emit]; rfl

theorem equivariant_bind {F G : Mangler → Option Mangler} (hF : Equivariant F)
    (hG : Equivariant G) : Equivariant (fun x => (F x).bind G) := by
  intro p m
  show (F (m.pre p)).bind G = Option.map (Mangler.pre p) ((F m).bind G)
  rw [hF]
  cases F m with
  | none => rfl
  | some m1 => exact hG p m1

theorem equivariantS_bind {F : Mangler → Option Mangler} {G : Mangler → Option String}
    (hF : Equivariant F) (hG : EquivariantS G) : EquivariantS (fun x => (F x).bind G) := by
  intro p m
  show (F (m.pre p)).bind G = Option.map (fun s => p ++ s) ((F m).bind G)
  rw [hF]
  cases F m with
  | none => rfl
  | some m1 => exact hG p m1

theorem equivariantS_afterParams (env : Env) (linkage : Linkage.Spec) :
    EquivariantS (afterParams env linkage) :=
  fun p m => afterParams_pre env linkage p m

/-- Two states that differ in the name only are sent by the same rest of the traversal
to names that differ, as soon as the two names constructed so far differ. -/
theorem ne_of_name_ne {G : Mangler → Option String} (hG : EquivariantS G) {a b : Mangler}
    (hab : a.clear = b.clear) (hne : a.mangleName ≠ b.mangleName) (hs : G a ≠ none) :
    G a ≠ G b := by
  have ea : G a = (G b.clear).map (fun s => a.mangleName ++ s) := by
    conv_lhs => rw [Mangler.eq_of_clear hab]
    exact hG _ _
  have eb : G b = (G b.clear).map (fun s => b.mangleName ++ s) := by
    conv_lhs => rw [← Mangler.pre_clear b]
    exact hG _ _
  rw [ea] at hs ⊢
  rw [eb]
  cases hc : G b.clear with
  | none => rw [hc] at hs; exact absurd rfl hs
  | some w =>
    intro h
    simp only [Option.map_some', Option.some.injEq] at h
    exact hne (string_append_right_cancel h)

theorem accept_each_cons_bind (env : Env) (t : Ty) (ts : List Ty) (m : Mangler) :
    accept_each env (t :: ts) m = (accept env t m).bind (accept_each env ts) := by
  rw [accept_each]
  cases accept env t m <;> rfl

theorem accept_each_append_bind (env : Env) (xs ys : List Ty) (m : Mangler) :
    accept_each env (xs ++ ys) m = (accept_each env xs m).bind (accept_each env ys) := by
  rw [accept_each_append]
  cases accept_each env xs m <;> rfl

/-- The mangled name of a function declaration, with one parameter singled out. -/
theorem mangle_functionDecl_param (env : Env) (name : String) (linkage : Linkage.Spec)
    (q : CV.Qualifiers) (fa : List TypeDecl) (assertions : List DeclWithType)
    (returns before after : List Ty) (t : Ty) (va : Bool) (mode : Mode) :
    mangle env (.decl (.mk name linkage
        (.FunctionType q fa assertions returns (before ++ t :: after) va))) mode =
      (paramsEntry env name q fa assertions returns va mode).bind (fun m0 =>
        (accept_each env before m0).bind (fun m1 =>
          (accept env t m1).bind (fun m2 =>
            (accept_each env after m2).bind (afterParams env linkage)))) := by
  rw [mangle_functionDecl]
  cases paramsEntry env name q fa assertions returns va mode with
  | none => rfl
  | some m0 =>
    simp only [Option.some_bind]
    rw [accept_each_middle]
    cases accept_each env before m0 with
    | none => rfl
    | some m1 =>
      simp only [Option.some_bind]
      cases accept env t m1 with
      | none => rfl
      | some m2 =>
        simp only [Option.some_bind]
        cases accept_each env after m2 <;> rfl

/-- The state in which a parameter is visited: in parameter position, in the mode of
the call. -/
theorem param_state {env : Env} {name : String} {q : CV.Qualifiers}
    {fa : List TypeDecl} {assertions : List DeclWithType} {returns before : List Ty}
    {va : Bool} {mode : Mode} {m0 m1 : Mangler}
    (h0 : paramsEntry env name q fa assertions returns va mode = some m0)
    (h1 : accept_each env before m0 = some m1) :
    m1.inFunctionType = true ∧ m1.typeMode = mode.type := by
  refine ⟨(accept_each_inFunctionType env before _ _ h1).trans
    (paramsEntry_inFunctionType h0), ?_⟩
  have := accept_each_frame env before _ _ h1
  rw [← paramsEntry_typeMode h0]
  exact congrArg Prod.fst this

theorem printQualifiers_nonfunction (enc : Encoding) (t : Ty)
    (r : VarMapType → Option (List String)) (m : Mangler)
    (ht : t.isFunctionType = false) (htm : m.typeMode = false) :
    printQualifiers enc t r m = some (printCV enc t.quals m) := by
  unfold printQualifiers printForall
  rw [htm, ht]
  rfl

end Mangle

/-! ## Qualifiers below the outermost level, and the mutex qualifier -/

namespace Mangle

theorem mangleRef_eq_bind (enc : Encoding) (t : Ty) (name : String) (pe : Bool)
    (k : Mangler → Option Mangler) (pfx : String) (m : Mangler) :
    mangleRef enc t name pe k pfx m
      = (printQualifiers enc t noAssertions m).bind (mangleRefRest name pe k pfx) := by
  unfold mangleRef
  cases printQualifiers enc t noAssertions m <;> rfl

theorem equivariant_mangleRefRest (name : String) (pe : Bool)
    (k : Mangler → Option Mangler) (pfx : String) (hk : Equivariant k) :
    Equivariant (mangleRefRest name pe k pfx) := by
  intro p m
  unfold mangleRefRest
  simp only [Mangler.pre_emit]
  have h : ((m.emit (pfx ++ toString name.utf8ByteSize ++ name)).pre p).mangleGenericParams
      = (m.emit (pfx ++ toString name.utf8ByteSize ++ name)).mangleGenericParams := rfl
  rw [h]
  split
  · rw [hk]
    cases k ((m.emit (pfx ++ toString name.utf8ByteSize ++ name)).emit "_") with
    | none => rfl
    | some m2 => simp only [Option.map_some', Mangler.pre_emit]
  · rfl

theorem equivariant_acceptParams (env : Env) (ps : List Expr) :
    Equivariant (acceptParams env ps) :=
  fun p m => acceptParams_pre env ps p m

/-- Outside type mode the visit of a basic type, a pointer or an aggregate instance is
the output of the qualifier tokens followed by a step that does not look at the
qualifiers of the node. -/
theorem accept_via_printCV (env : Env) (t : Ty) (ht : isBasicPointerOrAggregate t = true) :
    ∃ H : Mangler → Option Mangler, Equivariant H ∧
      ∀ (q : CV.Qualifiers) (m : Mangler), m.typeMode = false →
        accept env (t.withQuals q) m = cleanup m (H (printCV env.enc q m)) := by
  cases t with
  | BasicType q0 kind =>
    refine ⟨fun x => some (x.emit (Encoding.basicTypes kind)), equivariant_emit _, ?_⟩
    intro q m htm
    rw [Ty.withQuals, accept,
      printQualifiers_nonfunction _ (.BasicType q kind) _ _ rfl htm]
    rfl
  | PointerType q0 base dim vl st =>
    refine ⟨fun x => accept env base
      (if !base.isFunctionType then x.emit env.enc.pointer else x), ?_, ?_⟩
    · intro p m
      show accept env base (if !base.isFunctionType then (m.pre p).emit env.enc.pointer
        else m.pre p) = Option.map (Mangler.pre p) (accept env base
          (if !base.isFunctionType then m.emit env.enc.pointer else m))
      split
      · rw [Mangler.pre_emit, accept_pre]
      · rw [accept_pre]
    · intro q m htm
      rw [Ty.withQuals, accept,
        printQualifiers_nonfunction _ (.PointerType q base dim vl st) _ _ rfl htm]
      rfl
  | StructInstType q0 name params =>
    refine ⟨mangleRefRest name params.isEmpty (fun cur => acceptParams env params cur)
      env.enc.struct_t, equivariant_mangleRefRest _ _ _ _ (equivariant_acceptParams env params),
      ?_⟩
    intro q m htm
    rw [Ty.withQuals, accept, mangleRef_eq_bind,
      printQualifiers_nonfunction _ (.StructInstType q name params) _ _ rfl htm]
    rfl
  | UnionInstType q0 name params =>
    refine ⟨mangleRefRest name params.isEmpty (fun cur => acceptParams env params cur)
      env.enc.union_t, equivariant_mangleRefRest _ _ _ _ (equivariant_acceptParams env params),
      ?_⟩
    intro q m htm
    rw [Ty.withQuals, accept, mangleRef_eq_bind,
      printQualifiers_nonfunction _ (.UnionInstType q name params) _ _ rfl htm]
    rfl
  | EnumInstType q0 name params eb =>
    refine ⟨mangleRefRest name params.isEmpty (fun cur => acceptParams env params cur)
      env.enc.enum_t, equivariant_mangleRefRest _ _ _ _ (equivariant_acceptParams env params),
      ?_⟩
    intro q m htm
    rw [Ty.withQuals, accept, mangleRef_eq_bind,
      printQualifiers_nonfunction _ (.EnumInstType q name params eb) _ _ rfl htm]
    rfl
  | _ => simp [isBasicPointerOrAggregate] at ht

theorem withQuals_quals (t : Ty) : t.withQuals t.quals = t := by
  cases t <;> rfl

theorem printCV_mutex (enc : Encoding) (q : CV.Qualifiers) (m : Mangler)
    (hmu : q.is_mutex = true) :
    printCV enc q m
      = (printCV enc (q.withMutex false) m).emit (enc.qualifiers .Mutex) := by
  obtain ⟨c, r, v, mu, a⟩ := q
  obtain ⟨n, vn, nv, tl, mo, tm, gp, ift, iqt⟩ := m
  simp only at hmu
  subst hmu
  cases c <;> cases v <;> cases a <;> cases ift <;> rfl

theorem printCV_const (enc : Encoding) (q : CV.Qualifiers) (m : Mangler)
    (hc : q.is_const = true) (hf : m.inFunctionType = false) :
    printCV enc q m
      = printCV enc (q.withConst false) (m.emit (enc.qualifiers .Const)) := by
  obtain ⟨c, r, v, mu, a⟩ := q
  obtain ⟨n, vn, nv, tl, mo, tm, gp, ift, iqt⟩ := m
  simp only at hc hf
  subst hc hf
  cases v <;> cases a <;> cases mu <;> rfl

end Mangle

namespace Mangle

theorem equivariantS_rest (env : Env) (after : List Ty) (linkage : Linkage.Spec) :
    EquivariantS (fun m2 => (accept_each env after m2).bind (afterParams env linkage)) :=
  equivariantS_bind (equivariant_accept_each env after) (equivariantS_afterParams env linkage)

/-- **C5 (amended).** Outside type mode the mutex qualifier is not suppressed, in any
position: for a mutex-qualified basic type, pointer or aggregate instance `t`, visited in
any state outside type mode (in parameter position or not), the name appended contains
the mutex token, and without it is the name appended for `t` with the mutex bit cleared;
and a function declaration with a parameter of type `t` does not have the mangled name
of the declaration with the mutex bit of that parameter cleared. -/
theorem mutex_not_suppressed_outside_type_mode (env : Env) (name : String)
    (linkage : Linkage.Spec) (q : CV.Qualifiers) (fa : List TypeDecl)
    (assertions : List DeclWithType) (returns before after : List Ty) (va : Bool)
    (mode : Mode) (t : Ty)
    (ht : isBasicPointerOrAggregate t = true) (hmu : t.quals.is_mutex = true)
    (hmode : mode.type = false) (htok : env.enc.qualifiers .Mutex ≠ "")
    (hs : mangle env (.decl (.mk name linkage
      (.FunctionType q fa assertions returns (before ++ t :: after) va))) mode ≠ none) :
    (∀ (m r : Mangler), m.typeMode = false → accept env t m = some r →
      ∃ u w : String, r.mangleName = u ++ env.enc.qualifiers .Mutex ++ w ∧
        accept env (t.withQuals (t.quals.withMutex false)) m
          = some (r.clear.pre (u ++ w))) ∧
    mangle env (.decl (.mk name linkage
        (.FunctionType q fa assertions returns (before ++ t :: after) va))) mode
      ≠ mangle env (.decl (.mk name linkage (.FunctionType q fa assertions returns
        (before ++ t.withQuals (t.quals.withMutex false) :: after) va))) mode := by
  obtain ⟨H, hH, hacc⟩ := accept_via_printCV env t ht
  have hacc1 : ∀ m : Mangler, m.typeMode = false → accept env t m
      = cleanup m (H ((printCV env.enc (t.quals.withMutex false) m).emit
          (env.enc.qualifiers .Mutex))) := by
    intro m htm
    have := hacc t.quals m htm
    rw [withQuals_quals, printCV_mutex env.enc t.quals m hmu] at this
    exact this
  constructor
  · intro m r htm hr
    have hF : ∀ (p : String) (y : Mangler), cleanup m (H (Mangler.pre p y))
        = (cleanup m (H y)).map (Mangler.pre p) := equivariant_cleanup hH m
    rw [hacc1 m htm] at hr
    rw [hacc _ m htm]
    generalize printCV env.enc (t.quals.withMutex false) m = x at hr ⊢
    have e1 : x.emit (env.enc.qualifiers .Mutex)
        = x.clear.pre (x.mangleName ++ env.enc.qualifiers .Mutex) := by
      obtain ⟨n, vn, nv, tl, mo, tm, gp, ift, iqt⟩ := x
      simp [Mangler.pre, Mangler.clear, Mangler.emit]
    have e2 : cleanup m (H x) = (cleanup m (H x.clear)).map (Mangler.pre x.mangleName) := by
      conv_lhs => rw [← Mangler.pre_clear x]
      exact hF _ _
    rw [e1, hF _ _] at hr
    rw [e2]
    cases h0 : cleanup m (H x.clear) with
    | none => rw [h0] at hr; cases hr
    | some r0 =>
      rw [h0] at hr
      simp only [Option.map_some', Option.some.injEq] at hr
      subst hr
      refine ⟨x.mangleName, r0.mangleName, rfl, ?_⟩
      obtain ⟨n, vn, nv, tl, mo, tm, gp, ift, iqt⟩ := r0
      simp [Mangler.pre, Mangler.clear]
  · rw [mangle_functionDecl_param] at hs ⊢
    rw [mangle_functionDecl_param]
    cases h0 : paramsEntry env name q fa assertions returns va mode with
    | none => rw [h0] at hs; exact absurd rfl hs
    | some m0 =>
      rw [h0] at hs
      simp only [Option.some_bind] at hs ⊢
      cases h1 : accept_each env before m0 with
      | none => rw [h1] at hs; exact absurd rfl hs
      | some m1 =>
        rw [h1] at hs
        simp only [Option.some_bind] at hs ⊢
        have htm : m1.typeMode = false := (param_state h0 h1).2.trans hmode
        rw [hacc1 m1 htm] at hs ⊢
        rw [hacc _ m1 htm]
        have hG : EquivariantS (fun y => (cleanup m1 (H y)).bind (fun m2 =>
            (accept_each env after m2).bind (afterParams env linkage))) :=
          equivariantS_bind (equivariant_cleanup hH m1) (equivariantS_rest env after linkage)
        exact ne_of_name_ne hG (Mangler.clear_emit _ _) (string_append_ne_self htok) hs

/-- Witness of C5 (amended): `f( mutex int )` in the sample environment. -/
theorem mutex_not_suppressed_outside_type_mode_witness :
    (∀ (m r : Mangler), m.typeMode = false →
      accept sampleEnv (.BasicType ⟨false, false, false, true, false⟩ .SignedInt) m = some r →
      ∃ u w : String, r.mangleName = u ++ sampleEnv.enc.qualifiers .Mutex ++ w ∧
        accept sampleEnv ((Ty.BasicType ⟨false, false, false, true, false⟩ .SignedInt).withQuals
          ((Ty.BasicType ⟨false, false, false, true, false⟩ .SignedInt).quals.withMutex false)) m = some (r.clear.pre (u ++ w))) ∧
    mangle sampleEnv (.decl (.mk "f" Linkage.Cforall (.FunctionType CV.none [] [] []
        ([] ++ Ty.BasicType ⟨false, false, false, true, false⟩ .SignedInt :: []) false)))
        Mode.default
      ≠ mangle sampleEnv (.decl (.mk "f" Linkage.Cforall (.FunctionType CV.none [] [] []
        ([] ++ (Ty.BasicType ⟨false, false, false, true, false⟩ .SignedInt).withQuals
          ((Ty.BasicType ⟨false, false, false, true, false⟩ .SignedInt).quals.withMutex false) :: []) false))) Mode.default :=
  mutex_not_suppressed_outside_type_mode sampleEnv "f" Linkage.Cforall CV.none [] [] [] [] []
    false Mode.default (.BasicType ⟨false, false, false, true, false⟩ .SignedInt)
    rfl rfl rfl (by decide) (by decide)

/-- Counterexample to C5 as stated: in type mode `f( mutex int )` and `f( int )` have
the same mangled name, `printQualifiers` returning at once. -/
theorem mutex_suppressed_in_type_mode :
    mangle sampleEnv (.decl (.mk "f" Linkage.Cforall (.FunctionType CV.none [] [] []
        [.BasicType ⟨false, false, false, true, false⟩ .SignedInt] false))) Type_
      = some "_X1fFv_i_" ∧
    mangle sampleEnv (.decl (.mk "f" Linkage.Cforall (.FunctionType CV.none [] [] []
        [.BasicType CV.none .SignedInt] false))) Type_
      = some "_X1fFv_i_" := by
  constructor <;> rfl

end Mangle

namespace Mangle

theorem accept_pointer_nonfunction (env : Env) (qp : CV.Qualifiers) (base : Ty)
    (dim : Option Expr) (vl st : Bool) (m : Mangler) (htm : m.typeMode = false)
    (hb : base.isFunctionType = false) :
    accept env (.PointerType qp base dim vl st) m
      = cleanup m (accept env base ((printCV env.enc qp m).emit env.enc.pointer)) := by
  rw [accept, printQualifiers_nonfunction _ (.PointerType qp base dim vl st) _ _ rfl htm]
  simp only [hb, Bool.not_false, if_true]
  rfl

theorem accept_basic_const (env : Env) (qc : CV.Qualifiers) (kind : BasicType.Kind)
    (m : Mangler) (htm : m.typeMode = false) (hf : m.inFunctionType = false)
    (hc : qc.is_const = true) :
    accept env (.BasicType qc kind) m
      = accept env (.BasicType (qc.withConst false) kind)
          (m.emit (env.enc.qualifiers .Const)) := by
  have htm2 : (m.emit (env.enc.qualifiers .Const)).typeMode = false := htm
  rw [accept, accept, printQualifiers_nonfunction _ (.BasicType qc kind) _ _ rfl htm,
    printQualifiers_nonfunction _ (.BasicType (qc.withConst false) kind) _ _ rfl htm2]
  show cleanup m (some ((printCV env.enc qc m).emit _)) = cleanup m (some _)
  rw [printCV_const env.enc qc m hc hf]
  rfl

/-- **C4.** Outside type mode a qualifier below the outermost level of a parameter is
preserved: a function declaration with a parameter of type pointer to const `k` does not
have the mangled name of the same declaration with the parameter of type pointer to `k`,
for every basic kind `k` (whatever the other qualifiers of the pointer and of `k`), the
const token being a non-empty text. -/
theorem nested_const_preserved (env : Env) (name : String)
    (linkage : Linkage.Spec) (q : CV.Qualifiers) (fa : List TypeDecl)
    (assertions : List DeclWithType) (returns before after : List Ty) (va : Bool)
    (mode : Mode) (qp : CV.Qualifiers) (dim : Option Expr) (vl st : Bool)
    (qc : CV.Qualifiers) (kind : BasicType.Kind)
    (hconst : qc.is_const = true) (hmode : mode.type = false)
    (htok : env.enc.qualifiers .Const ≠ "")
    (hs : mangle env (.decl (.mk name linkage (.FunctionType q fa assertions returns
      (before ++ .PointerType qp (.BasicType qc kind) dim vl st :: after) va))) mode
        ≠ none) :
    mangle env (.decl (.mk name linkage (.FunctionType q fa assertions returns
        (before ++ .PointerType qp (.BasicType qc kind) dim vl st :: after) va))) mode
      ≠ mangle env (.decl (.mk name linkage (.FunctionType q fa assertions returns
        (before ++ .PointerType qp (.BasicType (qc.withConst false) kind) dim vl st
          :: after) va))) mode := by
  rw [mangle_functionDecl_param] at hs ⊢
  rw [mangle_functionDecl_param]
  cases h0 : paramsEntry env name q fa assertions returns va mode with
  | none => rw [h0] at hs; exact absurd rfl hs
  | some m0 =>
    rw [h0] at hs
    simp only [Option.some_bind] at hs ⊢
    cases h1 : accept_each env before m0 with
    | none => rw [h1] at hs; exact absurd rfl hs
    | some m1 =>
      rw [h1] at hs
      simp only [Option.some_bind] at hs ⊢
      have htm : m1.typeMode = false := (param_state h0 h1).2.trans hmode
      have htm2 : ((printCV env.enc qp m1).emit env.enc.pointer).typeMode = false := by
        have := printCV_frame env.enc qp m1
        exact (congrArg Prod.fst this).trans htm
      have hf2 : ((printCV env.enc qp m1).emit env.enc.pointer).inFunctionType = false :=
        printCV_inFunctionType env.enc qp m1
      rw [accept_pointer_nonfunction env qp (.BasicType qc kind) dim vl st m1 htm rfl,
        accept_basic_const env qc kind _ htm2 hf2 hconst] at hs ⊢
      rw [accept_pointer_nonfunction env qp (.BasicType (qc.withConst false) kind) dim vl st
        m1 htm rfl]
      have hG : EquivariantS (fun y =>
          (cleanup m1 (accept env (.BasicType (qc.withConst false) kind) y)).bind (fun m2 =>
            (accept_each env after m2).bind (afterParams env linkage))) :=
        equivariantS_bind (equivariant_cleanup (equivariant_accept env _) m1)
          (equivariantS_rest env after linkage)
      exact ne_of_name_ne hG (Mangler.clear_emit _ _) (string_append_ne_self htok) hs

/-- Witness of C4: `f( const int * )` and `f( int * )` in the sample environment. -/
theorem nested_const_preserved_witness :
    mangle sampleEnv (.decl (.mk "f" Linkage.Cforall (.FunctionType CV.none [] [] []
        ([] ++ .PointerType CV.none (.BasicType ⟨true, false, false, false, false⟩ .SignedInt)
          none false false :: []) false))) Mode.default
      ≠ mangle sampleEnv (.decl (.mk "f" Linkage.Cforall (.FunctionType CV.none [] [] []
        ([] ++ .PointerType CV.none
          (.BasicType ((⟨true, false, false, false, false⟩ : CV.Qualifiers).withConst false)
            .SignedInt) none false false :: []) false))) Mode.default :=
  nested_const_preserved sampleEnv "f" Linkage.Cforall CV.none [] [] [] [] [] false
    Mode.default CV.none none false false ⟨true, false, false, false, false⟩ .SignedInt
    rfl rfl (by decide) (by decide)

end Mangle

/-! ## Type variables bound by a `forall` list -/

namespace Mangle

/-- **C2 (the code at the failing input).** `printQualifiers` binds every name of a
`forall` list to the index `nextVarNum`, which nothing increments: the two type variables
of `forall( dtype T, dtype U )` both get index 0, and `void f( T, T )` and `void f( T, U )`
have the same mangled name, under every choice of the tokens; with the sample tokens the
name is `_X1fQ2_0_0_0__Fv_BD0BD0_`. -/
theorem type_variable_indices_not_fresh (env : Env) :
    mangle env (.decl declTT) Mode.default = mangle env (.decl declTU) Mode.default ∧
    mangle sampleEnv (.decl declTT) Mode.default = some "_X1fQ2_0_0_0__Fv_BD0BD0_" ∧
    mangle sampleEnv (.decl declTU) Mode.default = some "_X1fQ2_0_0_0__Fv_BD0BD0_" := by
  refine ⟨?_, rfl, rfl⟩
  simp only [declTT, declTU, mangle, mangleDecl, accept, accept_each, printQualifiers,
    printForall, Mangler.ofMode, Mode.default, mangleDeclBegin, Ty.isFunctionType,
    Ty.forallList, forallLoop, readAssertions, Mangler.emit, Mangler.setVarNums,
    Mangler.setNextVarNum, Mangler.setIsTopLevel, Mangler.setInFunctionType, printCV,
    Ty.quals, CV.none, cleanup, mangleRef, noAssertions, List.lookup]
  cases env.operatorLookup "f" <;>
    simp [List.lookup, printCV, Mangler.emit, Mangler.setVarNums, Mangler.setInFunctionType,
      cleanup]

end Mangle

/-! ## Qualified types -/

namespace Mangle

theorem accept_of_clear (env : Env) (t : Ty) (m : Mangler) :
    accept env t m = (accept env t m.clear).map (Mangler.pre m.mangleName) := by
  conv_lhs => rw [← Mangler.pre_clear m]
  exact accept_pre env t _ _

theorem Mangler.pre_pre (p s : String) (m : Mangler) :
    (m.pre s).pre p = m.pre (p ++ s) := by
  simp [Mangler.pre, String.append_assoc]

/-- **C8.** A qualified type nested in a qualified type: visited in a state in which
`inQualifiedType` is off, `Qualified( Qualified( a, b ), c )` appends the start token,
the text appended for `a`, then for `b`, then for `c` (each visited in turn, inside the
qualified type), and the end token, nothing else; it fails exactly when one of the three
visits fails; and `inQualifiedType` is off again afterwards. The start and end tokens are
thus emitted once, by the outermost layer. -/
theorem qualified_type_single_delimiters (env : Env) (q1 q2 : CV.Qualifiers) (a b c : Ty)
    (m : Mangler) (hq : m.inQualifiedType = false) :
    accept env (.QualifiedType q2 (.QualifiedType q1 a b) c) m =
      ((accept env a (m.setInQualifiedType true).clear).bind fun ra =>
        (accept env b ra.clear).bind fun rb =>
          (accept env c rb.clear).bind fun rc =>
            some ((rc.setInQualifiedType false).clear.pre
              (m.mangleName ++ env.enc.qualifiedTypeStart ++ ra.mangleName ++ rb.mangleName
                ++ rc.mangleName ++ env.enc.qualifiedTypeEnd))) ∧
    ∀ r, accept env (.QualifiedType q2 (.QualifiedType q1 a b) c) m = some r →
      r.inQualifiedType = false := by
  have key : accept env (.QualifiedType q2 (.QualifiedType q1 a b) c) m =
      ((accept env a (m.setInQualifiedType true).clear).bind fun ra =>
        (accept env b ra.clear).bind fun rb =>
          (accept env c rb.clear).bind fun rc =>
            some ((rc.setInQualifiedType false).clear.pre
              (m.mangleName ++ env.enc.qualifiedTypeStart ++ ra.mangleName ++ rb.mangleName
                ++ rc.mangleName ++ env.enc.qualifiedTypeEnd))) := by
    have hs0 : qualifiedStart env.enc m.inQualifiedType m
        = (m.setInQualifiedType true).clear.pre (m.mangleName ++ env.enc.qualifiedTypeStart) := by
      obtain ⟨n, vn, nv, tl, mo, tm, gp, ift, iqt⟩ := m
      simp only at hq
      subst hq
      simp [qualifiedStart, Mangler.pre, Mangler.clear, Mangler.emit,
        Mangler.setInQualifiedType]
    rw [accept, accept, hs0]
    have hq1 : ((m.setInQualifiedType true).clear.pre
        (m.mangleName ++ env.enc.qualifiedTypeStart)).inQualifiedType = true := rfl
    rw [hq1]
    have hqs : ∀ x : Mangler, qualifiedStart env.enc true x = x := fun x => rfl
    have hqe : ∀ x : Mangler, qualifiedEnd env.enc true x = x := fun x => rfl
    rw [hqs, accept_pre]
    cases hra : accept env a (m.setInQualifiedType true).clear with
    | none => rfl
    | some ra =>
      simp only [Option.map_some', Option.some_bind]
      have e1 : ra.pre (m.mangleName ++ env.enc.qualifiedTypeStart)
          = ra.clear.pre (m.mangleName ++ env.enc.qualifiedTypeStart ++ ra.mangleName) := by
        conv_lhs => rw [← Mangler.pre_clear ra]
        rw [Mangler.pre_pre]
      rw [e1, accept_pre]
      cases hrb : accept env b ra.clear with
      | none => rfl
      | some rb =>
        simp only [Option.map_some', Option.some_bind, hqe, cleanup]
        have fa := accept_inFunctionType hra
        have fb := accept_inFunctionType hrb
        have e2 : (rb.pre (m.mangleName ++ env.enc.qualifiedTypeStart ++ ra.mangleName)).setInFunctionType
              ((m.setInQualifiedType true).clear.pre
                (m.mangleName ++ env.enc.qualifiedTypeStart)).inFunctionType
            = rb.clear.pre (m.mangleName ++ env.enc.qualifiedTypeStart ++ ra.mangleName
                ++ rb.mangleName) := by
          have fb' : rb.inFunctionType = m.inFunctionType := fb.trans fa
          obtain ⟨n, vn, nv, tl, mo, tm, gp, ift, iqt⟩ := rb
          simp only at fb'
          subst fb'
          simp [Mangler.pre, Mangler.clear, Mangler.setInFunctionType, Mangler.setInQualifiedType]
        rw [e2, accept_pre]
        cases hrc : accept env c rb.clear with
        | none => rfl
        | some rc =>
          simp only [Option.map_some', hq]
          have fc : rc.inFunctionType = m.inFunctionType :=
            (accept_inFunctionType hrc).trans (fb.trans fa)
          obtain ⟨n, vn, nv, tl, mo, tm, gp, ift, iqt⟩ := rc
          simp only at fc
          subst fc
          simp [Mangler.pre, Mangler.clear, Mangler.setInFunctionType,
            Mangler.setInQualifiedType, qualifiedEnd, Mangler.emit, String.append_assoc]
  refine ⟨key, ?_⟩
  intro r hr
  rw [key] at hr
  cases hra : accept env a (m.setInQualifiedType true).clear with
  | none => rw [hra] at hr; cases hr
  | some ra =>
    rw [hra] at hr
    simp only [Option.some_bind] at hr
    cases hrb : accept env b ra.clear with
    | none => rw [hrb] at hr; cases hr
    | some rb =>
      rw [hrb] at hr
      simp only [Option.some_bind] at hr
      cases hrc : accept env c rb.clear with
      | none => rw [hrc] at hr; cases hr
      | some rc =>
        rw [hrc] at hr
        simp only [Option.some_bind, Option.some.injEq] at hr
        subst hr
        rfl

/-- Witness of C8: the qualified type `S.T.U` of three structure instances, mangled as
a type in type mode with the sample tokens, is `N` `S1S` `S1T` `S1U` `E`. -/
theorem qualified_type_single_delimiters_witness :
    (accept sampleEnv (.QualifiedType CV.none (.QualifiedType CV.none
        (.StructInstType CV.none "S" []) (.StructInstType CV.none "T" []))
        (.StructInstType CV.none "U" [])) (Mangler.ofMode Type_) =
      ((accept sampleEnv (.StructInstType CV.none "S" [])
          ((Mangler.ofMode Type_).setInQualifiedType true).clear).bind fun ra =>
        (accept sampleEnv (.StructInstType CV.none "T" []) ra.clear).bind fun rb =>
          (accept sampleEnv (.StructInstType CV.none "U" []) rb.clear).bind fun rc =>
            some ((rc.setInQualifiedType false).clear.pre
              ((Mangler.ofMode Type_).mangleName ++ sampleEnv.enc.qualifiedTypeStart
                ++ ra.mangleName ++ rb.mangleName
                ++ rc.mangleName ++ sampleEnv.enc.qualifiedTypeEnd))) ∧
      ∀ r, accept sampleEnv (.QualifiedType CV.none (.QualifiedType CV.none
        (.StructInstType CV.none "S" []) (.StructInstType CV.none "T" []))
        (.StructInstType CV.none "U" [])) (Mangler.ofMode Type_) = some r →
        r.inQualifiedType = false) ∧
    mangle sampleEnv (.type (.QualifiedType CV.none (.QualifiedType CV.none
        (.StructInstType CV.none "S" []) (.StructInstType CV.none "T" []))
        (.StructInstType CV.none "U" []))) Type_ = some "NS1SS1TS1UE" :=
  ⟨qualified_type_single_delimiters sampleEnv CV.none CV.none
    (.StructInstType CV.none "S" []) (.StructInstType CV.none "T" [])
    (.StructInstType CV.none "U" []) (Mangler.ofMode Type_) rfl, rfl⟩

end Mangle

/-! ## The tokens of the basic types form a prefix code -/

namespace Mangle

theorem mem_allKinds (k : BasicType.Kind) : k ∈ allKinds := by
  cases k <;> simp [allKinds]

set_option maxRecDepth 100000 in
theorem basicTokensPrefixFree_eq : basicTokensPrefixFree = true := by decide

theorem basicTypes_ne_nil (k : BasicType.Kind) : (Encoding.basicTypes k).data ≠ [] := by
  have h := basicTokensPrefixFree_eq
  unfold basicTokensPrefixFree at h
  rw [List.all_eq_true] at h
  have hk := h k (mem_allKinds k)
  rw [Bool.and_eq_true] at hk
  intro he
  rw [he] at hk
  simp at hk

theorem basicTypes_prefix_free (k1 k2 : BasicType.Kind)
    (h : (Encoding.basicTypes k1).data <+: (Encoding.basicTypes k2).data) : k1 = k2 := by
  have h0 := basicTokensPrefixFree_eq
  unfold basicTokensPrefixFree at h0
  rw [List.all_eq_true] at h0
  have hk := h0 k1 (mem_allKinds k1)
  rw [Bool.and_eq_true, List.all_eq_true] at hk
  have hk2 := hk.2 k2 (mem_allKinds k2)
  rw [Bool.or_eq_true] at hk2
  cases hk2 with
  | inl hn =>
    rw [Bool.not_eq_true', ← Bool.not_eq_true] at hn
    exact absurd (List.isPrefixOf_iff_prefix.mpr h) hn
  | inr he => exact eq_of_beq he

/-- A text is the code of at most one list of basic types. -/
theorem basicCode_injective : ∀ (ks1 ks2 : List BasicType.Kind),
    basicCode ks1 = basicCode ks2 → ks1 = ks2
  | [], [], _ => rfl
  | [], k :: ks, h => by
    exfalso
    have h1 := congrArg String.data h
    simp only [basicCode, String.data_append] at h1
    have : (Encoding.basicTypes k).data = [] := by
      have h2 : ([] : List Char) = (Encoding.basicTypes k).data ++ (basicCode ks).data := h1
      exact (List.append_eq_nil.mp h2.symm).1
    exact basicTypes_ne_nil k this
  | k :: ks, [], h => by
    exfalso
    have h1 := congrArg String.data h
    simp only [basicCode, String.data_append] at h1
    have : (Encoding.basicTypes k).data = [] := by
      have h2 : (Encoding.basicTypes k).data ++ (basicCode ks).data = ([] : List Char) := h1
      exact (List.append_eq_nil.mp h2).1
    exact basicTypes_ne_nil k this
  | k1 :: ks1, k2 :: ks2, h => by
    have h1 := congrArg String.data h
    simp only [basicCode, String.data_append] at h1
    have hk : k1 = k2 := by
      rcases List.append_eq_append_iff.mp h1 with ⟨a', ha, _⟩ | ⟨c', hc, _⟩
      · exact (basicTypes_prefix_free k1 k2 ⟨a', ha.symm⟩)
      · exact (basicTypes_prefix_free k2 k1 ⟨c', hc.symm⟩).symm
    subst hk
    have h2 : (basicCode ks1).data = (basicCode ks2).data := List.append_cancel_left h1
    rw [basicCode_injective ks1 ks2 (String.ext h2)]

end Mangle

/-! ## Parameter lists of basic types -/

namespace Mangle

theorem accept_basic_plain (env : Env) (kind : BasicType.Kind) (m : Mangler) :
    accept env (.BasicType CV.none kind) m = some (m.emit (Encoding.basicTypes kind)) := by
  rw [accept]
  unfold printQualifiers printForall
  obtain ⟨n, vn, nv, tl, mo, tm, gp, ift, iqt⟩ := m
  cases tm <;> cases ift <;> rfl

theorem Mangler.emit_emit (m : Mangler) (s1 s2 : String) :
    (m.emit s1).emit s2 = m.emit (s1 ++ s2) := by
  simp [Mangler.emit, String.append_assoc]

theorem Mangler.emit_empty (m : Mangler) : m.emit "" = m := by
  obtain ⟨n, vn, nv, tl, mo, tm, gp, ift, iqt⟩ := m
  simp [Mangler.emit]

theorem Mangler.emit_eq_pre (m : Mangler) (s : String) :
    m.emit s = m.clear.pre (m.mangleName ++ s) := by
  obtain ⟨n, vn, nv, tl, mo, tm, gp, ift, iqt⟩ := m
  simp [Mangler.emit, Mangler.pre, Mangler.clear]

theorem accept_each_basic (env : Env) : ∀ (ks : List BasicType.Kind) (m : Mangler),
    accept_each env (ks.map (fun k => Ty.BasicType CV.none k)) m
      = some (m.emit (basicCode ks))
  | [], m => by
    simp only [List.map_nil, accept_each, basicCode, Mangler.emit_empty]
  | k :: ks, m => by
    simp only [List.map_cons, accept_each, accept_basic_plain]
    rw [accept_each_basic env ks, Mangler.emit_emit]
    rfl

/-- **C9.** Mangling is injective on lists of unqualified basic parameter types: two
function declarations that agree in everything but their parameters, all of which are
unqualified basic types, and that mangle at all, have the same mangled name only if
their lists of parameter kinds are equal; in every mode. -/
theorem basic_parameter_lists_injective (env : Env) (name : String)
    (linkage : Linkage.Spec) (q : CV.Qualifiers) (fa : List TypeDecl)
    (assertions : List DeclWithType) (returns : List Ty) (va : Bool) (mode : Mode)
    (ks1 ks2 : List BasicType.Kind)
    (hs : mangle env (.decl (.mk name linkage (.FunctionType q fa assertions returns
      (ks1.map (fun k => Ty.BasicType CV.none k)) va))) mode ≠ none)
    (heq : mangle env (.decl (.mk name linkage (.FunctionType q fa assertions returns
        (ks1.map (fun k => Ty.BasicType CV.none k)) va))) mode
      = mangle env (.decl (.mk name linkage (.FunctionType q fa assertions returns
        (ks2.map (fun k => Ty.BasicType CV.none k)) va))) mode) :
    ks1 = ks2 := by
  rw [mangle_functionDecl] at hs heq
  rw [mangle_functionDecl] at heq
  cases h0 : paramsEntry env name q fa assertions returns va mode with
  | none => rw [h0] at hs; exact absurd rfl hs
  | some m0 =>
    rw [h0] at hs heq
    simp only [accept_each_basic] at hs heq
    rw [Mangler.emit_eq_pre, afterParams_pre] at hs heq
    rw [Mangler.emit_eq_pre, afterParams_pre] at heq
    cases h1 : afterParams env linkage m0.clear with
    | none => rw [h1] at hs; exact absurd rfl hs
    | some w =>
      rw [h1] at heq
      simp only [Option.map_some', Option.some.injEq] at heq
      exact basicCode_injective _ _
        (string_append_left_cancel (string_append_right_cancel heq))

/-- Witness of C9: `f( int, char )` in the sample environment; the declaration mangles,
and a declaration with the same mangled name has the same list of parameter kinds. -/
theorem basic_parameter_lists_injective_witness :
    mangle sampleEnv (.decl (.mk "f" Linkage.Cforall (.FunctionType CV.none [] [] []
        ([BasicType.Kind.SignedInt, BasicType.Kind.Char].map
          (fun k => Ty.BasicType CV.none k)) false))) Mode.default = some "_X1fFv_ic_" ∧
    ([BasicType.Kind.SignedInt, BasicType.Kind.Char] : List BasicType.Kind)
      = [BasicType.Kind.SignedInt, BasicType.Kind.Char] :=
  ⟨rfl, basic_parameter_lists_injective sampleEnv "f" Linkage.Cforall CV.none [] [] [] false
    Mode.default [.SignedInt, .Char] [.SignedInt, .Char] (by decide) rfl⟩

/-- Changing the base type of one parameter changes the mangled name: `f( int, char )`
and `f( int, double )` in the sample environment. -/
theorem basic_parameter_change_example :
    mangle sampleEnv (.decl (.mk "f" Linkage.Cforall (.FunctionType CV.none [] [] []
        [.BasicType CV.none .SignedInt, .BasicType CV.none .Char] false))) Mode.default
      ≠ mangle sampleEnv (.decl (.mk "f" Linkage.Cforall (.FunctionType CV.none [] [] []
        [.BasicType CV.none .SignedInt, .BasicType CV.none .Double] false))) Mode.default := by
  decide

end Mangle

/-! ## Inside and outside parameter position

The same node visited with `inFunctionType` on and off: both visits fail or both
succeed; they end in states that differ in the name only, the name being the longer
outside parameter position; and the names are the same when no const, volatile or atomic
sits on an outermost node. -/

namespace Mangle

theorem printQualifiers_varNums (enc : Encoding) (t : Ty)
    (r : VarMapType → Option (List String)) (m x : Mangler)
    (ht : t.isFunctionType = false) (h : printQualifiers enc t r m = some x) :
    x.varNums = m.varNums := by
  unfold printQualifiers printForall at h
  rw [ht] at h
  split at h
  · cases h; rfl
  · simp only [Bool.false_and, Bool.false_eq_true, if_false, Option.map_some',
      Option.some.injEq] at h
    rw [← h, printCV_varNums]

/-- The visit of a node that prints its qualifiers on entry is `printQualifiers` followed
by a step that only appends to the name; the reader of the assertions does not look at
`inFunctionType`. -/
theorem accept_decompose (env : Env) (t : Ty) (hp : printsQualifiers t = true) :
    ∃ (H : Mangler → Option Mangler) (r : Mangler → VarMapType → Option (List String)),
      Equivariant H ∧ (∀ (m : Mangler) (b : Bool), r (m.setInFunctionType b) = r m) ∧
      ∀ m : Mangler,
        accept env t m = cleanup m ((printQualifiers env.enc t (r m) m).bind H) := by
  cases t with
  | VoidType q =>
    refine ⟨fun x => some (x.emit env.enc.void_t), fun _ => noAssertions,
      equivariant_emit _, fun _ _ => rfl, ?_⟩
    intro m
    rw [accept]
    cases printQualifiers env.enc (.VoidType q) noAssertions m <;> rfl
  | BasicType q kind =>
    refine ⟨fun x => some (x.emit (Encoding.basicTypes kind)), fun _ => noAssertions,
      equivariant_emit _, fun _ _ => rfl, ?_⟩
    intro m
    rw [accept]
    cases printQualifiers env.enc (.BasicType q kind) noAssertions m <;> rfl
  | PointerType q base dim vl st =>
    refine ⟨fun x => accept env base
      (if !base.isFunctionType then x.emit env.enc.pointer else x), fun _ => noAssertions,
      ?_, fun _ _ => rfl, ?_⟩
    · intro p m
      show accept env base (if !base.isFunctionType then (m.pre p).emit env.enc.pointer
        else m.pre p) = Option.map (Mangler.pre p) (accept env base
          (if !base.isFunctionType then m.emit env.enc.pointer else m))
      split
      · rw [Mangler.pre_emit, accept_pre]
      · rw [accept_pre]
    · intro m
      rw [accept]
      cases printQualifiers env.enc (.PointerType q base dim vl st) noAssertions m <;> rfl
  | ArrayType q base dim vl st =>
    refine ⟨fun x => accept env base (x.emit (env.enc.array ++ "0")), fun _ => noAssertions,
      ?_, fun _ _ => rfl, ?_⟩
    · intro p m
      show accept env base ((m.pre p).emit (env.enc.array ++ "0")) = Option.map
        (Mangler.pre p) (accept env base (m.emit (env.enc.array ++ "0")))
      rw [Mangler.pre_emit, accept_pre]
    · intro m
      rw [accept]
      cases printQualifiers env.enc (.ArrayType q base dim vl st) noAssertions m <;> rfl
  | FunctionType q fa assertions returns params va =>
    refine ⟨fun x =>
        ((if returns.isEmpty
          then some (((x.emit env.enc.function).setInFunctionType true).emit env.enc.void_t)
          else accept_each env returns
            ((x.emit env.enc.function).setInFunctionType true)).bind fun m2 =>
          (accept_each env params (m2.emit "_")).bind fun m3 => some (m3.emit "_")),
      fun m varNums => readAssertions env assertions m.mangleOverridable m.typeMode
          m.mangleGenericParams m.nextVarNum varNums, ?_, fun _ _ => rfl, ?_⟩
    · refine equivariant_bind ?_ (equivariant_bind ?_ (equivariant_emit _))
      · intro p m
        show (if returns.isEmpty
          then some ((((m.pre p).emit env.enc.function).setInFunctionType true).emit
            env.enc.void_t)
          else accept_each env returns
            (((m.pre p).emit env.enc.function).setInFunctionType true)) = Option.map
          (Mangler.pre p) (if returns.isEmpty
          then some (((m.emit env.enc.function).setInFunctionType true).emit env.enc.void_t)
          else accept_each env returns ((m.emit env.enc.function).setInFunctionType true))
        simp only [Mangler.pre_emit, Mangler.pre_setInFunctionType]
        split
        · rfl
        · rw [accept_each_pre]
      · intro p m
        show accept_each env params ((m.pre p).emit "_") = Option.map (Mangler.pre p)
          (accept_each env params (m.emit "_"))
        rw [Mangler.pre_emit, accept_each_pre]
    · intro m
      rw [accept]
      cases printQualifiers env.enc (.FunctionType q fa assertions returns params va)
        (fun varNums => readAssertions env assertions m.mangleOverridable m.typeMode
          m.mangleGenericParams m.nextVarNum varNums) m with
      | none => rfl
      | some x =>
        simp only [Option.some_bind]
        cases (if returns.isEmpty = true
          then some (((x.emit env.enc.function).setInFunctionType true).emit env.enc.void_t)
          else accept_each env returns ((x.emit env.enc.function).setInFunctionType true)) with
        | none => rfl
        | some m2 =>
          simp only [Option.some_bind]
          cases accept_each env params (m2.emit "_") <;> rfl
  | StructInstType q name params =>
    refine ⟨mangleRefRest name params.isEmpty (fun cur => acceptParams env params cur)
      env.enc.struct_t, fun _ => noAssertions,
      equivariant_mangleRefRest _ _ _ _ (equivariant_acceptParams env params),
      fun _ _ => rfl, ?_⟩
    intro m
    rw [accept, mangleRef_eq_bind]
  | UnionInstType q name params =>
    refine ⟨mangleRefRest name params.isEmpty (fun cur => acceptParams env params cur)
      env.enc.union_t, fun _ => noAssertions,
      equivariant_mangleRefRest _ _ _ _ (equivariant_acceptParams env params),
      fun _ _ => rfl, ?_⟩
    intro m
    rw [accept, mangleRef_eq_bind]
  | EnumInstType q name params eb =>
    refine ⟨mangleRefRest name params.isEmpty (fun cur => acceptParams env params cur)
      env.enc.enum_t, fun _ => noAssertions,
      equivariant_mangleRefRest _ _ _ _ (equivariant_acceptParams env params),
      fun _ _ => rfl, ?_⟩
    intro m
    rw [accept, mangleRef_eq_bind]
  | TypeInstType q name params kind =>
    refine ⟨fun x => match x.varNums.lookup name with
        | none => mangleRefRest name params.isEmpty (fun cur => acceptParams env params cur)
            env.enc.type x
        | some varNum => some (x.emit (env.enc.typeVariables varNum.2 ++ toString varNum.1)),
      fun _ => noAssertions, ?_, fun _ _ => rfl, ?_⟩
    · intro p m
      have hv : (m.pre p).varNums = m.varNums := rfl
      show (match (m.pre p).varNums.lookup name with
        | none => mangleRefRest name params.isEmpty (fun cur => acceptParams env params cur)
            env.enc.type (m.pre p)
        | some varNum => some ((m.pre p).emit
            (env.enc.typeVariables varNum.2 ++ toString varNum.1))) = Option.map (Mangler.pre p)
        (match m.varNums.lookup name with
        | none => mangleRefRest name params.isEmpty (fun cur => acceptParams env params cur)
            env.enc.type m
        | some varNum => some (m.emit (env.enc.typeVariables varNum.2 ++ toString varNum.1)))
      rw [hv]
      cases List.lookup name m.varNums with
      | none =>
        exact equivariant_mangleRefRest _ _ _ _ (equivariant_acceptParams env params) p m
      | some v => simp only [Mangler.pre_emit, Option.map_some']
    · intro m
      rw [accept, mangleRef_eq_bind]
      cases hq : printQualifiers env.enc (.TypeInstType q name params kind) noAssertions m with
      | none => cases List.lookup name m.varNums <;> rfl
      | some x =>
        have hv := printQualifiers_varNums env.enc (.TypeInstType q name params kind) _ m x rfl hq
        simp only [Option.some_bind, hv]
  | TraitInstType q name params =>
    refine ⟨fun x => some (x.emit (toString name.utf8ByteSize ++ name)), fun _ => noAssertions,
      equivariant_emit _, fun _ _ => rfl, ?_⟩
    intro m
    rw [accept]
    cases printQualifiers env.enc (.TraitInstType q name params) noAssertions m <;> rfl
  | TupleType q types =>
    refine ⟨fun x => accept_each env types (x.emit (env.enc.tuple ++ toString types.length)),
      fun _ => noAssertions, ?_, fun _ _ => rfl, ?_⟩
    · intro p m
      show accept_each env types ((m.pre p).emit (env.enc.tuple ++ toString types.length))
        = Option.map (Mangler.pre p)
          (accept_each env types (m.emit (env.enc.tuple ++ toString types.length)))
      rw [Mangler.pre_emit, accept_each_pre]
    · intro m
      rw [accept]
      cases printQualifiers env.enc (.TupleType q types) noAssertions m <;> rfl
  | VarArgsType q =>
    refine ⟨fun x => some (x.emit (env.enc.type ++ toString vargs.utf8ByteSize ++ vargs)),
      fun _ => noAssertions, equivariant_emit _, fun _ _ => rfl, ?_⟩
    intro m
    rw [accept]
    cases printQualifiers env.enc (.VarArgsType q) noAssertions m <;> rfl
  | _ => simp [printsQualifiers] at hp

end Mangle

namespace Mangle

theorem equivariant_of_clear {H : Mangler → Option Mangler} (hH : Equivariant H)
    (x : Mangler) : H x = (H x.clear).map (Mangler.pre x.mangleName) := by
  conv_lhs => rw [← Mangler.pre_clear x]
  exact hH _ _

theorem printCV_flag (enc : Encoding) (q : CV.Qualifiers) (x : Mangler) :
    (printCV enc q (x.setInFunctionType true)).clear
        = (printCV enc q (x.setInFunctionType false)).clear ∧
      (printCV enc q (x.setInFunctionType true)).mangleName.length
        ≤ (printCV enc q (x.setInFunctionType false)).mangleName.length ∧
      (plainQuals q = true → (printCV enc q (x.setInFunctionType true)).mangleName
        = (printCV enc q (x.setInFunctionType false)).mangleName) := by
  obtain ⟨c, r, v, mu, a⟩ := q
  obtain ⟨n, vn, nv, tl, mo, tm, gp, ift, iqt⟩ := x
  cases c <;> cases v <;> cases mu <;> cases a <;>
    simp [printCV, Mangler.emit, Mangler.setInFunctionType, Mangler.clear, plainQuals,
      String.length_append] <;> omega

theorem flagRel_of_states {H : Mangler → Option Mangler} (hH : Equivariant H)
    (entry a b : Mangler) (plain : Bool) (hc : a.clear = b.clear)
    (hl : a.mangleName.length ≤ b.mangleName.length)
    (hp : plain = true → a.mangleName = b.mangleName) :
    FlagRel plain (cleanup (entry.setInFunctionType true) (H a))
      (cleanup (entry.setInFunctionType false) (H b)) := by
  rw [equivariant_of_clear hH a, equivariant_of_clear hH b, ← hc]
  cases H a.clear with
  | none => exact True.intro
  | some r0 =>
    obtain ⟨n, vn, nv, tl, mo, tm, gp, ift, iqt⟩ := r0
    refine ⟨rfl, ?_, ?_⟩
    · show (a.mangleName ++ n).length ≤ (b.mangleName ++ n).length
      simp only [String.length_append]; omega
    · intro h
      show a.mangleName ++ n = b.mangleName ++ n
      rw [hp h]

/-- The relation for a node that prints its qualifiers on entry. -/
theorem accept_flag_prints (env : Env) (t : Ty) (hp : printsQualifiers t = true)
    (m : Mangler) (htm : m.typeMode = false) :
    FlagRel (plainQuals t.quals) (accept env t (m.setInFunctionType true))
      (accept env t (m.setInFunctionType false)) := by
  obtain ⟨H, r, hH, hr, hacc⟩ := accept_decompose env t hp
  rw [hacc, hacc, hr, hr]
  unfold printQualifiers
  have h1 : ∀ b, (m.setInFunctionType b).typeMode = false := fun _ => htm
  rw [h1, h1, printForall_setInFunctionType, printForall_setInFunctionType]
  simp only [Bool.false_eq_true, if_false]
  cases printForall env.enc t (r m) m with
  | none => exact True.intro
  | some pf =>
    simp only [Option.map_some', Option.some_bind]
    have := printCV_flag env.enc t.quals pf
    exact flagRel_of_states hH m _ _ _ this.1 this.2.1 this.2.2

theorem qualifiedStart_setInFunctionType (enc : Encoding) (m : Mangler) (b : Bool) :
    qualifiedStart enc (m.setInFunctionType b).inQualifiedType (m.setInFunctionType b)
      = (qualifiedStart enc m.inQualifiedType m).setInFunctionType b := by
  obtain ⟨n, vn, nv, tl, mo, tm, gp, ift, iqt⟩ := m
  cases iqt <;> rfl

theorem qualifiedStart_typeMode (enc : Encoding) (m : Mangler) :
    (qualifiedStart enc m.inQualifiedType m).typeMode = m.typeMode := by
  obtain ⟨n, vn, nv, tl, mo, tm, gp, ift, iqt⟩ := m
  cases iqt <;> rfl

theorem accept_typeMode {env : Env} {t : Ty} {m m' : Mangler}
    (h : accept env t m = some m') : m'.typeMode = m.typeMode :=
  congrArg Prod.fst (accept_frame env t m m' h)

theorem flagRel_leaf (plain : Bool) (m x : Mangler) :
    FlagRel plain (cleanup (m.setInFunctionType true) (some x))
      (cleanup (m.setInFunctionType false) (some x)) :=
  ⟨rfl, Nat.le_refl _, fun _ => rfl⟩

theorem flagRel_same (plain : Bool) (m : Mangler) (r : Option Mangler) :
    FlagRel plain (cleanup (m.setInFunctionType true) r)
      (cleanup (m.setInFunctionType false) r) := by
  cases r with
  | none => exact True.intro
  | some x => exact flagRel_leaf plain m x

/-- The same node visited in and outside parameter position, outside type mode. -/
theorem accept_flag (env : Env) : ∀ (t : Ty) (m : Mangler), m.typeMode = false →
    FlagRel (outerPlain t) (accept env t (m.setInFunctionType true))
      (accept env t (m.setInFunctionType false))
  | .QualifiedType q parent child, m, htm => by
    rw [accept, accept, qualifiedStart_setInFunctionType, qualifiedStart_setInFunctionType]
    have ih1 := accept_flag env parent (qualifiedStart env.enc m.inQualifiedType m)
      ((qualifiedStart_typeMode env.enc m).trans htm)
    have hiq : ∀ b, (m.setInFunctionType b).inQualifiedType = m.inQualifiedType :=
      fun _ => rfl
    rw [hiq, hiq]
    cases h1 : accept env parent
        ((qualifiedStart env.enc m.inQualifiedType m).setInFunctionType true) with
    | none =>
      cases h2 : accept env parent
          ((qualifiedStart env.enc m.inQualifiedType m).setInFunctionType false) with
      | none => exact True.intro
      | some b1 => rw [h1, h2] at ih1; exact ih1.elim
    | some a1 =>
      cases h2 : accept env parent
          ((qualifiedStart env.enc m.inQualifiedType m).setInFunctionType false) with
      | none => rw [h1, h2] at ih1; exact ih1.elim
      | some b1 =>
        rw [h1, h2] at ih1
        obtain ⟨hc1, hl1, hp1⟩ := ih1
        simp only []
        have fa1 : a1.inFunctionType = true := accept_inFunctionType h1
        have ta1 : a1.typeMode = false :=
          (accept_typeMode h1).trans ((qualifiedStart_typeMode env.enc m).trans htm)
        have ih2 := accept_flag env child a1.clear ta1
        have ea : a1.clear.setInFunctionType true = a1.clear := by
          obtain ⟨n, vn, nv, tl, mo, tm, gp, ift, iqt⟩ := a1
          simp only at fa1
          subst fa1
          rfl
        have eb : a1.clear.setInFunctionType false = b1.clear := by
          rw [← hc1]; rfl
        rw [ea, eb] at ih2
        rw [accept_of_clear env child a1, accept_of_clear env child b1]
        cases h3 : accept env child a1.clear with
        | none =>
          cases h4 : accept env child b1.clear with
          | none => exact True.intro
          | some b2 => rw [h3, h4] at ih2; exact ih2.elim
        | some a2 =>
          cases h4 : accept env child b1.clear with
          | none => rw [h3, h4] at ih2; exact ih2.elim
          | some b2 =>
            rw [h3, h4] at ih2
            obtain ⟨hc2, hl2, hp2⟩ := ih2
            obtain ⟨n, vn, nv, tl, mo, tm, gp, ift, iqt⟩ := a2
            obtain ⟨n', vn', nv', tl', mo', tm', gp', ift', iqt'⟩ := b2
            simp only [Mangler.setInFunctionType, Mangler.clear, Mangler.mk.injEq,
              true_and] at hc2
            obtain ⟨e1, e2, e3, e4, e5, e6, e7, e8⟩ := hc2
            subst e1 e2 e3 e4 e5 e6 e7 e8
            simp only at hl2 hp2
            cases hq : m.inQualifiedType <;>
              simp only [Option.map_some', cleanup, qualifiedEnd, Bool.not_false, Bool.not_true,
                if_true, Bool.false_eq_true, if_false, FlagRel, Mangler.pre, Mangler.emit,
                Mangler.setInFunctionType, Mangler.setInQualifiedType, Mangler.clear,
                String.length_append, outerPlain, Bool.and_eq_true, true_and] <;>
              refine ⟨by omega, ?_⟩ <;> intro hpl <;> rw [hp1 hpl.1, hp2 hpl.2]
  | .ReferenceType q base, m, htm => by
    rw [accept, accept]
    have e : ∀ b, (m.setInFunctionType b).setInFunctionType true
        = m.setInFunctionType true := fun _ => rfl
    rw [e, e]
    exact flagRel_same _ m _
  | .ZeroType _, m, htm => by
    rw [accept, accept]; exact flagRel_leaf _ m _
  | .OneType _, m, htm => by
    rw [accept, accept]; exact flagRel_leaf _ m _
  | .GlobalScopeType, m, htm => by
    rw [accept, accept]
    exact ⟨rfl, Nat.le_refl _, fun _ => rfl⟩
  | .TypeofType _ _ _, m, htm => by
    rw [accept, accept]
    exact ⟨rfl, Nat.le_refl _, fun _ => rfl⟩
  | .VTableType _ _, m, htm => by
    rw [accept, accept]
    exact ⟨rfl, Nat.le_refl _, fun _ => rfl⟩
  | .VoidType q, m, htm => accept_flag_prints env (.VoidType q) rfl m htm
  | .BasicType q k, m, htm => accept_flag_prints env (.BasicType q k) rfl m htm
  | .PointerType q b d v s, m, htm => accept_flag_prints env (.PointerType q b d v s) rfl m htm
  | .ArrayType q b d v s, m, htm => accept_flag_prints env (.ArrayType q b d v s) rfl m htm
  | .FunctionType q fa a r p v, m, htm => accept_flag_prints env (.FunctionType q fa a r p v) rfl m htm
  | .StructInstType q n p, m, htm => accept_flag_prints env (.StructInstType q n p) rfl m htm
  | .UnionInstType q n p, m, htm => accept_flag_prints env (.UnionInstType q n p) rfl m htm
  | .EnumInstType q n p eb, m, htm => accept_flag_prints env (.EnumInstType q n p eb) rfl m htm
  | .TypeInstType q n p k, m, htm => accept_flag_prints env (.TypeInstType q n p k) rfl m htm
  | .TraitInstType q n p, m, htm => accept_flag_prints env (.TraitInstType q n p) rfl m htm
  | .TupleType q ts, m, htm => accept_flag_prints env (.TupleType q ts) rfl m htm
  | .VarArgsType q, m, htm => accept_flag_prints env (.VarArgsType q) rfl m htm

end Mangle

/-! ## References -/

namespace Mangle

theorem Mangler.setInFunctionType_self (m : Mangler) :
    m.setInFunctionType m.inFunctionType = m := by
  obtain ⟨n, vn, nv, tl, mo, tm, gp, ift, iqt⟩ := m
  rfl

theorem Mangler.eq_of_clear_of_name {a b : Mangler} (hc : a.clear = b.clear)
    (hn : a.mangleName = b.mangleName) : a = b := by
  rw [← Mangler.pre_clear a, ← Mangler.pre_clear b, hc, hn]

theorem printQualifiers_typeMode (enc : Encoding) (t : Ty)
    (r : VarMapType → Option (List String)) (m : Mangler) (htm : m.typeMode = true) :
    printQualifiers enc t r m = some m := by
  unfold printQualifiers
  rw [htm]; rfl

/-- In parameter position a reference is visited like its base: in type mode always,
outside type mode when the reference is not mutex-qualified and no const, volatile or
atomic sits on an outermost node of the base. -/
theorem accept_reference_param (env : Env) (qr : CV.Qualifiers) (base : Ty) (m : Mangler)
    (hf : m.inFunctionType = true)
    (h : m.typeMode = true ∨ (qr.is_mutex = false ∧ outerPlain base = true)) :
    accept env (.ReferenceType qr base) m = accept env base m := by
  have hm : m.setInFunctionType true = m := by
    rw [← hf]; exact Mangler.setInFunctionType_self m
  rw [accept]
  cases htm : m.typeMode with
  | true =>
    have htm' : (m.setInFunctionType true).typeMode = true := htm
    rw [printQualifiers_typeMode _ _ _ _ htm', hm]
    obtain ⟨r, hr⟩ := accept_eq_cleanup env base m
    simp only [hr, cleanup_idem]
  | false =>
    rw [htm] at h
    obtain ⟨hmu, hpl⟩ := h.resolve_left (by simp)
    have htm' : (m.setInFunctionType true).typeMode = false := htm
    rw [printQualifiers_nonfunction _ (.ReferenceType qr base) _ _ rfl htm']
    have hcv : printCV env.enc (Ty.ReferenceType qr base).quals (m.setInFunctionType true)
        = m.setInFunctionType false := by
      obtain ⟨c, r, v, mu, a⟩ := qr
      obtain ⟨n, vn, nv, tl, mo, tm, gp, ift, iqt⟩ := m
      simp only at hmu
      subst hmu
      rfl
    rw [hcv]
    simp only []
    have hfl := accept_flag env base m htm
    rw [hm, hpl] at hfl
    cases h1 : accept env base m with
    | none =>
      cases h2 : accept env base (m.setInFunctionType false) with
      | none => rfl
      | some b => rw [h1, h2] at hfl; exact hfl.elim
    | some a =>
      cases h2 : accept env base (m.setInFunctionType false) with
      | none => rw [h1, h2] at hfl; exact hfl.elim
      | some b =>
        rw [h1, h2] at hfl
        obtain ⟨hc, -, hn⟩ := hfl
        have hb : b = a.setInFunctionType false :=
          (Mangler.eq_of_clear_of_name hc (hn rfl)).symm
        have ha : a.inFunctionType = true := (accept_inFunctionType h1).trans hf
        subst hb
        show some ((a.setInFunctionType false).setInFunctionType m.inFunctionType) = some a
        rw [hf, ← ha]
        exact congrArg some (Mangler.setInFunctionType_self a)

/-- **C7 (amended).** A function whose parameter has type reference to `T` has the
mangled name of the otherwise identical function whose parameter has type `T`: in type
mode for every `T` and every reference; outside type mode when the reference is not
mutex-qualified and `T` carries none of const, volatile, atomic on its outermost node
(for a qualified type: on the outermost nodes of its components). -/
theorem reference_parameter_like_value (env : Env) (name : String)
    (linkage : Linkage.Spec) (q : CV.Qualifiers) (fa : List TypeDecl)
    (assertions : List DeclWithType) (returns before after : List Ty) (va : Bool)
    (mode : Mode) (qr : CV.Qualifiers) (T : Ty)
    (h : mode.type = true ∨ (qr.is_mutex = false ∧ outerPlain T = true)) :
    mangle env (.decl (.mk name linkage (.FunctionType q fa assertions returns
        (before ++ .ReferenceType qr T :: after) va))) mode
      = mangle env (.decl (.mk name linkage (.FunctionType q fa assertions returns
        (before ++ T :: after) va))) mode := by
  rw [mangle_functionDecl_param, mangle_functionDecl_param]
  cases h0 : paramsEntry env name q fa assertions returns va mode with
  | none => rfl
  | some m0 =>
    simp only [Option.some_bind]
    cases h1 : accept_each env before m0 with
    | none => rfl
    | some m1 =>
      simp only [Option.some_bind]
      obtain ⟨hf, htm⟩ := param_state h0 h1
      rw [accept_reference_param env qr T m1 hf (by rw [htm]; exact h)]

/-- Witness of C7 (amended): `f( volatile int * const & )` and `f( volatile int * )` in the
sample environment, in the default mode. -/
theorem reference_parameter_like_value_witness :
    (Mode.default.type = true ∨
      ((⟨true, false, false, false, false⟩ : CV.Qualifiers).is_mutex = false ∧
        outerPlain (.PointerType CV.none
          (.BasicType ⟨false, false, true, false, false⟩ .SignedInt) none false false)
          = true)) ∧
    mangle sampleEnv (.decl (.mk "f" Linkage.Cforall (.FunctionType CV.none [] [] []
        ([] ++ .ReferenceType ⟨true, false, false, false, false⟩ (.PointerType CV.none
          (.BasicType ⟨false, false, true, false, false⟩ .SignedInt) none false false)
          :: []) false))) Mode.default
      = mangle sampleEnv (.decl (.mk "f" Linkage.Cforall (.FunctionType CV.none [] [] []
        ([] ++ Ty.PointerType CV.none
          (.BasicType ⟨false, false, true, false, false⟩ .SignedInt) none false false
          :: []) false))) Mode.default :=
  ⟨Or.inr ⟨rfl, rfl⟩,
    reference_parameter_like_value sampleEnv "f" Linkage.Cforall CV.none [] [] [] [] []
      false Mode.default ⟨true, false, false, false, false⟩ (.PointerType CV.none
        (.BasicType ⟨false, false, true, false, false⟩ .SignedInt) none false false)
      (Or.inr ⟨rfl, rfl⟩)⟩

/-- Counterexample to C7 as stated: in the default mode `f( const int & )` mangles to
`_X1fFv_Ki_` and `f( const int )` to `_X1fFv_i_`: under a reference the base is visited
outside parameter position and its const is printed. -/
theorem reference_to_const_differs :
    mangle sampleEnv (.decl (.mk "f" Linkage.Cforall (.FunctionType CV.none [] [] []
        [.ReferenceType CV.none (.BasicType ⟨true, false, false, false, false⟩ .SignedInt)]
        false))) Mode.default = some "_X1fFv_Ki_" ∧
    mangle sampleEnv (.decl (.mk "f" Linkage.Cforall (.FunctionType CV.none [] [] []
        [.BasicType ⟨true, false, false, false, false⟩ .SignedInt] false))) Mode.default
      = some "_X1fFv_i_" := by
  constructor <;> rfl

end Mangle

/-! ## Pointer depth -/

namespace Mangle

theorem cleanup_cleanup_any (x y : Mangler) (r : Option Mangler) :
    cleanup x (cleanup y r) = cleanup x r := by
  cases r <;> rfl

theorem printQualifiers_pointer_none (enc : Encoding) (base : Ty) (x : Mangler) :
    printQualifiers enc (.PointerType CV.none base none false false) noAssertions x
      = some (underPointer x) := by
  obtain ⟨n, vn, nv, tl, mo, tm, gp, ift, iqt⟩ := x
  cases tm <;> cases ift <;> rfl

theorem underPointer_emit (x : Mangler) (s : String) :
    underPointer ((underPointer x).emit s) = (underPointer x).emit s := by
  obtain ⟨n, vn, nv, tl, mo, tm, gp, ift, iqt⟩ := x
  cases tm <;> rfl

theorem ptrN_succ_isFunctionType (n : Nat) (base : Ty) :
    (ptrN (n + 1) base).isFunctionType = false := rfl

theorem accept_ptrN_succ (env : Env) (base : Ty) : ∀ (n : Nat) (x : Mangler),
    accept env (ptrN (n + 1) base) x
      = cleanup x (accept env base
          ((underPointer x).emit (pointerText env.enc base (n + 1))))
  | 0, x => by
    rw [ptrN, ptrN, accept, printQualifiers_pointer_none]
    simp only [pointerText, ptrN]
    by_cases hb : base.isFunctionType = true
    · simp [hb, Mangler.emit_empty]
    · simp [hb]
  | n + 1, x => by
    rw [ptrN, accept, printQualifiers_pointer_none]
    simp only [ptrN_succ_isFunctionType, Bool.not_false, if_true]
    rw [accept_ptrN_succ env base n, underPointer_emit, cleanup_cleanup_any,
      Mangler.emit_emit]
    simp only [pointerText, ptrN_succ_isFunctionType, Bool.false_eq_true, if_false]

theorem pointerText_length (enc : Encoding) (base : Ty) : ∀ n : Nat,
    (pointerText enc base (n + 1)).length
      = n * enc.pointer.length + (pointerText enc base 1).length
  | 0 => by simp
  | n + 1 => by
    have ih := pointerText_length enc base n
    have e : pointerText enc base (n + 1 + 1)
        = enc.pointer ++ pointerText enc base (n + 1) := by
      simp only [pointerText, ptrN_succ_isFunctionType, Bool.false_eq_true, if_false]
    rw [e, String.length_append, ih]
    ring

theorem pointerText_one_length (enc : Encoding) (base : Ty) :
    (pointerText enc base 1).length
      = if base.isFunctionType then 0 else enc.pointer.length := by
  simp only [pointerText, ptrN]
  by_cases hb : base.isFunctionType = true
  · simp [hb]
  · simp [hb]

theorem string_length_pos {s : String} (h : s ≠ "") : 0 < s.length := by
  rcases Nat.eq_zero_or_pos s.length with h0 | h0
  · exact absurd (String.ext (List.length_eq_zero.mp h0)) h
  · exact h0

/-- Of two pointer depths the deeper one appends the longer text, unless the depths are
0 and 1 and the base is a function type. -/
theorem pointerText_lt (enc : Encoding) (base : Ty) (n k : Nat) (hnk : n < k)
    (htok : enc.pointer ≠ "") (hex : ¬ (base.isFunctionType = true ∧ n + k = 1)) :
    (pointerText enc base n).length < (pointerText enc base k).length := by
  have hp := string_length_pos htok
  obtain ⟨k', rfl⟩ : ∃ k', k = k' + 1 := ⟨k - 1, by omega⟩
  rw [pointerText_length]
  cases n with
  | zero =>
    have h0 : (pointerText enc base 0).length = 0 := rfl
    rw [h0, pointerText_one_length]
    cases hb : base.isFunctionType with
    | true =>
      have hk' : k' ≠ 0 := by
        intro h; apply hex; exact ⟨hb, by omega⟩
      have : 0 < k' * enc.pointer.length := Nat.mul_pos (Nat.pos_of_ne_zero hk') hp
      simp only [if_true]; omega
    | false => simp only [Bool.false_eq_true, if_false]; omega
  | succ n' =>
    rw [pointerText_length]
    have : n' < k' := by omega
    have := Nat.mul_lt_mul_of_pos_right this hp
    omega

end Mangle

namespace Mangle

theorem underPointer_mangleName (x : Mangler) : (underPointer x).mangleName = x.mangleName := by
  obtain ⟨n, vn, nv, tl, mo, tm, gp, ift, iqt⟩ := x
  cases tm <;> rfl

/-- The visit of `ptrN (n + 1) base` in terms of the visit of `base` from the emptied
state. -/
theorem accept_ptrN_succ_clear (env : Env) (base : Ty) (n : Nat) (x : Mangler) :
    accept env (ptrN (n + 1) base) x
      = cleanup x ((accept env base (underPointer x).clear).map
          (Mangler.pre (x.mangleName ++ pointerText env.enc base (n + 1)))) := by
  rw [accept_ptrN_succ, Mangler.emit_eq_pre, accept_pre, underPointer_mangleName]

/-- Two pointer depths around the same base, visited in parameter position: both visits
fail, or both succeed and end in states that differ in the name only, the deeper one with
the longer name; the depths 0 and 1 around a function type apart. -/
theorem ptrN_states (env : Env) (base : Ty) (m1 : Mangler) (hf : m1.inFunctionType = true)
    (n k : Nat) (hnk : n < k) (htok : env.enc.pointer ≠ "")
    (hex : ¬ (base.isFunctionType = true ∧ n + k = 1)) :
    (accept env (ptrN n base) m1 = none ∧ accept env (ptrN k base) m1 = none) ∨
      ∃ a b, accept env (ptrN n base) m1 = some a ∧ accept env (ptrN k base) m1 = some b ∧
        a.clear = b.clear ∧ a.mangleName.length < b.mangleName.length := by
  have hlt := pointerText_lt env.enc base n k hnk htok hex
  obtain ⟨k', rfl⟩ : ∃ k', k = k' + 1 := ⟨k - 1, by omega⟩
  rw [accept_ptrN_succ_clear env base k' m1]
  cases n with
  | succ n' =>
    rw [accept_ptrN_succ_clear env base n' m1]
    cases accept env base (underPointer m1).clear with
    | none => exact Or.inl ⟨rfl, rfl⟩
    | some r0 =>
      refine Or.inr ⟨_, _, rfl, rfl, rfl, ?_⟩
      show ((m1.mangleName ++ pointerText env.enc base (n' + 1)) ++ r0.mangleName).length
        < ((m1.mangleName ++ pointerText env.enc base (k' + 1)) ++ r0.mangleName).length
      simp only [String.length_append]
      omega
  | zero =>
    have h0 : (pointerText env.enc base 0).length = 0 := rfl
    rw [h0] at hlt
    show (accept env base m1 = none ∧ _) ∨ ∃ a b, accept env base m1 = some a ∧ _
    rw [accept_of_clear env base m1]
    cases htm : m1.typeMode with
    | true =>
      have hu : underPointer m1 = m1 := by
        unfold underPointer; rw [htm]; rfl
      rw [hu]
      cases hr : accept env base m1.clear with
      | none => exact Or.inl ⟨rfl, rfl⟩
      | some r0 =>
        have hfl : r0.inFunctionType = m1.inFunctionType :=
          (accept_inFunctionType hr : r0.inFunctionType = m1.clear.inFunctionType)
        refine Or.inr ⟨_, _, rfl, rfl, ?_, ?_⟩
        · obtain ⟨n, vn, nv, tl, mo, tm, gp, ift, iqt⟩ := r0
          simp only at hfl
          subst hfl
          rfl
        · show (m1.mangleName ++ r0.mangleName).length
            < ((m1.mangleName ++ pointerText env.enc base (k' + 1)) ++ r0.mangleName).length
          simp only [String.length_append]
          omega
    | false =>
      have hu : underPointer m1 = m1.setInFunctionType false := by
        unfold underPointer; rw [htm]; rfl
      have e1 : m1.clear = m1.clear.setInFunctionType true := by
        obtain ⟨n, vn, nv, tl, mo, tm, gp, ift, iqt⟩ := m1
        simp only at hf
        subst hf
        rfl
      have e2 : (m1.setInFunctionType false).clear = m1.clear.setInFunctionType false := rfl
      have hfl := accept_flag env base m1.clear htm
      rw [hu, e2]
      have hA : accept env base m1.clear = accept env base (m1.clear.setInFunctionType true) :=
        congrArg (accept env base) e1
      rw [hA]
      cases h1 : accept env base (m1.clear.setInFunctionType true) with
      | none =>
        cases h2 : accept env base (m1.clear.setInFunctionType false) with
        | none => exact Or.inl ⟨rfl, rfl⟩
        | some b0 => rw [h1, h2] at hfl; exact hfl.elim
      | some a0 =>
        cases h2 : accept env base (m1.clear.setInFunctionType false) with
        | none => rw [h1, h2] at hfl; exact hfl.elim
        | some b0 =>
          rw [h1, h2] at hfl
          obtain ⟨hc, hl, -⟩ := hfl
          have ha0 : a0.inFunctionType = true := accept_inFunctionType h1
          refine Or.inr ⟨_, _, rfl, rfl, ?_, ?_⟩
          · obtain ⟨n, vn, nv, tl, mo, tm, gp, ift, iqt⟩ := a0
            obtain ⟨n', vn', nv', tl', mo', tm', gp', ift', iqt'⟩ := b0
            simp only [Mangler.setInFunctionType, Mangler.clear, Mangler.mk.injEq,
              true_and] at hc
            obtain ⟨e1, e2, e3, e4, e5, e6, e7, e8⟩ := hc
            subst e1 e2 e3 e4 e5 e6 e7 e8
            simp only at ha0
            subst ha0
            simp [Mangler.pre, Mangler.clear, Mangler.setInFunctionType, hf]
          · show (m1.mangleName ++ a0.mangleName).length
              < ((m1.mangleName ++ pointerText env.enc base (k' + 1)) ++ b0.mangleName).length
            simp only [String.length_append]
            omega

/-- **C10 (amended).** Two function declarations that differ only in the depth of the
unqualified pointers around the base `base` of one parameter, `n` against `k` with
`n ≠ k`, do not have the same mangled name, in every mode, the pointer token being a
non-empty text; except that depth 1 and depth 0 around a function type are not told
apart (a pointer to a function type leaves the pointer token out). -/
theorem pointer_depth_distinguished (env : Env) (name : String)
    (linkage : Linkage.Spec) (q : CV.Qualifiers) (fa : List TypeDecl)
    (assertions : List DeclWithType) (returns before after : List Ty) (va : Bool)
    (mode : Mode) (base : Ty) (n k : Nat)
    (hnk : n ≠ k) (hex : ¬ (base.isFunctionType = true ∧ n + k = 1))
    (htok : env.enc.pointer ≠ "")
    (hs : mangle env (.decl (.mk name linkage (.FunctionType q fa assertions returns
      (before ++ ptrN n base :: after) va))) mode ≠ none) :
    mangle env (.decl (.mk name linkage (.FunctionType q fa assertions returns
        (before ++ ptrN n base :: after) va))) mode
      ≠ mangle env (.decl (.mk name linkage (.FunctionType q fa assertions returns
        (before ++ ptrN k base :: after) va))) mode := by
  rw [mangle_functionDecl_param] at hs ⊢
  rw [mangle_functionDecl_param]
  cases h0 : paramsEntry env name q fa assertions returns va mode with
  | none => rw [h0] at hs; exact absurd rfl hs
  | some m0 =>
    rw [h0] at hs
    simp only [Option.some_bind] at hs ⊢
    cases h1 : accept_each env before m0 with
    | none => rw [h1] at hs; exact absurd rfl hs
    | some m1 =>
      rw [h1] at hs
      simp only [Option.some_bind] at hs ⊢
      have hf := (param_state h0 h1).1
      have hG := equivariantS_rest env after linkage
      rcases Nat.lt_or_gt_of_ne hnk with hlt | hgt
      · rcases ptrN_states env base m1 hf n k hlt htok hex with ⟨hn, -⟩ | ⟨a, b, ha, hb, hc, hl⟩
        · rw [hn] at hs; exact absurd rfl hs
        · rw [ha] at hs ⊢
          rw [hb]
          simp only [Option.some_bind] at hs ⊢
          exact ne_of_name_ne hG hc (fun h => by rw [h] at hl; omega) hs
      · have hex' : ¬ (base.isFunctionType = true ∧ k + n = 1) := by
          rw [Nat.add_comm]; exact hex
        rcases ptrN_states env base m1 hf k n hgt htok hex' with
          ⟨-, hn⟩ | ⟨a, b, ha, hb, hc, hl⟩
        · rw [hn] at hs; exact absurd rfl hs
        · rw [hb] at hs ⊢
          rw [ha]
          simp only [Option.some_bind] at hs ⊢
          exact ne_of_name_ne hG hc.symm (fun h => by rw [h] at hl; omega) hs

/-- Witness of C10 (amended): `f( int * )` and `f( int *** )` in the sample environment. -/
theorem pointer_depth_distinguished_witness :
    mangle sampleEnv (.decl (.mk "f" Linkage.Cforall (.FunctionType CV.none [] [] []
        ([] ++ ptrN 1 (.BasicType CV.none .SignedInt) :: []) false))) Mode.default
      ≠ mangle sampleEnv (.decl (.mk "f" Linkage.Cforall (.FunctionType CV.none [] [] []
        ([] ++ ptrN 3 (.BasicType CV.none .SignedInt) :: []) false))) Mode.default :=
  pointer_depth_distinguished sampleEnv "f" Linkage.Cforall CV.none [] [] [] [] [] false
    Mode.default (.BasicType CV.none .SignedInt) 1 3 (by decide) (by decide) (by decide)
    (by decide)

/-- Counterexample to C10 as stated: the parameter types `void (*)()` (depth 1) and
`void ()` (depth 0) differ in pointer depth only, and `g` mangles to `_X1gFv_Fv___` with
either. -/
theorem pointer_depth_function_collides :
    mangle sampleEnv (.decl (.mk "g" Linkage.Cforall (.FunctionType CV.none [] [] []
        [ptrN 1 (.FunctionType CV.none [] [] [] [] false)] false))) Mode.default
      = some "_X1gFv_Fv___" ∧
    mangle sampleEnv (.decl (.mk "g" Linkage.Cforall (.FunctionType CV.none [] [] []
        [ptrN 0 (.FunctionType CV.none [] [] [] [] false)] false))) Mode.default
      = some "_X1gFv_Fv___" := by
  constructor <;> rfl

end Mangle

/-! ## Renaming the type variables of a `forall` list -/

namespace Mangle


/-! ### States that differ in the map `varNums` only -/

theorem simOpt_some {N : String → Prop} {ρ : String → String} {a : Mangler} {v : VarMapType}
    (hv : VRel N ρ a.varNums v) (hb : Bound N ρ a.varNums) :
    SimOpt N ρ (some a) (some (a.setVarNums v)) :=
  ⟨v, rfl, hv, hb⟩

theorem simOpt_map {N : String → Prop} {ρ : String → String} (f : Mangler → Mangler)
    (hf : ∀ m v, f (m.setVarNums v) = (f m).setVarNums v)
    (hv : ∀ m, (f m).varNums = m.varNums) {r1 r2 : Option Mangler}
    (h : SimOpt N ρ r1 r2) : SimOpt N ρ (r1.map f) (r2.map f) := by
  cases r1 with
  | none => cases r2 with
    | none => trivial
    | some b => exact h.elim
  | some a => cases r2 with
    | none => exact h.elim
    | some b =>
      obtain ⟨v, rfl, h1, h2⟩ := h
      refine ⟨v, hf a v, ?_, ?_⟩
      · rw [hv]; exact h1
      · rw [hv]; exact h2

theorem simOpt_bind {N : String → Prop} {ρ : String → String}
    {K1 K2 : Mangler → Option Mangler} {r1 r2 : Option Mangler}
    (h : SimOpt N ρ r1 r2)
    (hK : ∀ a v, VRel N ρ a.varNums v → Bound N ρ a.varNums →
      SimOpt N ρ (K1 a) (K2 (a.setVarNums v))) :
    SimOpt N ρ (r1.bind K1) (r2.bind K2) := by
  cases r1 with
  | none => cases r2 with
    | none => trivial
    | some b => exact h.elim
  | some a => cases r2 with
    | none => exact h.elim
    | some b =>
      obtain ⟨v, rfl, h1, h2⟩ := h
      exact hK a v h1 h2

theorem simOpt_cleanup {N : String → Prop} {ρ : String → String} (m : Mangler)
    (v : VarMapType) {r1 r2 : Option Mangler} (h : SimOpt N ρ r1 r2) :
    SimOpt N ρ (cleanup m r1) (cleanup (m.setVarNums v) r2) :=
  simOpt_map (fun x => x.setInFunctionType m.inFunctionType) (fun _ _ => rfl)
    (fun _ => rfl) h

theorem simOpt_emit {N : String → Prop} {ρ : String → String} (s : String)
    {r1 r2 : Option Mangler} (h : SimOpt N ρ r1 r2) :
    SimOpt N ρ (r1.map fun x => x.emit s) (r2.map fun x => x.emit s) :=
  simOpt_map (fun x => x.emit s) (fun _ _ => rfl) (fun _ => rfl) h

theorem printCV_setVarNums (enc : Encoding) (q : CV.Qualifiers) (m : Mangler)
    (v : VarMapType) : printCV enc q (m.setVarNums v) = (printCV enc q m).setVarNums v := by
  obtain ⟨c, r, vo, mu, a⟩ := q
  obtain ⟨n, vn, nv, tl, mo, tm, gp, ift, iqt⟩ := m
  cases c <;> cases vo <;> cases mu <;> cases a <;> cases ift <;>
    simp [printCV, Mangler.setVarNums, Mangler.emit, Mangler.setInFunctionType]

/-- The qualifiers of a node that is not a function type are printed alike on both
sides. -/
theorem printQualifiers_sim {N : String → Prop} {ρ : String → String} (enc : Encoding)
    (t1 t2 : Ty) (h1 : t1.isFunctionType = false) (h2 : t2.isFunctionType = false)
    (hq : t2.quals = t1.quals) (m : Mangler) (v : VarMapType)
    (hv : VRel N ρ m.varNums v) (hb : Bound N ρ m.varNums) :
    SimOpt N ρ (printQualifiers enc t1 noAssertions m)
      (printQualifiers enc t2 noAssertions (m.setVarNums v)) := by
  unfold printQualifiers printForall
  rw [h1, h2, hq]
  have e : (m.setVarNums v).typeMode = m.typeMode := rfl
  rw [e]
  cases m.typeMode with
  | true => exact simOpt_some hv hb
  | false =>
    simp only [Bool.false_and, Bool.false_eq_true, if_false, Option.map_some']
    refine ⟨v, printCV_setVarNums enc t1.quals m v, ?_, ?_⟩
    · rw [printCV_varNums]; exact hv
    · rw [printCV_varNums]; exact hb

end Mangle

namespace Mangle

theorem lookup_cons_isSome {v : VarMapType} {n : String} (x : String)
    (val : Int × TypeDecl.Kind) (h : (v.lookup n).isSome = true) :
    (List.lookup n ((x, val) :: v)).isSome = true := by
  rw [List.lookup_cons]
  cases n == x <;> simp [h]

theorem lookup_cons_self (v : VarMapType) (x : String) (val : Int × TypeDecl.Kind) :
    (List.lookup x ((x, val) :: v)).isSome = true := by
  rw [List.lookup_cons]
  simp

theorem vRel_cons {N : String → Prop} {ρ : String → String}
    (hinj : ∀ a b, N a → N b → ρ a = ρ b → a = b) {v1 v2 : VarMapType}
    (hv : VRel N ρ v1 v2) (x : String) (hx : N x) (val : Int × TypeDecl.Kind) :
    VRel N ρ ((x, val) :: v1) ((ρ x, val) :: v2) := by
  intro n hn
  rw [List.lookup_cons, List.lookup_cons]
  by_cases e : n = x
  · subst e
    simp
  · have e2 : ρ n ≠ ρ x := fun h => e (hinj n x hn hx h)
    have b1 : (n == x) = false := by simpa using e
    have b2 : (ρ n == ρ x) = false := by simpa using e2
    rw [b1, b2]
    exact hv n hn

theorem loopRel_cons {N : String → Prop} {ρ : String → String} {v1 : VarMapType}
    {rest : List TypeDecl} (d : TypeDecl)
    {r1 r2 : Option (ForallCounts × VarMapType)}
    (nv : Int)
    (h0 : LoopRel N ρ ((d.name, (nv, d.kind)) :: v1) rest r1 r2) :
    LoopRel N ρ v1 (d :: rest) r1 r2 := by
  cases r1 with
  | none => cases r2 with
    | none => trivial
    | some b => exact h0.elim
  | some a => cases r2 with
    | none => exact h0.elim
    | some b =>
      obtain ⟨e, hv, hm, hd⟩ := h0
      refine ⟨e, hv, fun n hn => hm n (lookup_cons_isSome _ _ hn), ?_⟩
      intro d2 hd2
      rcases List.mem_cons.mp hd2 with rfl | hd2
      · exact hm _ (lookup_cons_self _ _ _)
      · exact hd d2 hd2

/-- The loop over a `forall` list and the loop over the renamed list correspond. -/
theorem forallLoop_sim {N : String → Prop} {ρ : String → String}
    (hinj : ∀ a b, N a → N b → ρ a = ρ b → a = b) (nv : Int) :
    ∀ (fa : List TypeDecl) (c : ForallCounts) (v1 v2 : VarMapType),
      (∀ d ∈ fa, N d.name) → VRel N ρ v1 v2 →
      LoopRel N ρ v1 fa (forallLoop nv fa c v1) (forallLoop nv (renameForall ρ fa) c v2)
  | [], c, v1, v2, _, hv => ⟨rfl, hv, fun _ h => h, fun _ hd => absurd hd (List.not_mem_nil _)⟩
  | d :: rest, c, v1, v2, hN, hv => by
    have hd : N d.name := hN d (List.mem_cons_self _ _)
    have hrest : ∀ d2 ∈ rest, N d2.name := fun d2 h => hN d2 (List.mem_cons_of_mem _ h)
    have hv2 := vRel_cons hinj hv d.name hd (nv, d.kind)
    obtain ⟨dn, dk⟩ := d
    cases dk <;> simp only [renameForall, List.map_cons, forallLoop]
    all_goals first
      | trivial
      | exact loopRel_cons _ nv (forallLoop_sim hinj nv rest _ _ _ hrest hv2)
end Mangle

namespace Mangle

theorem simOpt_cases {N : String → Prop} {ρ : String → String} {o1 o2 : Option Mangler}
    (h : SimOpt N ρ o1 o2) :
    (o1 = none ∧ o2 = none) ∨
      ∃ a w, o1 = some a ∧ o2 = some (a.setVarNums w) ∧ VRel N ρ a.varNums w
        ∧ Bound N ρ a.varNums := by
  cases o1 with
  | none => cases o2 with
    | none => exact Or.inl ⟨rfl, rfl⟩
    | some b => exact h.elim
  | some a => cases o2 with
    | none => exact h.elim
    | some b =>
      obtain ⟨w, rfl, h1, h2⟩ := h
      exact Or.inr ⟨a, w, rfl, rfl, h1, h2⟩

theorem renameForall_isEmpty (ρ : String → String) (fa : List TypeDecl) :
    (renameForall ρ fa).isEmpty = fa.isEmpty := by
  cases fa <;> rfl

/-- The `forall` block of a function type and of its renaming correspond, when the readers
of the assertions do. The renamed names have to be bound on entry, or, outside type mode,
to be names of the `forall` list of the node. -/
theorem printForall_function_sim {N : String → Prop} {ρ : String → String}
    (hinj : ∀ a b, N a → N b → ρ a = ρ b → a = b) (enc : Encoding)
    (q : CV.Qualifiers) (fa : List TypeDecl) (as1 as2 : List DeclWithType)
    (rets1 rets2 ps1 ps2 : List Ty) (va : Bool)
    (r1 r2 : VarMapType → Option (List String)) (m : Mangler) (v : VarMapType)
    (hfa : ∀ d ∈ fa, N d.name) (hv : VRel N ρ m.varNums v)
    (hB : ∀ n, N n → ρ n ≠ n →
      (m.varNums.lookup n).isSome = true ∨ ∃ d ∈ fa, d.name = n)
    (hr : ∀ w1 w2, VRel N ρ w1 w2 → Bound N ρ w1 → r2 w2 = r1 w1) :
    SimOpt N ρ (printForall enc (.FunctionType q fa as1 rets1 ps1 va) r1 m)
      (printForall enc (.FunctionType q (renameForall ρ fa) as2 rets2 ps2 va) r2
        (m.setVarNums v)) := by
  unfold printForall
  simp only [Ty.isFunctionType, Ty.forallList, Bool.true_and, renameForall_isEmpty]
  cases hfe : fa.isEmpty with
  | true =>
    simp only [Bool.not_true, Bool.false_eq_true, if_false]
    have hnil : fa = [] := List.isEmpty_iff.mp hfe
    refine simOpt_some hv ?_
    intro n hn hne
    rcases hB n hn hne with h | ⟨d, hd, _⟩
    · exact h
    · rw [hnil] at hd
      exact absurd hd (List.not_mem_nil _)
  | false =>
    simp only [Bool.not_false, if_true]
    have L := forallLoop_sim hinj m.nextVarNum fa ⟨0, 0, 0⟩ m.varNums v hfa hv
    have e1 : (m.setVarNums v).nextVarNum = m.nextVarNum := rfl
    have e2 : (m.setVarNums v).varNums = v := rfl
    rw [e1, e2]
    generalize forallLoop m.nextVarNum fa ⟨0, 0, 0⟩ m.varNums = o1 at L ⊢
    generalize forallLoop m.nextVarNum (renameForall ρ fa) ⟨0, 0, 0⟩ v = o2 at L ⊢
    cases o1 with
    | none => cases o2 with
      | none => exact True.intro
      | some b => exact L.elim
    | some a => cases o2 with
      | none => exact L.elim
      | some b =>
        obtain ⟨c1, w1⟩ := a
        obtain ⟨c2, w2⟩ := b
        obtain ⟨ec, hw, hmono, hbound⟩ := L
        simp only at ec hw hmono hbound
        subst ec
        have hb1 : Bound N ρ w1 := by
          intro n hn hne
          rcases hB n hn hne with h | ⟨d, hd, rfl⟩
          · exact hmono n h
          · exact hbound d hd
        simp only []
        rw [hr w1 w2 hw hb1]
        cases r1 w1 with
        | none => exact True.intro
        | some names => exact ⟨w2, rfl, hw, hb1⟩

theorem printQualifiers_function_sim {N : String → Prop} {ρ : String → String}
    (hinj : ∀ a b, N a → N b → ρ a = ρ b → a = b) (enc : Encoding)
    (q : CV.Qualifiers) (fa : List TypeDecl) (as1 as2 : List DeclWithType)
    (rets1 rets2 ps1 ps2 : List Ty) (va : Bool)
    (r1 r2 : VarMapType → Option (List String)) (m : Mangler) (v : VarMapType)
    (hfa : ∀ d ∈ fa, N d.name) (hv : VRel N ρ m.varNums v)
    (hB : ∀ n, N n → ρ n ≠ n →
      (m.varNums.lookup n).isSome = true ∨ (m.typeMode = false ∧ ∃ d ∈ fa, d.name = n))
    (hr : ∀ w1 w2, VRel N ρ w1 w2 → Bound N ρ w1 → r2 w2 = r1 w1) :
    SimOpt N ρ (printQualifiers enc (.FunctionType q fa as1 rets1 ps1 va) r1 m)
      (printQualifiers enc (.FunctionType q (renameForall ρ fa) as2 rets2 ps2 va) r2
        (m.setVarNums v)) := by
  unfold printQualifiers
  have e : (m.setVarNums v).typeMode = m.typeMode := rfl
  rw [e]
  cases htm : m.typeMode with
  | true =>
    simp only [if_true]
    refine simOpt_some hv ?_
    intro n hn hne
    rcases hB n hn hne with h | ⟨h, _⟩
    · exact h
    · rw [htm] at h
      cases h
  | false =>
    simp only [Bool.false_eq_true, if_false]
    exact simOpt_map (printCV enc q) (printCV_setVarNums enc q) (printCV_varNums enc q)
      (printForall_function_sim hinj enc q fa as1 as2 rets1 rets2 ps1 ps2 va r1 r2 m v hfa hv
        (fun n hn hne => (hB n hn hne).imp id (fun h => h.2)) hr)

theorem renameTys_isEmpty (ρ : String → String) (ts : List Ty) :
    (renameTys ρ ts).isEmpty = ts.isEmpty := by
  cases ts <;> simp [renameTys]

theorem renameTys_length (ρ : String → String) : ∀ ts : List Ty,
    (renameTys ρ ts).length = ts.length
  | [] => by simp [renameTys]
  | t :: ts => by simp [renameTys, renameTys_length ρ ts]

theorem renameExprs_isEmpty (ρ : String → String) (es : List Expr) :
    (renameExprs ρ es).isEmpty = es.isEmpty := by
  cases es <;> simp [renameExprs]

theorem renameTy_isFunctionType (ρ : String → String) (t : Ty) :
    (renameTy ρ t).isFunctionType = t.isFunctionType := by
  cases t <;> simp [renameTy, Ty.isFunctionType]

/-- The visit of a function type and of its renaming correspond, when the visits of the
assertions, of the return types and of the parameters do. -/
theorem accept_function_sim {N : String → Prop} {ρ : String → String}
    (hinj : ∀ a b, N a → N b → ρ a = ρ b → a = b) (env : Env)
    (q : CV.Qualifiers) (fa : List TypeDecl) (assertions : List DeclWithType)
    (returns params : List Ty) (va : Bool) (m : Mangler) (v : VarMapType)
    (hfa : ∀ d ∈ fa, N d.name) (hv : VRel N ρ m.varNums v)
    (hB : ∀ n, N n → ρ n ≠ n →
      (m.varNums.lookup n).isSome = true ∨ (m.typeMode = false ∧ ∃ d ∈ fa, d.name = n))
    (ihA : ∀ mo tm gp nv w1 w2, VRel N ρ w1 w2 → Bound N ρ w1 →
      readAssertions env (renameDecls ρ assertions) mo tm gp nv w2
        = readAssertions env assertions mo tm gp nv w1)
    (ihR : ∀ a w, VRel N ρ a.varNums w → Bound N ρ a.varNums →
      SimOpt N ρ (accept_each env returns a)
        (accept_each env (renameTys ρ returns) (a.setVarNums w)))
    (ihP : ∀ a w, VRel N ρ a.varNums w → Bound N ρ a.varNums →
      SimOpt N ρ (accept_each env params a)
        (accept_each env (renameTys ρ params) (a.setVarNums w))) :
    SimOpt N ρ (accept env (.FunctionType q fa assertions returns params va) m)
      (accept env (renameTy ρ (.FunctionType q fa assertions returns params va))
        (m.setVarNums v)) := by
  rw [renameTy, accept, accept]
  refine simOpt_cleanup m v ?_
  have P := printQualifiers_function_sim hinj env.enc q fa assertions
    (renameDecls ρ assertions) returns (renameTys ρ returns) params (renameTys ρ params) va
    (fun varNums => readAssertions env assertions m.mangleOverridable m.typeMode
      m.mangleGenericParams m.nextVarNum varNums)
    (fun varNums => readAssertions env (renameDecls ρ assertions)
      (m.setVarNums v).mangleOverridable (m.setVarNums v).typeMode
      (m.setVarNums v).mangleGenericParams (m.setVarNums v).nextVarNum varNums)
    m v hfa hv hB (fun w1 w2 hw hb => ihA _ _ _ _ w1 w2 hw hb)
  rcases simOpt_cases P with ⟨e1, e2⟩ | ⟨a, w, e1, e2, hw, hb⟩
  · rw [e1, e2]
    exact True.intro
  · rw [e1, e2]
    simp only [renameTys_isEmpty]
    have Q : SimOpt N ρ
        (if returns.isEmpty = true
          then some (((a.emit env.enc.function).setInFunctionType true).emit env.enc.void_t)
          else accept_each env returns ((a.emit env.enc.function).setInFunctionType true))
        (if returns.isEmpty = true
          then some ((((a.setVarNums w).emit env.enc.function).setInFunctionType true).emit
            env.enc.void_t)
          else accept_each env (renameTys ρ returns)
            (((a.setVarNums w).emit env.enc.function).setInFunctionType true)) := by
      by_cases hr : returns.isEmpty = true
      · simp only [hr, if_true]
        exact ⟨w, rfl, hw, hb⟩
      · simp only [hr, if_false]
        exact ihR ((a.emit env.enc.function).setInFunctionType true) w hw hb
    rcases simOpt_cases Q with ⟨e1, e2⟩ | ⟨a2, w2, e1, e2, hw2, hb2⟩
    · rw [e1, e2]
      exact True.intro
    · rw [e1, e2]
      simp only []
      have R := ihP (a2.emit "_") w2 hw2 hb2
      have e3 : (a2.setVarNums w2).emit "_" = (a2.emit "_").setVarNums w2 := rfl
      rw [e3]
      rcases simOpt_cases R with ⟨e1, e2⟩ | ⟨a3, w3, e1, e2, hw3, hb3⟩
      · rw [e1, e2]
        exact True.intro
      · rw [e1, e2]
        exact ⟨w3, rfl, hw3, hb3⟩

end Mangle

namespace Mangle

theorem mangleRef_sim {N : String → Prop} {ρ : String → String} (enc : Encoding)
    (t1 t2 : Ty) (h1 : t1.isFunctionType = false) (h2 : t2.isFunctionType = false)
    (hq : t2.quals = t1.quals) (name : String) (pe : Bool)
    (k1 k2 : Mangler → Option Mangler) (pfx : String)
    (hk : ∀ a w, VRel N ρ a.varNums w → Bound N ρ a.varNums →
      SimOpt N ρ (k1 a) (k2 (a.setVarNums w)))
    (m : Mangler) (v : VarMapType) (hv : VRel N ρ m.varNums v) (hb : Bound N ρ m.varNums) :
    SimOpt N ρ (mangleRef enc t1 name pe k1 pfx m)
      (mangleRef enc t2 name pe k2 pfx (m.setVarNums v)) := by
  rw [mangleRef_eq_bind, mangleRef_eq_bind]
  refine simOpt_bind (printQualifiers_sim enc t1 t2 h1 h2 hq m v hv hb) ?_
  intro a w hw hb2
  unfold mangleRefRest
  simp only []
  have e1 : ((a.setVarNums w).emit (pfx ++ toString name.utf8ByteSize ++ name)).mangleGenericParams
      = (a.emit (pfx ++ toString name.utf8ByteSize ++ name)).mangleGenericParams := rfl
  rw [e1]
  split
  · have K := hk ((a.emit (pfx ++ toString name.utf8ByteSize ++ name)).emit "_") w hw hb2
    have e2 : ((a.setVarNums w).emit (pfx ++ toString name.utf8ByteSize ++ name)).emit "_"
        = ((a.emit (pfx ++ toString name.utf8ByteSize ++ name)).emit "_").setVarNums w := rfl
    rw [e2]
    rcases simOpt_cases K with ⟨e1, e2⟩ | ⟨a3, w3, e1, e2, hw3, hb3⟩
    · rw [e1, e2]
      exact True.intro
    · rw [e1, e2]
      exact ⟨w3, rfl, hw3, hb3⟩
  · exact ⟨w, rfl, hw, hb2⟩

theorem qualifiedStart_setVarNums (enc : Encoding) (b : Bool) (m : Mangler) (v : VarMapType) :
    qualifiedStart enc b (m.setVarNums v) = (qualifiedStart enc b m).setVarNums v := by
  cases b <;> rfl

theorem qualifiedStart_varNums (enc : Encoding) (b : Bool) (m : Mangler) :
    (qualifiedStart enc b m).varNums = m.varNums := by
  cases b <;> rfl

theorem qualifiedEnd_setVarNums (enc : Encoding) (b : Bool) (m : Mangler) (v : VarMapType) :
    qualifiedEnd enc b (m.setVarNums v) = (qualifiedEnd enc b m).setVarNums v := by
  cases b <;> rfl

theorem qualifiedEnd_varNums (enc : Encoding) (b : Bool) (m : Mangler) :
    (qualifiedEnd enc b m).varNums = m.varNums := by
  cases b <;> rfl

theorem mangleDeclBegin_setVarNums (env : Env) (name : String) (m : Mangler)
    (v : VarMapType) (htl : m.isTopLevel = false) :
    mangleDeclBegin env name (m.setVarNums v) = (mangleDeclBegin env name m).setVarNums v := by
  unfold mangleDeclBegin
  have e : (m.setVarNums v).isTopLevel = m.isTopLevel := rfl
  rw [e, htl]
  simp only [Bool.false_eq_true, if_false]
  cases env.operatorLookup name <;> rfl

theorem mangleDeclBegin_varNums (env : Env) (name : String) (m : Mangler)
    (htl : m.isTopLevel = false) :
    (mangleDeclBegin env name m).varNums = m.varNums := by
  unfold mangleDeclBegin
  rw [htl]
  simp only [Bool.false_eq_true, if_false]
  cases env.operatorLookup name <;> rfl

theorem mangleDeclBegin_isTopLevel (env : Env) (name : String) (m : Mangler) :
    (mangleDeclBegin env name m).isTopLevel = false := by
  unfold mangleDeclBegin
  cases h : m.isTopLevel <;> cases env.operatorLookup name <;>
    simp [Mangler.emit, Mangler.setIsTopLevel, h]

theorem mangleDeclEnd_sim {N : String → Prop} {ρ : String → String} (enc : Encoding)
    (linkage : Linkage.Spec) (b : Bool) (a : Mangler) (w : VarMapType)
    (hw : VRel N ρ a.varNums w) (hb : Bound N ρ a.varNums) :
    SimOpt N ρ (mangleDeclEnd enc linkage b a) (mangleDeclEnd enc linkage b (a.setVarNums w)) := by
  unfold mangleDeclEnd
  simp only []
  refine simOpt_map (fun x => x.setIsTopLevel b) (fun _ _ => rfl) (fun _ => rfl) ?_
  have e : (a.setVarNums w).mangleOverridable = a.mangleOverridable := rfl
  rw [e]
  split
  · split
    · exact ⟨w, rfl, hw, hb⟩
    · split
      · exact ⟨w, rfl, hw, hb⟩
      · exact True.intro
  · exact ⟨w, rfl, hw, hb⟩

theorem simOpt_result {N : String → Prop} {ρ : String → String} {o1 o2 : Option Mangler}
    (h : SimOpt N ρ o1 o2) : o2.map Mangler.result = o1.map Mangler.result := by
  rcases simOpt_cases h with ⟨e1, e2⟩ | ⟨a, w, e1, e2, _, _⟩
  · rw [e1, e2]
  · rw [e1, e2]
    rfl

end Mangle

namespace Mangle

mutual

/-- The visit of a type and the visit of its renaming correspond, from states that
correspond. -/
theorem accept_sim {N : String → Prop} {ρ : String → String}
    (hinj : ∀ a b, N a → N b → ρ a = ρ b → a = b) (env : Env) :
    ∀ (t : Ty) (m : Mangler) (v : VarMapType), (∀ n ∈ tyNames t, N n) →
      VRel N ρ m.varNums v → Bound N ρ m.varNums →
      SimOpt N ρ (accept env t m) (accept env (renameTy ρ t) (m.setVarNums v))
  | .VoidType q, m, v, hN, hv, hb => by
    rw [renameTy, accept, accept]
    refine simOpt_cleanup m v ?_
    rcases simOpt_cases (printQualifiers_sim env.enc (.VoidType q) (.VoidType q) rfl rfl rfl
      m v hv hb) with ⟨e1, e2⟩ | ⟨a, w, e1, e2, hw, hb2⟩
    · rw [e1, e2]; exact True.intro
    · rw [e1, e2]; exact ⟨w, rfl, hw, hb2⟩
  | .BasicType q kind, m, v, hN, hv, hb => by
    rw [renameTy, accept, accept]
    refine simOpt_cleanup m v ?_
    rcases simOpt_cases (printQualifiers_sim env.enc (.BasicType q kind) (.BasicType q kind)
      rfl rfl rfl m v hv hb) with ⟨e1, e2⟩ | ⟨a, w, e1, e2, hw, hb2⟩
    · rw [e1, e2]; exact True.intro
    · rw [e1, e2]; exact ⟨w, rfl, hw, hb2⟩
  | .PointerType q base dim vl st, m, v, hN, hv, hb => by
    rw [renameTy, accept, accept]
    refine simOpt_cleanup m v ?_
    rcases simOpt_cases (printQualifiers_sim env.enc (.PointerType q base dim vl st)
      (.PointerType q (renameTy ρ base) (renameOptExpr ρ dim) vl st)
      rfl rfl rfl m v hv hb) with ⟨e1, e2⟩ | ⟨a, w, e1, e2, hw, hb2⟩
    · rw [e1, e2]; exact True.intro
    · rw [e1, e2]
      simp only [renameTy_isFunctionType]
      have e : (if (!base.isFunctionType) = true then (a.setVarNums w).emit env.enc.pointer
          else a.setVarNums w)
          = (if (!base.isFunctionType) = true then a.emit env.enc.pointer
            else a).setVarNums w := by
        split <;> rfl
      rw [e]
      have hN2 : ∀ n ∈ tyNames base, N n := fun n hn => hN n (by simpa [tyNames] using hn)
      refine accept_sim hinj env base _ w hN2 ?_ ?_
      · split <;> exact hw
      · split <;> exact hb2
  | .ArrayType q base dim vl st, m, v, hN, hv, hb => by
    rw [renameTy, accept, accept]
    refine simOpt_cleanup m v ?_
    rcases simOpt_cases (printQualifiers_sim env.enc (.ArrayType q base dim vl st)
      (.ArrayType q (renameTy ρ base) (renameOptExpr ρ dim) vl st)
      rfl rfl rfl m v hv hb) with ⟨e1, e2⟩ | ⟨a, w, e1, e2, hw, hb2⟩
    · rw [e1, e2]; exact True.intro
    · rw [e1, e2]
      have hN2 : ∀ n ∈ tyNames base, N n := fun n hn => hN n (by simpa [tyNames] using hn)
      exact accept_sim hinj env base (a.emit (env.enc.array ++ "0")) w hN2 hw hb2
  | .ReferenceType q base, m, v, hN, hv, hb => by
    rw [renameTy, accept, accept]
    refine simOpt_cleanup m v ?_
    have P : SimOpt N ρ
        (printQualifiers env.enc (.ReferenceType q base) noAssertions
          (m.setInFunctionType true))
        (printQualifiers env.enc (.ReferenceType q (renameTy ρ base)) noAssertions
          ((m.setVarNums v).setInFunctionType true)) :=
      printQualifiers_sim env.enc (.ReferenceType q base) (.ReferenceType q (renameTy ρ base))
        rfl rfl rfl (m.setInFunctionType true) v hv hb
    rcases simOpt_cases P with ⟨e1, e2⟩ | ⟨a, w, e1, e2, hw, hb2⟩
    · rw [e1, e2]; exact True.intro
    · rw [e1, e2]
      have hN2 : ∀ n ∈ tyNames base, N n := fun n hn => hN n (by simpa [tyNames] using hn)
      exact accept_sim hinj env base a w hN2 hw hb2
  | .FunctionType q fa assertions returns params va, m, v, hN, hv, hb => by
    have hfa : ∀ d ∈ fa, N d.name := fun d hd => hN d.name (by
      simp only [tyNames, List.mem_append, List.mem_map]
      exact Or.inl ⟨d, hd, rfl⟩)
    have hA : ∀ n ∈ declsNames assertions, N n := fun n hn => hN n (by
      simp only [tyNames, List.mem_append]
      exact Or.inr (Or.inl hn))
    have hR : ∀ n ∈ tysNames returns, N n := fun n hn => hN n (by
      simp only [tyNames, List.mem_append]
      exact Or.inr (Or.inr (Or.inl hn)))
    have hP : ∀ n ∈ tysNames params, N n := fun n hn => hN n (by
      simp only [tyNames, List.mem_append]
      exact Or.inr (Or.inr (Or.inr hn)))
    exact accept_function_sim hinj env q fa assertions returns params va m v hfa hv
      (fun n hn hne => Or.inl (hb n hn hne))
      (fun mo tm gp nv w1 w2 hw hb2 =>
        readAssertions_sim hinj env assertions mo tm gp nv w1 w2 hA hw hb2)
      (fun a w hw hb2 => accept_each_sim hinj env returns a w hR hw hb2)
      (fun a w hw hb2 => accept_each_sim hinj env params a w hP hw hb2)
  | .StructInstType q name params, m, v, hN, hv, hb => by
    rw [renameTy, accept, accept]
    refine simOpt_cleanup m v ?_
    rw [renameExprs_isEmpty]
    have hN2 : ∀ n ∈ exprsNames params, N n := fun n hn => hN n (by simpa [tyNames] using hn)
    exact mangleRef_sim env.enc (.StructInstType q name params)
      (.StructInstType q name (renameExprs ρ params)) rfl rfl rfl name params.isEmpty
      _ _ env.enc.struct_t
      (fun a w hw hb2 => acceptParams_sim hinj env params a w hN2 hw hb2) m v hv hb
  | .UnionInstType q name params, m, v, hN, hv, hb => by
    rw [renameTy, accept, accept]
    refine simOpt_cleanup m v ?_
    rw [renameExprs_isEmpty]
    have hN2 : ∀ n ∈ exprsNames params, N n := fun n hn => hN n (by simpa [tyNames] using hn)
    exact mangleRef_sim env.enc (.UnionInstType q name params)
      (.UnionInstType q name (renameExprs ρ params)) rfl rfl rfl name params.isEmpty
      _ _ env.enc.union_t
      (fun a w hw hb2 => acceptParams_sim hinj env params a w hN2 hw hb2) m v hv hb
  | .EnumInstType q name params eb, m, v, hN, hv, hb => by
    rw [renameTy, accept, accept]
    refine simOpt_cleanup m v ?_
    rw [renameExprs_isEmpty]
    have hN2 : ∀ n ∈ exprsNames params, N n := fun n hn => hN n (by simpa [tyNames] using hn)
    exact mangleRef_sim env.enc (.EnumInstType q name params eb)
      (.EnumInstType q name (renameExprs ρ params) eb) rfl rfl rfl name params.isEmpty
      _ _ env.enc.enum_t
      (fun a w hw hb2 => acceptParams_sim hinj env params a w hN2 hw hb2) m v hv hb
  | .TypeInstType q name params kind, m, v, hN, hv, hb => by
    rw [renameTy, accept, accept]
    refine simOpt_cleanup m v ?_
    have hname : N name := hN name (by simp [tyNames])
    have hN2 : ∀ n ∈ exprsNames params, N n := fun n hn => hN n (by
      simp only [tyNames, List.mem_cons]
      exact Or.inr hn)
    have hl : (m.setVarNums v).varNums.lookup (ρ name) = m.varNums.lookup name := hv name hname
    rw [hl]
    cases hlk : m.varNums.lookup name with
    | none =>
      have hfix : ρ name = name := by
        by_contra hne
        have := hb name hname hne
        rw [hlk] at this
        cases this
      simp only []
      rw [renameExprs_isEmpty, hfix]
      exact mangleRef_sim env.enc (.TypeInstType q name params kind)
        (.TypeInstType q name (renameExprs ρ params) kind) rfl rfl rfl name params.isEmpty
        _ _ env.enc.type
        (fun a w hw hb2 => acceptParams_sim hinj env params a w hN2 hw hb2) m v hv hb
    | some varNum =>
      simp only []
      rcases simOpt_cases (printQualifiers_sim env.enc (.TypeInstType q name params kind)
        (.TypeInstType q (ρ name) (renameExprs ρ params) kind)
        rfl rfl rfl m v hv hb) with ⟨e1, e2⟩ | ⟨a, w, e1, e2, hw, hb2⟩
      · rw [e1, e2]; exact True.intro
      · rw [e1, e2]; exact ⟨w, rfl, hw, hb2⟩
  | .TraitInstType q name params, m, v, hN, hv, hb => by
    rw [renameTy, accept, accept]
    refine simOpt_cleanup m v ?_
    rcases simOpt_cases (printQualifiers_sim env.enc (.TraitInstType q name params)
      (.TraitInstType q name (renameExprs ρ params))
      rfl rfl rfl m v hv hb) with ⟨e1, e2⟩ | ⟨a, w, e1, e2, hw, hb2⟩
    · rw [e1, e2]; exact True.intro
    · rw [e1, e2]; exact ⟨w, rfl, hw, hb2⟩
  | .TupleType q types, m, v, hN, hv, hb => by
    rw [renameTy, accept, accept]
    refine simOpt_cleanup m v ?_
    rcases simOpt_cases (printQualifiers_sim env.enc (.TupleType q types)
      (.TupleType q (renameTys ρ types))
      rfl rfl rfl m v hv hb) with ⟨e1, e2⟩ | ⟨a, w, e1, e2, hw, hb2⟩
    · rw [e1, e2]; exact True.intro
    · rw [e1, e2, renameTys_length]
      have hN2 : ∀ n ∈ tysNames types, N n := fun n hn => hN n (by simpa [tyNames] using hn)
      exact accept_each_sim hinj env types (a.emit (env.enc.tuple ++ toString types.length)) w
        hN2 hw hb2
  | .VarArgsType q, m, v, hN, hv, hb => by
    rw [renameTy, accept, accept]
    refine simOpt_cleanup m v ?_
    rcases simOpt_cases (printQualifiers_sim env.enc (.VarArgsType q) (.VarArgsType q)
      rfl rfl rfl m v hv hb) with ⟨e1, e2⟩ | ⟨a, w, e1, e2, hw, hb2⟩
    · rw [e1, e2]; exact True.intro
    · rw [e1, e2]; exact ⟨w, rfl, hw, hb2⟩
  | .ZeroType q, m, v, hN, hv, hb => by
    rw [renameTy, accept, accept]
    exact simOpt_cleanup m v ⟨v, rfl, hv, hb⟩
  | .OneType q, m, v, hN, hv, hb => by
    rw [renameTy, accept, accept]
    exact simOpt_cleanup m v ⟨v, rfl, hv, hb⟩
  | .GlobalScopeType, m, v, hN, hv, hb => by
    rw [renameTy, accept, accept]
    exact simOpt_cleanup m v ⟨v, rfl, hv, hb⟩
  | .TypeofType q expr b, m, v, hN, hv, hb => by
    rw [renameTy, accept, accept]
    exact simOpt_cleanup m v ⟨v, rfl, hv, hb⟩
  | .VTableType q base, m, v, hN, hv, hb => by
    rw [renameTy, accept, accept]
    exact simOpt_cleanup m v ⟨v, rfl, hv, hb⟩
  | .QualifiedType q parent child, m, v, hN, hv, hb => by
    rw [renameTy, accept, accept]
    refine simOpt_cleanup m v ?_
    have hN1 : ∀ n ∈ tyNames parent, N n := fun n hn => hN n (by
      simp only [tyNames, List.mem_append]
      exact Or.inl hn)
    have hN2 : ∀ n ∈ tyNames child, N n := fun n hn => hN n (by
      simp only [tyNames, List.mem_append]
      exact Or.inr hn)
    have e0 : (m.setVarNums v).inQualifiedType = m.inQualifiedType := rfl
    rw [e0, qualifiedStart_setVarNums]
    have P := accept_sim hinj env parent (qualifiedStart env.enc m.inQualifiedType m) v hN1
      (by rw [qualifiedStart_varNums]; exact hv) (by rw [qualifiedStart_varNums]; exact hb)
    rcases simOpt_cases P with ⟨e1, e2⟩ | ⟨a, w, e1, e2, hw, hb2⟩
    · rw [e1, e2]; exact True.intro
    · rw [e1, e2]
      simp only []
      rcases simOpt_cases (accept_sim hinj env child a w hN2 hw hb2)
        with ⟨e1, e2⟩ | ⟨a2, w2, e1, e2, hw2, hb3⟩
      · rw [e1, e2]; exact True.intro
      · rw [e1, e2]
        refine ⟨w2, qualifiedEnd_setVarNums _ _ _ _, ?_, ?_⟩
        · rw [qualifiedEnd_varNums]; exact hw2
        · rw [qualifiedEnd_varNums]; exact hb3

/-- The visits of a list of types and of its renaming correspond. -/
theorem accept_each_sim {N : String → Prop} {ρ : String → String}
    (hinj : ∀ a b, N a → N b → ρ a = ρ b → a = b) (env : Env) :
    ∀ (ts : List Ty) (m : Mangler) (v : VarMapType), (∀ n ∈ tysNames ts, N n) →
      VRel N ρ m.varNums v → Bound N ρ m.varNums →
      SimOpt N ρ (accept_each env ts m) (accept_each env (renameTys ρ ts) (m.setVarNums v))
  | [], m, v, hN, hv, hb => by
    rw [renameTys, accept_each, accept_each]
    exact ⟨v, rfl, hv, hb⟩
  | t :: ts, m, v, hN, hv, hb => by
    rw [renameTys, accept_each, accept_each]
    have hN1 : ∀ n ∈ tyNames t, N n := fun n hn => hN n (by
      simp only [tysNames, List.mem_append]
      exact Or.inl hn)
    have hN2 : ∀ n ∈ tysNames ts, N n := fun n hn => hN n (by
      simp only [tysNames, List.mem_append]
      exact Or.inr hn)
    rcases simOpt_cases (accept_sim hinj env t m v hN1 hv hb)
      with ⟨e1, e2⟩ | ⟨a, w, e1, e2, hw, hb2⟩
    · rw [e1, e2]; exact True.intro
    · rw [e1, e2]
      exact accept_each_sim hinj env ts a w hN2 hw hb2

/-- The visits of the parameters of an instance and of their renaming correspond. -/
theorem acceptParams_sim {N : String → Prop} {ρ : String → String}
    (hinj : ∀ a b, N a → N b → ρ a = ρ b → a = b) (env : Env) :
    ∀ (ps : List Expr) (m : Mangler) (v : VarMapType), (∀ n ∈ exprsNames ps, N n) →
      VRel N ρ m.varNums v → Bound N ρ m.varNums →
      SimOpt N ρ (acceptParams env ps m)
        (acceptParams env (renameExprs ρ ps) (m.setVarNums v))
  | [], m, v, hN, hv, hb => by
    rw [renameExprs, acceptParams, acceptParams]
    exact ⟨v, rfl, hv, hb⟩
  | .TypeExpr t :: rest, m, v, hN, hv, hb => by
    rw [renameExprs, renameExpr, acceptParams, acceptParams]
    have hN1 : ∀ n ∈ tyNames t, N n := fun n hn => hN n (by
      simp only [exprsNames, List.mem_append]
      exact Or.inl hn)
    have hN2 : ∀ n ∈ exprsNames rest, N n := fun n hn => hN n (by
      simp only [exprsNames, List.mem_append]
      exact Or.inr hn)
    rcases simOpt_cases (accept_sim hinj env t m v hN1 hv hb)
      with ⟨e1, e2⟩ | ⟨a, w, e1, e2, hw, hb2⟩
    · rw [e1, e2]; exact True.intro
    · rw [e1, e2]
      exact acceptParams_sim hinj env rest a w hN2 hw hb2
  | .Other text :: rest, m, v, hN, hv, hb => by
    rw [renameExprs, renameExpr, acceptParams, acceptParams]
    exact True.intro

/-- The mangling of a declaration by a nested mangler and of its renaming correspond. -/
theorem mangleDecl_sim {N : String → Prop} {ρ : String → String}
    (hinj : ∀ a b, N a → N b → ρ a = ρ b → a = b) (env : Env) :
    ∀ (d : DeclWithType) (m : Mangler) (v : VarMapType), m.isTopLevel = false →
      (∀ n ∈ tyNames d.get_type, N n) →
      VRel N ρ m.varNums v → Bound N ρ m.varNums →
      SimOpt N ρ (mangleDecl env d m) (mangleDecl env (renameDecl ρ d) (m.setVarNums v))
  | .mk name linkage type, m, v, htl, hN, hv, hb => by
    rw [renameDecl, mangleDecl, mangleDecl]
    rw [mangleDeclBegin_setVarNums env name m v htl]
    have P := accept_sim hinj env type (mangleDeclBegin env name m) v hN
      (by rw [mangleDeclBegin_varNums env name m htl]; exact hv)
      (by rw [mangleDeclBegin_varNums env name m htl]; exact hb)
    rcases simOpt_cases P with ⟨e1, e2⟩ | ⟨a, w, e1, e2, hw, hb2⟩
    · rw [e1, e2]; exact True.intro
    · rw [e1, e2]
      exact mangleDeclEnd_sim env.enc linkage m.isTopLevel a w hw hb2

/-- The names that the nested manglers read off the assertions and off their renaming are
the same. -/
theorem readAssertions_sim {N : String → Prop} {ρ : String → String}
    (hinj : ∀ a b, N a → N b → ρ a = ρ b → a = b) (env : Env) :
    ∀ (as : List DeclWithType) (mo tm gp : Bool) (nv : Int) (w1 w2 : VarMapType),
      (∀ n ∈ declsNames as, N n) → VRel N ρ w1 w2 → Bound N ρ w1 →
      readAssertions env (renameDecls ρ as) mo tm gp nv w2
        = readAssertions env as mo tm gp nv w1
  | [], mo, tm, gp, nv, w1, w2, hN, hv, hb => by
    rw [renameDecls, readAssertions, readAssertions]
  | .mk name linkage type :: rest, mo, tm, gp, nv, w1, w2, hN, hv, hb => by
    rw [renameDecls, readAssertions, readAssertions]
    have hN1 : ∀ n ∈ tyNames (DeclWithType.mk name linkage type).get_type, N n :=
      fun n hn => hN n (by
        simp only [declsNames, List.mem_append]
        exact Or.inl hn)
    have hN2 : ∀ n ∈ declsNames rest, N n := fun n hn => hN n (by
      simp only [declsNames, List.mem_append]
      exact Or.inr hn)
    have P : SimOpt N ρ
        (mangleDecl env (.mk name linkage type) (Mangler.nested mo tm gp nv w1))
        (mangleDecl env (renameDecl ρ (.mk name linkage type))
          (Mangler.nested mo tm gp nv w2)) :=
      mangleDecl_sim hinj env (.mk name linkage type) (Mangler.nested mo tm gp nv w1) w2 rfl
        hN1 hv hb
    rw [readAssertions_sim hinj env rest mo tm gp nv w1 w2 hN2 hv hb]
    rcases simOpt_cases P with ⟨e1, e2⟩ | ⟨a, w, e1, e2, hw, hb2⟩
    · rw [e1, e2]
    · rw [e1, e2]
      rfl

end

end Mangle

namespace Mangle


theorem mangleDeclBegin_ofMode_varNums (env : Env) (name : String) (mode : Mode) :
    (mangleDeclBegin env name (Mangler.ofMode mode)).varNums = [] := by
  unfold mangleDeclBegin
  cases env.operatorLookup name <;> rfl

theorem mangleDeclBegin_typeMode (env : Env) (name : String) (m : Mangler) :
    (mangleDeclBegin env name m).typeMode = m.typeMode := by
  unfold mangleDeclBegin
  cases h : m.isTopLevel <;> cases env.operatorLookup name <;> rfl

/-- **C1.** In a mode other than type mode, renaming the type variables of a function
declaration does not change the result of `Mangle::mangle`: for every renaming `ρ` of
names that is injective on the type-variable names of the function type (no capture) and
moves only names of the `forall` list of the function type, the declaration whose type has
every `forall` name and every use of a type variable sent through `ρ` (kinds, order and
positions as they were) mangles to the same result, failure included. -/
theorem forall_renaming_invariant (env : Env) (ρ : String → String) (name : String)
    (linkage : Linkage.Spec) (q : CV.Qualifiers) (fa : List TypeDecl)
    (assertions : List DeclWithType) (returns params : List Ty) (va : Bool) (mode : Mode)
    (hmode : mode.type = false)
    (hinj : ∀ a ∈ tyNames (.FunctionType q fa assertions returns params va),
      ∀ b ∈ tyNames (.FunctionType q fa assertions returns params va), ρ a = ρ b → a = b)
    (hfix : ∀ a ∈ tyNames (.FunctionType q fa assertions returns params va),
      a ∉ fa.map (fun d => d.name) → ρ a = a) :
    mangle env (.decl (.mk name linkage
        (renameTy ρ (.FunctionType q fa assertions returns params va)))) mode
      = mangle env (.decl (.mk name linkage
        (.FunctionType q fa assertions returns params va))) mode := by
  have hinj2 : ∀ a b, a ∈ tyNames (.FunctionType q fa assertions returns params va) →
      b ∈ tyNames (.FunctionType q fa assertions returns params va) → ρ a = ρ b → a = b :=
    fun a b ha hb => hinj a ha b hb
  have hfa : ∀ d ∈ fa, d.name ∈ tyNames (.FunctionType q fa assertions returns params va) :=
    fun d hd => by
      simp only [tyNames, List.mem_append, List.mem_map]
      exact Or.inl ⟨d, hd, rfl⟩
  have hA : ∀ n ∈ declsNames assertions,
      n ∈ tyNames (.FunctionType q fa assertions returns params va) := fun n hn => by
    simp only [tyNames, List.mem_append]
    exact Or.inr (Or.inl hn)
  have hR : ∀ n ∈ tysNames returns,
      n ∈ tyNames (.FunctionType q fa assertions returns params va) := fun n hn => by
    simp only [tyNames, List.mem_append]
    exact Or.inr (Or.inr (Or.inl hn))
  have hP : ∀ n ∈ tysNames params,
      n ∈ tyNames (.FunctionType q fa assertions returns params va) := fun n hn => by
    simp only [tyNames, List.mem_append]
    exact Or.inr (Or.inr (Or.inr hn))
  have h0 := mangleDeclBegin_ofMode_varNums env name mode
  have htm : (mangleDeclBegin env name (Mangler.ofMode mode)).typeMode = false := by
    rw [mangleDeclBegin_typeMode]
    exact hmode
  have hv : VRel (fun n => n ∈ tyNames (.FunctionType q fa assertions returns params va)) ρ
      (mangleDeclBegin env name (Mangler.ofMode mode)).varNums
      (mangleDeclBegin env name (Mangler.ofMode mode)).varNums := by
    rw [h0]
    intro n _
    rfl
  have S : SimOpt (fun n => n ∈ tyNames (.FunctionType q fa assertions returns params va)) ρ
      (accept env (.FunctionType q fa assertions returns params va)
        (mangleDeclBegin env name (Mangler.ofMode mode)))
      (accept env (renameTy ρ (.FunctionType q fa assertions returns params va))
        (mangleDeclBegin env name (Mangler.ofMode mode))) :=
    accept_function_sim hinj2 env q fa assertions returns params va
      (mangleDeclBegin env name (Mangler.ofMode mode))
      (mangleDeclBegin env name (Mangler.ofMode mode)).varNums hfa hv
      (fun n hn hne => Or.inr ⟨htm, by
        by_contra hc
        refine hne (hfix n hn ?_)
        intro hmem
        obtain ⟨d, hd, rfl⟩ := List.mem_map.mp hmem
        exact hc ⟨d, hd, rfl⟩⟩)
      (fun mo tm gp nv w1 w2 hw hb =>
        readAssertions_sim hinj2 env assertions mo tm gp nv w1 w2 hA hw hb)
      (fun a w hw hb => accept_each_sim hinj2 env returns a w hR hw hb)
      (fun a w hw hb => accept_each_sim hinj2 env params a w hP hw hb)
  unfold mangle
  simp only []
  rw [mangleDecl, mangleDecl]
  rcases simOpt_cases S with ⟨e1, e2⟩ | ⟨a, w, e1, e2, hw, hb⟩
  · rw [e1, e2]
  · rw [e1, e2]
    exact simOpt_result
      (mangleDeclEnd_sim env.enc linkage (Mangler.ofMode mode).isTopLevel a w hw hb)

/-- The declarations `forall( dtype T ) void f( T )` and `forall( dtype S ) void f( S )`
mangle identically in the default mode. -/
theorem forall_renaming_invariant_witness :
    renameTy renameTS typeForallT
        = .FunctionType CV.none [⟨"S", .Dtype⟩] [] [] [.TypeInstType CV.none "S" [] .Dtype]
          false
      ∧ mangle sampleEnv (.decl (.mk "f" Linkage.Cforall (renameTy renameTS typeForallT)))
          Mode.default
        = mangle sampleEnv (.decl (.mk "f" Linkage.Cforall typeForallT)) Mode.default
      ∧ mangle sampleEnv (.decl (.mk "f" Linkage.Cforall typeForallT)) Mode.default
        = some "_X1fQ1_0_0_0__Fv_BD0_" :=
  ⟨by simp [renameTy, renameTS, typeForallT, renameForall, renameTys, renameDecls,
      renameExprs], forall_renaming_invariant sampleEnv renameTS "f" Linkage.Cforall CV.none
    [⟨"T", .Dtype⟩] [] [] [.TypeInstType CV.none "T" [] .Dtype] false Mode.default rfl
    (by decide) (by decide), by decide⟩

end Mangle

/-! ## The accepted shapes of `main` -/

namespace CodeGen
open Mangle

theorem getMangledNameOf0ParameterMain_type (env : Env) :
    getMangledNameOf0ParameterMain env
      = Mangle.mangle env (.decl (FunctionDecl "main" [] [] [] [makeIntObj]
          Linkage.Spec.empty true)) Mangle.Type_ := by
  unfold getMangledNameOf0ParameterMain getMangledNameOfMain
  simp only [mangle, FunctionDecl, makeIntObj, mangleDecl, mangleDeclBegin, Mangler.ofMode,
    Mode.default, Type_]
  cases env.operatorLookup "main" <;> rfl

theorem getMangledNameOf2ParameterMain_type (env : Env) :
    getMangledNameOf2ParameterMain env
      = Mangle.mangle env (.decl (FunctionDecl "main" [] []
          [makeIntObj, makeCharStarStarObj] [makeIntObj] Linkage.Spec.empty false))
          Mangle.Type_ := by
  unfold getMangledNameOf2ParameterMain getMangledNameOfMain
  simp only [mangle, FunctionDecl, makeIntObj, makeCharStarStarObj, mangleDecl,
    mangleDeclBegin, Mangler.ofMode, Mode.default, Type_]
  cases env.operatorLookup "main" <;> rfl

theorem getMangledNameOf0ParameterMain_isSome (env : Env) :
    (getMangledNameOf0ParameterMain env).isSome = true := by
  unfold getMangledNameOf0ParameterMain getMangledNameOfMain
  simp only [mangle, FunctionDecl, makeIntObj, mangleDecl, mangleDeclBegin, Mangler.ofMode,
    Mode.default]
  cases env.operatorLookup "main" <;> rfl

theorem getMangledNameOf2ParameterMain_isSome (env : Env) :
    (getMangledNameOf2ParameterMain env).isSome = true := by
  unfold getMangledNameOf2ParameterMain getMangledNameOfMain
  simp only [mangle, FunctionDecl, makeIntObj, makeCharStarStarObj, mangleDecl,
    mangleDeclBegin, Mangler.ofMode, Mode.default]
  cases env.operatorLookup "main" <;> rfl

/-- **C15.** The two declarations that `getMangledNameOfMain` builds, the `main` without
parameters and the `main` of a signed int and a pointer to pointer to char, are mangled in
the default mode, and each has, under every token table and operator table, the mangled
name that it has in type mode, the mode in which `isMain` mangles the candidate; both
manglings return a name. -/
theorem synthetic_mains_same_in_type_mode (env : Env) :
    (getMangledNameOf0ParameterMain env
        = Mangle.mangle env (.decl (FunctionDecl "main" [] [] [] [makeIntObj]
            Linkage.Spec.empty true)) Mangle.Type_
      ∧ (getMangledNameOf0ParameterMain env).isSome = true)
    ∧ (getMangledNameOf2ParameterMain env
        = Mangle.mangle env (.decl (FunctionDecl "main" [] []
            [makeIntObj, makeCharStarStarObj] [makeIntObj] Linkage.Spec.empty false))
            Mangle.Type_
      ∧ (getMangledNameOf2ParameterMain env).isSome = true) :=
  ⟨⟨getMangledNameOf0ParameterMain_type env, getMangledNameOf0ParameterMain_isSome env⟩,
    ⟨getMangledNameOf2ParameterMain_type env, getMangledNameOf2ParameterMain_isSome env⟩⟩

/-- In type mode a `main` without parameters that returns a signed int has the name of
the first accepted shape, whatever its qualifiers, `forall` list, assertions and
variadic flag, when its linkage is not overrideable. -/
theorem mangle_main0 (env : Env) (linkage : Linkage.Spec)
    (hl : linkage.is_overrideable = false) (q qr : CV.Qualifiers) (fa : List TypeDecl)
    (assertions : List DeclWithType) (va : Bool) :
    Mangle.mangle env (.decl (.mk "main" linkage
        (.FunctionType q fa assertions [.BasicType qr .SignedInt] [] va))) Mangle.Type_
      = getMangledNameOf0ParameterMain env := by
  obtain ⟨ln, lo⟩ := linkage
  simp only at hl
  subst hl
  unfold getMangledNameOf0ParameterMain getMangledNameOfMain
  simp only [mangle, FunctionDecl, makeIntObj, mangleDecl, mangleDeclBegin, Mangler.ofMode,
    Mode.default, Type_]
  cases env.operatorLookup "main" <;> rfl

/-- In type mode a `main` of a signed int and a pointer to pointer to char that returns a
signed int has the name of the second accepted shape. -/
theorem mangle_main2 (env : Env) (linkage : Linkage.Spec)
    (hl : linkage.is_overrideable = false) (q qr q1 q2 q3 q4 : CV.Qualifiers)
    (fa : List TypeDecl) (assertions : List DeclWithType) (va : Bool)
    (d2 d3 : Option Expr) (v2 s2 v3 s3 : Bool) :
    Mangle.mangle env (.decl (.mk "main" linkage
        (.FunctionType q fa assertions [.BasicType qr .SignedInt]
          [.BasicType q1 .SignedInt,
            .PointerType q2 (.PointerType q3 (.BasicType q4 .Char) d3 v3 s3) d2 v2 s2] va)))
        Mangle.Type_
      = getMangledNameOf2ParameterMain env := by
  obtain ⟨ln, lo⟩ := linkage
  simp only at hl
  subst hl
  unfold getMangledNameOf2ParameterMain getMangledNameOfMain
  simp only [mangle, FunctionDecl, makeIntObj, makeCharStarStarObj, mangleDecl,
    mangleDeclBegin, Mangler.ofMode, Mode.default, Type_]
  cases env.operatorLookup "main" <;> rfl

theorem is_main_first (env : Env) :
    (getMangledNameOf0ParameterMain env).bind (is_main env) = some true := by
  have h0 := getMangledNameOf0ParameterMain_isSome env
  have h2 := getMangledNameOf2ParameterMain_isSome env
  unfold is_main
  cases e0 : getMangledNameOf0ParameterMain env with
  | none => rw [e0] at h0; cases h0
  | some a =>
    cases e2 : getMangledNameOf2ParameterMain env with
    | none => rw [e2] at h2; cases h2
    | some b => simp

theorem is_main_second (env : Env) :
    (getMangledNameOf2ParameterMain env).bind (is_main env) = some true := by
  have h0 := getMangledNameOf0ParameterMain_isSome env
  have h2 := getMangledNameOf2ParameterMain_isSome env
  unfold is_main
  cases e0 : getMangledNameOf0ParameterMain env with
  | none => rw [e0] at h0; cases h0
  | some a =>
    cases e2 : getMangledNameOf2ParameterMain env with
    | none => rw [e2] at h2; cases h2
    | some b =>
      simp only [Option.some_bind]
      split <;> simp

theorem isMain_eq_bind (env : Env) (linkage : Linkage.Spec) (t : Ty) :
    FixMain.isMain env (.mk "main" linkage t)
      = (Mangle.mangle env (.decl (.mk "main" linkage t)) Mangle.Type_).bind (is_main env) := by
  unfold FixMain.isMain
  simp only [DeclWithType.name, ne_eq, not_true_eq_false, if_false]
  cases Mangle.mangle env (.decl (.mk "main" linkage t)) Mangle.Type_ <;> rfl

/-- **C12.** `FixMain::isMain` returns true for every function declaration named `main`
whose linkage is not overrideable, that returns a single signed int and has no parameter
(variadic or not) or the two parameters signed int and pointer to pointer to char;
whatever the qualifiers of the types, the array-like fields of the pointers, the `forall`
list and the assertions, under every token table and operator table. -/
theorem isMain_accepts (env : Env) (linkage : Linkage.Spec)
    (hl : linkage.is_overrideable = false) (q qr : CV.Qualifiers) (fa : List TypeDecl)
    (assertions : List DeclWithType) (va : Bool) (params : List Ty)
    (hp : params = [] ∨ ∃ (q1 q2 q3 q4 : CV.Qualifiers) (d2 d3 : Option Expr)
      (v2 s2 v3 s3 : Bool), params = [.BasicType q1 .SignedInt,
        .PointerType q2 (.PointerType q3 (.BasicType q4 .Char) d3 v3 s3) d2 v2 s2]) :
    FixMain.isMain env (.mk "main" linkage
      (.FunctionType q fa assertions [.BasicType qr .SignedInt] params va)) = some true := by
  rw [isMain_eq_bind]
  rcases hp with rfl | ⟨q1, q2, q3, q4, d2, d3, v2, s2, v3, s3, rfl⟩
  · rw [mangle_main0 env linkage hl]
    exact is_main_first env
  · rw [mangle_main2 env linkage hl]
    exact is_main_second env

/-- Under the sample tokens `int main()`, variadic, and `int main( int, char ** )` are
accepted. -/
theorem isMain_accepts_witness :
    FixMain.isMain sampleEnv (.mk "main" Linkage.Cforall
        (.FunctionType CV.none [] [] [.BasicType CV.none .SignedInt] [] true)) = some true
    ∧ FixMain.isMain sampleEnv (.mk "main" Linkage.Cforall
        (.FunctionType CV.none [] [] [.BasicType CV.none .SignedInt]
          [.BasicType CV.none .SignedInt,
            .PointerType CV.none
              (.PointerType CV.none (.BasicType CV.none .Char) none false false)
              none false false] false)) = some true :=
  ⟨isMain_accepts sampleEnv Linkage.Cforall rfl CV.none CV.none [] [] true [] (Or.inl rfl),
    by decide⟩

end CodeGen

/-! ## Declarations that are not an entry point -/

namespace CodeGen
open Mangle

theorem chars_ne_main0 (R S : List Char) : R ++ '_' :: 'i' :: '_' :: S ≠ ['i', '_', '_'] := by
  intro h
  have hl := congrArg List.length h
  simp only [List.length_append, List.length_cons, List.length_nil] at hl
  have hR : R = [] := List.length_eq_zero.mp (by omega)
  subst hR
  simp at h

theorem chars_ne_main2 (R S Z : List Char) (hS : ¬ ['c', '_'] <:+ S) :
    R ++ '_' :: 'i' :: '_' :: S ≠ Z ++ ['c', '_'] := by
  intro h
  match S, hS, h with
  | [], _, h =>
    have e : R ++ ['_', 'i', '_'] = (R ++ ['_']) ++ ['i', '_'] := by simp
    rw [e] at h
    have := List.append_inj_right' h rfl
    simp at this
  | [a], _, h =>
    have e : R ++ ['_', 'i', '_', a] = (R ++ ['_', 'i']) ++ ['_', a] := by simp
    rw [e] at h
    have := List.append_inj_right' h rfl
    simp at this
  | a :: b :: T, hS, h =>
    refine hS (List.suffix_of_suffix_length_le
      (⟨Z, rfl⟩ : ['c', '_'] <:+ Z ++ ['c', '_']) ?_ ?_)
    · rw [← h]
      exact ⟨R ++ ['_', 'i', '_'], by simp⟩
    · simp

theorem getMangledNameOf0ParameterMain_eq (env : Env) :
    getMangledNameOf0ParameterMain env
      = some ((mangleDeclBegin env "main" (Mangler.ofMode Type_)).mangleName
          ++ env.enc.function ++ "i" ++ "_" ++ "_") := by
  unfold getMangledNameOf0ParameterMain getMangledNameOfMain
  simp only [mangle, FunctionDecl, makeIntObj, mangleDecl, mangleDeclBegin, Mangler.ofMode,
    Mode.default, Type_]
  cases env.operatorLookup "main" <;> rfl

theorem getMangledNameOf2ParameterMain_eq (env : Env) :
    getMangledNameOf2ParameterMain env
      = some ((mangleDeclBegin env "main" (Mangler.ofMode Type_)).mangleName
          ++ env.enc.function ++ "i" ++ "_" ++ "i" ++ env.enc.pointer ++ env.enc.pointer
          ++ "c" ++ "_") := by
  unfold getMangledNameOf2ParameterMain getMangledNameOfMain
  simp only [mangle, FunctionDecl, makeIntObj, makeCharStarStarObj, mangleDecl,
    mangleDeclBegin, Mangler.ofMode, Mode.default, Type_]
  cases env.operatorLookup "main" <;> rfl

/-- In type mode, when the parameters of a function declaration are reached the name
constructed so far is the text of `mangleDecl` for the name, the function token, the text
of the return values and an underscore. -/
theorem paramsEntry_type_name {env : Env} {name : String} {q : CV.Qualifiers}
    {fa : List TypeDecl} {assertions : List DeclWithType} {returns : List Ty} {va : Bool}
    {m0 : Mangler}
    (h : paramsEntry env name q fa assertions returns va Type_ = some m0) :
    ∃ R : String, m0.mangleName
      = (mangleDeclBegin env name (Mangler.ofMode Type_)).mangleName ++ env.enc.function
        ++ R ++ "_" := by
  unfold paramsEntry at h
  rw [printQualifiers_typeMode _ _ _ _
    ((mangleDeclBegin_typeMode env name (Mangler.ofMode Type_)).trans rfl)] at h
  simp only [] at h
  by_cases hr : returns.isEmpty = true
  · simp only [hr, if_true, Option.some.injEq] at h
    exact ⟨env.enc.void_t, by rw [← h]; rfl⟩
  · simp only [hr, if_false] at h
    have e := equivariant_of_clear (equivariant_accept_each env returns)
      (((mangleDeclBegin env name (Mangler.ofMode Type_)).emit env.enc.function).setInFunctionType
        true)
    rw [e] at h
    cases hc : accept_each env returns
        (((mangleDeclBegin env name (Mangler.ofMode Type_)).emit
          env.enc.function).setInFunctionType true).clear with
    | none => rw [hc] at h; cases h
    | some x =>
      rw [hc] at h
      simp only [Option.map_some', Bool.false_eq_true, if_false, Option.some.injEq] at h
      exact ⟨x.mangleName, by rw [← h]; rfl⟩

/-- The name that `mangleDecl` ends with: nothing, or one of the two suffixes. -/
theorem afterParams_name {env : Env} {linkage : Linkage.Spec} {m : Mangler} {s : String}
    (h : afterParams env linkage m = some s) :
    ∃ sfx : String, s = m.mangleName ++ "_" ++ sfx
      ∧ (sfx = "" ∨ sfx = env.enc.autogen ∨ sfx = env.enc.intrinsic) := by
  unfold afterParams mangleDeclEnd at h
  simp only [] at h
  split at h
  · split at h
    · simp only [Option.map_some', Option.some.injEq] at h
      exact ⟨env.enc.autogen, by rw [← h]; rfl, Or.inr (Or.inl rfl)⟩
    · split at h
      · simp only [Option.map_some', Option.some.injEq] at h
        exact ⟨env.enc.intrinsic, by rw [← h]; rfl, Or.inr (Or.inr rfl)⟩
      · simp at h
  · simp only [Option.map_some', Option.some.injEq] at h
    refine ⟨"", ?_, Or.inl rfl⟩
    rw [← h]
    show (m.mangleName ++ "_") = m.mangleName ++ "_" ++ ""
    rw [String.append_empty]

/-- The mangled name, in type mode, of a function declaration whose only parameter is a
signed int. -/
theorem mangle_single_int {env : Env} {name : String} {linkage : Linkage.Spec}
    {q qi : CV.Qualifiers} {fa : List TypeDecl} {assertions : List DeclWithType}
    {returns : List Ty} {va : Bool} {s : String}
    (h : Mangle.mangle env (.decl (.mk name linkage
      (.FunctionType q fa assertions returns [.BasicType qi .SignedInt] va))) Type_ = some s) :
    ∃ R sfx : String, s = (mangleDeclBegin env name (Mangler.ofMode Type_)).mangleName
        ++ env.enc.function ++ R ++ "_" ++ "i" ++ "_" ++ sfx
      ∧ (sfx = "" ∨ sfx = env.enc.autogen ∨ sfx = env.enc.intrinsic) := by
  have hd := mangle_functionDecl_param env name linkage q fa assertions returns [] []
    (.BasicType qi .SignedInt) va Type_
  rw [List.nil_append] at hd
  rw [hd] at h
  cases h0 : paramsEntry env name q fa assertions returns va Type_ with
  | none => rw [h0] at h; cases h
  | some m0 =>
    rw [h0] at h
    obtain ⟨R, hR⟩ := paramsEntry_type_name h0
    have htm : m0.typeMode = true := paramsEntry_typeMode h0
    have ha : accept env (.BasicType qi .SignedInt) m0
        = some ((m0.emit "i").setInFunctionType m0.inFunctionType) := by
      rw [accept, printQualifiers_typeMode _ _ _ _ htm]
      rfl
    simp only [Option.some_bind, accept_each, ha] at h
    obtain ⟨sfx, hs, hsfx⟩ := afterParams_name h
    refine ⟨R, sfx, ?_, hsfx⟩
    rw [hs]
    show (m0.mangleName ++ "i") ++ "_" ++ sfx = _
    rw [hR]

/-- **C13.** `FixMain::isMain` returns false for every function declaration whose name
is not `main`, whatever its type, and for every function declaration named `main` whose
parameter list is a single signed int, whatever its return values, qualifiers, `forall`
list and linkage, once its mangling in type mode returns a name; the suffix tokens of
overrideable declarations are taken not to end in `c_`. -/
theorem isMain_rejects (env : Env) (name : String) (linkage : Linkage.Spec) (t : Ty)
    (hA : ¬ "c_".data <:+ env.enc.autogen.data)
    (hI : ¬ "c_".data <:+ env.enc.intrinsic.data)
    (h : name ≠ "main" ∨
      ((∃ (q qi : CV.Qualifiers) (fa : List TypeDecl) (assertions : List DeclWithType)
          (returns : List Ty) (va : Bool),
          t = .FunctionType q fa assertions returns [.BasicType qi .SignedInt] va)
        ∧ Mangle.mangle env (.decl (.mk name linkage t)) Type_ ≠ none)) :
    FixMain.isMain env (.mk name linkage t) = some false := by
  by_cases hn : name = "main"
  · subst hn
    rcases h with h | ⟨⟨q, qi, fa, assertions, returns, va, rfl⟩, hm⟩
    · exact absurd rfl h
    · rw [isMain_eq_bind]
      cases hs : Mangle.mangle env (.decl (.mk "main" linkage
          (.FunctionType q fa assertions returns [.BasicType qi .SignedInt] va))) Type_ with
      | none => exact absurd hs hm
      | some s =>
        obtain ⟨R, sfx, e, hsfx⟩ := mangle_single_int hs
        have hS : ¬ ['c', '_'] <:+ sfx.data := by
          rcases hsfx with rfl | rfl | rfl
          · decide
          · exact hA
          · exact hI
        simp only [Option.some_bind]
        unfold is_main
        rw [getMangledNameOf0ParameterMain_eq, getMangledNameOf2ParameterMain_eq]
        simp only []
        have n0 : (mangleDeclBegin env "main" (Mangler.ofMode Type_)).mangleName
            ++ env.enc.function ++ "i" ++ "_" ++ "_" ≠ s := by
          intro h0
          rw [e] at h0
          have hd := congrArg String.data h0
          simp only [String.data_append, List.append_assoc] at hd
          have hd2 := List.append_cancel_left (List.append_cancel_left hd)
          exact chars_ne_main0 R.data sfx.data hd2.symm
        have n2 : (mangleDeclBegin env "main" (Mangler.ofMode Type_)).mangleName
            ++ env.enc.function ++ "i" ++ "_" ++ "i" ++ env.enc.pointer ++ env.enc.pointer
            ++ "c" ++ "_" ≠ s := by
          intro h0
          rw [e] at h0
          have hd := congrArg String.data h0
          simp only [String.data_append, List.append_assoc] at hd
          have hd2 := List.append_cancel_left (List.append_cancel_left hd)
          refine chars_ne_main2 R.data sfx.data
            ('i' :: '_' :: 'i' :: (env.enc.pointer.data ++ env.enc.pointer.data)) hS ?_
          have hd3 : R.data ++ '_' :: 'i' :: '_' :: sfx.data
              = 'i' :: '_' :: 'i' :: (env.enc.pointer.data
                ++ (env.enc.pointer.data ++ ['c', '_'])) := hd2.symm
          rw [hd3]
          simp
        rw [if_neg n0, if_neg n2]
  · unfold FixMain.isMain
    simp only [DeclWithType.name]
    rw [if_pos (fun e => hn e.symm)]

/-- Under the sample tokens `int main( int )` is rejected. -/
theorem isMain_rejects_witness :
    FixMain.isMain sampleEnv (.mk "main" Linkage.Cforall
      (.FunctionType CV.none [] [] [.BasicType CV.none .SignedInt]
        [.BasicType CV.none .SignedInt] false)) = some false :=
  isMain_rejects sampleEnv "main" Linkage.Cforall _ (by decide) (by decide)
    (Or.inr ⟨⟨CV.none, CV.none, [], [], [.BasicType CV.none .SignedInt], false, rfl⟩,
      by decide⟩)

end CodeGen

/-! ## The search for the entry point -/


namespace CodeGen
open Mangle


theorem previsit_of_false {env : Env} {core : FindMainCore_new} {d : DeclWithType}
    (h : FixMain.isMain env d = some false) : core.previsit env d = .done core := by
  unfold FindMainCore_new.previsit
  rw [h]

theorem previsit_of_true_none {env : Env} {d : DeclWithType}
    (h : FixMain.isMain env d = some true) :
    FindMainCore_new.previsit env ⟨none⟩ d = .done ⟨some d⟩ := by
  unfold FindMainCore_new.previsit
  rw [h]

theorem previsit_of_true_some {env : Env} {d d0 : DeclWithType}
    (h : FixMain.isMain env d = some true) :
    FindMainCore_new.previsit env ⟨some d0⟩ d = .semanticError d multipleMain := by
  unfold FindMainCore_new.previsit
  rw [h]
  rfl

theorem isMain_cases {env : Env} {d : DeclWithType} (h : FixMain.isMain env d ≠ none) :
    FixMain.isMain env d = some true ∨ FixMain.isMain env d = some false := by
  cases e : FixMain.isMain env d with
  | none => exact absurd e h
  | some b => cases b <;> simp

/-- Once an entry point is recorded, the scan ends in the error at the next declaration
that `isMain` accepts, and records nothing else. -/
theorem findMain_some (env : Env) (d0 : DeclWithType) :
    ∀ tu : List DeclWithType, (∀ d ∈ tu, FixMain.isMain env d ≠ none) →
      findMain env tu ⟨some d0⟩ =
        match mains env tu with
        | [] => .done ⟨some d0⟩
        | d2 :: _ => .semanticError d2 multipleMain
  | [], _ => rfl
  | d :: tu, h => by
    have hd := h d (List.mem_cons_self _ _)
    have ht : ∀ x ∈ tu, FixMain.isMain env x ≠ none :=
      fun x hx => h x (List.mem_cons_of_mem _ hx)
    rw [findMain]
    rcases isMain_cases hd with e | e
    · rw [previsit_of_true_some e]
      simp [mains, List.filter_cons, e]
    · rw [previsit_of_false e]
      simp only [mains, List.filter_cons, e]
      exact findMain_some env d0 tu ht

/-- **C14.** The scan of the function declarations of a translation unit by
`FindMainCore_new`, from the null entry point, every declaration being one that `isMain`
can decide: when no declaration satisfies `isMain` the scan ends with the null entry
point; when exactly one does, the scan ends with that declaration recorded; when at least
two do, and only then, the scan ends in the error `Multiple definition of main routine`,
raised at the second such declaration, which ends the scan. -/
theorem findMain_outcome (env : Env) :
    ∀ tu : List DeclWithType, (∀ d ∈ tu, FixMain.isMain env d ≠ none) →
      findMain env tu ⟨none⟩ =
        match mains env tu with
        | [] => .done ⟨none⟩
        | [d1] => .done ⟨some d1⟩
        | _ :: d2 :: _ => .semanticError d2 multipleMain
  | [], _ => rfl
  | d :: tu, h => by
    have hd := h d (List.mem_cons_self _ _)
    have ht : ∀ x ∈ tu, FixMain.isMain env x ≠ none :=
      fun x hx => h x (List.mem_cons_of_mem _ hx)
    rw [findMain]
    rcases isMain_cases hd with e | e
    · rw [previsit_of_true_none e]
      simp only []
      rw [findMain_some env d tu ht]
      have em : mains env (d :: tu) = d :: mains env tu := by
        simp [mains, List.filter_cons, e]
      rw [em]
      cases mains env tu <;> rfl
    · rw [previsit_of_false e]
      simp only []
      rw [findMain_outcome env tu ht]
      have em : mains env (d :: tu) = mains env tu := by
        simp [mains, List.filter_cons, e]
      rw [em]

/-- The scan of `int main()`, `void f( int )`, `int main( int, char ** )`, `int main()`
raises the error once, at the third declaration. -/
theorem findMain_outcome_witness :
    (∀ d ∈ [declMain0, declF, declMain2, declMain0], FixMain.isMain sampleEnv d ≠ none)
    ∧ findMain sampleEnv [declMain0, declF, declMain2, declMain0] ⟨none⟩
      = (match mains sampleEnv [declMain0, declF, declMain2, declMain0] with
        | [] => .done ⟨none⟩
        | [d1] => .done ⟨some d1⟩
        | _ :: d2 :: _ => .semanticError d2 multipleMain)
    ∧ findMain sampleEnv [declMain0, declF, declMain2, declMain0] ⟨none⟩
      = .semanticError declMain2 multipleMain
    ∧ findMain sampleEnv [declF, declMain2, declF] ⟨none⟩ = .done ⟨some declMain2⟩
    ∧ findMain sampleEnv [declF, declF] ⟨none⟩ = .done ⟨none⟩ :=
  ⟨by decide, findMain_outcome sampleEnv _ (by decide), by rfl, by rfl, by rfl⟩

end CodeGen

/-! ## The declarator in parentheses -/


namespace CodeGen
open GenType_new

theorem front_cons (c : Char) (cs : List Char) : (String.mk (c :: cs)).front = c := by
  simp [String.front, String.get, String.utf8GetAux]

theorem declarator_eq_wrapped (s : String) : declarator s = wrapped s := by
  obtain ⟨l⟩ := s
  cases l with
  | nil => simp [declarator, wrapped]
  | cons c cs =>
    have hne : (String.mk (c :: cs)) ≠ "" := by
      intro h
      have := congrArg String.data h
      simp at this
    unfold declarator wrapped
    rw [if_pos hne, front_cons]
    simp only [hne, ne_eq, not_false_eq_true, true_and, List.head?_cons, Option.some.injEq]

theorem declarator_empty : declarator "" = "" := by
  simp [declarator]

theorem genArrayText_eq (env : GenEnv) (options : Options) (q : CV.Qualifiers)
    (dimension : Option Expr) (isVarLen isStatic : Bool) (s : String) :
    genArrayText env options q dimension isVarLen isStatic s
      = wrapped s ++ genArrayText env options q dimension isVarLen isStatic "" := by
  unfold genArrayText
  rw [declarator_empty, declarator_eq_wrapped]
  simp only []
  cases isStatic <;> cases q.is_const <;> cases q.is_volatile <;> cases q.is_restrict <;>
    cases q.is_atomic <;> cases dimension <;> cases isVarLen <;>
    simp [String.append_assoc]

theorem accept_function_eq (env : GenEnv) (options : Options) (q : CV.Qualifiers)
    (fa : List TypeDecl) (assertions : List DeclWithType) (returns params : List Ty)
    (va : Bool) (s : String) :
    accept env options (.FunctionType q fa assertions returns params va) s
      = (paramText env options params va).bind fun p =>
          (acceptFront env options returns (declarator s ++ p)).map fun r =>
            forallClause env options fa ++ r := by
  rw [accept]
  unfold paramText forallClause
  cases (if params.isEmpty then some (if va then "()" else "(void)")
         else (genParamList env options 0 params).map fun list =>
           "(" ++ list ++ (if va then ", ..." else "") ++ ")") with
  | none => rfl
  | some p =>
    simp only [Option.some_bind]
    cases acceptFront env options returns (declarator s ++ p) with
    | none => rfl
    | some r =>
      simp only [Option.map_some']
      split <;> simp

/-- **C16.** The parenthesization rule of the renderer. When an array node, a pointer
node with an array-like field, or a function node is visited with the declarator `s`
built so far, the brackets or the parameter list are appended to `wrapped s`, which is
`"(" ++ s ++ ")"` when `s` is not empty and starts with `*`, and `s` otherwise. Hence an
array of pointers to `T` named `x` is rendered as `T` from `*x[d]`, and a pointer to a
function named `x` gives the declarator `(*x)` followed by the parameter list. -/
theorem parenthesization_rule (env : GenEnv) (options : Options) (q : CV.Qualifiers)
    (base : Ty) (dimension : Option Expr) (isVarLen isStatic : Bool)
    (fa : List TypeDecl) (assertions : List DeclWithType) (returns params : List Ty)
    (va : Bool) (s : String) :
    (wrapped s = if s ≠ "" ∧ s.data.head? = some '*' then "(" ++ s ++ ")" else s)
    ∧ accept env options (.ArrayType q base dimension isVarLen isStatic) s
        = accept env options base
            (wrapped s ++ genArrayText env options q dimension isVarLen isStatic "")
    ∧ (arrayLike dimension isVarLen isStatic = true →
        accept env options (.PointerType q base dimension isVarLen isStatic) s
          = accept env options base
              (wrapped s ++ genArrayText env options q dimension isVarLen isStatic ""))
    ∧ accept env options (.FunctionType q fa assertions returns params va) s
        = (paramText env options params va).bind (fun p =>
            (acceptFront env options returns (wrapped s ++ p)).map fun r =>
              forallClause env options fa ++ r)
    ∧ (∀ d : Expr, accept env options
          (.ArrayType CV.none (.PointerType CV.none base none false false) (some d) false
            false) "x"
        = accept env options base ("*x[" ++ env.genDimension options d ++ "]"))
    ∧ accept env options
          (.PointerType CV.none (.FunctionType q fa assertions returns params va) none false
            false) "x"
        = (paramText env options params va).bind (fun p =>
            (acceptFront env options returns ("(*x)" ++ p)).map fun r =>
              forallClause env options fa ++ r) := by
  refine ⟨rfl, ?_, ?_, ?_, ?_, ?_⟩
  · rw [accept, genArrayText_eq]
  · intro h
    unfold arrayLike at h
    rw [accept, if_pos h, genArrayText_eq]
  · rw [accept_function_eq, declarator_eq_wrapped]
  · intro d
    rw [accept, accept]
    rfl
  · rw [accept]
    have e : (false || false || (none : Option Expr).isSome) = false := rfl
    rw [e]
    simp only [Bool.false_eq_true, if_false]
    have e2 : (if (handleQualifiers CV.none "x").front = '?'
        then "* " ++ handleQualifiers CV.none "x"
        else "*" ++ handleQualifiers CV.none "x") = "*x" := by decide
    rw [e2, accept_function_eq]
    have e3 : declarator "*x" = "(*x)" := by decide
    rw [e3]

/-- A pointer with the field `isVarLen` set, visited with the declarator `*x`, puts the
declarator in parentheses: `signed int (*x)[*]`; visited with `x` it does not. -/
theorem parenthesization_rule_witness :
    (arrayLike none true false = true
      ∧ accept sampleGenEnv ⟨false, true, false, false⟩
          (.PointerType CV.none (.BasicType CV.none .SignedInt) none true false) "*x"
        = accept sampleGenEnv ⟨false, true, false, false⟩ (.BasicType CV.none .SignedInt)
            (wrapped "*x" ++ genArrayText sampleGenEnv ⟨false, true, false, false⟩ CV.none none
              true false ""))
    ∧ accept sampleGenEnv ⟨false, true, false, false⟩
        (.PointerType CV.none (.BasicType CV.none .SignedInt) none true false) "*x"
      = some "signed int (*x)[*]"
    ∧ accept sampleGenEnv ⟨false, true, false, false⟩
        (.PointerType CV.none (.BasicType CV.none .SignedInt) none true false) "x"
      = some "signed int x[*]" :=
  ⟨⟨rfl, (parenthesization_rule sampleGenEnv ⟨false, true, false, false⟩ CV.none
      (.BasicType CV.none .SignedInt) none true false [] [] [] [] false "*x").2.2.1 rfl⟩,
    by decide, by decide⟩

/-- **C18.** The return part of a function type. Without return values the composed
declarator, which is the declarator built so far followed by the parameter list, gets the
prefix `"void "`; with return values only the first one is rendered: the result is that of
the function type whose return list is the first return value alone. -/
theorem only_first_return_rendered (env : GenEnv) (options : Options) (q : CV.Qualifiers)
    (fa : List TypeDecl) (assertions : List DeclWithType) (params : List Ty) (va : Bool)
    (s : String) :
    accept env options (.FunctionType q fa assertions [] params va) s
        = (paramText env options params va).map (fun p =>
            forallClause env options fa ++ ("void " ++ (declarator s ++ p)))
    ∧ ∀ (r1 : Ty) (rest : List Ty),
        accept env options (.FunctionType q fa assertions (r1 :: rest) params va) s
          = accept env options (.FunctionType q fa assertions [r1] params va) s := by
  constructor
  · rw [accept_function_eq]
    cases paramText env options params va with
    | none => rfl
    | some p => rfl
  · intro r1 rest
    rw [accept_function_eq, accept_function_eq]
    rfl

end CodeGen

/-! ## The parameter list of a function type -/


namespace CodeGen
open GenType_new

theorem intercalate_go_append (s : String) : ∀ (as : List String) (x acc : String),
    String.intercalate.go (x ++ acc) s as = x ++ String.intercalate.go acc s as
  | [], x, acc => rfl
  | a :: as, x, acc => by
    simp only [String.intercalate.go]
    rw [String.append_assoc, String.append_assoc, ← String.append_assoc acc s a]
    exact intercalate_go_append s as x (acc ++ s ++ a)

theorem intercalate_cons_cons (s a b : String) (r : List String) :
    s.intercalate (a :: b :: r) = a ++ s ++ s.intercalate (b :: r) := by
  simp only [String.intercalate, String.intercalate.go]
  exact intercalate_go_append s r (a ++ s) b

theorem paramRenderings_cons_ne_nil (env : GenEnv) (options : Options) (k : Nat) (t : Ty)
    (rest : List Ty) : paramRenderings env options k (t :: rest) ≠ some [] := by
  rw [paramRenderings]
  cases genType env t (if options.genC = true then env.newName k else "") options with
  | none => simp
  | some x => cases paramRenderings env options (k + 1) rest <;> simp

theorem genParamList_eq (env : GenEnv) (options : Options) : ∀ (ps : List Ty) (k : Nat),
    genParamList env options k ps
      = (paramRenderings env options k ps).map (", ".intercalate)
  | [], k => by
    rw [genParamList, paramRenderings]
    rfl
  | t :: rest, k => by
    rw [genParamList, paramRenderings]
    unfold genType
    cases accept env options t (if options.genC = true then env.newName k else "") with
    | none => rfl
    | some text =>
      simp only [Option.map_some']
      cases rest with
      | nil =>
        simp only [List.isEmpty_nil, if_true, paramRenderings, Option.map_some']
        rfl
      | cons t2 rest2 =>
        simp only [List.isEmpty_cons, Bool.false_eq_true, if_false]
        rw [genParamList_eq env options (t2 :: rest2) (k + 1)]
        cases hc : paramRenderings env options (k + 1) (t2 :: rest2) with
        | none => rfl
        | some texts =>
          cases texts with
          | nil => exact absurd hc (paramRenderings_cons_ne_nil env options _ _ _)
          | cons b r =>
            simp only [Option.map_some']
            rw [intercalate_cons_cons]

theorem paramText_eq_spec (env : GenEnv) (options : Options) (params : List Ty) (va : Bool) :
    paramText env options params va = paramListSpec env options params va := by
  unfold paramText paramListSpec
  cases params with
  | nil => rfl
  | cons t rest =>
    simp only [List.isEmpty_cons, Bool.false_eq_true, if_false]
    rw [genParamList_eq]
    cases paramRenderings env options 0 (t :: rest) <;> rfl

/-- **C19.** The parameter list of a rendered function type. For every function type and
every declarator `s` built so far, the text that follows the declarator is `()` when
there is no parameter and the function is variadic, `(void)` when there is no parameter
and it is not, and otherwise, in parentheses, the renderings of the parameters joined by
`", "` and followed by `", ..."` when the function is variadic; the return part and the
`forall` clause go around it. -/
theorem parameter_list_rendering (env : GenEnv) (options : Options) (q : CV.Qualifiers)
    (fa : List TypeDecl) (assertions : List DeclWithType) (returns params : List Ty)
    (va : Bool) (s : String) :
    accept env options (.FunctionType q fa assertions returns params va) s
      = (paramListSpec env options params va).bind fun p =>
          (acceptFront env options returns (declarator s ++ p)).map fun r =>
            forallClause env options fa ++ r := by
  rw [accept_function_eq, paramText_eq_spec]

end CodeGen

/-! ## Nodes of the source dialect, and a rendering fixed literally -/

namespace CodeGen
open GenType_new

theorem kind_lt_number (kind : BasicType.Kind) :
    kind.toCtorIdx < BasicType.NUMBER_OF_BASIC_TYPES := by
  cases kind <;> decide

mutual

/-- When C is not generated no visit fails. -/
theorem accept_isSome (env : GenEnv) (options : Options) (hc : options.genC = false) :
    ∀ (t : Ty) (s : String), (accept env options t s).isSome = true
  | .VoidType q, s => by rw [accept]; rfl
  | .BasicType q kind, s => by rw [accept, if_pos (kind_lt_number kind)]; rfl
  | .PointerType q base dimension isVarLen isStatic, s => by
    rw [accept]
    split
    · exact accept_isSome env options hc base _
    · exact accept_isSome env options hc base _
  | .ArrayType q base dimension isVarLen isStatic, s => by
    rw [accept]
    exact accept_isSome env options hc base _
  | .ReferenceType q base, s => by
    rw [accept, hc]
    simp only [Bool.false_eq_true, if_false]
    exact accept_isSome env options hc base _
  | .FunctionType q fa assertions returns params va, s => by
    rw [accept]
    have hp := genParamList_isSome env options hc params 0
    cases hg : genParamList env options 0 params with
    | none => rw [hg] at hp; cases hp
    | some list =>
      cases hpe : params.isEmpty with
      | true =>
        simp only [if_true]
        have hf := acceptFront_isSome env options hc returns
          (declarator s ++ (if va = true then "()" else "(void)"))
        cases hr : acceptFront env options returns
            (declarator s ++ (if va = true then "()" else "(void)")) with
        | none => rw [hr] at hf; cases hf
        | some r => rfl
      | false =>
        simp only [Bool.false_eq_true, if_false, Option.map_some']
        have hf := acceptFront_isSome env options hc returns
          (declarator s ++ ("(" ++ list ++ (if va = true then ", ..." else "") ++ ")"))
        cases hr : acceptFront env options returns
            (declarator s ++ ("(" ++ list ++ (if va = true then ", ..." else "") ++ ")")) with
        | none => rw [hr] at hf; cases hf
        | some r => rfl
  | .StructInstType q name params, s => by rw [accept]; rfl
  | .UnionInstType q name params, s => by rw [accept]; rfl
  | .EnumInstType q name params (some (some base)), s => by
    rw [accept]
    have hb := accept_isSome env options hc base s
    cases hr : accept env options base s with
    | none => rw [hr] at hb; cases hb
    | some r => rfl
  | .EnumInstType q name params (some none), s => by
    rw [accept]
    · rfl
    · intro b h
      cases h
  | .EnumInstType q name params none, s => by
    rw [accept]
    · rfl
    · intro b h
      cases h
  | .TypeInstType q name params kind, s => by rw [accept, hc]; rfl
  | .TraitInstType q name params, s => by rw [accept, hc]; rfl
  | .TupleType q types, s => by
    rw [accept, hc]
    simp only [Bool.false_eq_true, if_false]
    have hb := genTupleList_isSome env options hc types
    cases hr : genTupleList env options types with
    | none => rw [hr] at hb; cases hb
    | some r => rfl
  | .VarArgsType q, s => by rw [accept]; rfl
  | .ZeroType q, s => by rw [accept]; rfl
  | .OneType q, s => by rw [accept]; rfl
  | .GlobalScopeType, s => by rw [accept, hc]; rfl
  | .TypeofType q expr b, s => by rw [accept]; rfl
  | .VTableType q base, s => by
    rw [accept, hc]
    simp only [Bool.false_eq_true, if_false]
    have hb := accept_isSome env options hc base ""
    cases hr : accept env options base "" with
    | none => rw [hr] at hb; cases hb
    | some r => rfl
  | .QualifiedType q parent child, s => by
    rw [accept, hc]
    simp only [Bool.false_eq_true, if_false]
    have hp := accept_isSome env options hc parent ""
    have hch := accept_isSome env options hc child ""
    cases hr : accept env options parent "" with
    | none => rw [hr] at hp; cases hp
    | some r =>
      cases hr2 : accept env options child "" with
      | none => rw [hr2] at hch; cases hch
      | some r2 => rfl

theorem acceptFront_isSome (env : GenEnv) (options : Options) (hc : options.genC = false) :
    ∀ (ts : List Ty) (s : String), (acceptFront env options ts s).isSome = true
  | [], s => by rw [acceptFront]; rfl
  | t :: _, s => by
    rw [acceptFront]
    exact accept_isSome env options hc t s

theorem genParamList_isSome (env : GenEnv) (options : Options) (hc : options.genC = false) :
    ∀ (ts : List Ty) (k : Nat), (genParamList env options k ts).isSome = true
  | [], k => by rw [genParamList]; rfl
  | t :: rest, k => by
    rw [genParamList]
    have hb := accept_isSome env options hc t (if options.genC = true then env.newName k else "")
    cases hr : accept env options t (if options.genC = true then env.newName k else "") with
    | none => rw [hr] at hb; cases hb
    | some r =>
      simp only []
      split
      · rfl
      · have hl := genParamList_isSome env options hc rest (k + 1)
        cases hr2 : genParamList env options (k + 1) rest with
        | none => rw [hr2] at hl; cases hl
        | some l => rfl

theorem genTupleList_isSome (env : GenEnv) (options : Options) (hc : options.genC = false) :
    ∀ (ts : List Ty), (genTupleList env options ts).isSome = true
  | [] => by rw [genTupleList]; rfl
  | t :: rest => by
    rw [genTupleList]
    have hb := accept_isSome env options hc t ""
    cases hr : accept env options t "" with
    | none => rw [hr] at hb; cases hb
    | some r =>
      have hl := genTupleList_isSome env options hc rest
      cases hr2 : genTupleList env options rest with
      | none => rw [hr2] at hl; cases hl
      | some l => rfl

end

/-- **C20.** The nodes of the source dialect. For every node that is an instance of a
type variable or of a trait, the global scope, a reference, a qualified type or a virtual
table, and every base string: rendering it fails when `genC` is set, with and without the
attributes, and succeeds when `genC` is not set. -/
theorem source_dialect_nodes (env : GenEnv) (options : Options) (t : Ty)
    (ht : sourceDialectOnly t = true) (s : String) :
    (options.genC = true →
      genTypeNoAttr env t s options = none ∧ genType env t s options = none)
    ∧ (options.genC = false →
      (genTypeNoAttr env t s options).isSome = true
        ∧ (genType env t s options).isSome = true) := by
  constructor
  · intro hc
    have h : accept env options t s = none := by
      cases t <;> simp only [sourceDialectOnly, Bool.false_eq_true] at ht <;>
        rw [accept, hc] <;> rfl
    unfold genTypeNoAttr genType
    rw [h]
    exact ⟨rfl, rfl⟩
  · intro hc
    have h := accept_isSome env options hc t s
    unfold genTypeNoAttr genType
    refine ⟨h, ?_⟩
    cases hr : accept env options t s with
    | none => rw [hr] at h; cases h
    | some r => rfl

/-- A reference to a signed int named `x` is not rendered when C is generated, and is
rendered as `signed int &x` otherwise. -/
theorem source_dialect_nodes_witness :
    sourceDialectOnly (.ReferenceType CV.none (.BasicType CV.none .SignedInt)) = true
    ∧ ((⟨false, true, false, false⟩ : Options).genC = true →
        genTypeNoAttr sampleGenEnv (.ReferenceType CV.none (.BasicType CV.none .SignedInt)) "x"
            ⟨false, true, false, false⟩ = none
          ∧ genType sampleGenEnv (.ReferenceType CV.none (.BasicType CV.none .SignedInt)) "x"
            ⟨false, true, false, false⟩ = none)
    ∧ genType sampleGenEnv (.ReferenceType CV.none (.BasicType CV.none .SignedInt)) "x"
        ⟨false, false, false, false⟩ = some "signed int &x" :=
  ⟨rfl, (source_dialect_nodes sampleGenEnv ⟨false, true, false, false⟩
      (.ReferenceType CV.none (.BasicType CV.none .SignedInt)) rfl "x").1, by decide⟩

/-- **C17 (amended).** The type pointer to array of signed int, unqualified, whose
dimension is printed as `3`, without attributes, is rendered from the name `x` as
`signed int (*x)[3]`, under every choice of the options: the table `typeNames` calls the
kind `signed int`. -/
theorem pointer_to_array_rendering (env : GenEnv) (options : Options) (d : Expr)
    (hd : env.genDimension options d = "3")
    (ha : env.genAttributes options (pointerToArray d) = "") :
    genType env (pointerToArray d) "x" options = some "signed int (*x)[3]" := by
  unfold genType pointerToArray
  unfold pointerToArray at ha
  rw [ha]
  simp only [accept, genArrayText, hd]
  decide

/-- The rendering with the sample collaborators. -/
theorem pointer_to_array_rendering_witness :
    genType sampleGenEnv (pointerToArray (.Other "3")) "x" ⟨false, true, false, false⟩
      = some "signed int (*x)[3]" :=
  pointer_to_array_rendering sampleGenEnv ⟨false, true, false, false⟩ (.Other "3") rfl rfl

/-- Counterexample to C17 as stated: the rendering of pointer to array of 3 signed int
named `x` is `signed int (*x)[3]`, not `int (*x)[3]`. -/
theorem pointer_to_array_not_int :
    genType sampleGenEnv (pointerToArray (.Other "3")) "x" ⟨false, false, false, false⟩
        = some "signed int (*x)[3]"
    ∧ genType sampleGenEnv (pointerToArray (.Other "3")) "x" ⟨false, false, false, false⟩
        ≠ some "int (*x)[3]" := by
  decide

end CodeGen

/-! ## Decimal numbers followed by an underscore -/

namespace Mangle

theorem digitChar_value : ∀ k, k < 10 → (Nat.digitChar k).toNat - 48 = k := by decide

theorem digitChar_ne_underscore : ∀ k, k < 10 → Nat.digitChar k ≠ '_' := by decide

theorem toDigitsCore_append : ∀ (fuel n : Nat) (ds : List Char),
    Nat.toDigitsCore 10 fuel n ds = Nat.toDigitsCore 10 fuel n [] ++ ds
  | 0, n, ds => rfl
  | fuel + 1, n, ds => by
    simp only [Nat.toDigitsCore]
    split
    · rfl
    · rw [toDigitsCore_append fuel (n / 10) (Nat.digitChar (n % 10) :: ds),
        toDigitsCore_append fuel (n / 10) [Nat.digitChar (n % 10)]]
      simp

theorem toDigitsCore_value : ∀ (fuel n : Nat), n < fuel →
    (Nat.toDigitsCore 10 fuel n []).foldl (fun a c => 10 * a + (c.toNat - 48)) 0 = n
  | 0, n, h => absurd h (Nat.not_lt_zero n)
  | fuel + 1, n, h => by
    simp only [Nat.toDigitsCore]
    split
    · rename_i h0
      have hn : n < 10 := by omega
      simp only [List.foldl_cons, List.foldl_nil, Nat.mul_zero, Nat.zero_add]
      rw [Nat.mod_eq_of_lt hn]
      exact digitChar_value n hn
    · rename_i h0
      rw [toDigitsCore_append, List.foldl_append]
      have hlt : n / 10 < fuel := by omega
      rw [toDigitsCore_value fuel (n / 10) hlt]
      simp only [List.foldl_cons, List.foldl_nil]
      rw [digitChar_value (n % 10) (Nat.mod_lt n (by decide))]
      omega

theorem toDigitsCore_no_underscore : ∀ (fuel n : Nat) (ds : List Char), '_' ∉ ds →
    '_' ∉ Nat.toDigitsCore 10 fuel n ds
  | 0, n, ds, h => h
  | fuel + 1, n, ds, h => by
    have hd : '_' ∉ Nat.digitChar (n % 10) :: ds := by
      intro hm
      rcases List.mem_cons.mp hm with e | e
      · exact digitChar_ne_underscore (n % 10) (Nat.mod_lt n (by decide)) e.symm
      · exact h e
    simp only [Nat.toDigitsCore]
    split
    · exact hd
    · exact toDigitsCore_no_underscore fuel (n / 10) _ hd

theorem toString_data (n : Nat) : (toString n).data = Nat.toDigits 10 n := rfl

theorem toDigits_injective {a b : Nat} (h : Nat.toDigits 10 a = Nat.toDigits 10 b) : a = b := by
  have ha := toDigitsCore_value (a + 1) a (Nat.lt_succ_self a)
  have hb := toDigitsCore_value (b + 1) b (Nat.lt_succ_self b)
  unfold Nat.toDigits at h
  rw [h, hb] at ha
  exact ha.symm

theorem toDigits_no_underscore (n : Nat) : '_' ∉ Nat.toDigits 10 n :=
  toDigitsCore_no_underscore (n + 1) n [] (List.not_mem_nil _)

theorem split_at_underscore : ∀ (l1 l2 x y : List Char), '_' ∉ l1 → '_' ∉ l2 →
    l1 ++ '_' :: x = l2 ++ '_' :: y → l1 = l2 ∧ x = y
  | [], [], x, y, _, _, h => by
    simp only [List.nil_append, List.cons.injEq, true_and] at h
    exact ⟨rfl, h⟩
  | [], c :: l2, x, y, _, h2, h => by
    simp only [List.nil_append, List.cons_append, List.cons.injEq] at h
    exact absurd (List.mem_cons.mpr (Or.inl h.1)) h2
  | c :: l1, [], x, y, h1, _, h => by
    simp only [List.nil_append, List.cons_append, List.cons.injEq] at h
    exact absurd (List.mem_cons.mpr (Or.inl h.1.symm)) h1
  | c :: l1, d :: l2, x, y, h1, h2, h => by
    simp only [List.cons_append, List.cons.injEq] at h
    obtain ⟨e, ih⟩ := split_at_underscore l1 l2 x y
      (fun hm => h1 (List.mem_cons_of_mem _ hm)) (fun hm => h2 (List.mem_cons_of_mem _ hm)) h.2
    exact ⟨by rw [h.1, e], ih⟩

/-- A decimal number followed by an underscore is read off the front of a text in one way
only. -/
theorem decimal_underscore_cancel {a b : Nat} {x y : String}
    (h : toString a ++ "_" ++ x = toString b ++ "_" ++ y) : a = b ∧ x = y := by
  have hd := congrArg String.data h
  simp only [String.data_append, List.append_assoc, toString_data] at hd
  obtain ⟨e1, e2⟩ := split_at_underscore _ _ x.data y.data (toDigits_no_underscore a)
    (toDigits_no_underscore b) hd
  exact ⟨toDigits_injective e1, String.ext e2⟩

end Mangle

/-! ## The kinds of the type variables -/

namespace Mangle

theorem forallLoop_counts (nv : Int) : ∀ (fa : List TypeDecl) (c : ForallCounts)
    (v : VarMapType) (c' : ForallCounts) (v' : VarMapType),
    forallLoop nv fa c v = some (c', v') →
      c'.dcount = c.dcount + fa.countP (fun d => decide (d.kind = .Dtype))
      ∧ c'.fcount = c.fcount + fa.countP (fun d => decide (d.kind = .Ftype))
      ∧ c'.vcount = c.vcount + fa.countP (fun d => decide (d.kind = .Ttype))
  | [], c, v, c', v', h => by
    simp only [forallLoop, Option.some.injEq, Prod.mk.injEq] at h
    rw [← h.1]
    simp
  | ⟨n, k⟩ :: rest, c, v, c', v', h => by
    cases k <;> simp only [forallLoop] at h
    all_goals first
      | cases h
      | (have ih := forallLoop_counts nv rest _ _ c' v' h
         simp only [List.countP_cons, decide_True, decide_False, if_true, if_false,
           reduceCtorEq] at ih ⊢
         omega)

theorem forallLoop_kinds (nv : Int) : ∀ (fa : List TypeDecl) (c : ForallCounts)
    (v : VarMapType) (c' : ForallCounts) (v' : VarMapType),
    forallLoop nv fa c v = some (c', v') →
      ∀ d ∈ fa, d.kind = .Dtype ∨ d.kind = .Ftype ∨ d.kind = .Ttype
  | [], c, v, c', v', h, d, hd => absurd hd (List.not_mem_nil _)
  | ⟨n, k⟩ :: rest, c, v, c', v', h, d, hd => by
    rcases List.mem_cons.mp hd with rfl | hd2
    · cases k <;> simp only [forallLoop] at h <;> first | cases h | simp
    · cases k <;> simp only [forallLoop] at h
      all_goals first
        | cases h
        | exact forallLoop_kinds nv rest _ _ c' v' h d hd2

theorem grows_of_equivariant {F : Mangler → Option Mangler} (hF : Equivariant F)
    {m m' : Mangler} (h : F m = some m') : ∃ w : String, m'.mangleName = m.mangleName ++ w := by
  rw [equivariant_of_clear hF m] at h
  cases hc : F m.clear with
  | none => rw [hc] at h; cases h
  | some x =>
    rw [hc] at h
    simp only [Option.map_some', Option.some.injEq] at h
    exact ⟨x.mangleName, by rw [← h]; rfl⟩

theorem printCV_grows (enc : Encoding) (q : CV.Qualifiers) (m : Mangler) :
    ∃ w : String, (printCV enc q m).mangleName = m.mangleName ++ w := by
  have e : printCV enc q m = (printCV enc q m.clear).pre m.mangleName := by
    conv_lhs => rw [← Mangler.pre_clear m]
    exact printCV_pre enc q _ _
  exact ⟨(printCV enc q m.clear).mangleName, by rw [e]; rfl⟩

/-- Outside type mode the name of a function declaration with a `forall` list that is
not empty starts with the text of `mangleDecl` for the name, the token `forall_` and the
counts of the kinds. -/
theorem paramsEntry_forall_name {env : Env} {name : String} {q : CV.Qualifiers}
    {fa : List TypeDecl} {assertions : List DeclWithType} {returns : List Ty} {va : Bool}
    {mode : Mode} {m0 : Mangler} (hmode : mode.type = false) (hfa : fa ≠ [])
    (h : paramsEntry env name q fa assertions returns va mode = some m0) :
    ∃ (c : ForallCounts) (v : VarMapType) (names : List String) (w : String),
      forallLoop (mangleDeclBegin env name (Mangler.ofMode mode)).nextVarNum fa ⟨0, 0, 0⟩
          (mangleDeclBegin env name (Mangler.ofMode mode)).varNums = some (c, v)
      ∧ m0.mangleName = (mangleDeclBegin env name (Mangler.ofMode mode)).mangleName
          ++ env.enc.forall_ ++ forallText c names ++ w := by
  unfold paramsEntry printQualifiers at h
  have htm : (mangleDeclBegin env name (Mangler.ofMode mode)).typeMode = false :=
    (mangleDeclBegin_typeMode env name (Mangler.ofMode mode)).trans hmode
  rw [htm] at h
  simp only [Bool.false_eq_true, if_false] at h
  unfold printForall at h
  have hne : fa.isEmpty = false := by
    cases fa with
    | nil => exact absurd rfl hfa
    | cons a l => rfl
  simp only [Ty.isFunctionType, Ty.forallList, hne, Bool.not_false, Bool.and_self,
    if_true] at h
  cases hl : forallLoop (mangleDeclBegin env name (Mangler.ofMode mode)).nextVarNum fa
      ⟨0, 0, 0⟩ (mangleDeclBegin env name (Mangler.ofMode mode)).varNums with
  | none => rw [hl] at h; cases h
  | some cv =>
    obtain ⟨c, v⟩ := cv
    rw [hl] at h
    simp only [] at h
    cases hr : readAssertions env assertions (!mode.no_overrideable) mode.type
        (!mode.no_generic_params) 0 v with
    | none => rw [hr] at h; cases h
    | some names =>
      rw [hr] at h
      simp only [Option.map_some', Ty.quals] at h
      obtain ⟨w1, hw1⟩ := printCV_grows env.enc q
        ((((mangleDeclBegin env name (Mangler.ofMode mode)).emit env.enc.forall_).setVarNums
          v).emit (forallText c names))
      generalize printCV env.enc q
        ((((mangleDeclBegin env name (Mangler.ofMode mode)).emit env.enc.forall_).setVarNums
          v).emit (forallText c names)) = y at h hw1
      have hy : y.mangleName = (mangleDeclBegin env name (Mangler.ofMode mode)).mangleName
          ++ env.enc.forall_ ++ forallText c names ++ w1 := hw1
      by_cases hre : returns.isEmpty = true
      · simp only [hre, if_true, Option.some.injEq] at h
        refine ⟨c, v, names, w1 ++ env.enc.function ++ env.enc.void_t ++ "_", rfl, ?_⟩
        rw [← h]
        show y.mangleName ++ env.enc.function ++ env.enc.void_t ++ "_" = _
        rw [hy]
        simp only [String.append_assoc]
      · simp only [hre, Bool.false_eq_true, if_false] at h
        cases ha : accept_each env returns ((y.emit env.enc.function).setInFunctionType true) with
        | none => rw [ha] at h; cases h
        | some z =>
          rw [ha] at h
          simp only [Option.some.injEq] at h
          obtain ⟨w2, hw2⟩ := grows_of_equivariant (equivariant_accept_each env returns) ha
          refine ⟨c, v, names, w1 ++ env.enc.function ++ w2 ++ "_", rfl, ?_⟩
          rw [← h]
          show z.mangleName ++ "_" = _
          rw [hw2]
          show y.mangleName ++ env.enc.function ++ w2 ++ "_" = _
          rw [hy]
          simp only [String.append_assoc]

theorem mangle_forall_name {env : Env} {name : String} {linkage : Linkage.Spec}
    {q : CV.Qualifiers} {fa : List TypeDecl} {assertions : List DeclWithType}
    {returns params : List Ty} {va : Bool} {mode : Mode} {s : String}
    (hmode : mode.type = false) (hfa : fa ≠ [])
    (h : mangle env (.decl (.mk name linkage
      (.FunctionType q fa assertions returns params va))) mode = some s) :
    ∃ (c : ForallCounts) (v : VarMapType) (names : List String) (w : String),
      forallLoop (mangleDeclBegin env name (Mangler.ofMode mode)).nextVarNum fa ⟨0, 0, 0⟩
          (mangleDeclBegin env name (Mangler.ofMode mode)).varNums = some (c, v)
      ∧ s = (mangleDeclBegin env name (Mangler.ofMode mode)).mangleName
          ++ env.enc.forall_ ++ forallText c names ++ w := by
  rw [mangle_functionDecl] at h
  cases h0 : paramsEntry env name q fa assertions returns va mode with
  | none => rw [h0] at h; cases h
  | some m0 =>
    rw [h0] at h
    simp only [] at h
    cases h1 : accept_each env params m0 with
    | none => rw [h1] at h; cases h
    | some m1 =>
      rw [h1] at h
      simp only [] at h
      obtain ⟨c, v, names, w, hl, hn⟩ := paramsEntry_forall_name hmode hfa h0
      obtain ⟨w2, hw2⟩ := grows_of_equivariant (equivariant_accept_each env params) h1
      obtain ⟨sfx, hs, _⟩ := CodeGen.afterParams_name h
      refine ⟨c, v, names, w ++ w2 ++ "_" ++ sfx, hl, ?_⟩
      rw [hs, hw2, hn]
      simp only [String.append_assoc]

theorem forallText_cancel {c1 c2 : ForallCounts} {n1 n2 : List String} {r1 r2 : String}
    (h : forallText c1 n1 ++ r1 = forallText c2 n2 ++ r2) : c1 = c2 := by
  unfold forallText at h
  simp only [String.append_assoc] at h
  obtain ⟨e1, h⟩ := decimal_underscore_cancel (by simpa only [String.append_assoc] using h)
  obtain ⟨e2, h⟩ := decimal_underscore_cancel (by simpa only [String.append_assoc] using h)
  obtain ⟨e3, h⟩ := decimal_underscore_cancel (by simpa only [String.append_assoc] using h)
  obtain ⟨d1, f1, v1⟩ := c1
  obtain ⟨d2, f2, v2⟩ := c2
  simp only at e1 e2 e3
  rw [e1, e2, e3]

/-- **C11.** Outside type mode two function declarations that differ in the kind of one
parameter of the `forall` list have different mangled names, once the first is mangled at
all: the counts of the kinds in the header of the `forall` list differ. The assertions,
return values and parameters of the second declaration are left free, so that the uses of
the type variable may carry the new kind. -/
theorem forall_kind_distinguished (env : Env) (name : String) (linkage : Linkage.Spec)
    (q : CV.Qualifiers) (before after : List TypeDecl) (n : String)
    (k1 k2 : TypeDecl.Kind) (assertions1 assertions2 : List DeclWithType)
    (returns1 returns2 params1 params2 : List Ty) (va : Bool) (mode : Mode)
    (hmode : mode.type = false) (hk : k1 ≠ k2)
    (hs : mangle env (.decl (.mk name linkage (.FunctionType q (before ++ ⟨n, k1⟩ :: after)
      assertions1 returns1 params1 va))) mode ≠ none) :
    mangle env (.decl (.mk name linkage (.FunctionType q (before ++ ⟨n, k1⟩ :: after)
        assertions1 returns1 params1 va))) mode
      ≠ mangle env (.decl (.mk name linkage (.FunctionType q (before ++ ⟨n, k2⟩ :: after)
        assertions2 returns2 params2 va))) mode := by
  intro he
  cases h1 : mangle env (.decl (.mk name linkage (.FunctionType q (before ++ ⟨n, k1⟩ :: after)
      assertions1 returns1 params1 va))) mode with
  | none => exact hs h1
  | some s =>
    have h2 := he.symm.trans h1
    obtain ⟨c1, v1, names1, w1, hl1, hn1⟩ := mangle_forall_name hmode (by simp) h1
    obtain ⟨c2, v2, names2, w2, hl2, hn2⟩ := mangle_forall_name hmode (by simp) h2
    have hc : c1 = c2 := by
      have e := hn1.symm.trans hn2
      simp only [String.append_assoc] at e
      exact forallText_cancel (string_append_left_cancel (string_append_left_cancel e))
    obtain ⟨a1, a2, a3⟩ := forallLoop_counts _ _ _ _ _ _ hl1
    obtain ⟨b1, b2, b3⟩ := forallLoop_counts _ _ _ _ _ _ hl2
    subst hc
    rw [a1] at b1
    rw [a2] at b2
    rw [a3] at b3
    simp only [List.countP_append, List.countP_cons] at b1 b2 b3
    have hk1 := forallLoop_kinds _ _ _ _ _ _ hl1 ⟨n, k1⟩ (by simp)
    have hk2 := forallLoop_kinds _ _ _ _ _ _ hl2 ⟨n, k2⟩ (by simp)
    simp only at hk1 hk2
    rcases hk1 with rfl | rfl | rfl <;> rcases hk2 with rfl | rfl | rfl <;>
      first
        | exact hk rfl
        | (simp at b1 b2 b3)

/-- The declarations `forall( dtype T ) void f( T )` and `forall( ftype T ) void f( T )`
have different mangled names in the default mode. -/
theorem forall_kind_distinguished_witness :
    mangle sampleEnv (.decl (.mk "f" Linkage.Cforall
        (.FunctionType CV.none ([] ++ ⟨"T", .Dtype⟩ :: []) [] []
          [.TypeInstType CV.none "T" [] .Dtype] false))) Mode.default
      ≠ mangle sampleEnv (.decl (.mk "f" Linkage.Cforall
        (.FunctionType CV.none ([] ++ ⟨"T", .Ftype⟩ :: []) [] []
          [.TypeInstType CV.none "T" [] .Ftype] false))) Mode.default
    ∧ mangle sampleEnv (.decl (.mk "f" Linkage.Cforall
        (.FunctionType CV.none [⟨"T", .Dtype⟩] [] []
          [.TypeInstType CV.none "T" [] .Dtype] false))) Mode.default
      = some "_X1fQ1_0_0_0__Fv_BD0_"
    ∧ mangle sampleEnv (.decl (.mk "f" Linkage.Cforall
        (.FunctionType CV.none [⟨"T", .Ftype⟩] [] []
          [.TypeInstType CV.none "T" [] .Ftype] false))) Mode.default
      = some "_X1fQ0_1_0_0__Fv_BF0_" :=
  ⟨forall_kind_distinguished sampleEnv "f" Linkage.Cforall CV.none [] [] "T" .Dtype .Ftype
      [] [] [] [] [.TypeInstType CV.none "T" [] .Dtype] [.TypeInstType CV.none "T" [] .Ftype]
      false Mode.default rfl (by decide) (by decide),
    by decide, by decide⟩

end Mangle

/-! ## The qualifier keywords of the renderer, and the aggregate instances -/


namespace CodeGen
open GenType_new

theorem handleQualifiers_eq (q : CV.Qualifiers) (s : String) :
    handleQualifiers q s = qualifierKeywords q ++ s := by
  obtain ⟨c, r, v, m, a⟩ := q
  cases c <;> cases r <;> cases v <;> cases a <;>
    simp only [handleQualifiers, qualifierKeywords, if_true, if_false, Bool.false_eq_true,
      String.append_assoc, String.empty_append, String.append_empty]

theorem aggregate_text (options : Options) (keyword text : String) :
    (if options.genC = true then keyword ++ text else text)
      = aggregateKeyword options keyword ++ text := by
  unfold aggregateKeyword
  cases options.genC <;> simp

/-- **C21 (amended).** For every leaf node (void, basic type, instance of a struct, a
union or an enum without a base type) the keywords of its qualifiers stand in front of
the name of the type, in the order `_Atomic`, `__restrict`, `volatile`, `const`: each
keyword is put in front of the text built so far, `const` first. -/
theorem qualifier_keywords_in_front (env : GenEnv) (options : Options) (q : CV.Qualifiers)
    (s : String) :
    qualifierKeywords q
        = (if q.is_atomic then "_Atomic " else "")
          ++ (if q.is_restrict then "__restrict " else "")
          ++ (if q.is_volatile then "volatile " else "")
          ++ (if q.is_const then "const " else "")
    ∧ accept env options (.VoidType q) s = some (qualifierKeywords q ++ ("void " ++ s))
    ∧ (∀ kind : BasicType.Kind, accept env options (.BasicType q kind) s
        = some (qualifierKeywords q
            ++ (BasicType.typeNames.getD kind.toCtorIdx "" ++ " " ++ s)))
    ∧ (∀ (name : String) (params : List Expr),
        accept env options (.StructInstType q name params) s
          = some (qualifierKeywords q ++ (aggregateKeyword options "struct "
              ++ (name ++ handleGeneric env options params ++ " " ++ s))))
    ∧ (∀ (name : String) (params : List Expr),
        accept env options (.UnionInstType q name params) s
          = some (qualifierKeywords q ++ (aggregateKeyword options "union "
              ++ (name ++ handleGeneric env options params ++ " " ++ s))))
    ∧ (∀ (name : String) (params : List Expr),
        accept env options (.EnumInstType q name params none) s
          = some (qualifierKeywords q ++ (aggregateKeyword options "enum "
              ++ (name ++ " " ++ s))))
    ∧ (∀ (name : String) (params : List Expr),
        accept env options (.EnumInstType q name params (some none)) s
          = some (qualifierKeywords q ++ (aggregateKeyword options "enum "
              ++ (name ++ " " ++ s)))) := by
  refine ⟨rfl, ?_, ?_, ?_, ?_, ?_, ?_⟩
  · rw [accept, handleQualifiers_eq]
  · intro kind
    rw [accept, if_pos (kind_lt_number kind), handleQualifiers_eq]
  · intro name params
    rw [accept]
    rw [handleQualifiers_eq, aggregate_text]
  · intro name params
    rw [accept]
    rw [handleQualifiers_eq, aggregate_text]
  · intro name params
    rw [accept]
    · rw [handleQualifiers_eq, aggregate_text]
    · intro b h
      cases h
  · intro name params
    rw [accept]
    · rw [handleQualifiers_eq, aggregate_text]
    · intro b h
      cases h

/-- Counterexample to C21 as stated: a const volatile signed int named `x` is rendered as
`volatile const signed int x`, with `volatile` before `const`. -/
theorem const_after_volatile :
    genType sampleGenEnv (.BasicType ⟨true, false, true, false, false⟩ .SignedInt) "x"
      ⟨false, false, false, false⟩ = some "volatile const signed int x" := by
  decide

/-- **C23.** An unqualified instance of a struct or of a union with the name `n` and
without generic parameters is rendered from the base string `b` as `n ++ " " ++ b` when
`genC` is not set and as that text after the keyword `struct ` or `union ` when it is. -/
theorem aggregate_instance_rendering (env : GenEnv) (pretty lineMarks printExprTypes : Bool)
    (n b : String) :
    genTypeNoAttr env (.StructInstType CV.none n []) b
        ⟨pretty, false, lineMarks, printExprTypes⟩ = some (n ++ " " ++ b)
    ∧ genTypeNoAttr env (.StructInstType CV.none n []) b
        ⟨pretty, true, lineMarks, printExprTypes⟩ = some ("struct " ++ n ++ " " ++ b)
    ∧ genTypeNoAttr env (.UnionInstType CV.none n []) b
        ⟨pretty, false, lineMarks, printExprTypes⟩ = some (n ++ " " ++ b)
    ∧ genTypeNoAttr env (.UnionInstType CV.none n []) b
        ⟨pretty, true, lineMarks, printExprTypes⟩ = some ("union " ++ n ++ " " ++ b) := by
  unfold genTypeNoAttr
  refine ⟨?_, ?_, ?_, ?_⟩ <;>
    simp [accept, handleQualifiers, handleGeneric, CV.none, String.append_assoc]

/-- **C24 (amended).** An instance of an enum, rendered from the base string `b`. When
the declaration is there and has a base type, the rendering is the keywords of the
qualifiers of the node in front of `genType` of the base type from `b`, and the name of
the enum plays no part. Otherwise (no declaration, or a declaration without base type) it
is the keywords of the qualifiers of the node in front of `name ++ " " ++ b`, after the
keyword `enum ` exactly when `genC` is set; it does not fail. -/
theorem enum_instance_rendering (env : GenEnv) (options : Options) (q : CV.Qualifiers)
    (name : String) (params : List Expr) (b : String) :
    (∀ base : Ty,
      accept env options (.EnumInstType q name params (some (some base))) b
          = (genType env base b options).map (fun text => qualifierKeywords q ++ text)
        ∧ ∀ (name2 : String) (params2 : List Expr),
            accept env options (.EnumInstType q name2 params2 (some (some base))) b
              = accept env options (.EnumInstType q name params (some (some base))) b)
    ∧ accept env options (.EnumInstType q name params none) b
        = some (qualifierKeywords q ++ (aggregateKeyword options "enum " ++ (name ++ " " ++ b)))
    ∧ accept env options (.EnumInstType q name params (some none)) b
        = some (qualifierKeywords q
            ++ (aggregateKeyword options "enum " ++ (name ++ " " ++ b))) := by
  refine ⟨?_, ?_, ?_⟩
  · intro base
    constructor
    · rw [accept]
      unfold genType
      cases accept env options base b with
      | none => rfl
      | some text =>
        simp only [Option.map_some']
        rw [handleQualifiers_eq]
    · intro name2 params2
      rw [accept, accept]
  · rw [accept]
    · rw [handleQualifiers_eq, aggregate_text]
    · intro x h
      cases h
  · rw [accept]
    · rw [handleQualifiers_eq, aggregate_text]
    · intro x h
      cases h

/-- Counterexample to C24 as stated: a const instance of the enum `E`, without a
declaration, is rendered from `x` as `const E x`, not as `E x`. -/
theorem qualified_enum_rendering :
    accept sampleGenEnv ⟨false, false, false, false⟩
        (.EnumInstType ⟨true, false, false, false, false⟩ "E" [] none) "x"
      = some "const E x" := by
  decide

end CodeGen

/-! ## The qualifiers of the node in the rendered text -/


namespace CodeGen
open GenType_new

theorem firstChar_append_left (p : String) {a b : String} (h : firstChar a = firstChar b) :
    firstChar (p ++ a) = firstChar (p ++ b) := by
  unfold firstChar at h ⊢
  simp only [String.data_append]
  cases p.data with
  | nil => simpa using h
  | cons c cs => rfl

theorem distinct_ne_empty {a b : String} (h : Distinct a b) : a.data ≠ [] ∧ b.data ≠ [] := by
  obtain ⟨hne, hf⟩ := h
  unfold firstChar at hf
  constructor
  · intro ha
    rw [ha] at hf
    have hb : b.data = [] := by
      cases hbd : b.data with
      | nil => rfl
      | cons c cs => rw [hbd] at hf; simp at hf
    exact hne (String.ext (ha.trans hb.symm))
  · intro hb
    rw [hb] at hf
    have ha : a.data = [] := by
      cases had : a.data with
      | nil => rfl
      | cons c cs => rw [had] at hf; simp at hf
    exact hne (String.ext (ha.trans hb.symm))

theorem distinct_before (p : String) {a b : String} (h : Distinct a b) :
    Distinct (p ++ a) (p ++ b) :=
  ⟨fun e => h.1 (Mangle.string_append_left_cancel e), firstChar_append_left p h.2⟩

theorem distinct_suffix (sfx : String) {a b : String} (h : Distinct a b) :
    Distinct (a ++ sfx) (b ++ sfx) := by
  obtain ⟨ha, hb⟩ := distinct_ne_empty h
  refine ⟨fun e => h.1 (Mangle.string_append_right_cancel e), ?_⟩
  have hf := h.2
  unfold firstChar at hf ⊢
  simp only [String.data_append]
  cases had : a.data with
  | nil => exact absurd had ha
  | cons c cs =>
    cases hbd : b.data with
    | nil => exact absurd hbd hb
    | cons d ds =>
      rw [had, hbd] at hf
      simpa using hf

theorem wrapped_eq (s : String) :
    wrapped s = if firstChar s = some '*' then "(" ++ s ++ ")" else s := by
  unfold wrapped firstChar
  by_cases h : s.data.head? = some '*'
  · have hne : s ≠ "" := by
      intro e
      rw [e] at h
      simp at h
    rw [if_pos ⟨hne, h⟩, if_pos h]
  · rw [if_neg (fun hh => h hh.2), if_neg h]

theorem distinct_wrapped {a b : String} (h : Distinct a b) :
    Distinct (wrapped a) (wrapped b) := by
  rw [wrapped_eq, wrapped_eq, ← h.2]
  split
  · have := distinct_before "(" (distinct_suffix ")" h)
    simpa only [String.append_assoc] using this
  · exact h

theorem front_eq_iff (s : String) (c : Char) (hc : c ≠ default) :
    s.front = c ↔ firstChar s = some c := by
  obtain ⟨l⟩ := s
  cases l with
  | nil =>
    unfold firstChar
    simp only [List.head?_nil]
    constructor
    · intro h
      exact absurd h.symm hc
    · intro h
      cases h
  | cons d ds =>
    rw [front_cons]
    unfold firstChar
    simp

theorem occurs_refl_append (u w v : String) : Occurs w (u ++ w ++ v) := ⟨u, v, rfl⟩

theorem occurs_before (p : String) {w s : String} (h : Occurs w s) : Occurs w (p ++ s) := by
  obtain ⟨u, v, rfl⟩ := h
  exact ⟨p ++ u, v, by simp only [String.append_assoc]⟩

theorem occurs_suffix (sfx : String) {w s : String} (h : Occurs w s) : Occurs w (s ++ sfx) := by
  obtain ⟨u, v, rfl⟩ := h
  exact ⟨u, v ++ sfx, by simp only [String.append_assoc]⟩

theorem occurs_self (w : String) : Occurs w w :=
  ⟨"", "", by simp⟩

theorem occurs_trans {a b c : String} (h1 : Occurs a b) (h2 : Occurs b c) : Occurs a c := by
  obtain ⟨u, v, rfl⟩ := h1
  obtain ⟨u2, v2, rfl⟩ := h2
  exact ⟨u2 ++ u, v ++ v2, by simp only [String.append_assoc]⟩

theorem occurs_wrapped (s : String) : Occurs s (wrapped s) := by
  rw [wrapped_eq]
  split
  · exact ⟨"(", ")", rfl⟩
  · exact occurs_self s

theorem occurs_keyword (x kw : String) : Occurs kw (x ++ (kw ++ " ")) :=
  ⟨x, " ", by rw [String.append_assoc]⟩

/-- Each qualifier that is printed has its keyword in the text that `handleQualifiers`
puts in front. -/
theorem qualifierKeywords_occurs (q : CV.Qualifiers) :
    (q.is_const = true → Occurs "const" (qualifierKeywords q))
    ∧ (q.is_volatile = true → Occurs "volatile" (qualifierKeywords q))
    ∧ (q.is_restrict = true → Occurs "__restrict" (qualifierKeywords q))
    ∧ (q.is_atomic = true → Occurs "_Atomic" (qualifierKeywords q)) := by
  unfold qualifierKeywords
  refine ⟨?_, ?_, ?_, ?_⟩ <;> intro h <;> rw [h] <;> simp only [if_true]
  · exact occurs_keyword _ "const"
  · exact occurs_suffix _ (occurs_keyword _ "volatile")
  · exact occurs_suffix _ (occurs_suffix _ (occurs_keyword _ "__restrict"))
  · exact occurs_suffix _ (occurs_suffix _ (occurs_suffix _ ⟨"", " ", by decide⟩))

theorem bracketKeywords_occurs (q : CV.Qualifiers) :
    (q.is_const = true → Occurs "const" (bracketKeywords q))
    ∧ (q.is_volatile = true → Occurs "volatile" (bracketKeywords q))
    ∧ (q.is_restrict = true → Occurs "__restrict" (bracketKeywords q))
    ∧ (q.is_atomic = true → Occurs "_Atomic" (bracketKeywords q)) := by
  unfold bracketKeywords
  refine ⟨?_, ?_, ?_, ?_⟩ <;> intro h <;> rw [h] <;> simp only [if_true]
  · exact occurs_suffix _ (occurs_suffix _ (occurs_suffix _ ⟨"", " ", by decide⟩))
  · exact occurs_suffix _ (occurs_suffix _ (occurs_keyword _ "volatile"))
  · exact occurs_suffix _ (occurs_keyword _ "__restrict")
  · exact occurs_keyword _ "_Atomic"

set_option maxRecDepth 4000 in
theorem qualifierKeywords_injective {q q2 : CV.Qualifiers}
    (h : qualifierKeywords q = qualifierKeywords q2) : displayed q = displayed q2 := by
  obtain ⟨c, r, v, m, a⟩ := q
  obtain ⟨c2, r2, v2, m2, a2⟩ := q2
  revert h
  cases c <;> cases r <;> cases v <;> cases a <;> cases c2 <;> cases r2 <;> cases v2 <;>
    cases a2 <;> first
      | (intro _; rfl)
      | (intro h; dsimp only [qualifierKeywords, bracketKeywords] at h
         exact absurd h (by decide))

set_option maxRecDepth 4000 in
theorem bracketKeywords_injective {q q2 : CV.Qualifiers}
    (h : bracketKeywords q = bracketKeywords q2) : displayed q = displayed q2 := by
  obtain ⟨c, r, v, m, a⟩ := q
  obtain ⟨c2, r2, v2, m2, a2⟩ := q2
  revert h
  cases c <;> cases r <;> cases v <;> cases a <;> cases c2 <;> cases r2 <;> cases v2 <;>
    cases a2 <;> first
      | (intro _; rfl)
      | (intro h; dsimp only [qualifierKeywords, bracketKeywords] at h
         exact absurd h (by decide))

end CodeGen

namespace CodeGen
open GenType_new

theorem occurs_genArrayText (env : GenEnv) (options : Options) (q : CV.Qualifiers)
    (dimension : Option Expr) (isVarLen isStatic : Bool) (s : String) :
    Occurs s (genArrayText env options q dimension isVarLen isStatic s) := by
  rw [genArrayText_eq]
  exact occurs_suffix _ (occurs_wrapped s)

theorem occurs_pointer (q : CV.Qualifiers) (s : String) :
    Occurs s (if (handleQualifiers q s).front = '?' then "* " ++ handleQualifiers q s
      else "*" ++ handleQualifiers q s) := by
  rw [handleQualifiers_eq]
  split
  · exact occurs_before _ (occurs_before _ (occurs_self s))
  · exact occurs_before _ (occurs_before _ (occurs_self s))

theorem enum_without_base_text (env : GenEnv) (options : Options)
    (q : CV.Qualifiers) (s name : String) (params : List Expr) :
    accept env options (.EnumInstType q name params none) s
        = some (qualifierKeywords q ++ (aggregateKeyword options "enum " ++ (name ++ " " ++ s)))
    ∧ accept env options (.EnumInstType q name params (some none)) s
        = some (qualifierKeywords q
            ++ (aggregateKeyword options "enum " ++ (name ++ " " ++ s))) := by
  constructor
  · rw [accept]
    · rw [handleQualifiers_eq, aggregate_text]
    · intro x h
      cases h
  · rw [accept]
    · rw [handleQualifiers_eq, aggregate_text]
    · intro x h
      cases h

mutual

/-- The string built so far occurs in the result of a visit. -/
theorem accept_occurs (env : GenEnv) (options : Options) :
    ∀ (t : Ty) (a x : String), accept env options t a = some x → Occurs a x
  | .VoidType q, a, x, h => by
    rw [accept, handleQualifiers_eq] at h
    cases h
    exact occurs_before _ (occurs_before _ (occurs_self a))
  | .BasicType q kind, a, x, h => by
    rw [accept, if_pos (kind_lt_number kind), handleQualifiers_eq] at h
    cases h
    exact occurs_before _ (occurs_before _ (occurs_self a))
  | .PointerType q base dimension isVarLen isStatic, a, x, h => by
    rw [accept] at h
    split at h
    · exact occurs_trans (occurs_genArrayText env options q dimension isVarLen isStatic a)
        (accept_occurs env options base _ x h)
    · exact occurs_trans (occurs_pointer q a) (accept_occurs env options base _ x h)
  | .ArrayType q base dimension isVarLen isStatic, a, x, h => by
    rw [accept] at h
    exact occurs_trans (occurs_genArrayText env options q dimension isVarLen isStatic a)
      (accept_occurs env options base _ x h)
  | .ReferenceType q base, a, x, h => by
    rw [accept] at h
    split at h
    · cases h
    · rw [handleQualifiers_eq] at h
      exact occurs_trans (occurs_before _ (occurs_before _ (occurs_self a)))
        (accept_occurs env options base _ x h)
  | .FunctionType q fa assertions returns params va, a, x, h => by
    rw [accept_function_eq] at h
    cases hp : paramText env options params va with
    | none => rw [hp] at h; cases h
    | some p =>
      rw [hp] at h
      simp only [Option.some_bind] at h
      cases hr : acceptFront env options returns (declarator a ++ p) with
      | none => rw [hr] at h; cases h
      | some r =>
        rw [hr] at h
        simp only [Option.map_some', Option.some.injEq] at h
        rw [← h]
        refine occurs_before _ (occurs_trans ?_ (acceptFront_occurs env options returns _ r hr))
        rw [declarator_eq_wrapped]
        exact occurs_suffix _ (occurs_wrapped a)
  | .StructInstType q name params, a, x, h => by
    rw [accept] at h
    simp only [handleQualifiers_eq, Option.some.injEq] at h
    rw [← h]
    split
    · exact occurs_before _ (occurs_before _ (occurs_before _ (occurs_self a)))
    · exact occurs_before _ (occurs_before _ (occurs_self a))
  | .UnionInstType q name params, a, x, h => by
    rw [accept] at h
    simp only [handleQualifiers_eq, Option.some.injEq] at h
    rw [← h]
    split
    · exact occurs_before _ (occurs_before _ (occurs_before _ (occurs_self a)))
    · exact occurs_before _ (occurs_before _ (occurs_self a))
  | .EnumInstType q name params (some (some base)), a, x, h => by
    rw [accept] at h
    cases hb : accept env options base a with
    | none => rw [hb] at h; cases h
    | some text =>
      rw [hb] at h
      simp only [handleQualifiers_eq, Option.some.injEq] at h
      rw [← h]
      exact occurs_before _ (occurs_before _ (accept_occurs env options base a text hb))
  | .EnumInstType q name params (some none), a, x, h => by
    have e := (enum_without_base_text env options q a name params).2
    rw [e] at h
    cases h
    exact occurs_before _ (occurs_before _ (occurs_before _ (occurs_self a)))
  | .EnumInstType q name params none, a, x, h => by
    have e := (enum_without_base_text env options q a name params).1
    rw [e] at h
    cases h
    exact occurs_before _ (occurs_before _ (occurs_before _ (occurs_self a)))
  | .TypeInstType q name params kind, a, x, h => by
    rw [accept] at h
    split at h
    · cases h
    · simp only [handleQualifiers_eq, Option.some.injEq] at h
      rw [← h]
      exact occurs_before _ (occurs_before _ (occurs_self a))
  | .TraitInstType q name params, a, x, h => by
    rw [accept] at h
    split at h
    · cases h
    · simp only [handleQualifiers_eq, Option.some.injEq] at h
      rw [← h]
      exact occurs_before _ (occurs_before _ (occurs_self a))
  | .TupleType q types, a, x, h => by
    rw [accept] at h
    split at h
    · cases h
    · cases hl : genTupleList env options types with
      | none => rw [hl] at h; cases h
      | some list =>
        rw [hl] at h
        simp only [Option.some.injEq] at h
        rw [← h]
        exact occurs_before _ (occurs_self a)
  | .VarArgsType q, a, x, h => by
    rw [accept, handleQualifiers_eq] at h
    cases h
    exact occurs_before _ (occurs_before _ (occurs_self a))
  | .ZeroType q, a, x, h => by
    rw [accept, handleQualifiers_eq] at h
    cases h
    exact occurs_before _ (occurs_before _ (occurs_self a))
  | .OneType q, a, x, h => by
    rw [accept, handleQualifiers_eq] at h
    cases h
    exact occurs_before _ (occurs_before _ (occurs_self a))
  | .GlobalScopeType, a, x, h => by
    rw [accept] at h
    split at h
    · cases h
    · simp only [handleQualifiers_eq, Option.some.injEq] at h
      rw [← h]
      exact occurs_before _ (occurs_self a)
  | .TypeofType q expr b, a, x, h => by
    rw [accept, handleQualifiers_eq] at h
    cases h
    exact occurs_before _ (occurs_before _ (occurs_self a))
  | .VTableType q base, a, x, h => by
    rw [accept] at h
    split at h
    · cases h
    · cases hb : accept env options base "" with
      | none => rw [hb] at h; cases h
      | some text =>
        rw [hb] at h
        simp only [handleQualifiers_eq, Option.some.injEq] at h
        rw [← h]
        exact occurs_before _ (occurs_before _ (occurs_self a))
  | .QualifiedType q parent child, a, x, h => by
    rw [accept] at h
    split at h
    · cases h
    · cases hp : accept env options parent "" with
      | none => rw [hp] at h; cases h
      | some ptext =>
        rw [hp] at h
        cases hc : accept env options child "" with
        | none => rw [hc] at h; cases h
        | some ctext =>
          rw [hc] at h
          simp only [handleQualifiers_eq, Option.some.injEq] at h
          rw [← h]
          exact occurs_before _ (occurs_before _ (occurs_self a))

theorem acceptFront_occurs (env : GenEnv) (options : Options) :
    ∀ (ts : List Ty) (a x : String), acceptFront env options ts a = some x → Occurs a x
  | [], a, x, h => by
    rw [acceptFront] at h
    cases h
    exact occurs_before _ (occurs_self a)
  | t :: _, a, x, h => by
    rw [acceptFront] at h
    exact accept_occurs env options t a x h

end

end CodeGen

namespace CodeGen
open GenType_new

theorem distinct_genArrayText (env : GenEnv) (options : Options) (q : CV.Qualifiers)
    (dimension : Option Expr) (isVarLen isStatic : Bool) {a b : String} (h : Distinct a b) :
    Distinct (genArrayText env options q dimension isVarLen isStatic a)
      (genArrayText env options q dimension isVarLen isStatic b) := by
  rw [genArrayText_eq env options q dimension isVarLen isStatic a,
    genArrayText_eq env options q dimension isVarLen isStatic b]
  exact distinct_suffix _ (distinct_wrapped h)

theorem distinct_pointer (q : CV.Qualifiers) {a b : String} (h : Distinct a b) :
    Distinct
      (if (handleQualifiers q a).front = '?' then "* " ++ handleQualifiers q a
        else "*" ++ handleQualifiers q a)
      (if (handleQualifiers q b).front = '?' then "* " ++ handleQualifiers q b
        else "*" ++ handleQualifiers q b) := by
  rw [handleQualifiers_eq, handleQualifiers_eq]
  have hk := distinct_before (qualifierKeywords q) h
  have e : ((qualifierKeywords q ++ a).front = '?') ↔ ((qualifierKeywords q ++ b).front = '?') := by
    rw [front_eq_iff _ _ (by decide), front_eq_iff _ _ (by decide), hk.2]
  by_cases hq : (qualifierKeywords q ++ a).front = '?'
  · rw [if_pos hq, if_pos (e.mp hq)]
    exact distinct_before _ hk
  · rw [if_neg hq, if_neg (fun h2 => hq (e.mpr h2))]
    exact distinct_before _ hk

mutual

/-- Two declarators that differ and start with the same character are not rendered
alike by the visit of a node. -/
theorem accept_distinct (env : GenEnv) (options : Options) :
    ∀ (t : Ty) (a b x y : String), Distinct a b →
      accept env options t a = some x → accept env options t b = some y → x ≠ y
  | .VoidType q, a, b, x, y, hd, hx, hy => by
    rw [accept, handleQualifiers_eq] at hx hy
    cases hx
    cases hy
    exact (distinct_before _ (distinct_before _ hd)).1
  | .BasicType q kind, a, b, x, y, hd, hx, hy => by
    rw [accept, if_pos (kind_lt_number kind), handleQualifiers_eq] at hx hy
    cases hx
    cases hy
    exact (distinct_before _ (distinct_before _ hd)).1
  | .PointerType q base dimension isVarLen isStatic, a, b, x, y, hd, hx, hy => by
    rw [accept] at hx hy
    split at hx
    · rename_i hc
      rw [if_pos hc] at hy
      exact accept_distinct env options base _ _ x y
        (distinct_genArrayText env options q dimension isVarLen isStatic hd) hx hy
    · rename_i hc
      rw [if_neg hc] at hy
      exact accept_distinct env options base _ _ x y (distinct_pointer q hd) hx hy
  | .ArrayType q base dimension isVarLen isStatic, a, b, x, y, hd, hx, hy => by
    rw [accept] at hx hy
    exact accept_distinct env options base _ _ x y
      (distinct_genArrayText env options q dimension isVarLen isStatic hd) hx hy
  | .ReferenceType q base, a, b, x, y, hd, hx, hy => by
    rw [accept] at hx hy
    split at hx
    · cases hx
    · rename_i hc
      rw [if_neg hc] at hy
      rw [handleQualifiers_eq] at hx hy
      exact accept_distinct env options base _ _ x y
        (distinct_before _ (distinct_before _ hd)) hx hy
  | .FunctionType q fa assertions returns params va, a, b, x, y, hd, hx, hy => by
    rw [accept_function_eq] at hx hy
    cases hp : paramText env options params va with
    | none => rw [hp] at hx; cases hx
    | some p =>
      rw [hp] at hx hy
      simp only [Option.some_bind] at hx hy
      cases hrx : acceptFront env options returns (declarator a ++ p) with
      | none => rw [hrx] at hx; cases hx
      | some rx =>
        cases hry : acceptFront env options returns (declarator b ++ p) with
        | none => rw [hry] at hy; cases hy
        | some ry =>
          rw [hrx] at hx
          rw [hry] at hy
          simp only [Option.map_some', Option.some.injEq] at hx hy
          rw [← hx, ← hy]
          have hne : rx ≠ ry := by
            refine acceptFront_distinct env options returns _ _ rx ry ?_ hrx hry
            rw [declarator_eq_wrapped, declarator_eq_wrapped]
            exact distinct_suffix _ (distinct_wrapped hd)
          exact fun e => hne (Mangle.string_append_left_cancel e)
  | .StructInstType q name params, a, b, x, y, hd, hx, hy => by
    rw [accept] at hx hy
    simp only [handleQualifiers_eq, aggregate_text, Option.some.injEq] at hx hy
    rw [← hx, ← hy]
    exact (distinct_before _ (distinct_before _ (distinct_before _ hd))).1
  | .UnionInstType q name params, a, b, x, y, hd, hx, hy => by
    rw [accept] at hx hy
    simp only [handleQualifiers_eq, aggregate_text, Option.some.injEq] at hx hy
    rw [← hx, ← hy]
    exact (distinct_before _ (distinct_before _ (distinct_before _ hd))).1
  | .EnumInstType q name params (some (some base)), a, b, x, y, hd, hx, hy => by
    rw [accept] at hx hy
    cases hbx : accept env options base a with
    | none => rw [hbx] at hx; cases hx
    | some tx =>
      cases hby : accept env options base b with
      | none => rw [hby] at hy; cases hy
      | some ty =>
        rw [hbx] at hx
        rw [hby] at hy
        simp only [handleQualifiers_eq, Option.some.injEq] at hx hy
        rw [← hx, ← hy]
        have hne := accept_distinct env options base a b tx ty hd hbx hby
        exact fun e => hne (Mangle.string_append_left_cancel
          (Mangle.string_append_left_cancel e))
  | .EnumInstType q name params (some none), a, b, x, y, hd, hx, hy => by
    rw [(enum_without_base_text env options q _ name params).2] at hx hy
    cases hx
    cases hy
    exact (distinct_before _ (distinct_before _ (distinct_before _ hd))).1
  | .EnumInstType q name params none, a, b, x, y, hd, hx, hy => by
    rw [(enum_without_base_text env options q _ name params).1] at hx hy
    cases hx
    cases hy
    exact (distinct_before _ (distinct_before _ (distinct_before _ hd))).1
  | .TypeInstType q name params kind, a, b, x, y, hd, hx, hy => by
    rw [accept] at hx hy
    split at hx
    · cases hx
    · rename_i hc
      rw [if_neg hc] at hy
      simp only [handleQualifiers_eq, Option.some.injEq] at hx hy
      rw [← hx, ← hy]
      exact (distinct_before _ (distinct_before _ hd)).1
  | .TraitInstType q name params, a, b, x, y, hd, hx, hy => by
    rw [accept] at hx hy
    split at hx
    · cases hx
    · rename_i hc
      rw [if_neg hc] at hy
      simp only [handleQualifiers_eq, Option.some.injEq] at hx hy
      rw [← hx, ← hy]
      exact (distinct_before _ (distinct_before _ hd)).1
  | .TupleType q types, a, b, x, y, hd, hx, hy => by
    rw [accept] at hx hy
    split at hx
    · cases hx
    · rename_i hc
      rw [if_neg hc] at hy
      cases hl : genTupleList env options types with
      | none => rw [hl] at hx; cases hx
      | some list =>
        rw [hl] at hx hy
        simp only [Option.some.injEq] at hx hy
        rw [← hx, ← hy]
        exact (distinct_before _ hd).1
  | .VarArgsType q, a, b, x, y, hd, hx, hy => by
    rw [accept, handleQualifiers_eq] at hx hy
    cases hx
    cases hy
    exact (distinct_before _ (distinct_before _ hd)).1
  | .ZeroType q, a, b, x, y, hd, hx, hy => by
    rw [accept, handleQualifiers_eq] at hx hy
    cases hx
    cases hy
    exact (distinct_before _ (distinct_before _ hd)).1
  | .OneType q, a, b, x, y, hd, hx, hy => by
    rw [accept, handleQualifiers_eq] at hx hy
    cases hx
    cases hy
    exact (distinct_before _ (distinct_before _ hd)).1
  | .GlobalScopeType, a, b, x, y, hd, hx, hy => by
    rw [accept] at hx hy
    split at hx
    · cases hx
    · rename_i hc
      rw [if_neg hc] at hy
      simp only [handleQualifiers_eq, Option.some.injEq] at hx hy
      rw [← hx, ← hy]
      exact (distinct_before _ hd).1
  | .TypeofType q expr isb, a, b, x, y, hd, hx, hy => by
    rw [accept, handleQualifiers_eq] at hx hy
    cases hx
    cases hy
    exact (distinct_before _ (distinct_before _ hd)).1
  | .VTableType q base, a, b, x, y, hd, hx, hy => by
    rw [accept] at hx hy
    split at hx
    · cases hx
    · rename_i hc
      rw [if_neg hc] at hy
      cases hb : accept env options base "" with
      | none => rw [hb] at hx; cases hx
      | some text =>
        rw [hb] at hx hy
        simp only [handleQualifiers_eq, Option.some.injEq] at hx hy
        rw [← hx, ← hy]
        exact (distinct_before _ (distinct_before _ hd)).1
  | .QualifiedType q parent child, a, b, x, y, hd, hx, hy => by
    rw [accept] at hx hy
    split at hx
    · cases hx
    · rename_i hc
      rw [if_neg hc] at hy
      cases hp : accept env options parent "" with
      | none => rw [hp] at hx; cases hx
      | some ptext =>
        rw [hp] at hx hy
        cases hch : accept env options child "" with
        | none => rw [hch] at hx; cases hx
        | some ctext =>
          rw [hch] at hx hy
          simp only [handleQualifiers_eq, Option.some.injEq] at hx hy
          rw [← hx, ← hy]
          exact (distinct_before _ (distinct_before _ hd)).1

theorem acceptFront_distinct (env : GenEnv) (options : Options) :
    ∀ (ts : List Ty) (a b x y : String), Distinct a b →
      acceptFront env options ts a = some x → acceptFront env options ts b = some y → x ≠ y
  | [], a, b, x, y, hd, hx, hy => by
    rw [acceptFront] at hx hy
    cases hx
    cases hy
    exact (distinct_before _ hd).1
  | t :: _, a, b, x, y, hd, hx, hy => by
    rw [acceptFront] at hx hy
    exact accept_distinct env options t a b x y hd hx hy

end

end CodeGen

namespace CodeGen
open GenType_new

theorem qualifierKeywords_ne_space (q : CV.Qualifiers) : qualifierKeywords q ≠ " " := by
  obtain ⟨c, r, v, m, a⟩ := q
  cases c <;> cases r <;> cases v <;> cases a <;>
    (dsimp only [qualifierKeywords]; decide)

theorem qualifierKeywords_question (q : CV.Qualifiers) (s : String)
    (h : firstChar (qualifierKeywords q ++ s) = some '?') : qualifierKeywords q = "" := by
  obtain ⟨c, r, v, m, a⟩ := q
  revert h
  cases c <;> cases r <;> cases v <;> cases a <;> dsimp only [qualifierKeywords] <;>
    first
      | (intro _; rfl)
      | (intro h; unfold firstChar at h; simp [String.data_append] at h)

set_option maxRecDepth 4000 in
set_option maxHeartbeats 4000000 in
theorem qualifierKeywords_typeof {q q2 : CV.Qualifiers} {x y : String}
    (h : qualifierKeywords q ++ ("typeof(" ++ x) = qualifierKeywords q2 ++ ("typeof(" ++ y)) :
    displayed q = displayed q2 := by
  obtain ⟨c, r, v, m, a⟩ := q
  obtain ⟨c2, r2, v2, m2, a2⟩ := q2
  revert h
  cases c <;> cases r <;> cases v <;> cases a <;> cases c2 <;> cases r2 <;> cases v2 <;>
    cases a2 <;> first
      | (intro _; rfl)
      | (intro h; dsimp only [qualifierKeywords] at h
         have hd := congrArg String.data h
         simp [String.data_append] at hd)

theorem occurs_of_keywords {q : CV.Qualifiers} {text : String}
    (h : Occurs (qualifierKeywords q) text) :
    (q.is_const = true → Occurs "const" text)
    ∧ (q.is_volatile = true → Occurs "volatile" text)
    ∧ (q.is_restrict = true → Occurs "__restrict" text)
    ∧ (q.is_atomic = true → Occurs "_Atomic" text) :=
  ⟨fun e => occurs_trans ((qualifierKeywords_occurs q).1 e) h,
    fun e => occurs_trans ((qualifierKeywords_occurs q).2.1 e) h,
    fun e => occurs_trans ((qualifierKeywords_occurs q).2.2.1 e) h,
    fun e => occurs_trans ((qualifierKeywords_occurs q).2.2.2 e) h⟩

theorem occurs_of_bracketKeywords {q : CV.Qualifiers} {text : String}
    (h : Occurs (bracketKeywords q) text) :
    (q.is_const = true → Occurs "const" text)
    ∧ (q.is_volatile = true → Occurs "volatile" text)
    ∧ (q.is_restrict = true → Occurs "__restrict" text)
    ∧ (q.is_atomic = true → Occurs "_Atomic" text) :=
  ⟨fun e => occurs_trans ((bracketKeywords_occurs q).1 e) h,
    fun e => occurs_trans ((bracketKeywords_occurs q).2.1 e) h,
    fun e => occurs_trans ((bracketKeywords_occurs q).2.2.1 e) h,
    fun e => occurs_trans ((bracketKeywords_occurs q).2.2.2 e) h⟩

/-- A visit that ends with `handleQualifiers` on a text that does not depend on the
qualifiers of the node. -/
theorem qualifiersShow_final (z : Option String) (q : CV.Qualifiers) (out : String)
    (h : z.map (fun text => qualifierKeywords q ++ text) = some out) :
    QualifiersShow q out (fun q2 => z.map (fun text => qualifierKeywords q2 ++ text)) := by
  cases z with
  | none => cases h
  | some text =>
    simp only [Option.map_some', Option.some.injEq] at h
    subst h
    obtain ⟨h1, h2, h3, h4⟩ := occurs_of_keywords
      (occurs_suffix text (occurs_self (qualifierKeywords q)))
    refine ⟨h1, h2, h3, h4, ?_⟩
    intro q2 hq e
    simp only [Option.map_some', Option.some.injEq] at e
    exact hq (qualifierKeywords_injective (Mangle.string_append_right_cancel e))

/-- A visit that goes on to the base from a text that shows the qualifiers. -/
theorem qualifiersShow_pass (env : GenEnv) (options : Options) (base : Ty)
    (step : CV.Qualifiers → String) (q : CV.Qualifiers) (out : String)
    (h : accept env options base (step q) = some out)
    (hocc : (q.is_const = true → Occurs "const" (step q))
      ∧ (q.is_volatile = true → Occurs "volatile" (step q))
      ∧ (q.is_restrict = true → Occurs "__restrict" (step q))
      ∧ (q.is_atomic = true → Occurs "_Atomic" (step q)))
    (hdist : ∀ q2, displayed q2 ≠ displayed q → Distinct (step q2) (step q)) :
    QualifiersShow q out (fun q2 => accept env options base (step q2)) := by
  have ho := accept_occurs env options base _ _ h
  refine ⟨fun e => occurs_trans (hocc.1 e) ho, fun e => occurs_trans (hocc.2.1 e) ho,
    fun e => occurs_trans (hocc.2.2.1 e) ho, fun e => occurs_trans (hocc.2.2.2 e) ho, ?_⟩
  intro q2 hq e
  exact accept_distinct env options base _ _ out out (hdist q2 hq) e h rfl

theorem genArrayText_split (env : GenEnv) (options : Options) (q : CV.Qualifiers)
    (dimension : Option Expr) (isVarLen isStatic : Bool) (s : String) :
    genArrayText env options q dimension isVarLen isStatic s
      = wrapped s ++ ("[" ++ ((if isStatic then "static " else "") ++ (bracketKeywords q
          ++ ((match dimension with
                | some d => env.genDimension options d
                | none => if isVarLen then "*" else "") ++ "]")))) := by
  unfold genArrayText bracketKeywords
  rw [declarator_eq_wrapped]
  obtain ⟨c, r, v, m, a⟩ := q
  cases isStatic <;> cases c <;> cases v <;> cases r <;> cases a <;> cases dimension <;>
    cases isVarLen <;>
    simp only [if_true, if_false, Bool.false_eq_true, String.append_assoc,
      String.empty_append, String.append_empty]

theorem firstChar_bracket (x : String) : firstChar ("[" ++ x) = some '[' := by
  unfold firstChar
  simp [String.data_append]

theorem firstChar_star (x : String) : firstChar ("*" ++ x) = some '*' := by
  unfold firstChar
  simp [String.data_append]

theorem firstChar_amp (x : String) : firstChar ("&" ++ x) = some '&' := by
  unfold firstChar
  simp [String.data_append]

theorem genArrayText_shows (env : GenEnv) (options : Options)
    (dimension : Option Expr) (isVarLen isStatic : Bool) (s : String) (q : CV.Qualifiers) :
    ((q.is_const = true → Occurs "const"
        (genArrayText env options q dimension isVarLen isStatic s))
      ∧ (q.is_volatile = true → Occurs "volatile"
        (genArrayText env options q dimension isVarLen isStatic s))
      ∧ (q.is_restrict = true → Occurs "__restrict"
        (genArrayText env options q dimension isVarLen isStatic s))
      ∧ (q.is_atomic = true → Occurs "_Atomic"
        (genArrayText env options q dimension isVarLen isStatic s)))
    ∧ ∀ q2, displayed q2 ≠ displayed q →
        Distinct (genArrayText env options q2 dimension isVarLen isStatic s)
          (genArrayText env options q dimension isVarLen isStatic s) := by
  constructor
  · apply occurs_of_bracketKeywords
    rw [genArrayText_split]
    exact occurs_before _ (occurs_before _ (occurs_before _
      (occurs_suffix _ (occurs_self _))))
  · intro q2 hq
    rw [genArrayText_split, genArrayText_split]
    constructor
    · intro e
      have e2 := Mangle.string_append_left_cancel (Mangle.string_append_left_cancel
        (Mangle.string_append_left_cancel e))
      exact hq (bracketKeywords_injective (Mangle.string_append_right_cancel e2))
    · exact firstChar_append_left _ ((firstChar_bracket _).trans (firstChar_bracket _).symm)

theorem pointer_step_eq (q : CV.Qualifiers) (s : String) :
    (if (handleQualifiers q s).front = '?' then "* " ++ handleQualifiers q s
      else "*" ++ handleQualifiers q s)
      = "*" ++ ((if firstChar (qualifierKeywords q ++ s) = some '?' then " " else "")
          ++ qualifierKeywords q ++ s) := by
  rw [handleQualifiers_eq]
  by_cases h : (qualifierKeywords q ++ s).front = '?'
  · rw [if_pos h, if_pos ((front_eq_iff _ _ (by decide)).mp h)]
    simp only [String.append_assoc]
    rfl
  · rw [if_neg h, if_neg (fun e => h ((front_eq_iff _ _ (by decide)).mpr e))]
    simp only [String.append_assoc, String.empty_append]

theorem pointer_step_shows (s : String) (q : CV.Qualifiers) :
    ((q.is_const = true → Occurs "const"
        (if (handleQualifiers q s).front = '?' then "* " ++ handleQualifiers q s
          else "*" ++ handleQualifiers q s))
      ∧ (q.is_volatile = true → Occurs "volatile"
        (if (handleQualifiers q s).front = '?' then "* " ++ handleQualifiers q s
          else "*" ++ handleQualifiers q s))
      ∧ (q.is_restrict = true → Occurs "__restrict"
        (if (handleQualifiers q s).front = '?' then "* " ++ handleQualifiers q s
          else "*" ++ handleQualifiers q s))
      ∧ (q.is_atomic = true → Occurs "_Atomic"
        (if (handleQualifiers q s).front = '?' then "* " ++ handleQualifiers q s
          else "*" ++ handleQualifiers q s)))
    ∧ ∀ q2, displayed q2 ≠ displayed q →
        Distinct
          (if (handleQualifiers q2 s).front = '?' then "* " ++ handleQualifiers q2 s
            else "*" ++ handleQualifiers q2 s)
          (if (handleQualifiers q s).front = '?' then "* " ++ handleQualifiers q s
            else "*" ++ handleQualifiers q s) := by
  constructor
  · apply occurs_of_keywords
    rw [pointer_step_eq]
    exact occurs_before _ (occurs_suffix _ (occurs_before _ (occurs_self _)))
  · intro q2 hq
    rw [pointer_step_eq, pointer_step_eq]
    refine ⟨?_, (firstChar_star _).trans (firstChar_star _).symm⟩
    intro e
    have e2 := Mangle.string_append_right_cancel (Mangle.string_append_left_cancel e)
    by_cases h1 : firstChar (qualifierKeywords q ++ s) = some '?'
    · have k1 := qualifierKeywords_question q s h1
      by_cases h2 : firstChar (qualifierKeywords q2 ++ s) = some '?'
      · have k2 := qualifierKeywords_question q2 s h2
        exact hq (qualifierKeywords_injective (k2.trans k1.symm))
      · rw [if_pos h1, if_neg h2, k1] at e2
        simp only [String.empty_append, String.append_empty] at e2
        exact qualifierKeywords_ne_space q2 e2
    · by_cases h2 : firstChar (qualifierKeywords q2 ++ s) = some '?'
      · have k2 := qualifierKeywords_question q2 s h2
        rw [if_neg h1, if_pos h2, k2] at e2
        simp only [String.empty_append, String.append_empty] at e2
        exact qualifierKeywords_ne_space q e2.symm
      · rw [if_neg h1, if_neg h2] at e2
        simp only [String.empty_append] at e2
        exact hq (qualifierKeywords_injective e2)

theorem reference_step_shows (s : String) (q : CV.Qualifiers) :
    ((q.is_const = true → Occurs "const" ("&" ++ handleQualifiers q s))
      ∧ (q.is_volatile = true → Occurs "volatile" ("&" ++ handleQualifiers q s))
      ∧ (q.is_restrict = true → Occurs "__restrict" ("&" ++ handleQualifiers q s))
      ∧ (q.is_atomic = true → Occurs "_Atomic" ("&" ++ handleQualifiers q s)))
    ∧ ∀ q2, displayed q2 ≠ displayed q →
        Distinct ("&" ++ handleQualifiers q2 s) ("&" ++ handleQualifiers q s) := by
  constructor
  · apply occurs_of_keywords
    rw [handleQualifiers_eq]
    exact occurs_before _ (occurs_suffix _ (occurs_self _))
  · intro q2 hq
    rw [handleQualifiers_eq, handleQualifiers_eq]
    refine ⟨?_, (firstChar_amp _).trans (firstChar_amp _).symm⟩
    intro e
    exact hq (qualifierKeywords_injective
      (Mangle.string_append_right_cancel (Mangle.string_append_left_cancel e)))

end CodeGen

namespace CodeGen
open GenType_new

theorem show_of_final {env : GenEnv} {options : Options} {t : Ty} {s out : String}
    (z : Option String)
    (e : ∀ q2, accept env options (t.withQuals q2) s
      = z.map (fun text => qualifierKeywords q2 ++ text))
    (h : accept env options t s = some out) :
    QualifiersShow t.quals out (fun q2 => accept env options (t.withQuals q2) s) := by
  have h2 : z.map (fun text => qualifierKeywords t.quals ++ text) = some out := by
    rw [← e t.quals, Mangle.withQuals_quals]
    exact h
  rw [funext e]
  exact qualifiersShow_final z t.quals out h2

theorem show_of_pass {env : GenEnv} {options : Options} {t : Ty} {s out : String}
    (base : Ty) (step : CV.Qualifiers → String)
    (e : ∀ q2, accept env options (t.withQuals q2) s = accept env options base (step q2))
    (hs : ∀ q : CV.Qualifiers,
      ((q.is_const = true → Occurs "const" (step q))
        ∧ (q.is_volatile = true → Occurs "volatile" (step q))
        ∧ (q.is_restrict = true → Occurs "__restrict" (step q))
        ∧ (q.is_atomic = true → Occurs "_Atomic" (step q)))
      ∧ ∀ q2, displayed q2 ≠ displayed q → Distinct (step q2) (step q))
    (h : accept env options t s = some out) :
    QualifiersShow t.quals out (fun q2 => accept env options (t.withQuals q2) s) := by
  have h2 : accept env options base (step t.quals) = some out := by
    rw [← e t.quals, Mangle.withQuals_quals]
    exact h
  rw [funext e]
  exact qualifiersShow_pass env options base step t.quals out h2 (hs t.quals).1 (hs t.quals).2

/-- Every node but a function type, a tuple and the global scope shows its qualifiers. -/
theorem qualifiersShow_accept (env : GenEnv) (options : Options) (t : Ty)
    (ht : printsOwnQualifiers t = true) (s out : String)
    (h : accept env options t s = some out) :
    QualifiersShow t.quals out (fun q2 => accept env options (t.withQuals q2) s) := by
  cases t with
  | VoidType q =>
    refine show_of_final (some ("void " ++ s)) (fun q2 => ?_) h
    simp only [Ty.withQuals]
    rw [accept, handleQualifiers_eq]
    rfl
  | BasicType q kind =>
    refine show_of_final (some (BasicType.typeNames.getD kind.toCtorIdx "" ++ " " ++ s))
      (fun q2 => ?_) h
    simp only [Ty.withQuals]
    rw [accept, if_pos (kind_lt_number kind), handleQualifiers_eq]
    rfl
  | PointerType q base dimension isVarLen isStatic =>
    by_cases hc : (isStatic || isVarLen || dimension.isSome) = true
    · refine show_of_pass base
        (fun q2 => genArrayText env options q2 dimension isVarLen isStatic s) (fun q2 => ?_)
        (genArrayText_shows env options dimension isVarLen isStatic s) h
      simp only [Ty.withQuals]
      rw [accept, if_pos hc]
    · refine show_of_pass base
        (fun q2 => if (handleQualifiers q2 s).front = '?' then "* " ++ handleQualifiers q2 s
          else "*" ++ handleQualifiers q2 s) (fun q2 => ?_) (pointer_step_shows s) h
      simp only [Ty.withQuals]
      rw [accept, if_neg hc]
  | ArrayType q base dimension isVarLen isStatic =>
    refine show_of_pass base
      (fun q2 => genArrayText env options q2 dimension isVarLen isStatic s) (fun q2 => ?_)
      (genArrayText_shows env options dimension isVarLen isStatic s) h
    simp only [Ty.withQuals]
    rw [accept]
  | ReferenceType q base =>
    by_cases hc : options.genC = true
    · rw [accept, if_pos hc] at h
      cases h
    · refine show_of_pass base (fun q2 => "&" ++ handleQualifiers q2 s) (fun q2 => ?_)
        (reference_step_shows s) h
      simp only [Ty.withQuals]
      rw [accept, if_neg hc]
  | FunctionType q fa assertions returns params va => cases ht
  | StructInstType q name params =>
    refine show_of_final (some (aggregateKeyword options "struct "
      ++ (name ++ handleGeneric env options params ++ " " ++ s))) (fun q2 => ?_) h
    simp only [Ty.withQuals]
    rw [accept, handleQualifiers_eq, aggregate_text]
    rfl
  | UnionInstType q name params =>
    refine show_of_final (some (aggregateKeyword options "union "
      ++ (name ++ handleGeneric env options params ++ " " ++ s))) (fun q2 => ?_) h
    simp only [Ty.withQuals]
    rw [accept, handleQualifiers_eq, aggregate_text]
    rfl
  | EnumInstType q name params eb =>
    match eb with
    | some (some base) =>
      refine show_of_final ((accept env options base s).map
        (fun text => env.genAttributes options base ++ text)) (fun q2 => ?_) h
      simp only [Ty.withQuals]
      rw [accept]
      cases accept env options base s with
      | none => rfl
      | some text =>
        simp only [Option.map_some']
        rw [handleQualifiers_eq]
    | some none =>
      refine show_of_final (some (aggregateKeyword options "enum " ++ (name ++ " " ++ s)))
        (fun q2 => ?_) h
      simp only [Ty.withQuals]
      rw [(enum_without_base_text env options q2 s name params).2]
      rfl
    | none =>
      refine show_of_final (some (aggregateKeyword options "enum " ++ (name ++ " " ++ s)))
        (fun q2 => ?_) h
      simp only [Ty.withQuals]
      rw [(enum_without_base_text env options q2 s name params).1]
      rfl
  | TypeInstType q name params kind =>
    refine show_of_final (if options.genC then none else some (name ++ " " ++ s))
      (fun q2 => ?_) h
    simp only [Ty.withQuals]
    rw [accept]
    split
    · rfl
    · rw [handleQualifiers_eq]
      rfl
  | TraitInstType q name params =>
    refine show_of_final (if options.genC then none else some (name ++ " " ++ s))
      (fun q2 => ?_) h
    simp only [Ty.withQuals]
    rw [accept]
    split
    · rfl
    · rw [handleQualifiers_eq]
      rfl
  | TupleType q types => cases ht
  | VarArgsType q =>
    refine show_of_final (some ("__builtin_va_list " ++ s)) (fun q2 => ?_) h
    simp only [Ty.withQuals]
    rw [accept, handleQualifiers_eq]
    rfl
  | ZeroType q =>
    refine show_of_final (some ((if options.pretty then "zero_t " else "long int ") ++ s))
      (fun q2 => ?_) h
    simp only [Ty.withQuals]
    rw [accept, handleQualifiers_eq]
    rfl
  | OneType q =>
    refine show_of_final (some ((if options.pretty then "one_t " else "long int ") ++ s))
      (fun q2 => ?_) h
    simp only [Ty.withQuals]
    rw [accept, handleQualifiers_eq]
    rfl
  | GlobalScopeType => cases ht
  | TypeofType q expr isb =>
    rw [accept, handleQualifiers_eq] at h
    simp only [Option.some.injEq] at h
    subst h
    obtain ⟨h1, h2, h3, h4⟩ := occurs_of_keywords (occurs_suffix
      ("typeof(" ++ env.genTypeof options (.TypeofType q expr isb) ++ ") " ++ s)
      (occurs_self (qualifierKeywords q)))
    refine ⟨h1, h2, h3, h4, ?_⟩
    intro q2 hq e
    simp only [Ty.withQuals] at e
    rw [accept, handleQualifiers_eq] at e
    simp only [Option.some.injEq, String.append_assoc, Ty.quals] at e
    exact hq (qualifierKeywords_typeof e)
  | VTableType q base =>
    refine show_of_final (if options.genC then none else (accept env options base "").map
      (fun text => "vtable(" ++ (env.genAttributes options base ++ text) ++ ") " ++ s))
      (fun q2 => ?_) h
    simp only [Ty.withQuals]
    rw [accept]
    split
    · rfl
    · cases accept env options base "" with
      | none => rfl
      | some text =>
        simp only [Option.map_some']
        rw [handleQualifiers_eq]
  | QualifiedType q parent child =>
    refine show_of_final (if options.genC then none else
      (accept env options parent "").bind (fun ptext =>
        (accept env options child "").map (fun ctext =>
          (env.genAttributes options parent ++ ptext) ++ "."
            ++ (env.genAttributes options child ++ ctext) ++ s)))
      (fun q2 => ?_) h
    simp only [Ty.withQuals]
    rw [accept]
    split
    · rfl
    · cases accept env options parent "" with
      | none => rfl
      | some ptext =>
        cases accept env options child "" with
        | none => rfl
        | some ctext =>
          simp only [Option.some_bind, Option.map_some']
          rw [handleQualifiers_eq]

/-- **C22 (amended).** The renderer prints the qualifiers of the node that it visits, for
every node kind but function types and tuples (and the global scope, which has no
qualifier): when the visit of such a node from the string `s` gives `out`, the keyword of
each of const, volatile, restrict and atomic that is set on the node (`const`,
`volatile`, `__restrict`, `_Atomic`) occurs in `out`, and the same node with qualifiers
that differ in one of the four is not rendered as `out`. -/
theorem own_qualifiers_rendered (env : GenEnv) (options : Options) (t : Ty)
    (ht : printsOwnQualifiers t = true) (s out : String)
    (h : accept env options t s = some out) :
    (t.quals.is_const = true → ∃ u v : String, out = u ++ "const" ++ v)
    ∧ (t.quals.is_volatile = true → ∃ u v : String, out = u ++ "volatile" ++ v)
    ∧ (t.quals.is_restrict = true → ∃ u v : String, out = u ++ "__restrict" ++ v)
    ∧ (t.quals.is_atomic = true → ∃ u v : String, out = u ++ "_Atomic" ++ v)
    ∧ ∀ q2 : CV.Qualifiers, displayed q2 ≠ displayed t.quals →
        accept env options (t.withQuals q2) s ≠ some out :=
  qualifiersShow_accept env options t ht s out h

/-- A const pointer to a signed int named `x` is rendered as `signed int *const x`, and
not so without the qualifier. -/
theorem own_qualifiers_rendered_witness :
    accept sampleGenEnv ⟨false, false, false, false⟩
        (.PointerType ⟨true, false, false, false, false⟩ (.BasicType CV.none .SignedInt)
          none false false) "x" = some "signed int *const x"
    ∧ (∃ u v : String, "signed int *const x" = u ++ "const" ++ v)
    ∧ accept sampleGenEnv ⟨false, false, false, false⟩
        (.PointerType CV.none (.BasicType CV.none .SignedInt) none false false) "x"
      ≠ some "signed int *const x" :=
  ⟨by decide,
    (own_qualifiers_rendered sampleGenEnv ⟨false, false, false, false⟩
      (.PointerType ⟨true, false, false, false, false⟩ (.BasicType CV.none .SignedInt)
        none false false) rfl "x" "signed int *const x" (by decide)).1 rfl,
    (own_qualifiers_rendered sampleGenEnv ⟨false, false, false, false⟩
      (.PointerType ⟨true, false, false, false, false⟩ (.BasicType CV.none .SignedInt)
        none false false) rfl "x" "signed int *const x" (by decide)).2.2.2.2 CV.none
      (by decide)⟩

/-- Counterexample to C22 as stated: the visits of a function type and of a tuple do not
print the qualifiers of the node; a const function type and a const tuple are rendered
like the unqualified ones, without the keyword. -/
theorem function_and_tuple_qualifiers_dropped :
    accept sampleGenEnv ⟨false, false, false, false⟩
        (.FunctionType ⟨true, false, false, false, false⟩ [] [] [] [] false) "f"
      = some "void f(void)"
    ∧ accept sampleGenEnv ⟨false, false, false, false⟩
        (.FunctionType CV.none [] [] [] [] false) "f" = some "void f(void)"
    ∧ accept sampleGenEnv ⟨false, false, false, false⟩
        (.TupleType ⟨true, false, false, false, false⟩ [.BasicType CV.none .SignedInt]) "x"
      = some "[signed int ] x"
    ∧ accept sampleGenEnv ⟨false, false, false, false⟩
        (.TupleType CV.none [.BasicType CV.none .SignedInt]) "x" = some "[signed int ] x" := by
  decide

end CodeGen

namespace Mangle


/-! ## The flag `isTopLevel` and the visit of a type

No visit of a type reads `isTopLevel`: the nested manglers of the assertions are built
with the flag off. -/

theorem Mangler.top_emit (b : Bool) (s : String) (m : Mangler) :
    (m.top b).emit s = (m.emit s).top b := rfl

theorem Mangler.top_setInFunctionType (b c : Bool) (m : Mangler) :
    (m.top b).setInFunctionType c = (m.setInFunctionType c).top b := rfl

theorem Mangler.top_setInQualifiedType (b c : Bool) (m : Mangler) :
    (m.top b).setInQualifiedType c = (m.setInQualifiedType c).top b := rfl

theorem Mangler.top_setVarNums (b : Bool) (v : VarMapType) (m : Mangler) :
    (m.top b).setVarNums v = (m.setVarNums v).top b := rfl

theorem Mangler.top_setNextVarNum (b : Bool) (n : Int) (m : Mangler) :
    (m.top b).setNextVarNum n = (m.setNextVarNum n).top b := rfl

theorem cleanup_top (b : Bool) (m : Mangler) (r : Option Mangler) :
    cleanup (m.top b) (r.map (Mangler.top b)) = (cleanup m r).map (Mangler.top b) := by
  cases r <;> rfl

theorem printCV_top (enc : Encoding) (q : CV.Qualifiers) (b : Bool) (m : Mangler) :
    printCV enc q (m.top b) = (printCV enc q m).top b := by
  obtain ⟨c, r, v, mu, a⟩ := q
  obtain ⟨n, vn, nv, tl, mo, tm, gp, ift, iqt⟩ := m
  cases c <;> cases v <;> cases mu <;> cases a <;> cases ift <;>
    simp [printCV, Mangler.top, Mangler.emit, Mangler.setInFunctionType, Mangler.setIsTopLevel]

theorem printForall_top (enc : Encoding) (t : Ty)
    (r : VarMapType → Option (List String)) (b : Bool) (m : Mangler) :
    printForall enc t r (m.top b) = (printForall enc t r m).map (Mangler.top b) := by
  unfold printForall
  split
  · show (match forallLoop m.nextVarNum t.forallList ⟨0, 0, 0⟩ m.varNums with
      | none => none
      | some (c, varNums) => _) = _
    cases forallLoop m.nextVarNum t.forallList ⟨0, 0, 0⟩ m.varNums with
    | none => rfl
    | some cv =>
      obtain ⟨c, v⟩ := cv
      simp only []
      cases r v with
      | none => rfl
      | some names =>
        simp only [Option.map_some', Mangler.top_emit, Mangler.top_setVarNums]
  · rfl

theorem printQualifiers_top (enc : Encoding) (t : Ty)
    (r : VarMapType → Option (List String)) (b : Bool) (m : Mangler) :
    printQualifiers enc t r (m.top b) = (printQualifiers enc t r m).map (Mangler.top b) := by
  unfold printQualifiers
  have h1 : (m.top b).typeMode = m.typeMode := rfl
  rw [h1, printForall_top]
  split
  · rfl
  · cases printForall enc t r m with
    | none => rfl
    | some m1 => simp only [Option.map_some', printCV_top]

theorem mangleRef_top (enc : Encoding) (t : Ty) (name : String) (pe : Bool)
    (k : Mangler → Option Mangler) (pfx : String) (b : Bool) (m : Mangler)
    (hk : ∀ m, k (Mangler.top b m) = (k m).map (Mangler.top b)) :
    mangleRef enc t name pe k pfx (m.top b) = (mangleRef enc t name pe k pfx m).map (Mangler.top b) := by
  unfold mangleRef
  rw [printQualifiers_top]
  cases printQualifiers enc t noAssertions m with
  | none => rfl
  | some m1 =>
    simp only [Option.map_some', Mangler.top_emit]
    have h : ((m1.emit (pfx ++ toString name.utf8ByteSize ++ name)).top b).mangleGenericParams
        = (m1.emit (pfx ++ toString name.utf8ByteSize ++ name)).mangleGenericParams := rfl
    rw [h]
    split
    · rw [hk]
      cases k ((m1.emit (pfx ++ toString name.utf8ByteSize ++ name)).emit "_") with
      | none => rfl
      | some m2 => simp only [Option.map_some', Mangler.top_emit]
    · rfl

theorem qualifiedStart_top (enc : Encoding) (c b : Bool) (m : Mangler) :
    qualifiedStart enc c (m.top b) = (qualifiedStart enc c m).top b := by
  unfold qualifiedStart; split
  · rw [Mangler.top_setInQualifiedType, Mangler.top_emit]
  · rfl

theorem qualifiedEnd_top (enc : Encoding) (c b : Bool) (m : Mangler) :
    qualifiedEnd enc c (m.top b) = (qualifiedEnd enc c m).top b := by
  unfold qualifiedEnd; split
  · rw [Mangler.top_setInQualifiedType, Mangler.top_emit]
  · rfl

mutual

theorem accept_top (env : Env) : ∀ (t : Ty) (b : Bool) (m : Mangler),
    accept env t (m.top b) = (accept env t m).map (Mangler.top b)
  | .VoidType q, b, m => by
    simp only [accept]
    rw [printQualifiers_top, ← cleanup_top]
    cases printQualifiers env.enc (.VoidType q) noAssertions m with
    | none => rfl
    | some m1 => simp only [Option.map_some', Mangler.top_emit]
  | .BasicType q kind, b, m => by
    simp only [accept]
    rw [printQualifiers_top, ← cleanup_top]
    cases printQualifiers env.enc (.BasicType q kind) noAssertions m with
    | none => rfl
    | some m1 => simp only [Option.map_some', Mangler.top_emit]
  | .PointerType q base dim vl st, b, m => by
    simp only [accept]
    rw [printQualifiers_top, ← cleanup_top]
    cases printQualifiers env.enc (.PointerType q base dim vl st) noAssertions m with
    | none => rfl
    | some m1 =>
      simp only [Option.map_some']
      split
      · rw [Mangler.top_emit, accept_top env base]
      · rw [accept_top env base]
  | .ArrayType q base dim vl st, b, m => by
    simp only [accept]
    rw [printQualifiers_top, ← cleanup_top]
    cases printQualifiers env.enc (.ArrayType q base dim vl st) noAssertions m with
    | none => rfl
    | some m1 =>
      simp only [Option.map_some']
      rw [Mangler.top_emit, accept_top env base]
  | .ReferenceType q base, b, m => by
    simp only [accept]
    rw [Mangler.top_setInFunctionType, printQualifiers_top, ← cleanup_top]
    cases printQualifiers env.enc (.ReferenceType q base) noAssertions
        (m.setInFunctionType true) with
    | none => rfl
    | some m1 =>
      simp only [Option.map_some']
      rw [accept_top env base]
  | .FunctionType q fa assertions returns params va, b, m => by
    simp only [accept]
    have h1 : (m.top b).mangleOverridable = m.mangleOverridable := rfl
    have h2 : (m.top b).typeMode = m.typeMode := rfl
    have h3 : (m.top b).mangleGenericParams = m.mangleGenericParams := rfl
    have h4 : (m.top b).nextVarNum = m.nextVarNum := rfl
    rw [h1, h2, h3, h4, printQualifiers_top, ← cleanup_top]
    cases printQualifiers env.enc (.FunctionType q fa assertions returns params va)
        (fun varNums => readAssertions env assertions m.mangleOverridable m.typeMode
          m.mangleGenericParams m.nextVarNum varNums) m with
    | none => rfl
    | some m1 =>
      simp only [Option.map_some', Mangler.top_emit, Mangler.top_setInFunctionType]
      by_cases hr : returns.isEmpty = true
      · simp only [hr, if_true, Mangler.top_emit]
        rw [accept_each_top env params]
        cases accept_each env params
            ((((m1.emit env.enc.function).setInFunctionType true).emit env.enc.void_t).emit "_") with
        | none => rfl
        | some m3 => simp only [Option.map_some', Mangler.top_emit]
      · simp only [hr, Bool.false_eq_true, if_false]
        rw [accept_each_top env returns]
        cases accept_each env returns ((m1.emit env.enc.function).setInFunctionType true) with
        | none => rfl
        | some m2 =>
          simp only [Option.map_some', Mangler.top_emit]
          rw [accept_each_top env params]
          cases accept_each env params (m2.emit "_") with
          | none => rfl
          | some m3 => simp only [Option.map_some', Mangler.top_emit]
  | .StructInstType q name params, b, m => by
    simp only [accept]
    rw [mangleRef_top _ _ _ _ _ _ _ _ (fun m => acceptParams_top env params b m), ← cleanup_top]
  | .UnionInstType q name params, b, m => by
    simp only [accept]
    rw [mangleRef_top _ _ _ _ _ _ _ _ (fun m => acceptParams_top env params b m), ← cleanup_top]
  | .EnumInstType q name params eb, b, m => by
    simp only [accept]
    rw [mangleRef_top _ _ _ _ _ _ _ _ (fun m => acceptParams_top env params b m), ← cleanup_top]
  | .TypeInstType q name params kind, b, m => by
    simp only [accept]
    have h1 : (m.top b).varNums = m.varNums := rfl
    rw [h1]
    cases List.lookup name m.varNums with
    | none =>
      simp only []
      rw [mangleRef_top _ _ _ _ _ _ _ _ (fun m => acceptParams_top env params b m), ← cleanup_top]
    | some vn =>
      simp only []
      rw [printQualifiers_top, ← cleanup_top]
      cases printQualifiers env.enc (.TypeInstType q name params kind) noAssertions m with
      | none => rfl
      | some m1 => simp only [Option.map_some', Mangler.top_emit]
  | .TraitInstType q name params, b, m => by
    simp only [accept]
    rw [printQualifiers_top, ← cleanup_top]
    cases printQualifiers env.enc (.TraitInstType q name params) noAssertions m with
    | none => rfl
    | some m1 => simp only [Option.map_some', Mangler.top_emit]
  | .TupleType q types, b, m => by
    simp only [accept]
    rw [printQualifiers_top, ← cleanup_top]
    cases printQualifiers env.enc (.TupleType q types) noAssertions m with
    | none => rfl
    | some m1 =>
      simp only [Option.map_some']
      rw [Mangler.top_emit, accept_each_top env types]
  | .VarArgsType q, b, m => by
    simp only [accept]
    rw [printQualifiers_top, ← cleanup_top]
    cases printQualifiers env.enc (.VarArgsType q) noAssertions m with
    | none => rfl
    | some m1 => simp only [Option.map_some', Mangler.top_emit]
  | .ZeroType _, b, m => by
    simp only [accept]
    rw [Mangler.top_emit, ← cleanup_top]; rfl
  | .OneType _, b, m => by
    simp only [accept]
    rw [Mangler.top_emit, ← cleanup_top]; rfl
  | .GlobalScopeType, b, m => by
    simp only [accept]
    rw [← cleanup_top]; rfl
  | .TypeofType _ _ _, b, m => by
    simp only [accept]
    rw [← cleanup_top]; rfl
  | .VTableType _ _, b, m => by
    simp only [accept]
    rw [← cleanup_top]; rfl
  | .QualifiedType _ parent child, b, m => by
    simp only [accept]
    have h1 : (m.top b).inQualifiedType = m.inQualifiedType := rfl
    rw [h1, qualifiedStart_top, accept_top env parent, ← cleanup_top]
    cases accept env parent (qualifiedStart env.enc m.inQualifiedType m) with
    | none => rfl
    | some m1 =>
      simp only [Option.map_some']
      rw [accept_top env child]
      cases accept env child m1 with
      | none => rfl
      | some m2 => simp only [Option.map_some', qualifiedEnd_top]

theorem accept_each_top (env : Env) : ∀ (ts : List Ty) (b : Bool) (m : Mangler),
    accept_each env ts (m.top b) = (accept_each env ts m).map (Mangler.top b)
  | [], b, m => by simp only [accept_each, Option.map_some']
  | t :: ts, b, m => by
    simp only [accept_each]
    rw [accept_top env t]
    cases accept env t m with
    | none => rfl
    | some m1 =>
      simp only [Option.map_some']
      rw [accept_each_top env ts]

theorem acceptParams_top (env : Env) : ∀ (ps : List Expr) (b : Bool) (m : Mangler),
    acceptParams env ps (m.top b) = (acceptParams env ps m).map (Mangler.top b)
  | [], b, m => by simp only [acceptParams, Option.map_some']
  | .TypeExpr t :: ps, b, m => by
    simp only [acceptParams]
    rw [accept_top env t]
    cases accept env t m with
    | none => rfl
    | some m1 =>
      simp only [Option.map_some']
      rw [acceptParams_top env ps]
  | .Other _ :: _, b, m => by simp only [acceptParams, Option.map_none']

end


theorem mangleDeclBegin_ofMode (env : Env) (name : String) (mode : Mode) :
    mangleDeclBegin env name (Mangler.ofMode mode)
      = ((Mangler.ofMode mode).top false).pre (env.enc.manglePrefix
          ++ toString (mangledDeclName env name).utf8ByteSize ++ mangledDeclName env name) := by
  unfold mangleDeclBegin mangledDeclName
  cases env.operatorLookup name <;>
    simp [Mangler.ofMode, Mangler.pre, Mangler.top, Mangler.emit, Mangler.setVarNums,
      Mangler.setNextVarNum, Mangler.setIsTopLevel, String.append_assoc]

theorem mangleDeclEnd_eq (enc : Encoding) (l : Linkage.Spec) (w : Bool) (m : Mangler) :
    mangleDeclEnd enc l w m
      = (overrideSuffix enc m.mangleOverridable l).map
          (fun sfx => (m.emit sfx).setIsTopLevel w) := by
  unfold mangleDeclEnd overrideSuffix
  split_ifs <;> simp [Mangler.emit_empty]

theorem accept_mangleOverridable {env : Env} {t : Ty} {m x : Mangler}
    (h : accept env t m = some x) : x.mangleOverridable = m.mangleOverridable := by
  have e := accept_frame env t m x h
  simp only [Mangler.frame, Prod.mk.injEq] at e
  exact e.2.1

/-- The result of `Mangle::mangle` on a declaration, in terms of its result on the type
of the declaration. -/
theorem mangle_decl_eq (env : Env) (name : String) (linkage : Linkage.Spec) (t : Ty)
    (mode : Mode) :
    mangle env (.decl (.mk name linkage t)) mode
      = (mangle env (.type t) mode).bind (fun typeText =>
          (overrideSuffix env.enc (!mode.no_overrideable) linkage).map (fun sfx =>
            env.enc.manglePrefix ++ toString (mangledDeclName env name).utf8ByteSize
              ++ mangledDeclName env name ++ typeText ++ sfx)) := by
  simp only [mangle, mangleDecl]
  rw [mangleDeclBegin_ofMode, accept_pre, accept_top]
  cases h : accept env t (Mangler.ofMode mode) with
  | none => rfl
  | some x =>
    have ho : x.mangleOverridable = !mode.no_overrideable := accept_mangleOverridable h
    simp only [Option.map_some', Option.some_bind]
    rw [mangleDeclEnd_eq]
    have e : ((Mangler.pre (env.enc.manglePrefix
        ++ toString (mangledDeclName env name).utf8ByteSize ++ mangledDeclName env name)
        (Mangler.top false x))).mangleOverridable = x.mangleOverridable := rfl
    rw [e, ho]
    cases overrideSuffix env.enc (!mode.no_overrideable) linkage with
    | none => rfl
    | some sfx =>
      simp only [Option.map_some', Mangler.result, Mangler.emit, Mangler.pre, Mangler.top,
        Mangler.setIsTopLevel, Mangler.ofMode]

end Mangle

/-! ## The name and the suffix of a declaration -/

namespace Mangle

theorem overrideSuffix_plain (enc : Encoding) (b : Bool) (l : Linkage.Spec)
    (h : b = false ∨ l.is_overrideable = false) : overrideSuffix enc b l = some "" := by
  unfold overrideSuffix
  rcases h with h | h <;> simp [h]

theorem mangle_decl_plain (env : Env) (name : String) (l : Linkage.Spec) (t : Ty)
    (mode : Mode) (h : mode.no_overrideable = true ∨ l.is_overrideable = false) :
    mangle env (.decl (.mk name l t)) mode
      = (mangle env (.type t) mode).map (fun typeText =>
          env.enc.manglePrefix ++ toString (mangledDeclName env name).utf8ByteSize
            ++ mangledDeclName env name ++ typeText) := by
  rw [mangle_decl_eq, overrideSuffix_plain env.enc _ l (by
    rcases h with h | h
    · left; simp [h]
    · right; exact h)]
  cases mangle env (.type t) mode with
  | none => rfl
  | some typeText => simp only [Option.some_bind, Option.map_some', String.append_empty]

theorem mangle_decl_suffix (env : Env) (name : String) (l : Linkage.Spec) (t : Ty)
    (mode : Mode) (sfx : String)
    (h : overrideSuffix env.enc (!mode.no_overrideable) l = some sfx) :
    mangle env (.decl (.mk name l t)) mode
      = (mangle env (.type t) mode).map (fun typeText =>
          env.enc.manglePrefix ++ toString (mangledDeclName env name).utf8ByteSize
            ++ mangledDeclName env name ++ typeText ++ sfx) := by
  rw [mangle_decl_eq, h]
  cases mangle env (.type t) mode with
  | none => rfl
  | some typeText => simp only [Option.some_bind, Option.map_some']

/-- **C25 (amended).** The end of `mangleDecl` appends the autogen (resp. intrinsic)
suffix token to the mangled name of a declaration if and only if the mode does not
suppress override markers and the linkage of the declaration is overrideable with
AutoGen (resp. Intrinsic) linkage: in that case `mangle(d)` is `mangle` of `d` with a
linkage that is not overrideable, followed by the suffix; with override markers
suppressed (`no_overrideable`), or among linkages that are not overrideable, the mangled
name does not depend on the linkage; an overrideable linkage that is neither AutoGen nor
Intrinsic makes mangling fail when override markers are not suppressed. -/
theorem override_suffix_appended (env : Env) (name : String) (t : Ty) (mode : Mode) :
    (mode.no_overrideable = false → ∀ l0 : Linkage.Spec, l0.is_overrideable = false →
      mangle env (.decl (.mk name Linkage.AutoGen t)) mode
          = (mangle env (.decl (.mk name l0 t)) mode).map (fun s => s ++ env.enc.autogen)
        ∧ mangle env (.decl (.mk name Linkage.Intrinsic t)) mode
          = (mangle env (.decl (.mk name l0 t)) mode).map (fun s => s ++ env.enc.intrinsic))
    ∧ (∀ l1 l2 : Linkage.Spec,
        (mode.no_overrideable = true
          ∨ (l1.is_overrideable = false ∧ l2.is_overrideable = false)) →
        mangle env (.decl (.mk name l1 t)) mode = mangle env (.decl (.mk name l2 t)) mode)
    ∧ (mode.no_overrideable = false → ∀ l : Linkage.Spec, l.is_overrideable = true →
        l ≠ Linkage.AutoGen → l ≠ Linkage.Intrinsic →
        mangle env (.decl (.mk name l t)) mode = none) := by
  refine ⟨?_, ?_, ?_⟩
  · intro hm l0 hl0
    rw [mangle_decl_plain env name l0 t mode (Or.inr hl0),
      mangle_decl_suffix env name Linkage.AutoGen t mode env.enc.autogen (by
        simp [overrideSuffix, hm, Linkage.AutoGen]),
      mangle_decl_suffix env name Linkage.Intrinsic t mode env.enc.intrinsic (by
        simp [overrideSuffix, hm, Linkage.Intrinsic, Linkage.AutoGen])]
    cases mangle env (.type t) mode with
    | none => exact ⟨rfl, rfl⟩
    | some typeText => exact ⟨rfl, rfl⟩
  · intro l1 l2 h
    rcases h with h | ⟨h1, h2⟩
    · rw [mangle_decl_plain env name l1 t mode (Or.inl h),
        mangle_decl_plain env name l2 t mode (Or.inl h)]
    · rw [mangle_decl_plain env name l1 t mode (Or.inr h1),
        mangle_decl_plain env name l2 t mode (Or.inr h2)]
  · intro hm l hl h1 h2
    rw [mangle_decl_eq]
    have e : overrideSuffix env.enc (!mode.no_overrideable) l = none := by
      simp [overrideSuffix, hm, hl, h1, h2]
    rw [e]
    cases mangle env (.type t) mode <;> rfl

/-- An object `x` of type signed int in the sample environment: `_X1xi` with Cforall or C
linkage, `_X1xiautogen__` with AutoGen linkage in the default mode, and no name with an
overrideable Cforall linkage. -/
theorem override_suffix_appended_witness :
    mangle sampleEnv (.decl (.mk "x" Linkage.AutoGen (.BasicType CV.none .SignedInt)))
        Mode.default = some "_X1xiautogen__"
    ∧ mangle sampleEnv (.decl (.mk "x" Linkage.Cforall (.BasicType CV.none .SignedInt)))
        Mode.default
      = mangle sampleEnv (.decl (.mk "x" Linkage.C (.BasicType CV.none .SignedInt)))
        Mode.default
    ∧ mangle sampleEnv (.decl (.mk "x" ⟨Linkage.Name.Cforall, true⟩
        (.BasicType CV.none .SignedInt))) Mode.default = none :=
  ⟨((override_suffix_appended sampleEnv "x" (.BasicType CV.none .SignedInt)
      Mode.default).1 rfl Linkage.Cforall rfl).1.trans (by decide),
    (override_suffix_appended sampleEnv "x" (.BasicType CV.none .SignedInt)
      Mode.default).2.1 Linkage.Cforall Linkage.C (Or.inr ⟨rfl, rfl⟩),
    (override_suffix_appended sampleEnv "x" (.BasicType CV.none .SignedInt)
      Mode.default).2.2 rfl ⟨Linkage.Name.Cforall, true⟩ rfl (by decide) (by decide)⟩

/-- Counterexample to C25 as stated: a mangled name can end with the characters of the
autogen suffix token although the linkage of the declaration is not overrideable. The
object `x` of type `struct autogen__` with Cforall linkage has the name
`_X1xS9autogen__` in the sample environment, whose autogen token is `autogen__`. -/
theorem suffix_characters_without_override :
    mangle sampleEnv (.decl (.mk "x" Linkage.Cforall
        (.StructInstType CV.none "autogen__" []))) Mode.default = some "_X1xS9autogen__"
    ∧ "_X1xS9autogen__" = "_X1xS9" ++ sampleEnv.enc.autogen
    ∧ Linkage.Cforall.is_overrideable = false := by
  decide

/-- **C26.** For every object or function declaration `d`, `mangle(d)` is the mangle
prefix, the decimal length of `n`, `n` itself, the mangling of the type of `d`, and the
suffix of the linkage, in this order, where `n` is the output name of the operator table
for `d.name` when `operatorLookup` finds one and `d.name` otherwise (`mangledDeclName`);
the mangling fails exactly when that of the type fails or the linkage has no suffix. -/
theorem declaration_begins_with_name (env : Env) (name : String) (linkage : Linkage.Spec)
    (t : Ty) (mode : Mode) :
    (mangledDeclName env name = match env.operatorLookup name with
        | some opInfo => opInfo.outputName
        | none => name)
    ∧ mangle env (.decl (.mk name linkage t)) mode
      = (mangle env (.type t) mode).bind (fun typeText =>
          (overrideSuffix env.enc (!mode.no_overrideable) linkage).map (fun sfx =>
            env.enc.manglePrefix ++ toString (mangledDeclName env name).utf8ByteSize
              ++ mangledDeclName env name ++ typeText ++ sfx)) :=
  ⟨rfl, mangle_decl_eq env name linkage t mode⟩

/-- The operator `?+?` on two signed ints, which the sample operator table translates
to `_operator_add`: the length 13 and the output name follow the prefix, then the type. -/
theorem operator_name_translated :
    mangle sampleEnv (.decl (.mk "?+?" Linkage.Cforall (.FunctionType CV.none [] []
        [.BasicType CV.none .SignedInt]
        [.BasicType CV.none .SignedInt, .BasicType CV.none .SignedInt] false))) Mode.default
      = some "_X13_operator_addFi_ii_"
    ∧ mangle sampleEnv (.type (.FunctionType CV.none [] []
        [.BasicType CV.none .SignedInt]
        [.BasicType CV.none .SignedInt, .BasicType CV.none .SignedInt] false)) Mode.default
      = some "Fi_ii_" := by
  decide

end Mangle

namespace Mangle


/-! ## Aggregate instances -/

theorem printCV_text (enc : Encoding) (q : CV.Qualifiers) (m : Mangler) :
    printCV enc q m
      = (m.emit (qualifierText enc false m.inFunctionType q)).setInFunctionType false := by
  obtain ⟨c, r, v, mu, a⟩ := q
  obtain ⟨n, vn, nv, tl, mo, tm, gp, ift, iqt⟩ := m
  cases c <;> cases v <;> cases mu <;> cases a <;> cases ift <;>
    simp [printCV, qualifierText, Mangler.emit, Mangler.setInFunctionType,
      String.append_assoc]

theorem printQualifiers_text (enc : Encoding) (t : Ty)
    (r : VarMapType → Option (List String)) (m : Mangler) (ht : t.isFunctionType = false) :
    printQualifiers enc t r m
      = some ((m.emit (qualifierText enc m.typeMode m.inFunctionType t.quals)).setInFunctionType
          (m.typeMode && m.inFunctionType)) := by
  cases htm : m.typeMode with
  | true =>
    unfold printQualifiers
    rw [htm]
    simp only [if_true, qualifierText, Bool.true_and, Option.some.injEq]
    obtain ⟨n, vn, nv, tl, mo, tm, gp, ift, iqt⟩ := m
    simp [Mangler.emit, Mangler.setInFunctionType]
  | false =>
    rw [printQualifiers_nonfunction enc t r m ht htm, printCV_text]
    rfl

/-- The visit of a struct, union or enum instance from any state. -/
theorem accept_aggregate (env : Env) (k : AggregateKind) (q : CV.Qualifiers) (name : String)
    (params : List Expr) (eb : Option (Option Ty)) (m : Mangler) :
    accept env (k.inst q name params eb) m
      = cleanup m
          (if m.mangleGenericParams && !params.isEmpty then
            (acceptParams env params
              ((m.emit (qualifierText env.enc m.typeMode m.inFunctionType q
                  ++ k.token env.enc ++ toString name.utf8ByteSize ++ name ++ "_")
                ).setInFunctionType (m.typeMode && m.inFunctionType))).map
              (fun x => x.emit "_")
          else
            some ((m.emit (qualifierText env.enc m.typeMode m.inFunctionType q
                ++ k.token env.enc ++ toString name.utf8ByteSize ++ name)
              ).setInFunctionType (m.typeMode && m.inFunctionType))) := by
  have key : ∀ (t : Ty), t.isFunctionType = false → t.quals = q →
      mangleRef env.enc t name params.isEmpty (fun cur => acceptParams env params cur)
          (k.token env.enc) m
        = (if m.mangleGenericParams && !params.isEmpty then
            (acceptParams env params
              ((m.emit (qualifierText env.enc m.typeMode m.inFunctionType q
                  ++ k.token env.enc ++ toString name.utf8ByteSize ++ name ++ "_")
                ).setInFunctionType (m.typeMode && m.inFunctionType))).map
              (fun x => x.emit "_")
          else
            some ((m.emit (qualifierText env.enc m.typeMode m.inFunctionType q
                ++ k.token env.enc ++ toString name.utf8ByteSize ++ name)
              ).setInFunctionType (m.typeMode && m.inFunctionType))) := by
    intro t ht hq
    unfold mangleRef
    rw [printQualifiers_text env.enc t noAssertions m ht, hq]
    simp only []
    have e1 : ∀ s : String, (((m.emit (qualifierText env.enc m.typeMode m.inFunctionType q)
        ).setInFunctionType (m.typeMode && m.inFunctionType)).emit s)
        = (m.emit (qualifierText env.enc m.typeMode m.inFunctionType q ++ s)
          ).setInFunctionType (m.typeMode && m.inFunctionType) := by
      intro s
      simp [Mangler.emit, Mangler.setInFunctionType, String.append_assoc]
    have e2 : ∀ (s : String) (b : Bool), ((m.emit s).setInFunctionType b).mangleGenericParams
        = m.mangleGenericParams := fun _ _ => rfl
    rw [e1, e2]
    by_cases hc : (m.mangleGenericParams && !params.isEmpty) = true
    · rw [if_pos hc, if_pos hc]
      have e3 : ((m.emit (qualifierText env.enc m.typeMode m.inFunctionType q
          ++ (k.token env.enc ++ toString name.utf8ByteSize ++ name))
          ).setInFunctionType (m.typeMode && m.inFunctionType)).emit "_"
          = (m.emit (qualifierText env.enc m.typeMode m.inFunctionType q
            ++ k.token env.enc ++ toString name.utf8ByteSize ++ name ++ "_")
            ).setInFunctionType (m.typeMode && m.inFunctionType) := by
        simp [Mangler.emit, Mangler.setInFunctionType, String.append_assoc]
      rw [e3]
      cases acceptParams env params _ <;> rfl
    · rw [if_neg hc, if_neg hc]
      simp only [String.append_assoc]
  cases k with
  | struct =>
    simp only [AggregateKind.inst, accept]
    exact congrArg (cleanup m) (key (.StructInstType q name params) rfl rfl)
  | union =>
    simp only [AggregateKind.inst, accept]
    exact congrArg (cleanup m) (key (.UnionInstType q name params) rfl rfl)
  | enum =>
    simp only [AggregateKind.inst, accept]
    exact congrArg (cleanup m) (key (.EnumInstType q name params eb) rfl rfl)

theorem acceptParams_other (env : Env) (text : String) (after : List Expr) :
    ∀ (before : List Expr) (m : Mangler),
      acceptParams env (before ++ .Other text :: after) m = none
  | [], m => by simp only [List.nil_append, acceptParams]
  | .TypeExpr t :: rest, m => by
    simp only [List.cons_append, acceptParams]
    cases accept env t m with
    | none => rfl
    | some x => exact acceptParams_other env text after rest x
  | .Other _ :: rest, m => by simp only [List.cons_append, acceptParams]

/-- The result of `Mangle::mangle` on a struct, union or enum instance. -/
theorem mangle_aggregate (env : Env) (k : AggregateKind) (q : CV.Qualifiers) (name : String)
    (params : List Expr) (eb : Option (Option Ty)) (mode : Mode) :
    mangle env (.type (k.inst q name params eb)) mode
      = if !mode.no_generic_params && !params.isEmpty then
          ((acceptParams env params (Mangler.ofMode mode)).map Mangler.result).map
            (fun paramsText => qualifierText env.enc mode.type false q ++ k.token env.enc
              ++ toString name.utf8ByteSize ++ name ++ "_" ++ paramsText ++ "_")
        else
          some (qualifierText env.enc mode.type false q ++ k.token env.enc
            ++ toString name.utf8ByteSize ++ name) := by
  simp only [mangle]
  rw [accept_aggregate]
  have e1 : (Mangler.ofMode mode).mangleGenericParams = !mode.no_generic_params := rfl
  have e2 : (Mangler.ofMode mode).typeMode = mode.type := rfl
  have e3 : (Mangler.ofMode mode).inFunctionType = false := rfl
  rw [e1, e2, e3]
  have e4 : ∀ s : String, ((Mangler.ofMode mode).emit s).setInFunctionType (mode.type && false)
      = (Mangler.ofMode mode).pre s := by
    intro s
    simp [Mangler.ofMode, Mangler.emit, Mangler.setInFunctionType, Mangler.pre]
  rw [e4, e4]
  by_cases hc : (!mode.no_generic_params && !params.isEmpty) = true
  · rw [if_pos hc, if_pos hc, acceptParams_pre]
    cases acceptParams env params (Mangler.ofMode mode) with
    | none => rfl
    | some x =>
      simp only [Option.map_some', cleanup, Mangler.result, Mangler.emit, Mangler.pre,
        Mangler.setInFunctionType, String.append_assoc]
  · rw [if_neg hc, if_neg hc]
    simp only [Option.map_some', cleanup, Mangler.result, Mangler.emit, Mangler.pre,
      Mangler.setInFunctionType, Mangler.ofMode, String.append_empty]

/-- **C27.** A struct, union or enum instance type mangles as its qualifier tokens
(`qualifierText`: none in type mode), then the kind token (`struct_t`, `union_t`,
`enum_t`), then the decimal length of its name, then the name, and, only if
generic-parameter mangling is enabled and the parameter list is not empty, an underscore,
the manglings of the type parameters, which the same mangler visits in order, and an
underscore; with `no_generic_params` the mangled string does not depend on the parameter
list, and a parameter that is not a type expression makes mangling fail when parameters
are mangled. -/
theorem aggregate_instance_mangling (env : Env) (k : AggregateKind) (q : CV.Qualifiers)
    (name : String) (params : List Expr) (eb : Option (Option Ty)) (mode : Mode) :
    (mangle env (.type (k.inst q name params eb)) mode
      = if !mode.no_generic_params && !params.isEmpty then
          ((acceptParams env params (Mangler.ofMode mode)).map Mangler.result).map
            (fun paramsText => qualifierText env.enc mode.type false q ++ k.token env.enc
              ++ toString name.utf8ByteSize ++ name ++ "_" ++ paramsText ++ "_")
        else
          some (qualifierText env.enc mode.type false q ++ k.token env.enc
            ++ toString name.utf8ByteSize ++ name))
    ∧ (mode.no_generic_params = true → ∀ params2 : List Expr,
        mangle env (.type (k.inst q name params2 eb)) mode
          = mangle env (.type (k.inst q name params eb)) mode)
    ∧ (mode.no_generic_params = false →
        ∀ (before after : List Expr) (text : String),
          params = before ++ .Other text :: after →
          mangle env (.type (k.inst q name params eb)) mode = none) := by
  refine ⟨mangle_aggregate env k q name params eb mode, ?_, ?_⟩
  · intro hm params2
    rw [mangle_aggregate, mangle_aggregate, hm]
    simp only [Bool.not_true, Bool.false_and, Bool.false_eq_true, if_false]
  · intro hm before after text hp
    rw [mangle_aggregate, hm, hp, acceptParams_other]
    simp

/-- The instance `S( int )` of a generic struct in the sample environment: `S1S_i_` in
the default mode, `S1S` when the generic parameters are suppressed, whatever the
parameters, and no name when a parameter is not a type. -/
theorem aggregate_instance_mangling_witness :
    mangle sampleEnv (.type (.StructInstType CV.none "S"
        [.TypeExpr (.BasicType CV.none .SignedInt)])) Mode.default = some "S1S_i_"
    ∧ mangle sampleEnv (.type (.StructInstType CV.none "S" [])) ⟨false, false, true⟩
      = mangle sampleEnv (.type (.StructInstType CV.none "S"
        [.TypeExpr (.BasicType CV.none .SignedInt)])) ⟨false, false, true⟩
    ∧ mangle sampleEnv (.type (.StructInstType CV.none "S"
        [.TypeExpr (.BasicType CV.none .SignedInt), .Other "3"])) Mode.default = none :=
  ⟨by decide,
    (aggregate_instance_mangling sampleEnv .struct CV.none "S"
      [.TypeExpr (.BasicType CV.none .SignedInt)] none ⟨false, false, true⟩).2.1 rfl [],
    (aggregate_instance_mangling sampleEnv .struct CV.none "S"
      [.TypeExpr (.BasicType CV.none .SignedInt), .Other "3"] none Mode.default).2.2 rfl
      [.TypeExpr (.BasicType CV.none .SignedInt)] [] "3" rfl⟩

end Mangle

/-! ## The reset at top level -/

namespace Mangle

theorem mangleDeclBegin_reset (env : Env) (name : String) (m : Mangler)
    (htl : m.isTopLevel = true) (v : VarMapType) (k : Int) :
    mangleDeclBegin env name ((m.setVarNums v).setNextVarNum k)
      = mangleDeclBegin env name m := by
  unfold mangleDeclBegin
  have e : ((m.setVarNums v).setNextVarNum k).isTopLevel = m.isTopLevel := rfl
  rw [e, htl]
  rfl

theorem mangleDeclBegin_top_level (env : Env) (name : String) (m : Mangler)
    (htl : m.isTopLevel = true) :
    (mangleDeclBegin env name m).varNums = []
      ∧ (mangleDeclBegin env name m).nextVarNum = 0 := by
  unfold mangleDeclBegin
  rw [htl]
  cases env.operatorLookup name <;> exact ⟨rfl, rfl⟩

theorem mangleDecl_isTopLevel {env : Env} {d : DeclWithType} {m x : Mangler}
    (h : mangleDecl env d m = some x) : x.isTopLevel = m.isTopLevel := by
  obtain ⟨name, linkage, type⟩ := d
  simp only [mangleDecl] at h
  cases ha : accept env type (mangleDeclBegin env name m) with
  | none => rw [ha] at h; cases h
  | some m1 =>
    rw [ha] at h
    simp only [] at h
    rw [mangleDeclEnd_eq] at h
    cases hs : overrideSuffix env.enc m1.mangleOverridable linkage with
    | none => rw [hs] at h; cases h
    | some sfx =>
      rw [hs] at h
      simp only [Option.map_some', Option.some.injEq] at h
      rw [← h]
      rfl

/-- **C28.** Mangling is deterministic and reset at top level. Entering `mangleDecl` with
`isTopLevel` set clears the name-to-index map and resets the next index to 0: the state
after the beginning of `mangleDecl` has the empty map and the index 0, and the outcome of
`mangleDecl` (the final state, or the failure) is the same for every prior content of the
map and of the counter. So the name returned for a declaration is that of
`Mangle::mangle`, which starts from a fresh mangler and depends on the node and the mode
only, and `isTopLevel` has its entry value again on exit, at top level or not. -/
theorem top_level_reset (env : Env) (d : DeclWithType) (m : Mangler) :
    (m.isTopLevel = true →
      ((mangleDeclBegin env d.name m).varNums = []
        ∧ (mangleDeclBegin env d.name m).nextVarNum = 0)
      ∧ ∀ (v : VarMapType) (k : Int),
          mangleDecl env d ((m.setVarNums v).setNextVarNum k) = mangleDecl env d m)
    ∧ (∀ (mode : Mode) (v : VarMapType) (k : Int),
        (mangleDecl env d (((Mangler.ofMode mode).setVarNums v).setNextVarNum k)).map
            Mangler.result
          = mangle env (.decl d) mode)
    ∧ (∀ x : Mangler, mangleDecl env d m = some x → x.isTopLevel = m.isTopLevel) := by
  obtain ⟨name, linkage, type⟩ := d
  refine ⟨?_, ?_, ?_⟩
  · intro htl
    refine ⟨mangleDeclBegin_top_level env name m htl, ?_⟩
    intro v k
    simp only [mangleDecl]
    rw [mangleDeclBegin_reset env name m htl]
    rfl
  · intro mode v k
    simp only [mangle, mangleDecl]
    rw [mangleDeclBegin_reset env name (Mangler.ofMode mode) rfl]
    rfl
  · intro x h
    exact mangleDecl_isTopLevel h

/-- The object `x` of type `T` in the sample environment, mangled at top level from a
state whose map binds `T`: the binding is cleared, so the name is `_X1xY1T`, that of
`Mangle::mangle`, and the flag `isTopLevel` is set on exit. -/
theorem top_level_reset_witness :
    mangleDecl sampleEnv (.mk "x" Linkage.Cforall (.TypeInstType CV.none "T" [] .Dtype))
        (((Mangler.ofMode Mode.default).setVarNums [("T", (0, .Dtype))]).setNextVarNum 5)
      = mangleDecl sampleEnv (.mk "x" Linkage.Cforall (.TypeInstType CV.none "T" [] .Dtype))
        (Mangler.ofMode Mode.default)
    ∧ mangle sampleEnv (.decl (.mk "x" Linkage.Cforall (.TypeInstType CV.none "T" [] .Dtype)))
        Mode.default = some "_X1xY1T"
    ∧ ∀ x : Mangler,
        mangleDecl sampleEnv (.mk "x" Linkage.Cforall (.TypeInstType CV.none "T" [] .Dtype))
          (Mangler.ofMode Mode.default) = some x → x.isTopLevel = true :=
  ⟨((top_level_reset sampleEnv (.mk "x" Linkage.Cforall (.TypeInstType CV.none "T" [] .Dtype))
      (Mangler.ofMode Mode.default)).1 rfl).2 [("T", (0, .Dtype))] 5,
    by decide,
    (top_level_reset sampleEnv (.mk "x" Linkage.Cforall (.TypeInstType CV.none "T" [] .Dtype))
      (Mangler.ofMode Mode.default)).2.2⟩

/-- Without the flag `isTopLevel` nothing is reset: the nested mangler of an assertion,
started from a map that binds `T`, writes the kind token and the index of `T`. -/
theorem no_reset_below_top_level :
    (mangleDecl sampleEnv (.mk "x" Linkage.Cforall (.TypeInstType CV.none "T" [] .Dtype))
        (Mangler.nested true false true 0 [("T", (0, .Dtype))])).map Mangler.result
      = some "_X1xBD0" := by
  decide

end Mangle

/-! ## The assertions of a polymorphic function type -/

namespace Mangle

theorem readAssertions_iff (env : Env) (o tm gp : Bool) (n : Int) (v : VarMapType) :
    ∀ (assertions : List DeclWithType) (names : List String),
      readAssertions env assertions o tm gp n v = some names
        ↔ List.Forall₂ (fun a s =>
            (mangleDecl env a (Mangler.nested o tm gp n v)).map Mangler.result = some s)
          assertions names
  | [], names => by
    simp only [readAssertions, Option.some.injEq]
    constructor
    · intro h; subst h; exact List.Forall₂.nil
    · intro h; cases h; rfl
  | a :: rest, names => by
    simp only [readAssertions]
    constructor
    · intro h
      cases ha : mangleDecl env a (Mangler.nested o tm gp n v) with
      | none => rw [ha] at h; cases h
      | some sub =>
        rw [ha] at h
        simp only [] at h
        cases hr : readAssertions env rest o tm gp n v with
        | none => rw [hr] at h; cases h
        | some ns =>
          rw [hr] at h
          simp only [Option.some.injEq] at h
          subst h
          exact List.Forall₂.cons (by rw [ha]; rfl)
            ((readAssertions_iff env o tm gp n v rest ns).mp hr)
    · intro h
      cases h with
      | cons h1 h2 =>
        rename_i s ns
        have hr := (readAssertions_iff env o tm gp n v rest ns).mpr h2
        cases ha : mangleDecl env a (Mangler.nested o tm gp n v) with
        | none => rw [ha] at h1; cases h1
        | some sub =>
          rw [ha] at h1
          simp only [Option.map_some', Option.some.injEq] at h1
          simp only [hr, h1]

/-- **C29.** Each assertion of a polymorphic function type is mangled by a nested
mangler that starts from a snapshot of the current name-to-index map and next index,
taken after all of the `forall` parameters are registered, with `isTopLevel` false so
that no reset happens: the names read are, in declaration order, the results of
`mangleDecl` on the assertions, each from the nested state built from the map `v` that the
loop over the `forall` list leaves, and the beginning of `mangleDecl` keeps that map and
index. Nothing the nested mangle does to its map, counter or flags is visible to the
enclosing traversal: `printQualifiers` leaves the state it found with the `forall` token,
the count header, the assertion names in order and the closing underscore appended (then
the qualifier tokens), and with the map `v`. -/
theorem assertions_in_nested_snapshot (env : Env) (q : CV.Qualifiers) (fa : List TypeDecl)
    (assertions : List DeclWithType) (returns params : List Ty) (va : Bool) (m : Mangler)
    (htm : m.typeMode = false) (hfa : fa ≠ []) :
    (printQualifiers env.enc (.FunctionType q fa assertions returns params va)
        (fun varNums => readAssertions env assertions m.mangleOverridable m.typeMode
          m.mangleGenericParams m.nextVarNum varNums) m
      = (forallLoop m.nextVarNum fa ⟨0, 0, 0⟩ m.varNums).bind (fun cv =>
          (readAssertions env assertions m.mangleOverridable m.typeMode
            m.mangleGenericParams m.nextVarNum cv.2).map (fun names =>
              printCV env.enc q
                (((m.emit env.enc.forall_).setVarNums cv.2).emit
                  (toString cv.1.dcount ++ "_" ++ toString cv.1.fcount ++ "_"
                    ++ toString cv.1.vcount ++ "_" ++ toString assertions.length ++ "_"
                    ++ String.join names ++ "_")))))
    ∧ (∀ (v : VarMapType) (names : List String),
        readAssertions env assertions m.mangleOverridable m.typeMode
            m.mangleGenericParams m.nextVarNum v = some names
          ↔ List.Forall₂ (fun a s =>
              (mangleDecl env a (Mangler.nested m.mangleOverridable m.typeMode
                m.mangleGenericParams m.nextVarNum v)).map Mangler.result = some s)
            assertions names)
    ∧ (∀ (v : VarMapType) (name : String),
        (Mangler.nested m.mangleOverridable m.typeMode m.mangleGenericParams
            m.nextVarNum v).isTopLevel = false
        ∧ (mangleDeclBegin env name (Mangler.nested m.mangleOverridable m.typeMode
            m.mangleGenericParams m.nextVarNum v)).varNums = v
        ∧ (mangleDeclBegin env name (Mangler.nested m.mangleOverridable m.typeMode
            m.mangleGenericParams m.nextVarNum v)).nextVarNum = m.nextVarNum)
    ∧ (∀ x : Mangler,
        printQualifiers env.enc (.FunctionType q fa assertions returns params va)
          (fun varNums => readAssertions env assertions m.mangleOverridable m.typeMode
            m.mangleGenericParams m.nextVarNum varNums) m = some x →
        x.frame = m.frame
          ∧ ∃ (c : ForallCounts) (names : List String),
              forallLoop m.nextVarNum fa ⟨0, 0, 0⟩ m.varNums = some (c, x.varNums)
              ∧ x.mangleName = m.mangleName ++ env.enc.forall_
                  ++ (toString c.dcount ++ "_" ++ toString c.fcount ++ "_"
                    ++ toString c.vcount ++ "_" ++ toString assertions.length ++ "_"
                    ++ String.join names ++ "_")
                  ++ qualifierText env.enc false m.inFunctionType q) := by
  have hne : fa.isEmpty = false := by
    cases fa with
    | nil => exact absurd rfl hfa
    | cons a rest => rfl
  have main : printQualifiers env.enc (.FunctionType q fa assertions returns params va)
        (fun varNums => readAssertions env assertions m.mangleOverridable m.typeMode
          m.mangleGenericParams m.nextVarNum varNums) m
      = (forallLoop m.nextVarNum fa ⟨0, 0, 0⟩ m.varNums).bind (fun cv =>
          (readAssertions env assertions m.mangleOverridable m.typeMode
            m.mangleGenericParams m.nextVarNum cv.2).map (fun names =>
              printCV env.enc q
                (((m.emit env.enc.forall_).setVarNums cv.2).emit
                  (toString cv.1.dcount ++ "_" ++ toString cv.1.fcount ++ "_"
                    ++ toString cv.1.vcount ++ "_" ++ toString assertions.length ++ "_"
                    ++ String.join names ++ "_")))) := by
    unfold printQualifiers printForall
    rw [htm]
    simp only [Bool.false_eq_true, if_false, Ty.isFunctionType, Ty.forallList, hne,
      Bool.not_false, Bool.and_self, if_true, Ty.quals]
    cases hl : forallLoop m.nextVarNum fa ⟨0, 0, 0⟩ m.varNums with
    | none => rfl
    | some cv =>
      obtain ⟨c, v⟩ := cv
      simp only [Option.some_bind]
      cases hr : readAssertions env assertions m.mangleOverridable false
          m.mangleGenericParams m.nextVarNum v with
      | none => rfl
      | some names =>
        have hlen : names.length = assertions.length :=
          (List.Forall₂.length_eq
            ((readAssertions_iff env _ _ _ _ _ assertions names).mp hr)).symm
        simp only [Option.map_some', forallText, hlen]
  refine ⟨main, fun v names => readAssertions_iff env _ _ _ _ v assertions names, ?_, ?_⟩
  · intro v name
    exact ⟨rfl, mangleDeclBegin_varNums env name _ rfl, by
      unfold mangleDeclBegin
      cases env.operatorLookup name <;> rfl⟩
  · intro x hx
    rw [main] at hx
    cases hl : forallLoop m.nextVarNum fa ⟨0, 0, 0⟩ m.varNums with
    | none => rw [hl] at hx; cases hx
    | some cv =>
      obtain ⟨c, v⟩ := cv
      rw [hl] at hx
      simp only [Option.some_bind] at hx
      cases hr : readAssertions env assertions m.mangleOverridable m.typeMode
          m.mangleGenericParams m.nextVarNum v with
      | none => rw [hr] at hx; cases hx
      | some names =>
        rw [hr] at hx
        simp only [Option.map_some', Option.some.injEq] at hx
        subst hx
        refine ⟨by rw [printCV_frame]; rfl, c, names, ?_, ?_⟩
        · rw [printCV_varNums]
          rfl
        · rw [printCV_text]
          simp only [Mangler.emit, Mangler.setVarNums, Mangler.setInFunctionType,
            String.append_assoc]

/-- The function type of `forall( dtype T | { void g( T ); } ) void f( T )` in the sample
environment: the assertion `g` is read from the map that binds `T` to the index 0, so its
name is `_X1gFv_BD0_`, and the enclosing state gets the map and the text
`Q1_0_0_1__X1gFv_BD0__` and keeps everything else. -/
theorem assertions_in_nested_snapshot_witness :
    printQualifiers sampleEnv.enc
        (.FunctionType CV.none [⟨"T", .Dtype⟩]
          [.mk "g" Linkage.Cforall (.FunctionType CV.none [] [] []
            [.TypeInstType CV.none "T" [] .Dtype] false)]
          [] [.TypeInstType CV.none "T" [] .Dtype] false)
        (fun varNums => readAssertions sampleEnv
          [.mk "g" Linkage.Cforall (.FunctionType CV.none [] [] []
            [.TypeInstType CV.none "T" [] .Dtype] false)]
          true false true 0 varNums)
        (Mangler.ofMode Mode.default)
      = some ⟨"Q1_0_0_1__X1gFv_BD0__", [("T", (0, .Dtype))], 0, true, true, false, true,
          false, false⟩
    ∧ (readAssertions sampleEnv
          [.mk "g" Linkage.Cforall (.FunctionType CV.none [] [] []
            [.TypeInstType CV.none "T" [] .Dtype] false)]
          true false true 0 [("T", (0, .Dtype))] = some ["_X1gFv_BD0_"]
        ↔ List.Forall₂ (fun a s =>
            (mangleDecl sampleEnv a (Mangler.nested true false true 0
              [("T", (0, .Dtype))])).map Mangler.result = some s)
          [.mk "g" Linkage.Cforall (.FunctionType CV.none [] [] []
            [.TypeInstType CV.none "T" [] .Dtype] false)]
          ["_X1gFv_BD0_"]) :=
  ⟨(assertions_in_nested_snapshot sampleEnv CV.none [⟨"T", .Dtype⟩]
      [.mk "g" Linkage.Cforall (.FunctionType CV.none [] [] []
        [.TypeInstType CV.none "T" [] .Dtype] false)]
      [] [.TypeInstType CV.none "T" [] .Dtype] false (Mangler.ofMode Mode.default) rfl
      (by decide)).1.trans (by decide),
    (assertions_in_nested_snapshot sampleEnv CV.none [⟨"T", .Dtype⟩]
      [.mk "g" Linkage.Cforall (.FunctionType CV.none [] [] []
        [.TypeInstType CV.none "T" [] .Dtype] false)]
      [] [.TypeInstType CV.none "T" [] .Dtype] false (Mangler.ofMode Mode.default) rfl
      (by decide)).2.1 [("T", (0, .Dtype))] ["_X1gFv_BD0_"]⟩

/-- The name of `forall( dtype T | { void g( T ); } ) void f( T )` in the sample
environment. -/
theorem polymorphic_assertion_name :
    mangle sampleEnv (.decl (.mk "f" Linkage.Cforall
        (.FunctionType CV.none [⟨"T", .Dtype⟩]
          [.mk "g" Linkage.Cforall (.FunctionType CV.none [] [] []
            [.TypeInstType CV.none "T" [] .Dtype] false)]
          [] [.TypeInstType CV.none "T" [] .Dtype] false))) Mode.default
      = some "_X1fQ1_0_0_1__X1gFv_BD0__Fv_BD0_" := by
  decide

end Mangle

namespace Mangle


/-! ## The characters of a mangled name -/

theorem symbolString_append (a b : String) :
    symbolString (a ++ b) = (symbolString a && symbolString b) := by
  simp [symbolString, String.data_append, List.all_append]

theorem symbolString_empty : symbolString "" = true := rfl

theorem symbolString_underscore : symbolString "_" = true := by decide

theorem isSymbolChar_digitChar (d : Nat) (h : d < 10) : isSymbolChar (Nat.digitChar d) = true := by
  interval_cases d <;> decide

theorem toDigitsCore_symbol : ∀ (fuel n : Nat) (ds : List Char),
    ds.all isSymbolChar = true → (Nat.toDigitsCore 10 fuel n ds).all isSymbolChar = true
  | 0, n, ds, h => h
  | fuel + 1, n, ds, h => by
    have hd : (Nat.digitChar (n % 10) :: ds).all isSymbolChar = true := by
      rw [List.all_cons, isSymbolChar_digitChar _ (Nat.mod_lt n (by decide)), h]
      rfl
    simp only [Nat.toDigitsCore]
    split
    · exact hd
    · exact toDigitsCore_symbol fuel (n / 10) _ hd

theorem symbolString_nat (n : Nat) : symbolString (toString n) = true := by
  unfold symbolString
  rw [toString_data]
  exact toDigitsCore_symbol (n + 1) n [] rfl

theorem symbolString_int (i : Int) (h : 0 ≤ i) : symbolString (toString i) = true := by
  cases i with
  | ofNat n => exact symbolString_nat n
  | negSucc n => exact absurd h (by simp)

theorem symbolString_foldl : ∀ (l : List String) (acc : String),
    symbolString acc = true → (∀ s ∈ l, symbolString s = true) →
    symbolString (l.foldl (fun r s => r ++ s) acc) = true
  | [], acc, ha, _ => ha
  | s :: rest, acc, ha, hl => by
    simp only [List.foldl_cons]
    refine symbolString_foldl rest (acc ++ s) ?_ (fun x hx => hl x (List.mem_cons_of_mem _ hx))
    rw [symbolString_append, ha, hl s (List.mem_cons_self _ _)]
    rfl

theorem symbolString_join (l : List String) (hl : ∀ s ∈ l, symbolString s = true) :
    symbolString (String.join l) = true :=
  symbolString_foldl l "" rfl hl

theorem symbolString_basicTypes (kind : BasicType.Kind) :
    symbolString (Encoding.basicTypes kind) = true := by
  cases kind <;> decide

theorem symbolString_vargs : symbolString vargs = true := by decide

end Mangle

namespace Mangle

theorem symbolTokens_spec (enc : Encoding) (h : enc.symbolTokens = true) :
    symbolString enc.manglePrefix = true
    ∧ (∀ f, symbolString (enc.qualifiers f) = true)
    ∧ symbolString enc.void_t = true ∧ symbolString enc.zero = true
    ∧ symbolString enc.one = true ∧ symbolString enc.function = true
    ∧ symbolString enc.tuple = true ∧ symbolString enc.pointer = true
    ∧ symbolString enc.array = true ∧ symbolString enc.qualifiedTypeStart = true
    ∧ symbolString enc.qualifiedTypeEnd = true ∧ symbolString enc.forall_ = true
    ∧ (∀ k, symbolString (enc.typeVariables k) = true)
    ∧ symbolString enc.struct_t = true ∧ symbolString enc.union_t = true
    ∧ symbolString enc.enum_t = true ∧ symbolString enc.type = true
    ∧ symbolString enc.autogen = true ∧ symbolString enc.intrinsic = true := by
  simp only [Encoding.symbolTokens, Bool.and_eq_true, List.all_cons, List.all_nil,
    Bool.and_true] at h
  obtain ⟨⟨⟨⟨⟨⟨⟨⟨⟨⟨⟨⟨⟨⟨⟨⟨⟨⟨h1, q1, q2, q3, q4⟩, h3⟩, h4⟩, h5⟩, h6⟩, h7⟩, h8⟩, h9⟩, h10⟩, h11⟩,
    h12⟩, k1, k2, k3, k4, k5, k6⟩, h14⟩, h15⟩, h16⟩, h17⟩, h18⟩, h19⟩ := h
  refine ⟨h1, ?_, h3, h4, h5, h6, h7, h8, h9, h10, h11, h12, ?_, h14, h15, h16, h17, h18, h19⟩
  · intro f; cases f <;> assumption
  · intro k; cases k <;> assumption

theorem symbolic_emit {m : Mangler} (h : m.Symbolic) {s : String}
    (hs : symbolString s = true) : (m.emit s).Symbolic :=
  ⟨by
    show symbolString (m.mangleName ++ s) = true
    rw [symbolString_append, h.1, hs]
    rfl, h.2.1, h.2.2⟩

theorem symbolic_setInFunctionType {m : Mangler} (h : m.Symbolic) (b : Bool) :
    (m.setInFunctionType b).Symbolic := h

theorem symbolic_setInQualifiedType {m : Mangler} (h : m.Symbolic) (b : Bool) :
    (m.setInQualifiedType b).Symbolic := h

theorem symbolic_setIsTopLevel {m : Mangler} (h : m.Symbolic) (b : Bool) :
    (m.setIsTopLevel b).Symbolic := h

theorem symbolic_setVarNums {m : Mangler} (h : m.Symbolic) {v : VarMapType}
    (hv : ∀ e ∈ v, (0 : Int) ≤ e.2.1) : (m.setVarNums v).Symbolic :=
  ⟨h.1, h.2.1, hv⟩

theorem symbolic_cleanup {entry m' : Mangler} {r : Option Mangler}
    (h : cleanup entry r = some m') (hr : ∀ x, r = some x → x.Symbolic) : m'.Symbolic := by
  obtain ⟨m1, h1, e⟩ := cleanup_some h
  rw [e]
  exact symbolic_setInFunctionType (hr m1 h1) _

theorem symbolString_qualifierText (enc : Encoding)
    (hq : ∀ f, symbolString (enc.qualifiers f) = true) (tm ift : Bool) (q : CV.Qualifiers) :
    symbolString (qualifierText enc tm ift q) = true := by
  obtain ⟨c, r, v, mu, a⟩ := q
  have he : symbolString "" = true := rfl
  cases tm <;> cases ift <;> cases c <;> cases v <;> cases mu <;> cases a <;>
    simp [qualifierText, symbolString_append, hq, he]

theorem symbolic_printCV (enc : Encoding) (hq : ∀ f, symbolString (enc.qualifiers f) = true)
    (q : CV.Qualifiers) {m : Mangler} (h : m.Symbolic) : (printCV enc q m).Symbolic := by
  rw [printCV_text]
  exact symbolic_setInFunctionType (symbolic_emit h (symbolString_qualifierText enc hq _ _ q)) _

theorem forallLoop_nonneg (n : Int) (hn : 0 ≤ n) :
    ∀ (fa : List TypeDecl) (c : ForallCounts) (v : VarMapType) (c2 : ForallCounts)
      (v2 : VarMapType), (∀ e ∈ v, (0 : Int) ≤ e.2.1) →
      forallLoop n fa c v = some (c2, v2) → ∀ e ∈ v2, (0 : Int) ≤ e.2.1
  | [], c, v, c2, v2, hv, h => by
    simp only [forallLoop, Option.some.injEq, Prod.mk.injEq] at h
    rw [← h.2]
    exact hv
  | decl :: rest, c, v, c2, v2, hv, h => by
    have hv2 : ∀ e ∈ (decl.name, (n, decl.kind)) :: v, (0 : Int) ≤ e.2.1 := by
      intro e he
      rcases List.mem_cons.mp he with rfl | he
      · exact hn
      · exact hv e he
    unfold forallLoop at h
    cases hk : decl.kind <;> rw [hk] at h <;> simp only [] at h
    · exact forallLoop_nonneg n hn rest _ _ c2 v2 (hk ▸ hv2) h
    · cases h
    · cases h
    · exact forallLoop_nonneg n hn rest _ _ c2 v2 (hk ▸ hv2) h
    · exact forallLoop_nonneg n hn rest _ _ c2 v2 (hk ▸ hv2) h
    · cases h

theorem symbolString_forallText (c : ForallCounts) (names : List String)
    (hn : ∀ s ∈ names, symbolString s = true) : symbolString (forallText c names) = true := by
  unfold forallText
  simp only [symbolString_append, symbolString_nat, symbolString_underscore,
    symbolString_join names hn, Bool.and_self]

theorem symbolic_printForall {enc : Encoding} (hf : symbolString enc.forall_ = true)
    {t : Ty} {r : VarMapType → Option (List String)} {m x : Mangler}
    (hr : ∀ v names, (∀ e ∈ v, (0 : Int) ≤ e.2.1) → r v = some names →
      ∀ s ∈ names, symbolString s = true)
    (hm : m.Symbolic) (h : printForall enc t r m = some x) : x.Symbolic := by
  unfold printForall at h
  split at h
  · cases hl : forallLoop m.nextVarNum t.forallList ⟨0, 0, 0⟩ m.varNums with
    | none => rw [hl] at h; cases h
    | some cv =>
      obtain ⟨c, v⟩ := cv
      rw [hl] at h
      simp only [] at h
      have hv := forallLoop_nonneg m.nextVarNum hm.2.1 _ _ _ c v hm.2.2 hl
      cases hn : r v with
      | none => rw [hn] at h; cases h
      | some names =>
        rw [hn] at h
        simp only [Option.some.injEq] at h
        rw [← h]
        exact symbolic_emit (symbolic_setVarNums (symbolic_emit hm hf) hv)
          (symbolString_forallText c names (hr v names hv hn))
  · cases h
    exact hm

theorem symbolic_printQualifiers {enc : Encoding} (henc : enc.symbolTokens = true)
    {t : Ty} {r : VarMapType → Option (List String)} {m x : Mangler}
    (hr : ∀ v names, (∀ e ∈ v, (0 : Int) ≤ e.2.1) → r v = some names →
      ∀ s ∈ names, symbolString s = true)
    (hm : m.Symbolic) (h : printQualifiers enc t r m = some x) : x.Symbolic := by
  obtain ⟨-, hq, -, -, -, -, -, -, -, -, -, hf, -⟩ := symbolTokens_spec enc henc
  unfold printQualifiers at h
  split at h
  · cases h
    exact hm
  · cases hp : printForall enc t r m with
    | none => rw [hp] at h; cases h
    | some y =>
      rw [hp] at h
      simp only [Option.map_some', Option.some.injEq] at h
      rw [← h]
      exact symbolic_printCV enc hq _ (symbolic_printForall hf hr hm hp)

theorem noAssertions_symbolic : ∀ (v : VarMapType) (names : List String),
    (∀ e ∈ v, (0 : Int) ≤ e.2.1) → noAssertions v = some names →
    ∀ s ∈ names, symbolString s = true := by
  intro v names _ h s hs
  simp only [noAssertions, Option.some.injEq] at h
  subst h
  cases hs

theorem symbolic_mangleRef {enc : Encoding} (henc : enc.symbolTokens = true)
    {t : Ty} {name : String} {pe : Bool} {k : Mangler → Option Mangler} {pfx : String}
    {m x : Mangler} (hname : symbolString name = true) (hpfx : symbolString pfx = true)
    (hk : ∀ a b, a.Symbolic → k a = some b → b.Symbolic)
    (hm : m.Symbolic) (h : mangleRef enc t name pe k pfx m = some x) : x.Symbolic := by
  unfold mangleRef at h
  cases hq : printQualifiers enc t noAssertions m with
  | none => rw [hq] at h; cases h
  | some m1 =>
    rw [hq] at h
    simp only [] at h
    have h1 : (m1.emit (pfx ++ toString name.utf8ByteSize ++ name)).Symbolic :=
      symbolic_emit (symbolic_printQualifiers henc noAssertions_symbolic hm hq) (by
        simp only [symbolString_append, hpfx, symbolString_nat, hname, Bool.and_self])
    split at h
    · cases hp : k ((m1.emit (pfx ++ toString name.utf8ByteSize ++ name)).emit "_") with
      | none => rw [hp] at h; cases h
      | some m2 =>
        rw [hp] at h
        simp only [Option.some.injEq] at h
        rw [← h]
        exact symbolic_emit (hk _ _ (symbolic_emit h1 symbolString_underscore) hp)
          symbolString_underscore
    · cases h
      exact h1

theorem symbolic_mangleDeclBegin (env : Env) (henc : env.enc.symbolTokens = true)
    (name : String) (hname : symbolString (mangledDeclName env name) = true)
    {m : Mangler} (hm : m.Symbolic) : (mangleDeclBegin env name m).Symbolic := by
  obtain ⟨hp, -⟩ := symbolTokens_spec env.enc henc
  have h0 : (if m.isTopLevel then ((m.setVarNums []).setNextVarNum 0).setIsTopLevel false
      else m).Symbolic := by
    split
    · exact ⟨hm.1, le_refl _, fun e he => by cases he⟩
    · exact hm
  unfold mangleDeclBegin
  unfold mangledDeclName at hname
  cases ho : env.operatorLookup name with
  | none =>
    rw [ho] at hname
    exact symbolic_emit (symbolic_emit h0 hp) (by
      simp only [symbolString_append, symbolString_nat, hname, Bool.and_self])
  | some op =>
    rw [ho] at hname
    exact symbolic_emit (symbolic_emit h0 hp) (by
      simp only [symbolString_append, symbolString_nat, hname, Bool.and_self])

theorem symbolic_mangleDeclEnd (enc : Encoding) (henc : enc.symbolTokens = true)
    (l : Linkage.Spec) (w : Bool) {m x : Mangler} (hm : m.Symbolic)
    (h : mangleDeclEnd enc l w m = some x) : x.Symbolic := by
  obtain ⟨-, -, -, -, -, -, -, -, -, -, -, -, -, -, -, -, -, hag, hin⟩ :=
    symbolTokens_spec enc henc
  rw [mangleDeclEnd_eq] at h
  cases hs : overrideSuffix enc m.mangleOverridable l with
  | none => rw [hs] at h; cases h
  | some sfx =>
    rw [hs] at h
    simp only [Option.map_some', Option.some.injEq] at h
    rw [← h]
    refine symbolic_setIsTopLevel (symbolic_emit hm ?_) _
    unfold overrideSuffix at hs
    split at hs
    · split at hs
      · cases hs; exact hag
      · split at hs
        · cases hs; exact hin
        · cases hs
    · cases hs; rfl

end Mangle

namespace Mangle

theorem symbolic_leaf {enc : Encoding} (henc : enc.symbolTokens = true) {t : Ty}
    {m m' : Mangler} {s : String} (hs : symbolString s = true) (hm : m.Symbolic)
    (h : cleanup m (match printQualifiers enc t noAssertions m with
      | none => none
      | some m => some (m.emit s)) = some m') : m'.Symbolic := by
  refine symbolic_cleanup h ?_
  intro x hx
  cases hq : printQualifiers enc t noAssertions m with
  | none => rw [hq] at hx; cases hx
  | some m1 =>
    rw [hq] at hx
    cases hx
    exact symbolic_emit (symbolic_printQualifiers henc noAssertions_symbolic hm hq) hs

theorem mem_of_lookup {α β : Type} [BEq α] : ∀ (l : List (α × β)) (a : α) (b : β),
    l.lookup a = some b → ∃ a2, (a2, b) ∈ l
  | [], a, b, h => by cases h
  | (x, y) :: rest, a, b, h => by
    simp only [List.lookup] at h
    split at h
    · cases h
      exact ⟨x, List.mem_cons_self _ _⟩
    · obtain ⟨a2, h2⟩ := mem_of_lookup rest a b h
      exact ⟨a2, List.mem_cons_of_mem _ h2⟩

mutual

theorem accept_symbolic (env : Env) (henc : env.enc.symbolTokens = true) :
    ∀ (t : Ty) (m m' : Mangler), (∀ n ∈ mangledNames env t, symbolString n = true) →
      m.Symbolic → accept env t m = some m' → m'.Symbolic
  | .VoidType q, m, m', hN, hm, h => by
    simp only [accept] at h
    exact symbolic_leaf henc (symbolTokens_spec env.enc henc).2.2.1 hm h
  | .BasicType q kind, m, m', hN, hm, h => by
    simp only [accept] at h
    exact symbolic_leaf henc (symbolString_basicTypes kind) hm h
  | .PointerType q base dim vl st, m, m', hN, hm, h => by
    simp only [accept] at h
    refine symbolic_cleanup h ?_
    intro x hx
    cases hq : printQualifiers env.enc (.PointerType q base dim vl st) noAssertions m with
    | none => rw [hq] at hx; cases hx
    | some m1 =>
      rw [hq] at hx
      have h1 := symbolic_printQualifiers henc noAssertions_symbolic hm hq
      refine accept_symbolic env henc base _ x (fun n hn => hN n (by
        simp only [mangledNames]; exact hn)) ?_ hx
      split
      · exact symbolic_emit h1 (symbolTokens_spec env.enc henc).2.2.2.2.2.2.2.1
      · exact h1
  | .ArrayType q base dim vl st, m, m', hN, hm, h => by
    simp only [accept] at h
    refine symbolic_cleanup h ?_
    intro x hx
    cases hq : printQualifiers env.enc (.ArrayType q base dim vl st) noAssertions m with
    | none => rw [hq] at hx; cases hx
    | some m1 =>
      rw [hq] at hx
      have h1 := symbolic_printQualifiers henc noAssertions_symbolic hm hq
      refine accept_symbolic env henc base _ x (fun n hn => hN n (by
        simp only [mangledNames]; exact hn)) ?_ hx
      refine symbolic_emit h1 ?_
      rw [symbolString_append, (symbolTokens_spec env.enc henc).2.2.2.2.2.2.2.2.1]
      rfl
  | .ReferenceType q base, m, m', hN, hm, h => by
    simp only [accept] at h
    refine symbolic_cleanup h ?_
    intro x hx
    cases hq : printQualifiers env.enc (.ReferenceType q base) noAssertions
        (m.setInFunctionType true) with
    | none => rw [hq] at hx; cases hx
    | some m1 =>
      rw [hq] at hx
      have h1 := symbolic_printQualifiers henc noAssertions_symbolic
        (symbolic_setInFunctionType hm true) hq
      exact accept_symbolic env henc base _ x (fun n hn => hN n (by
        simp only [mangledNames]; exact hn)) h1 hx
  | .FunctionType q fa assertions returns params va, m, m', hN, hm, h => by
    obtain ⟨-, -, hvoid, -, -, hfun, -⟩ := symbolTokens_spec env.enc henc
    have hNa : ∀ n ∈ declsMangledNames env assertions, symbolString n = true :=
      fun n hn => hN n (by simp only [mangledNames, List.mem_append]; exact Or.inl hn)
    have hNr : ∀ n ∈ tysMangledNames env returns, symbolString n = true :=
      fun n hn => hN n (by
        simp only [mangledNames, List.mem_append]; exact Or.inr (Or.inl hn))
    have hNp : ∀ n ∈ tysMangledNames env params, symbolString n = true :=
      fun n hn => hN n (by
        simp only [mangledNames, List.mem_append]; exact Or.inr (Or.inr hn))
    simp only [accept] at h
    refine symbolic_cleanup h ?_
    intro x hx
    cases hq : printQualifiers env.enc (.FunctionType q fa assertions returns params va)
        (fun varNums => readAssertions env assertions m.mangleOverridable m.typeMode
          m.mangleGenericParams m.nextVarNum varNums) m with
    | none => rw [hq] at hx; cases hx
    | some m1 =>
      rw [hq] at hx
      simp only [] at hx
      have h1 : m1.Symbolic := symbolic_printQualifiers henc
        (fun v names hv hr => readAssertions_symbolic env henc assertions _ _ _ _ v names
          hNa hm.2.1 hv hr) hm hq
      have h2 : ((m1.emit env.enc.function).setInFunctionType true).Symbolic :=
        symbolic_setInFunctionType (symbolic_emit h1 hfun) true
      cases hrs : (if returns.isEmpty
             then some (((m1.emit env.enc.function).setInFunctionType true).emit
               env.enc.void_t)
             else accept_each env returns
               ((m1.emit env.enc.function).setInFunctionType true)) with
      | none => rw [hrs] at hx; cases hx
      | some m2 =>
        rw [hrs] at hx
        simp only [] at hx
        have h3 : m2.Symbolic := by
          split at hrs
          · cases hrs
            exact symbolic_emit h2 hvoid
          · exact accept_each_symbolic env henc returns _ m2 hNr h2 hrs
        cases hp : accept_each env params (m2.emit "_") with
        | none => rw [hp] at hx; cases hx
        | some m3 =>
          rw [hp] at hx
          cases hx
          exact symbolic_emit (accept_each_symbolic env henc params _ m3 hNp
            (symbolic_emit h3 symbolString_underscore) hp) symbolString_underscore
  | .StructInstType q name params, m, m', hN, hm, h => by
    simp only [accept] at h
    refine symbolic_cleanup h ?_
    intro x hx
    exact symbolic_mangleRef henc (hN name (by simp only [mangledNames, List.mem_cons, true_or]))
      (symbolTokens_spec env.enc henc).2.2.2.2.2.2.2.2.2.2.2.2.2.1
      (fun a b ha hab => acceptParams_symbolic env henc params a b (fun n hn => hN n (by
        simp only [mangledNames, List.mem_cons]; exact Or.inr hn)) ha hab) hm hx
  | .UnionInstType q name params, m, m', hN, hm, h => by
    simp only [accept] at h
    refine symbolic_cleanup h ?_
    intro x hx
    exact symbolic_mangleRef henc (hN name (by simp only [mangledNames, List.mem_cons, true_or]))
      (symbolTokens_spec env.enc henc).2.2.2.2.2.2.2.2.2.2.2.2.2.2.1
      (fun a b ha hab => acceptParams_symbolic env henc params a b (fun n hn => hN n (by
        simp only [mangledNames, List.mem_cons]; exact Or.inr hn)) ha hab) hm hx
  | .EnumInstType q name params eb, m, m', hN, hm, h => by
    simp only [accept] at h
    refine symbolic_cleanup h ?_
    intro x hx
    exact symbolic_mangleRef henc (hN name (by simp only [mangledNames, List.mem_cons, true_or]))
      (symbolTokens_spec env.enc henc).2.2.2.2.2.2.2.2.2.2.2.2.2.2.2.1
      (fun a b ha hab => acceptParams_symbolic env henc params a b (fun n hn => hN n (by
        simp only [mangledNames, List.mem_cons]; exact Or.inr hn)) ha hab) hm hx
  | .TypeInstType q name params kind, m, m', hN, hm, h => by
    simp only [accept] at h
    refine symbolic_cleanup h ?_
    intro x hx
    cases hl : List.lookup name m.varNums with
    | none =>
      rw [hl] at hx
      exact symbolic_mangleRef henc
        (hN name (by simp only [mangledNames, List.mem_cons, true_or]))
        (symbolTokens_spec env.enc henc).2.2.2.2.2.2.2.2.2.2.2.2.2.2.2.2.1
        (fun a b ha hab => acceptParams_symbolic env henc params a b (fun n hn => hN n (by
          simp only [mangledNames, List.mem_cons]; exact Or.inr hn)) ha hab) hm hx
    | some varNum =>
      rw [hl] at hx
      simp only [] at hx
      cases hq : printQualifiers env.enc (.TypeInstType q name params kind) noAssertions m with
      | none => rw [hq] at hx; cases hx
      | some m1 =>
        rw [hq] at hx
        cases hx
        obtain ⟨a2, hmem⟩ := mem_of_lookup m.varNums name varNum hl
        refine symbolic_emit (symbolic_printQualifiers henc noAssertions_symbolic hm hq) ?_
        rw [symbolString_append,
          (symbolTokens_spec env.enc henc).2.2.2.2.2.2.2.2.2.2.2.2.1 varNum.2,
          symbolString_int _ (hm.2.2 _ hmem)]
        rfl
  | .TraitInstType q name params, m, m', hN, hm, h => by
    simp only [accept] at h
    refine symbolic_leaf henc ?_ hm h
    rw [symbolString_append, symbolString_nat,
      hN name (by simp only [mangledNames, List.mem_singleton])]
    rfl
  | .TupleType q types, m, m', hN, hm, h => by
    simp only [accept] at h
    refine symbolic_cleanup h ?_
    intro x hx
    cases hq : printQualifiers env.enc (.TupleType q types) noAssertions m with
    | none => rw [hq] at hx; cases hx
    | some m1 =>
      rw [hq] at hx
      have h1 := symbolic_printQualifiers henc noAssertions_symbolic hm hq
      refine accept_each_symbolic env henc types _ x (fun n hn => hN n (by
        simp only [mangledNames]; exact hn)) (symbolic_emit h1 ?_) hx
      rw [symbolString_append, (symbolTokens_spec env.enc henc).2.2.2.2.2.2.1,
        symbolString_nat]
      rfl
  | .VarArgsType q, m, m', hN, hm, h => by
    simp only [accept] at h
    refine symbolic_leaf henc ?_ hm h
    rw [symbolString_append, symbolString_append,
      (symbolTokens_spec env.enc henc).2.2.2.2.2.2.2.2.2.2.2.2.2.2.2.2.1, symbolString_nat,
      symbolString_vargs]
    rfl
  | .ZeroType _, m, m', hN, hm, h => by
    simp only [accept] at h
    refine symbolic_cleanup h ?_
    intro x hx
    cases hx
    exact symbolic_emit hm (symbolTokens_spec env.enc henc).2.2.2.1
  | .OneType _, m, m', hN, hm, h => by
    simp only [accept] at h
    refine symbolic_cleanup h ?_
    intro x hx
    cases hx
    exact symbolic_emit hm (symbolTokens_spec env.enc henc).2.2.2.2.1
  | .GlobalScopeType, m, m', hN, hm, h => by
    simp only [accept] at h
    refine symbolic_cleanup h ?_
    intro x hx
    cases hx
    exact hm
  | .TypeofType _ _ _, m, m', hN, hm, h => by
    simp only [accept] at h
    refine symbolic_cleanup h ?_
    intro x hx
    cases hx
    exact hm
  | .VTableType _ _, m, m', hN, hm, h => by
    simp only [accept] at h
    refine symbolic_cleanup h ?_
    intro x hx
    cases hx
    exact hm
  | .QualifiedType _ parent child, m, m', hN, hm, h => by
    obtain ⟨-, -, -, -, -, -, -, -, -, hqs, hqe, -⟩ := symbolTokens_spec env.enc henc
    simp only [accept] at h
    refine symbolic_cleanup h ?_
    intro x hx
    have h0 : (qualifiedStart env.enc m.inQualifiedType m).Symbolic := by
      unfold qualifiedStart
      split
      · exact symbolic_emit (symbolic_setInQualifiedType hm true) hqs
      · exact hm
    cases hp : accept env parent (qualifiedStart env.enc m.inQualifiedType m) with
    | none => rw [hp] at hx; cases hx
    | some m1 =>
      rw [hp] at hx
      simp only [] at hx
      have h1 := accept_symbolic env henc parent _ m1 (fun n hn => hN n (by
        simp only [mangledNames, List.mem_append]; exact Or.inl hn)) h0 hp
      cases hc : accept env child m1 with
      | none => rw [hc] at hx; cases hx
      | some m2 =>
        rw [hc] at hx
        cases hx
        have h2 := accept_symbolic env henc child _ m2 (fun n hn => hN n (by
          simp only [mangledNames, List.mem_append]; exact Or.inr hn)) h1 hc
        unfold qualifiedEnd
        split
        · exact symbolic_emit (symbolic_setInQualifiedType h2 false) hqe
        · exact h2

theorem accept_each_symbolic (env : Env) (henc : env.enc.symbolTokens = true) :
    ∀ (ts : List Ty) (m m' : Mangler), (∀ n ∈ tysMangledNames env ts, symbolString n = true) →
      m.Symbolic → accept_each env ts m = some m' → m'.Symbolic
  | [], m, m', hN, hm, h => by
    simp only [accept_each, Option.some.injEq] at h
    rw [← h]
    exact hm
  | t :: ts, m, m', hN, hm, h => by
    simp only [accept_each] at h
    cases ht : accept env t m with
    | none => rw [ht] at h; cases h
    | some m1 =>
      rw [ht] at h
      simp only [] at h
      exact accept_each_symbolic env henc ts m1 m' (fun n hn => hN n (by
          simp only [tysMangledNames, List.mem_append]; exact Or.inr hn))
        (accept_symbolic env henc t m m1 (fun n hn => hN n (by
          simp only [tysMangledNames, List.mem_append]; exact Or.inl hn)) hm ht) h

theorem acceptParams_symbolic (env : Env) (henc : env.enc.symbolTokens = true) :
    ∀ (ps : List Expr) (m m' : Mangler),
      (∀ n ∈ exprsMangledNames env ps, symbolString n = true) →
      m.Symbolic → acceptParams env ps m = some m' → m'.Symbolic
  | [], m, m', hN, hm, h => by
    simp only [acceptParams, Option.some.injEq] at h
    rw [← h]
    exact hm
  | .TypeExpr t :: ps, m, m', hN, hm, h => by
    simp only [acceptParams] at h
    cases ht : accept env t m with
    | none => rw [ht] at h; cases h
    | some m1 =>
      rw [ht] at h
      simp only [] at h
      exact acceptParams_symbolic env henc ps m1 m' (fun n hn => hN n (by
          simp only [exprsMangledNames, List.mem_append]; exact Or.inr hn))
        (accept_symbolic env henc t m m1 (fun n hn => hN n (by
          simp only [exprsMangledNames, List.mem_append]; exact Or.inl hn)) hm ht) h
  | .Other _ :: _, m, m', hN, hm, h => by
    simp only [acceptParams] at h
    cases h

theorem mangleDecl_symbolic (env : Env) (henc : env.enc.symbolTokens = true) :
    ∀ (d : DeclWithType) (m m' : Mangler),
      (∀ n ∈ declsMangledNames env [d], symbolString n = true) →
      m.Symbolic → mangleDecl env d m = some m' → m'.Symbolic
  | .mk name linkage type, m, m', hN, hm, h => by
    simp only [mangleDecl] at h
    cases ht : accept env type (mangleDeclBegin env name m) with
    | none => rw [ht] at h; cases h
    | some m1 =>
      rw [ht] at h
      simp only [] at h
      refine symbolic_mangleDeclEnd env.enc henc linkage m.isTopLevel ?_ h
      exact accept_symbolic env henc type _ m1 (fun n hn => hN n (by
          simp only [declsMangledNames, List.mem_cons, List.mem_append]
          exact Or.inr (Or.inl hn)))
        (symbolic_mangleDeclBegin env henc name (hN _ (by
          simp only [declsMangledNames, List.mem_cons, true_or])) hm) ht

theorem readAssertions_symbolic (env : Env) (henc : env.enc.symbolTokens = true) :
    ∀ (as : List DeclWithType) (mo tm gp : Bool) (nv : Int) (v : VarMapType)
      (names : List String),
      (∀ n ∈ declsMangledNames env as, symbolString n = true) →
      0 ≤ nv → (∀ e ∈ v, (0 : Int) ≤ e.2.1) →
      readAssertions env as mo tm gp nv v = some names →
      ∀ s ∈ names, symbolString s = true
  | [], mo, tm, gp, nv, v, names, hN, hnv, hv, h => by
    simp only [readAssertions, Option.some.injEq] at h
    subst h
    intro s hs
    cases hs
  | .mk name linkage type :: rest, mo, tm, gp, nv, v, names, hN, hnv, hv, h => by
    simp only [readAssertions] at h
    cases hd : mangleDecl env (.mk name linkage type) (Mangler.nested mo tm gp nv v) with
    | none => rw [hd] at h; cases h
    | some sub =>
      rw [hd] at h
      simp only [] at h
      cases hr : readAssertions env rest mo tm gp nv v with
      | none => rw [hr] at h; cases h
      | some ns =>
        rw [hr] at h
        simp only [Option.some.injEq] at h
        subst h
        have h1 : sub.Symbolic :=
          mangleDecl_symbolic env henc (.mk name linkage type) _ sub (fun n hn => hN n (by
            simp only [declsMangledNames, List.mem_cons, List.mem_append, List.append_nil,
              List.not_mem_nil, or_false] at hn ⊢
            rcases hn with hn | hn
            · exact Or.inl hn
            · exact Or.inr (Or.inl hn)))
            (show (Mangler.nested mo tm gp nv v).Symbolic from ⟨rfl, hnv, hv⟩) hd
        have h2 := readAssertions_symbolic env henc rest mo tm gp nv v ns (fun n hn => hN n (by
            simp only [declsMangledNames, List.mem_cons, List.mem_append]
            exact Or.inr (Or.inr hn))) hnv hv hr
        intro s hs
        rcases List.mem_cons.mp hs with rfl | hs
        · exact h1.1
        · exact h2 s hs

end

theorem symbolic_ofMode (mode : Mode) : (Mangler.ofMode mode).Symbolic :=
  ⟨rfl, le_refl _, fun e he => by cases he⟩

theorem symbolString_chars {s : String} (h : symbolString s = true) :
    ∀ c ∈ s.data, (c.isAlphanum = true ∨ c = '_') ∧ c ≠ Char.ofNat 0 := by
  intro c hc
  have hs : isSymbolChar c = true := List.all_eq_true.mp h c hc
  refine ⟨?_, ?_⟩
  · simpa [isSymbolChar] using hs
  · intro e
    rw [e] at hs
    exact absurd hs (by decide)

/-- **C30.** If every name that the mangler writes for the input (the declaration names
after the translation by the operator table, and the aggregate, trait and type names)
consists only of ASCII letters, digits and underscore, and the tokens of the encoding do
too, then the string returned by `Mangle::mangle` consists only of ASCII letters, digits
and underscore; in particular it contains no null byte. -/
theorem mangled_name_characters (env : Env) (node : Node) (mode : Mode) (s : String)
    (henc : env.enc.symbolTokens = true)
    (hnames : ∀ n ∈ nodeMangledNames env node, symbolString n = true)
    (h : mangle env node mode = some s) :
    ∀ c ∈ s.data, (c.isAlphanum = true ∨ c = '_') ∧ c ≠ Char.ofNat 0 := by
  refine symbolString_chars ?_
  cases node with
  | decl d =>
    obtain ⟨name, linkage, type⟩ := d
    simp only [mangle] at h
    cases hd : mangleDecl env (.mk name linkage type) (Mangler.ofMode mode) with
    | none => rw [hd] at h; cases h
    | some x =>
      rw [hd] at h
      simp only [Option.map_some', Option.some.injEq] at h
      rw [← h]
      exact (mangleDecl_symbolic env henc (.mk name linkage type) _ x (fun n hn =>
        hnames n (by
          simp only [declsMangledNames, List.append_nil] at hn
          exact hn)) (symbolic_ofMode mode) hd).1
  | type t =>
    simp only [mangle] at h
    cases ht : accept env t (Mangler.ofMode mode) with
    | none => rw [ht] at h; cases h
    | some x =>
      rw [ht] at h
      simp only [Option.map_some', Option.some.injEq] at h
      rw [← h]
      exact (accept_symbolic env henc t _ x hnames (symbolic_ofMode mode) ht).1
  | typeDecl d =>
    simp only [mangle] at h
    cases h

/-- The declaration `forall( dtype T | { void g( T ); } ) void f( struct S, T )` in the
sample environment: the tokens and the names `f`, `g`, `S`, `T` are made of letters, and
so is the mangled name. -/
theorem mangled_name_characters_witness :
    sampleEnv.enc.symbolTokens = true
    ∧ mangle sampleEnv (.decl (.mk "f" Linkage.Cforall
        (.FunctionType CV.none [⟨"T", .Dtype⟩]
          [.mk "g" Linkage.Cforall (.FunctionType CV.none [] [] []
            [.TypeInstType CV.none "T" [] .Dtype] false)]
          [] [.StructInstType CV.none "S" [], .TypeInstType CV.none "T" [] .Dtype] false)))
        Mode.default = some "_X1fQ1_0_0_1__X1gFv_BD0__Fv_S1SBD0_"
    ∧ ∀ c ∈ "_X1fQ1_0_0_1__X1gFv_BD0__Fv_S1SBD0_".data,
        (c.isAlphanum = true ∨ c = '_') ∧ c ≠ Char.ofNat 0 :=
  ⟨by decide, by decide,
    mangled_name_characters sampleEnv (.decl (.mk "f" Linkage.Cforall
        (.FunctionType CV.none [⟨"T", .Dtype⟩]
          [.mk "g" Linkage.Cforall (.FunctionType CV.none [] [] []
            [.TypeInstType CV.none "T" [] .Dtype] false)]
          [] [.StructInstType CV.none "S" [], .TypeInstType CV.none "T" [] .Dtype] false)))
      Mode.default "_X1fQ1_0_0_1__X1gFv_BD0__Fv_S1SBD0_" (by decide) (by decide) (by decide)⟩

end Mangle

/-! ## The tables of the basic types -/

namespace BasicType

set_option maxRecDepth 100000 in
/-- **C31.** The table of the basic types is total and order-stable: the table `graph`
of the generator has `NUMBER_OF_BASIC_TYPES`, that is 36, rows, the row at index `i` is
that of the kind with ordinal `i`, so every kind has its row at its ordinal, and the two
arrays `typeNames` (of `AST/Type.cpp` and of `SynTree/Type.cc`) have 36 entries, which are
the column `type` of `graph`, row by row. -/
theorem table_total_and_order_stable :
    graph.length = NUMBER_OF_BASIC_TYPES ∧ NUMBER_OF_BASIC_TYPES = 36
    ∧ graph.map (fun node => node.basicType.toCtorIdx) = List.range NUMBER_OF_BASIC_TYPES
    ∧ (∀ kind : Kind, (graph.get? kind.toCtorIdx).map (fun node => node.basicType) = some kind)
    ∧ typeNames.length = 36 ∧ SynTree.BasicType.typeNames.length = 36
    ∧ typeNames = graph.map (fun node => node.type)
    ∧ SynTree.BasicType.typeNames = graph.map (fun node => node.type)
    ∧ (∀ kind : Kind,
        typeNames.get? kind.toCtorIdx = (graph.get? kind.toCtorIdx).map (fun node => node.type)
        ∧ SynTree.BasicType.typeNames.get? kind.toCtorIdx
          = (graph.get? kind.toCtorIdx).map (fun node => node.type)) := by
  refine ⟨rfl, rfl, by decide, ?_, rfl, rfl, by decide, by decide, ?_⟩
  · intro kind
    cases kind <;> rfl
  · intro kind
    cases kind <;> exact ⟨rfl, rfl⟩

end BasicType

namespace Mangle

set_option maxRecDepth 100000 in
theorem basicTypes_row (kind : BasicType.Kind) :
    (BasicType.graph.get? kind.toCtorIdx).map (fun node => node.mangled)
      = some (Encoding.basicTypes kind) := by
  cases kind <;> rfl

/-- **C40.** The mangling abbreviations of the 36 kinds of basic types, the column
`mangled` of the table of the generator, are not empty, pairwise distinct and prefix-free
(none is a prefix of another one), so a concatenation of abbreviations is that of one
sequence of kinds only. -/
theorem basic_abbreviations_uniquely_decodable :
    (BasicType.basicTypes = BasicType.graph.map (fun node => node.mangled)
      ∧ BasicType.basicTypes.length = 36)
    ∧ (∀ kind : BasicType.Kind,
        (BasicType.graph.get? kind.toCtorIdx).map (fun node => node.mangled)
          = some (Encoding.basicTypes kind)
        ∧ Encoding.basicTypes kind ≠ "")
    ∧ (∀ k1 k2 : BasicType.Kind, Encoding.basicTypes k1 = Encoding.basicTypes k2 → k1 = k2)
    ∧ (∀ k1 k2 : BasicType.Kind,
        (Encoding.basicTypes k1).data <+: (Encoding.basicTypes k2).data → k1 = k2)
    ∧ (∀ ks1 ks2 : List BasicType.Kind, basicCode ks1 = basicCode ks2 → ks1 = ks2) := by
  refine ⟨⟨rfl, rfl⟩, ?_, ?_, basicTypes_prefix_free, basicCode_injective⟩
  · intro kind
    refine ⟨basicTypes_row kind, ?_⟩
    intro h
    exact basicTypes_ne_nil kind (by rw [h])
  · intro k1 k2 h
    exact basicTypes_prefix_free k1 k2 (by rw [h])

/-- The text `iCdDF16_` is the code of signed int, double complex, `_Float16`; the token
`Dq` of `__float80` is not a prefix of the token `DF16_` of `_Float16`, with which it
shares the first letter. -/
theorem basic_abbreviations_uniquely_decodable_witness :
    basicCode [.SignedInt, .DoubleComplex, .uFloat16] = "iCdDF16_"
    ∧ ([.SignedInt, .DoubleComplex, .uFloat16] : List BasicType.Kind)
      = [.SignedInt, .DoubleComplex, .uFloat16]
    ∧ ¬ ((Encoding.basicTypes .uuFloat80).data <+: (Encoding.basicTypes .uFloat16).data) :=
  ⟨by decide,
    basic_abbreviations_uniquely_decodable.2.2.2.2 [.SignedInt, .DoubleComplex, .uFloat16]
      [.SignedInt, .DoubleComplex, .uFloat16] rfl,
    fun h => absurd (basic_abbreviations_uniquely_decodable.2.2.2.1 .uuFloat80 .uFloat16 h)
      (by decide)⟩

end Mangle

/-! ## Arrays, references and the traversal flags -/

namespace Mangle

theorem printQualifiers_fields (enc : Encoding) (t1 t2 : Ty)
    (r : VarMapType → Option (List String)) (m : Mangler)
    (h1 : t1.isFunctionType = false) (h2 : t2.isFunctionType = false)
    (hq : t1.quals = t2.quals) :
    printQualifiers enc t1 r m = printQualifiers enc t2 r m := by
  rw [printQualifiers_text enc t1 r m h1, printQualifiers_text enc t2 r m h2, hq]

theorem pre_ofMode (mode : Mode) (b : Bool) (s : String) :
    ((Mangler.ofMode mode).emit s).setInFunctionType (b && false)
      = (Mangler.ofMode mode).pre s := by
  simp [Mangler.ofMode, Mangler.emit, Mangler.setInFunctionType, Mangler.pre]

/-- The visit of an array type from any state. -/
theorem accept_array (env : Env) (q : CV.Qualifiers) (base : Ty) (dim : Option Expr)
    (vl st : Bool) (m : Mangler) :
    accept env (.ArrayType q base dim vl st) m
      = cleanup m (accept env base
          ((m.emit (qualifierText env.enc m.typeMode m.inFunctionType q ++ env.enc.array
            ++ "0")).setInFunctionType (m.typeMode && m.inFunctionType))) := by
  rw [accept, printQualifiers_text env.enc (.ArrayType q base dim vl st) noAssertions m rfl]
  simp only [Ty.quals]
  have e : ((m.emit (qualifierText env.enc m.typeMode m.inFunctionType q)).setInFunctionType
      (m.typeMode && m.inFunctionType)).emit (env.enc.array ++ "0")
      = (m.emit (qualifierText env.enc m.typeMode m.inFunctionType q ++ env.enc.array
          ++ "0")).setInFunctionType (m.typeMode && m.inFunctionType) := by
    simp [Mangler.emit, Mangler.setInFunctionType, String.append_assoc]
  rw [e]

/-- **C38.** The mangling of an array type does not encode its dimension: the visit of
an array type appends its qualifier tokens (`qualifierText`), the array token and the
literal `0`, and then visits the element type, so the mangled string of the array type is
that text followed by the mangled string of the element type; it is the same for every
dimension expression and every value of `isVarLen` and `isStatic`. The array-like fields
of a pointer type do not affect its mangling either. -/
theorem array_dimension_not_encoded (env : Env) (q : CV.Qualifiers) (base : Ty)
    (dim : Option Expr) (vl st : Bool) :
    (∀ m : Mangler, accept env (.ArrayType q base dim vl st) m
      = cleanup m (accept env base
          ((m.emit (qualifierText env.enc m.typeMode m.inFunctionType q ++ env.enc.array
            ++ "0")).setInFunctionType (m.typeMode && m.inFunctionType))))
    ∧ (∀ mode : Mode, mangle env (.type (.ArrayType q base dim vl st)) mode
        = (mangle env (.type base) mode).map (fun baseText =>
            qualifierText env.enc mode.type false q ++ env.enc.array ++ "0" ++ baseText))
    ∧ (∀ (dim2 : Option Expr) (vl2 st2 : Bool) (m : Mangler),
        accept env (.ArrayType q base dim2 vl2 st2) m
          = accept env (.ArrayType q base dim vl st) m)
    ∧ (∀ (dim2 : Option Expr) (vl2 st2 : Bool) (m : Mangler),
        accept env (.PointerType q base dim2 vl2 st2) m
          = accept env (.PointerType q base dim vl st) m) := by
  refine ⟨accept_array env q base dim vl st, ?_, ?_, ?_⟩
  · intro mode
    simp only [mangle]
    rw [accept_array]
    have e2 : (Mangler.ofMode mode).typeMode = mode.type := rfl
    have e3 : (Mangler.ofMode mode).inFunctionType = false := rfl
    rw [e2, e3, pre_ofMode, accept_pre]
    cases accept env base (Mangler.ofMode mode) with
    | none => rfl
    | some x =>
      simp only [Option.map_some', cleanup, Mangler.result, Mangler.pre,
        Mangler.setInFunctionType]
  · intro dim2 vl2 st2 m
    rw [accept_array, accept_array]
  · intro dim2 vl2 st2 m
    rw [accept, accept,
      printQualifiers_fields env.enc (.PointerType q base dim2 vl2 st2)
        (.PointerType q base dim vl st) noAssertions m rfl rfl rfl]

/-- An array of signed int in the sample environment: `A0i` whatever the dimension. -/
theorem array_dimension_example :
    mangle sampleEnv (.type (.ArrayType CV.none (.BasicType CV.none .SignedInt)
        (some (.Other "3")) false false)) Mode.default = some "A0i"
    ∧ mangle sampleEnv (.type (.ArrayType CV.none (.BasicType CV.none .SignedInt)
        (some (.Other "10")) true true)) Mode.default = some "A0i"
    ∧ mangle sampleEnv (.type (.ArrayType ⟨true, false, false, false, false⟩
        (.BasicType CV.none .SignedInt) none false false)) Mode.default = some "KA0i" := by
  decide

/-- **C33.** A reference type emits no marker of its own and none of its own const,
volatile or atomic qualifiers, and its base is mangled as outside parameter position:
outside type mode (so in the default mode), for every base type and every state of the
traversal, in parameter position or not, the visit of a reference without the mutex
qualifier is the visit of its base from the same state with `inFunctionType` off, after
which the flag has its entry value again; the text appended is that of the base visited
with the flag off. -/
theorem reference_base_outside_parameter_position (env : Env) (q : CV.Qualifiers)
    (base : Ty) (m : Mangler) (htm : m.typeMode = false) (hq : q.is_mutex = false) :
    accept env (.ReferenceType q base) m
        = (accept env base (m.setInFunctionType false)).map
            (fun x => x.setInFunctionType m.inFunctionType)
    ∧ (accept env (.ReferenceType q base) m).map Mangler.result
        = (accept env base (m.setInFunctionType false)).map Mangler.result := by
  have e : accept env (.ReferenceType q base) m
      = (accept env base (m.setInFunctionType false)).map
          (fun x => x.setInFunctionType m.inFunctionType) := by
    rw [accept, printQualifiers_text env.enc (.ReferenceType q base) noAssertions
      (m.setInFunctionType true) rfl]
    have e1 : (m.setInFunctionType true).typeMode = false := htm
    have e2 : (m.setInFunctionType true).inFunctionType = true := rfl
    rw [e1, e2]
    have e3 : qualifierText env.enc false true (Ty.ReferenceType q base).quals = "" := by
      simp [qualifierText, Ty.quals, hq]
    rw [e3]
    have e4 : ((m.setInFunctionType true).emit "").setInFunctionType (false && true)
        = m.setInFunctionType false := by
      obtain ⟨n, vn, nv, tl, mo, tm, gp, ift, iqt⟩ := m
      simp [Mangler.emit, Mangler.setInFunctionType]
    rw [e4]
    rfl
  refine ⟨e, ?_⟩
  rw [e]
  cases accept env base (m.setInFunctionType false) <;> rfl

/-- A reference to a const signed int in parameter position, in the sample environment:
the token `K` of const is written, as for the base visited outside parameter position,
and the flag is set again afterwards; a const signed int in parameter position is
written without the token. -/
theorem reference_base_outside_parameter_position_witness :
    accept sampleEnv (.ReferenceType ⟨true, false, false, false, false⟩
        (.BasicType ⟨true, false, false, false, false⟩ .SignedInt))
        ((Mangler.ofMode Mode.default).setInFunctionType true)
      = some (((Mangler.ofMode Mode.default).emit "Ki").setInFunctionType true)
    ∧ accept sampleEnv (.BasicType ⟨true, false, false, false, false⟩ .SignedInt)
        ((Mangler.ofMode Mode.default).setInFunctionType true)
      = some (((Mangler.ofMode Mode.default).emit "i").setInFunctionType true) :=
  ⟨(reference_base_outside_parameter_position sampleEnv ⟨true, false, false, false, false⟩
      (.BasicType ⟨true, false, false, false, false⟩ .SignedInt)
      ((Mangler.ofMode Mode.default).setInFunctionType true) rfl rfl).1.trans (by decide),
    by decide⟩

theorem frame_fields {a b : Mangler} (h : a.frame = b.frame) :
    a.inQualifiedType = b.inQualifiedType ∧ a.isTopLevel = b.isTopLevel
      ∧ a.nextVarNum = b.nextVarNum := by
  simp only [Mangler.frame, Prod.mk.injEq] at h
  exact ⟨h.2.2.2.2.2, h.2.2.2.2.1, h.2.2.2.1⟩

/-- **C35.** The flags of the traversal are scoped: for every type node and every state,
when the visit of the node completes, `inFunctionType`, `inQualifiedType`, `isTopLevel`
and `nextVarNum` have the values they had before the visit. In particular, in the visit
of a function type every parameter is visited in a state in which `inFunctionType` is
set: it is set when the first parameter is reached, and after each parameter it is set
again for the next one. -/
theorem traversal_flags_scoped (env : Env) :
    (∀ (t : Ty) (m m' : Mangler), accept env t m = some m' →
      m'.inFunctionType = m.inFunctionType ∧ m'.inQualifiedType = m.inQualifiedType
        ∧ m'.isTopLevel = m.isTopLevel ∧ m'.nextVarNum = m.nextVarNum)
    ∧ (∀ (q : CV.Qualifiers) (fa : List TypeDecl) (assertions : List DeclWithType)
        (returns before after : List Ty) (t : Ty) (va : Bool) (m m' : Mangler),
        accept env (.FunctionType q fa assertions returns (before ++ t :: after) va) m
          = some m' →
        ∃ m0 m1 m2 : Mangler, m0.inFunctionType = true
          ∧ accept_each env before m0 = some m1 ∧ m1.inFunctionType = true
          ∧ accept env t m1 = some m2 ∧ m2.inFunctionType = true
          ∧ (accept_each env after m2).map
              (fun x => (x.emit "_").setInFunctionType m.inFunctionType) = some m') := by
  refine ⟨?_, ?_⟩
  · intro t m m' h
    exact ⟨accept_inFunctionType h, frame_fields (accept_frame env t m m' h)⟩
  · intro q fa assertions returns before after t va m m' h
    simp only [accept] at h
    obtain ⟨x, hx, e⟩ := cleanup_some h
    cases hq : printQualifiers env.enc
        (.FunctionType q fa assertions returns (before ++ t :: after) va)
        (fun varNums => readAssertions env assertions m.mangleOverridable m.typeMode
          m.mangleGenericParams m.nextVarNum varNums) m with
    | none => rw [hq] at hx; cases hx
    | some m1 =>
      rw [hq] at hx
      simp only [] at hx
      cases hrs : (if returns.isEmpty
             then some (((m1.emit env.enc.function).setInFunctionType true).emit
               env.enc.void_t)
             else accept_each env returns
               ((m1.emit env.enc.function).setInFunctionType true)) with
      | none => rw [hrs] at hx; cases hx
      | some mr =>
        rw [hrs] at hx
        simp only [] at hx
        have hmr : mr.inFunctionType = true := by
          split at hrs
          · cases hrs; rfl
          · exact accept_each_inFunctionType env returns _ mr hrs
        rw [accept_each_middle] at hx
        cases hb : accept_each env before (mr.emit "_") with
        | none => rw [hb] at hx; cases hx
        | some mb =>
          rw [hb] at hx
          simp only [] at hx
          have hmb : mb.inFunctionType = true :=
            (accept_each_inFunctionType env before _ mb hb).trans hmr
          cases ht : accept env t mb with
          | none => rw [ht] at hx; cases hx
          | some mt =>
            rw [ht] at hx
            simp only [] at hx
            refine ⟨mr.emit "_", mb, mt, hmr, hb, hmb, ht, (accept_inFunctionType ht).trans hmb,
              ?_⟩
            cases ha : accept_each env after mt with
            | none => rw [ha] at hx; cases hx
            | some ma =>
              rw [ha] at hx
              cases hx
              rw [e]
              rfl

/-- The function type `void (*)( const int &, const int )` visited in the sample
environment from the fresh state: the second parameter is reached with the flag set, so
its const is not written, and all four members are as they were. -/
theorem traversal_flags_scoped_witness :
    accept sampleEnv (.FunctionType CV.none [] [] []
        [.ReferenceType CV.none (.BasicType ⟨true, false, false, false, false⟩ .SignedInt),
          .BasicType ⟨true, false, false, false, false⟩ .SignedInt] false)
        (Mangler.ofMode Mode.default)
      = some ((Mangler.ofMode Mode.default).emit "Fv_Kii_")
    ∧ ((Mangler.ofMode Mode.default).emit "Fv_Kii_").inFunctionType = false
    ∧ ((Mangler.ofMode Mode.default).emit "Fv_Kii_").inQualifiedType = false
    ∧ ((Mangler.ofMode Mode.default).emit "Fv_Kii_").isTopLevel = true
    ∧ ((Mangler.ofMode Mode.default).emit "Fv_Kii_").nextVarNum = 0 :=
  ⟨by decide,
    (traversal_flags_scoped sampleEnv).1
      (.FunctionType CV.none [] [] []
        [.ReferenceType CV.none (.BasicType ⟨true, false, false, false, false⟩ .SignedInt),
          .BasicType ⟨true, false, false, false, false⟩ .SignedInt] false)
      (Mangler.ofMode Mode.default) ((Mangler.ofMode Mode.default).emit "Fv_Kii_")
      (by decide)⟩

end Mangle

/-! ## Pointers with array-like fields -/

namespace CodeGen
open GenType_new

/-- **C39.** A pointer node with an array-like field set (`isStatic`, `isVarLen` or a
dimension) is rendered exactly like the array node with the same qualifiers, base,
dimension, `isVarLen` and `isStatic`, for every base string and all options: the base is
rendered from the declarator built so far (in parentheses when it starts with `*`)
followed by the brackets, which hold `static`, then the qualifier keywords in the order
`const`, `volatile`, `__restrict`, `_Atomic`, then the dimension, or `*` for a variable
length without dimension; no `*` declarator is written. -/
theorem array_like_pointer_rendering (env : GenEnv) (options : Options) (q : CV.Qualifiers)
    (base : Ty) (dimension : Option Expr) (isVarLen isStatic : Bool) (s : String)
    (h : arrayLike dimension isVarLen isStatic = true) :
    accept env options (.PointerType q base dimension isVarLen isStatic) s
        = accept env options (.ArrayType q base dimension isVarLen isStatic) s
    ∧ genTypeNoAttr env (.PointerType q base dimension isVarLen isStatic) s options
        = genTypeNoAttr env (.ArrayType q base dimension isVarLen isStatic) s options
    ∧ accept env options (.PointerType q base dimension isVarLen isStatic) s
        = accept env options base
            (declarator s ++ "[" ++ (if isStatic then "static " else "")
              ++ (if q.is_const then "const " else "")
              ++ (if q.is_volatile then "volatile " else "")
              ++ (if q.is_restrict then "__restrict " else "")
              ++ (if q.is_atomic then "_Atomic " else "")
              ++ (match dimension with
                  | some d => env.genDimension options d
                  | none => if isVarLen then "*" else "")
              ++ "]") := by
  have hc : (isStatic || isVarLen || dimension.isSome) = true := h
  have e1 : accept env options (.PointerType q base dimension isVarLen isStatic) s
      = accept env options base (genArrayText env options q dimension isVarLen isStatic s) := by
    rw [accept, if_pos hc]
  have e2 : accept env options (.ArrayType q base dimension isVarLen isStatic) s
      = accept env options base (genArrayText env options q dimension isVarLen isStatic s) := by
    rw [accept]
  refine ⟨e1.trans e2.symm, ?_, ?_⟩
  · unfold genTypeNoAttr
    exact e1.trans e2.symm
  · rw [e1]
    congr 1
    unfold genArrayText
    obtain ⟨c, r, v, mu, a⟩ := q
    cases isStatic <;> cases c <;> cases v <;> cases r <;> cases a <;> cases dimension <;>
      cases isVarLen <;>
      simp only [if_true, if_false, Bool.false_eq_true, String.append_assoc,
        String.empty_append, String.append_empty]

/-- The parameter `int x[static const 3]`, a const pointer to signed int with the
dimension 3 and `isStatic` set, rendered from `x` in the sample environment. -/
theorem array_like_pointer_rendering_witness :
    arrayLike (some (.Other "3")) false true = true
    ∧ accept sampleGenEnv ⟨false, true, false, false⟩
        (.PointerType ⟨true, false, false, false, false⟩ (.BasicType CV.none .SignedInt)
          (some (.Other "3")) false true) "x" = some "signed int x[static const 3]"
    ∧ accept sampleGenEnv ⟨false, true, false, false⟩
        (.ArrayType ⟨true, false, false, false, false⟩ (.BasicType CV.none .SignedInt)
          (some (.Other "3")) false true) "x" = some "signed int x[static const 3]" :=
  ⟨rfl, by decide,
    ((array_like_pointer_rendering sampleGenEnv ⟨false, true, false, false⟩
      ⟨true, false, false, false, false⟩ (.BasicType CV.none .SignedInt)
      (some (.Other "3")) false true "x" rfl).1.symm).trans (by decide)⟩

end CodeGen

/-! ## The kinds that a `forall` list may hold -/

namespace Mangle

theorem forallLoop_unhandled (nv : Int) : ∀ (fa : List TypeDecl) (c : ForallCounts)
    (v : VarMapType),
    (∃ d ∈ fa, d.kind = .DStype ∨ d.kind = .Otype ∨ d.kind = .Dimension) →
    forallLoop nv fa c v = none
  | [], c, v, h => by
    obtain ⟨d, hd, -⟩ := h
    cases hd
  | ⟨n, k⟩ :: rest, c, v, h => by
    cases hl : forallLoop nv (⟨n, k⟩ :: rest) c v with
    | none => rfl
    | some cv =>
      exfalso
      obtain ⟨d, hd, hk⟩ := h
      have := forallLoop_kinds nv (⟨n, k⟩ :: rest) c v cv.1 cv.2 hl d hd
      rcases this with e | e | e <;> rcases hk with e2 | e2 | e2 <;> rw [e] at e2 <;> cases e2

theorem forallLoop_handled (nv : Int) : ∀ (fa : List TypeDecl) (c : ForallCounts)
    (v : VarMapType),
    (∀ d ∈ fa, d.kind = .Dtype ∨ d.kind = .Ftype ∨ d.kind = .Ttype) →
    ∃ (c2 : ForallCounts) (v2 : VarMapType), forallLoop nv fa c v = some (c2, v2)
  | [], c, v, _ => ⟨c, v, rfl⟩
  | ⟨n, k⟩ :: rest, c, v, h => by
    have hk := h ⟨n, k⟩ (List.mem_cons_self _ _)
    have hr : ∀ d ∈ rest, d.kind = .Dtype ∨ d.kind = .Ftype ∨ d.kind = .Ttype :=
      fun d hd => h d (List.mem_cons_of_mem _ hd)
    simp only at hk
    rcases hk with rfl | rfl | rfl
    · simp only [forallLoop]
      exact forallLoop_handled nv rest _ _ hr
    · simp only [forallLoop]
      exact forallLoop_handled nv rest _ _ hr
    · simp only [forallLoop]
      exact forallLoop_handled nv rest _ _ hr

/-- Outside type mode `printQualifiers` on a function type with a `forall` list: the loop
over the list, the reading of the assertions, the header, the qualifier tokens. -/
theorem printQualifiers_forall (enc : Encoding) (q : CV.Qualifiers) (fa : List TypeDecl)
    (assertions : List DeclWithType) (returns params : List Ty) (va : Bool)
    (r : VarMapType → Option (List String)) (m : Mangler)
    (htm : m.typeMode = false) (hfa : fa ≠ []) :
    printQualifiers enc (.FunctionType q fa assertions returns params va) r m
      = (forallLoop m.nextVarNum fa ⟨0, 0, 0⟩ m.varNums).bind (fun cv =>
          (r cv.2).map (fun names =>
            printCV enc q (((m.emit enc.forall_).setVarNums cv.2).emit
              (forallText cv.1 names)))) := by
  have hne : fa.isEmpty = false := by
    cases fa with
    | nil => exact absurd rfl hfa
    | cons a rest => rfl
  unfold printQualifiers printForall
  rw [htm]
  simp only [Bool.false_eq_true, if_false, Ty.isFunctionType, Ty.forallList, hne,
    Bool.not_false, Bool.and_self, if_true, Ty.quals]
  cases forallLoop m.nextVarNum fa ⟨0, 0, 0⟩ m.varNums with
  | none => rfl
  | some cv =>
    obtain ⟨c, v⟩ := cv
    simp only [Option.some_bind]
    cases r v <;> rfl

theorem accept_unhandled_kind (env : Env) (q : CV.Qualifiers) (fa : List TypeDecl)
    (assertions : List DeclWithType) (returns params : List Ty) (va : Bool) (m : Mangler)
    (htm : m.typeMode = false)
    (h : ∃ d ∈ fa, d.kind = .DStype ∨ d.kind = .Otype ∨ d.kind = .Dimension) :
    accept env (.FunctionType q fa assertions returns params va) m = none := by
  have hfa : fa ≠ [] := by
    rintro rfl
    obtain ⟨d, hd, -⟩ := h
    cases hd
  rw [accept, printQualifiers_forall env.enc q fa assertions returns params va _ m htm hfa,
    forallLoop_unhandled m.nextVarNum fa _ _ h]
  rfl

/-- **C34.** Outside type mode (so in the default mode) the mangling of a function type
whose `forall` list holds a type parameter of a kind other than Dtype, Ftype and Ttype,
that is of kind DStype, Otype or Dimension, fails (`assertf( false, ... )`) from every
state, and `Mangle::mangle` returns no name for the type or for a declaration of that
type. When the list is not empty and every parameter is of kind Dtype, Ftype or Ttype, the
loop over the list does not fail, it counts the kinds, and `printQualifiers` writes the
`forall` header: it fails only if the reading of an assertion does, and not at all
without assertions. -/
theorem unhandled_forall_kind_fails (env : Env) (q : CV.Qualifiers) (fa : List TypeDecl)
    (assertions : List DeclWithType) (returns params : List Ty) (va : Bool) :
    ((∃ d ∈ fa, d.kind = .DStype ∨ d.kind = .Otype ∨ d.kind = .Dimension) →
      (∀ m : Mangler, m.typeMode = false →
        accept env (.FunctionType q fa assertions returns params va) m = none)
      ∧ ∀ mode : Mode, mode.type = false →
          mangle env (.type (.FunctionType q fa assertions returns params va)) mode = none
          ∧ ∀ (name : String) (linkage : Linkage.Spec),
              mangle env (.decl (.mk name linkage
                (.FunctionType q fa assertions returns params va))) mode = none)
    ∧ (fa ≠ [] → (∀ d ∈ fa, d.kind = .Dtype ∨ d.kind = .Ftype ∨ d.kind = .Ttype) →
        ∀ m : Mangler, m.typeMode = false →
          ∃ (c : ForallCounts) (v : VarMapType),
            forallLoop m.nextVarNum fa ⟨0, 0, 0⟩ m.varNums = some (c, v)
            ∧ c.dcount = fa.countP (fun d => decide (d.kind = .Dtype))
            ∧ c.fcount = fa.countP (fun d => decide (d.kind = .Ftype))
            ∧ c.vcount = fa.countP (fun d => decide (d.kind = .Ttype))
            ∧ printQualifiers env.enc (.FunctionType q fa assertions returns params va)
                (fun varNums => readAssertions env assertions m.mangleOverridable m.typeMode
                  m.mangleGenericParams m.nextVarNum varNums) m
              = (readAssertions env assertions m.mangleOverridable m.typeMode
                  m.mangleGenericParams m.nextVarNum v).map (fun names =>
                    printCV env.enc q (((m.emit env.enc.forall_).setVarNums v).emit
                      (forallText c names)))
            ∧ printQualifiers env.enc (.FunctionType q fa [] returns params va)
                (fun varNums => readAssertions env [] m.mangleOverridable m.typeMode
                  m.mangleGenericParams m.nextVarNum varNums) m
              = some (printCV env.enc q (((m.emit env.enc.forall_).setVarNums v).emit
                  (forallText c [])))) := by
  refine ⟨?_, ?_⟩
  · intro h
    refine ⟨fun m htm => accept_unhandled_kind env q fa assertions returns params va m htm h,
      ?_⟩
    intro mode hmode
    have e : mangle env (.type (.FunctionType q fa assertions returns params va)) mode
        = none := by
      simp only [mangle]
      rw [accept_unhandled_kind env q fa assertions returns params va _ hmode h]
      rfl
    refine ⟨e, ?_⟩
    intro name linkage
    rw [mangle_decl_eq, e]
    rfl
  · intro hfa hk m htm
    obtain ⟨c, v, hl⟩ := forallLoop_handled m.nextVarNum fa ⟨0, 0, 0⟩ m.varNums hk
    obtain ⟨h1, h2, h3⟩ := forallLoop_counts m.nextVarNum fa _ _ c v hl
    simp only [Nat.zero_add] at h1 h2 h3
    refine ⟨c, v, hl, h1, h2, h3, ?_, ?_⟩
    · rw [printQualifiers_forall env.enc q fa assertions returns params va _ m htm hfa, hl]
      rfl
    · rw [printQualifiers_forall env.enc q fa [] returns params va _ m htm hfa, hl]
      simp only [Option.some_bind, readAssertions, Option.map_some']

/-- The declarations `forall( otype T ) void f( T )` and `forall( dtype T ) void f( T )`
in the sample environment and the default mode: no name for the first one, the name
`_X1fQ1_0_0_0__Fv_BD0_` for the second one. -/
theorem unhandled_forall_kind_fails_witness :
    mangle sampleEnv (.decl (.mk "f" Linkage.Cforall (.FunctionType CV.none [⟨"T", .Otype⟩] []
        [] [.TypeInstType CV.none "T" [] .Otype] false))) Mode.default = none
    ∧ mangle sampleEnv (.decl (.mk "f" Linkage.Cforall (.FunctionType CV.none
        [⟨"T", .Dtype⟩] [] [] [.TypeInstType CV.none "T" [] .Dtype] false))) Mode.default
      = some "_X1fQ1_0_0_0__Fv_BD0_" :=
  ⟨(((unhandled_forall_kind_fails sampleEnv CV.none [⟨"T", .Otype⟩] [] []
      [.TypeInstType CV.none "T" [] .Otype] false).1
      ⟨⟨"T", .Otype⟩, List.mem_cons_self _ _, Or.inr (Or.inl rfl)⟩).2 Mode.default rfl).2
      "f" Linkage.Cforall,
    by decide⟩

end Mangle

namespace Mangle


/-! ## Type mode

In type mode `printQualifiers` returns at once: no qualifier token is written, no type
variable is registered, no assertion is read. -/

theorem bareTys_isEmpty (ts : List Ty) : (bareTys ts).isEmpty = ts.isEmpty := by
  cases ts <;> simp [bareTys]

theorem bareTys_length : ∀ ts : List Ty, (bareTys ts).length = ts.length
  | [] => by simp [bareTys]
  | t :: ts => by simp [bareTys, bareTys_length ts]

theorem bareExprs_isEmpty (es : List Expr) : (bareExprs es).isEmpty = es.isEmpty := by
  cases es with
  | nil => simp [bareExprs]
  | cons e rest => cases e <;> simp [bareExprs]

theorem bare_isFunctionType (t : Ty) : (bare t).isFunctionType = t.isFunctionType := by
  cases t <;> simp [bare, Ty.isFunctionType]

theorem mangleRef_typeMode (enc : Encoding) (t : Ty) (name : String) (pe : Bool)
    (k : Mangler → Option Mangler) (pfx : String) (m : Mangler) (htm : m.typeMode = true) :
    mangleRef enc t name pe k pfx m = mangleRefRest name pe k pfx m := by
  rw [mangleRef_eq_bind, printQualifiers_typeMode _ _ _ _ htm]
  rfl

theorem accept_each_typeMode {env : Env} {ts : List Ty} {m m' : Mangler}
    (h : accept_each env ts m = some m') : m'.typeMode = m.typeMode :=
  congrArg Prod.fst (accept_each_frame env ts m m' h)

theorem mangleRefRest_congr (name : String) (pe : Bool) (k1 k2 : Mangler → Option Mangler)
    (pfx : String) (m : Mangler)
    (h : ∀ x : Mangler, x.typeMode = m.typeMode → k1 x = k2 x) :
    mangleRefRest name pe k1 pfx m = mangleRefRest name pe k2 pfx m := by
  unfold mangleRefRest
  simp only []
  rw [h ((m.emit (pfx ++ toString name.utf8ByteSize ++ name)).emit "_") rfl]

mutual

theorem accept_bare (env : Env) : ∀ (t : Ty) (m : Mangler), m.typeMode = true →
    accept env (bare t) m = accept env t m
  | .VoidType q, m, htm => by
    simp only [bare, accept]
    rw [printQualifiers_typeMode _ _ _ _ htm, printQualifiers_typeMode _ _ _ _ htm]
  | .BasicType q kind, m, htm => by
    simp only [bare, accept]
    rw [printQualifiers_typeMode _ _ _ _ htm, printQualifiers_typeMode _ _ _ _ htm]
  | .PointerType q base dim vl st, m, htm => by
    simp only [bare, accept]
    rw [printQualifiers_typeMode _ _ _ _ htm, printQualifiers_typeMode _ _ _ _ htm]
    simp only []
    rw [bare_isFunctionType,
      accept_bare env base (if !base.isFunctionType then m.emit env.enc.pointer else m)
        (by split <;> exact htm)]
  | .ArrayType q base dim vl st, m, htm => by
    simp only [bare, accept]
    rw [printQualifiers_typeMode _ _ _ _ htm, printQualifiers_typeMode _ _ _ _ htm]
    simp only []
    rw [accept_bare env base (m.emit (env.enc.array ++ "0")) htm]
  | .ReferenceType q base, m, htm => by
    have htm2 : (m.setInFunctionType true).typeMode = true := htm
    simp only [bare, accept]
    rw [printQualifiers_typeMode _ _ _ _ htm2, printQualifiers_typeMode _ _ _ _ htm2]
    simp only []
    rw [accept_bare env base (m.setInFunctionType true) htm2]
  | .FunctionType q fa assertions returns params va, m, htm => by
    simp only [bare, accept]
    rw [printQualifiers_typeMode _ _ _ _ htm, printQualifiers_typeMode _ _ _ _ htm]
    simp only []
    rw [bareTys_isEmpty]
    have h2 : ((m.emit env.enc.function).setInFunctionType true).typeMode = true := htm
    rw [accept_each_bare env returns _ h2]
    cases hr : (if returns.isEmpty
           then some (((m.emit env.enc.function).setInFunctionType true).emit
             env.enc.void_t)
           else accept_each env returns
             ((m.emit env.enc.function).setInFunctionType true)) with
    | none => rfl
    | some mr =>
      simp only []
      have h3 : (mr.emit "_").typeMode = true := by
        split at hr
        · cases hr; exact htm
        · exact (accept_each_typeMode hr).trans h2
      rw [accept_each_bare env params _ h3]
  | .StructInstType q name params, m, htm => by
    simp only [bare, accept]
    rw [mangleRef_typeMode _ _ _ _ _ _ _ htm, mangleRef_typeMode _ _ _ _ _ _ _ htm,
      bareExprs_isEmpty]
    exact congrArg (cleanup m) (mangleRefRest_congr _ _ _ _ _ _
      (fun x hx => acceptParams_bare env params x (hx.trans htm)))
  | .UnionInstType q name params, m, htm => by
    simp only [bare, accept]
    rw [mangleRef_typeMode _ _ _ _ _ _ _ htm, mangleRef_typeMode _ _ _ _ _ _ _ htm,
      bareExprs_isEmpty]
    exact congrArg (cleanup m) (mangleRefRest_congr _ _ _ _ _ _
      (fun x hx => acceptParams_bare env params x (hx.trans htm)))
  | .EnumInstType q name params eb, m, htm => by
    simp only [bare, accept]
    rw [mangleRef_typeMode _ _ _ _ _ _ _ htm, mangleRef_typeMode _ _ _ _ _ _ _ htm,
      bareExprs_isEmpty]
    exact congrArg (cleanup m) (mangleRefRest_congr _ _ _ _ _ _
      (fun x hx => acceptParams_bare env params x (hx.trans htm)))
  | .TypeInstType q name params kind, m, htm => by
    simp only [bare, accept]
    cases List.lookup name m.varNums with
    | none =>
      simp only []
      rw [mangleRef_typeMode _ _ _ _ _ _ _ htm, mangleRef_typeMode _ _ _ _ _ _ _ htm,
        bareExprs_isEmpty]
      exact congrArg (cleanup m) (mangleRefRest_congr _ _ _ _ _ _
        (fun x hx => acceptParams_bare env params x (hx.trans htm)))
    | some varNum =>
      simp only []
      rw [printQualifiers_typeMode _ _ _ _ htm, printQualifiers_typeMode _ _ _ _ htm]
  | .TraitInstType q name params, m, htm => by
    simp only [bare, accept]
    rw [printQualifiers_typeMode _ _ _ _ htm, printQualifiers_typeMode _ _ _ _ htm]
  | .TupleType q types, m, htm => by
    simp only [bare, accept]
    rw [printQualifiers_typeMode _ _ _ _ htm, printQualifiers_typeMode _ _ _ _ htm]
    simp only []
    rw [bareTys_length,
      accept_each_bare env types (m.emit (env.enc.tuple ++ toString types.length)) htm]
  | .VarArgsType q, m, htm => by
    simp only [bare, accept]
    rw [printQualifiers_typeMode _ _ _ _ htm, printQualifiers_typeMode _ _ _ _ htm]
  | .ZeroType _, m, htm => by simp only [bare, accept]
  | .OneType _, m, htm => by simp only [bare, accept]
  | .GlobalScopeType, m, htm => by simp only [bare, accept]
  | .TypeofType _ _ _, m, htm => by simp only [bare, accept]
  | .VTableType _ _, m, htm => by simp only [bare, accept]
  | .QualifiedType _ parent child, m, htm => by
    simp only [bare, accept]
    have h0 : (qualifiedStart env.enc m.inQualifiedType m).typeMode = true :=
      (qualifiedStart_typeMode env.enc m).trans htm
    rw [accept_bare env parent _ h0]
    cases hp : accept env parent (qualifiedStart env.enc m.inQualifiedType m) with
    | none => rfl
    | some m1 =>
      simp only []
      rw [accept_bare env child m1 ((accept_typeMode hp).trans h0)]

theorem accept_each_bare (env : Env) : ∀ (ts : List Ty) (m : Mangler), m.typeMode = true →
    accept_each env (bareTys ts) m = accept_each env ts m
  | [], m, htm => by simp only [bareTys]
  | t :: ts, m, htm => by
    simp only [bareTys, accept_each]
    rw [accept_bare env t m htm]
    cases ht : accept env t m with
    | none => rfl
    | some m1 =>
      simp only []
      exact accept_each_bare env ts m1 ((accept_typeMode ht).trans htm)

theorem acceptParams_bare (env : Env) : ∀ (ps : List Expr) (m : Mangler),
    m.typeMode = true → acceptParams env (bareExprs ps) m = acceptParams env ps m
  | [], m, htm => by simp only [bareExprs]
  | .TypeExpr t :: ps, m, htm => by
    simp only [bareExprs, acceptParams]
    rw [accept_bare env t m htm]
    cases ht : accept env t m with
    | none => rfl
    | some m1 =>
      simp only []
      exact acceptParams_bare env ps m1 ((accept_typeMode ht).trans htm)
  | .Other _ :: _, m, htm => by simp only [bareExprs, acceptParams]

end

end Mangle

namespace Mangle

theorem cleanup_varNums {m m' : Mangler} {r : Option Mangler} (h : cleanup m r = some m') :
    ∃ x, r = some x ∧ m'.varNums = x.varNums := by
  obtain ⟨x, hx, e⟩ := cleanup_some h
  exact ⟨x, hx, by rw [e]; rfl⟩

theorem leaf_varNums {enc : Encoding} {t : Ty} {m m' : Mangler} {s : String}
    (htm : m.typeMode = true)
    (h : cleanup m (match printQualifiers enc t noAssertions m with
      | none => none
      | some m => some (m.emit s)) = some m') : m'.varNums = m.varNums := by
  rw [printQualifiers_typeMode _ _ _ _ htm] at h
  obtain ⟨x, hx, e⟩ := cleanup_varNums h
  cases hx
  exact e

theorem mangleRefRest_varNums {name : String} {pe : Bool} {k : Mangler → Option Mangler}
    {pfx : String} {m x : Mangler}
    (hk : ∀ a b : Mangler, a.typeMode = m.typeMode → k a = some b → b.varNums = a.varNums)
    (h : mangleRefRest name pe k pfx m = some x) : x.varNums = m.varNums := by
  unfold mangleRefRest at h
  simp only [] at h
  split at h
  · cases hp : k ((m.emit (pfx ++ toString name.utf8ByteSize ++ name)).emit "_") with
    | none => rw [hp] at h; cases h
    | some b =>
      rw [hp] at h
      cases h
      exact hk ((m.emit (pfx ++ toString name.utf8ByteSize ++ name)).emit "_") b rfl hp
  · cases h
    rfl

theorem acceptParams_typeMode {env : Env} {ps : List Expr} {m m' : Mangler}
    (h : acceptParams env ps m = some m') : m'.typeMode = m.typeMode :=
  congrArg Prod.fst (acceptParams_frame env ps m m' h)

mutual

theorem accept_varNums (env : Env) : ∀ (t : Ty) (m m' : Mangler), m.typeMode = true →
    accept env t m = some m' → m'.varNums = m.varNums
  | .VoidType q, m, m', htm, h => by
    simp only [accept] at h
    exact leaf_varNums htm h
  | .BasicType q kind, m, m', htm, h => by
    simp only [accept] at h
    exact leaf_varNums htm h
  | .PointerType q base dim vl st, m, m', htm, h => by
    simp only [accept] at h
    rw [printQualifiers_typeMode _ _ _ _ htm] at h
    obtain ⟨x, hx, e⟩ := cleanup_varNums h
    rw [e]
    simp only [] at hx
    refine (accept_varNums env base _ x (by split <;> exact htm) hx).trans ?_
    split <;> rfl
  | .ArrayType q base dim vl st, m, m', htm, h => by
    simp only [accept] at h
    rw [printQualifiers_typeMode _ _ _ _ htm] at h
    obtain ⟨x, hx, e⟩ := cleanup_varNums h
    rw [e]
    simp only [] at hx
    exact accept_varNums env base (m.emit (env.enc.array ++ "0")) x htm hx
  | .ReferenceType q base, m, m', htm, h => by
    have htm2 : (m.setInFunctionType true).typeMode = true := htm
    simp only [accept] at h
    rw [printQualifiers_typeMode _ _ _ _ htm2] at h
    obtain ⟨x, hx, e⟩ := cleanup_varNums h
    rw [e]
    simp only [] at hx
    exact accept_varNums env base (m.setInFunctionType true) x htm2 hx
  | .FunctionType q fa assertions returns params va, m, m', htm, h => by
    simp only [accept] at h
    rw [printQualifiers_typeMode _ _ _ _ htm] at h
    obtain ⟨x, hx, e⟩ := cleanup_varNums h
    rw [e]
    simp only [] at hx
    have h2 : ((m.emit env.enc.function).setInFunctionType true).typeMode = true := htm
    cases hr : (if returns.isEmpty
           then some (((m.emit env.enc.function).setInFunctionType true).emit
             env.enc.void_t)
           else accept_each env returns
             ((m.emit env.enc.function).setInFunctionType true)) with
    | none => rw [hr] at hx; cases hx
    | some mr =>
      rw [hr] at hx
      simp only [] at hx
      have h3 : mr.typeMode = true ∧ mr.varNums = m.varNums := by
        split at hr
        · cases hr; exact ⟨htm, rfl⟩
        · exact ⟨(accept_each_typeMode hr).trans h2,
            accept_each_varNums env returns
              ((m.emit env.enc.function).setInFunctionType true) mr h2 hr⟩
      cases hp : accept_each env params (mr.emit "_") with
      | none => rw [hp] at hx; cases hx
      | some mp =>
        rw [hp] at hx
        cases hx
        exact (accept_each_varNums env params (mr.emit "_") mp h3.1 hp).trans h3.2
  | .StructInstType q name params, m, m', htm, h => by
    simp only [accept] at h
    rw [mangleRef_typeMode _ _ _ _ _ _ _ htm] at h
    obtain ⟨x, hx, e⟩ := cleanup_varNums h
    rw [e]
    exact mangleRefRest_varNums
      (fun a b ha hab => acceptParams_varNums env params a b (ha.trans htm) hab) hx
  | .UnionInstType q name params, m, m', htm, h => by
    simp only [accept] at h
    rw [mangleRef_typeMode _ _ _ _ _ _ _ htm] at h
    obtain ⟨x, hx, e⟩ := cleanup_varNums h
    rw [e]
    exact mangleRefRest_varNums
      (fun a b ha hab => acceptParams_varNums env params a b (ha.trans htm) hab) hx
  | .EnumInstType q name params eb, m, m', htm, h => by
    simp only [accept] at h
    rw [mangleRef_typeMode _ _ _ _ _ _ _ htm] at h
    obtain ⟨x, hx, e⟩ := cleanup_varNums h
    rw [e]
    exact mangleRefRest_varNums
      (fun a b ha hab => acceptParams_varNums env params a b (ha.trans htm) hab) hx
  | .TypeInstType q name params kind, m, m', htm, h => by
    simp only [accept] at h
    obtain ⟨x, hx, e⟩ := cleanup_varNums h
    rw [e]
    cases hl : List.lookup name m.varNums with
    | none =>
      rw [hl] at hx
      simp only [] at hx
      rw [mangleRef_typeMode _ _ _ _ _ _ _ htm] at hx
      exact mangleRefRest_varNums
        (fun a b ha hab => acceptParams_varNums env params a b (ha.trans htm) hab) hx
    | some varNum =>
      rw [hl] at hx
      simp only [] at hx
      rw [printQualifiers_typeMode _ _ _ _ htm] at hx
      cases hx
      rfl
  | .TraitInstType q name params, m, m', htm, h => by
    simp only [accept] at h
    exact leaf_varNums htm h
  | .TupleType q types, m, m', htm, h => by
    simp only [accept] at h
    rw [printQualifiers_typeMode _ _ _ _ htm] at h
    obtain ⟨x, hx, e⟩ := cleanup_varNums h
    rw [e]
    simp only [] at hx
    exact accept_each_varNums env types (m.emit (env.enc.tuple ++ toString types.length)) x
      htm hx
  | .VarArgsType q, m, m', htm, h => by
    simp only [accept] at h
    exact leaf_varNums htm h
  | .ZeroType _, m, m', htm, h => by
    simp only [accept] at h
    obtain ⟨x, hx, e⟩ := cleanup_varNums h
    cases hx
    exact e
  | .OneType _, m, m', htm, h => by
    simp only [accept] at h
    obtain ⟨x, hx, e⟩ := cleanup_varNums h
    cases hx
    exact e
  | .GlobalScopeType, m, m', htm, h => by
    simp only [accept] at h
    obtain ⟨x, hx, e⟩ := cleanup_varNums h
    cases hx
    exact e
  | .TypeofType _ _ _, m, m', htm, h => by
    simp only [accept] at h
    obtain ⟨x, hx, e⟩ := cleanup_varNums h
    cases hx
    exact e
  | .VTableType _ _, m, m', htm, h => by
    simp only [accept] at h
    obtain ⟨x, hx, e⟩ := cleanup_varNums h
    cases hx
    exact e
  | .QualifiedType _ parent child, m, m', htm, h => by
    simp only [accept] at h
    obtain ⟨x, hx, e⟩ := cleanup_varNums h
    rw [e]
    have h0 : (qualifiedStart env.enc m.inQualifiedType m).typeMode = true :=
      (qualifiedStart_typeMode env.enc m).trans htm
    cases hp : accept env parent (qualifiedStart env.enc m.inQualifiedType m) with
    | none => rw [hp] at hx; cases hx
    | some m1 =>
      rw [hp] at hx
      simp only [] at hx
      cases hc : accept env child m1 with
      | none => rw [hc] at hx; cases hx
      | some m2 =>
        rw [hc] at hx
        cases hx
        rw [qualifiedEnd_varNums,
          accept_varNums env child m1 m2 ((accept_typeMode hp).trans h0) hc,
          accept_varNums env parent _ m1 h0 hp, qualifiedStart_varNums]

theorem accept_each_varNums (env : Env) : ∀ (ts : List Ty) (m m' : Mangler),
    m.typeMode = true → accept_each env ts m = some m' → m'.varNums = m.varNums
  | [], m, m', htm, h => by
    simp only [accept_each, Option.some.injEq] at h
    rw [← h]
  | t :: ts, m, m', htm, h => by
    simp only [accept_each] at h
    cases ht : accept env t m with
    | none => rw [ht] at h; cases h
    | some m1 =>
      rw [ht] at h
      simp only [] at h
      exact (accept_each_varNums env ts m1 m' ((accept_typeMode ht).trans htm) h).trans
        (accept_varNums env t m m1 htm ht)

theorem acceptParams_varNums (env : Env) : ∀ (ps : List Expr) (m m' : Mangler),
    m.typeMode = true → acceptParams env ps m = some m' → m'.varNums = m.varNums
  | [], m, m', htm, h => by
    simp only [acceptParams, Option.some.injEq] at h
    rw [← h]
  | .TypeExpr t :: ps, m, m', htm, h => by
    simp only [acceptParams] at h
    cases ht : accept env t m with
    | none => rw [ht] at h; cases h
    | some m1 =>
      rw [ht] at h
      simp only [] at h
      exact (acceptParams_varNums env ps m1 m' ((accept_typeMode ht).trans htm) h).trans
        (accept_varNums env t m m1 htm ht)
  | .Other _ :: _, m, m', htm, h => by
    simp only [acceptParams] at h
    cases h

end

end Mangle

namespace Mangle

theorem mangle_type_bare (env : Env) (t : Ty) (mode : Mode) (hm : mode.type = true) :
    mangle env (.type (bare t)) mode = mangle env (.type t) mode := by
  simp only [mangle]
  rw [accept_bare env t (Mangler.ofMode mode) hm]

theorem mangle_decl_bare (env : Env) (name : String) (linkage : Linkage.Spec) (t : Ty)
    (mode : Mode) (hm : mode.type = true) :
    mangle env (.decl (.mk name linkage (bare t))) mode
      = mangle env (.decl (.mk name linkage t)) mode := by
  rw [mangle_decl_eq, mangle_decl_eq, mangle_type_bare env t mode hm]

theorem accept_typeInst_by_name (env : Env) (q : CV.Qualifiers) (name : String)
    (kind : TypeDecl.Kind) (m : Mangler) (htm : m.typeMode = true) (hv : m.varNums = []) :
    accept env (.TypeInstType q name [] kind) m
      = some (m.emit (env.enc.type ++ toString name.utf8ByteSize ++ name)) := by
  simp only [accept]
  rw [hv]
  simp only [List.lookup]
  rw [mangleRef_typeMode _ _ _ _ _ _ _ htm]
  unfold mangleRefRest
  obtain ⟨n, vn, nv, tl, mo, tm, gp, ift, iqt⟩ := m
  simp [cleanup, Mangler.emit, Mangler.setInFunctionType]

end Mangle

/-! ## Type mode and the entry point -/

namespace CodeGen
open Mangle

/-- **C36.** In type mode `printQualifiers` emits nothing and registers nothing: it
returns the state it was given, and a visit leaves the map of the type variables as it
was. So the result of a visit, and the mangled string of a type or of a declaration, are
the same for two nodes that differ only in qualifiers (const, volatile, atomic, restrict,
mutex, at any depth) and in the `forall` lists and assertions of function types, that is
for nodes with the same `bare` form; and a use of a type variable, met with the empty
map of a fresh mangler, is written by its name (type token, length, name) and not by
kind token and index. Consequently `isMain` accepts a `main` whose type differs from an
accepted shape in these respects only. -/
theorem type_mode_ignores_qualifiers (env : Env) :
    (∀ (t : Ty) (r : VarMapType → Option (List String)) (m : Mangler), m.typeMode = true →
      printQualifiers env.enc t r m = some m)
    ∧ (∀ (t : Ty) (m m' : Mangler), m.typeMode = true → accept env t m = some m' →
        m'.varNums = m.varNums)
    ∧ (∀ (t1 t2 : Ty) (m : Mangler), m.typeMode = true → bare t1 = bare t2 →
        accept env t1 m = accept env t2 m)
    ∧ (∀ (t1 t2 : Ty) (mode : Mode), mode.type = true → bare t1 = bare t2 →
        mangle env (.type t1) mode = mangle env (.type t2) mode
        ∧ ∀ (name : String) (linkage : Linkage.Spec),
            mangle env (.decl (.mk name linkage t1)) mode
              = mangle env (.decl (.mk name linkage t2)) mode)
    ∧ (∀ (q : CV.Qualifiers) (name : String) (kind : TypeDecl.Kind) (m : Mangler),
        m.typeMode = true → m.varNums = [] →
        accept env (.TypeInstType q name [] kind) m
          = some (m.emit (env.enc.type ++ toString name.utf8ByteSize ++ name)))
    ∧ (∀ (linkage : Linkage.Spec) (t : Ty), linkage.is_overrideable = false →
        (bare t = .FunctionType CV.none [] [] [.BasicType CV.none .SignedInt] [] true
          ∨ bare t = .FunctionType CV.none [] [] [.BasicType CV.none .SignedInt]
              [.BasicType CV.none .SignedInt,
                .PointerType CV.none
                  (.PointerType CV.none (.BasicType CV.none .Char) none false false)
                  none false false] false) →
        FixMain.isMain env (.mk "main" linkage t) = some true) := by
  refine ⟨fun t r m htm => printQualifiers_typeMode env.enc t r m htm,
    fun t m m' htm h => accept_varNums env t m m' htm h, ?_, ?_,
    fun q name kind m htm hv => accept_typeInst_by_name env q name kind m htm hv, ?_⟩
  · intro t1 t2 m htm hb
    rw [← accept_bare env t1 m htm, ← accept_bare env t2 m htm, hb]
  · intro t1 t2 mode hm hb
    refine ⟨?_, ?_⟩
    · rw [← mangle_type_bare env t1 mode hm, ← mangle_type_bare env t2 mode hm, hb]
    · intro name linkage
      rw [← mangle_decl_bare env name linkage t1 mode hm,
        ← mangle_decl_bare env name linkage t2 mode hm, hb]
  · intro linkage t hl hb
    rw [isMain_eq_bind, ← mangle_decl_bare env "main" linkage t Type_ rfl]
    rcases hb with hb | hb
    · rw [hb, mangle_main0 env linkage hl]
      exact is_main_first env
    · rw [hb, mangle_main2 env linkage hl]
      exact is_main_second env

/-- The declaration `int main( const int, char * const * volatile )` with a const return
value in the sample environment: its bare form is the second accepted shape, so `isMain`
accepts it; and `forall( dtype T ) void f( const T )` has in type mode the name
`_X1fFv_Y1T_`, the type variable written by its name. -/
theorem type_mode_ignores_qualifiers_witness :
    FixMain.isMain sampleEnv (.mk "main" Linkage.Cforall
        (.FunctionType CV.none [] [] [.BasicType ⟨true, false, false, false, false⟩ .SignedInt]
          [.BasicType ⟨true, false, false, false, false⟩ .SignedInt,
            .PointerType ⟨false, false, true, false, false⟩
              (.PointerType ⟨true, false, false, false, false⟩ (.BasicType CV.none .Char)
                none false false)
              none false false] false)) = some true
    ∧ mangle sampleEnv (.decl (.mk "f" Linkage.Cforall (.FunctionType CV.none
        [⟨"T", .Dtype⟩] [] []
        [.TypeInstType ⟨true, false, false, false, false⟩ "T" [] .Dtype] false))) Type_
      = some "_X1fFv_Y1T_" :=
  ⟨(type_mode_ignores_qualifiers sampleEnv).2.2.2.2.2 Linkage.Cforall _ rfl (Or.inr rfl),
    (((type_mode_ignores_qualifiers sampleEnv).2.2.2.1
      (.FunctionType CV.none [⟨"T", .Dtype⟩] [] []
        [.TypeInstType ⟨true, false, false, false, false⟩ "T" [] .Dtype] false)
      (.FunctionType CV.none [] [] [] [.TypeInstType CV.none "T" [] .Dtype] false)
      Type_ rfl rfl).2 "f" Linkage.Cforall).trans (by decide)⟩

end CodeGen

/-! ## The mangled name of an object declaration is written once -/

namespace ResolvExpr

theorem fixObjectType_of_fixed (env : Env) (d : ObjectDecl) (h : d.isTypeFixed = true) :
    fixObjectType env d = some d := by
  unfold fixObjectType
  rw [if_pos h]

theorem fixObjectType_isTypeFixed (env : Env) (d r : ObjectDecl)
    (h : fixObjectType env d = some r) : r.isTypeFixed = true := by
  unfold fixObjectType at h
  by_cases hf : d.isTypeFixed = true
  · rw [if_pos hf] at h
    cases h
    exact hf
  · rw [if_neg hf] at h
    cases h1 : env.resolveTypeof d.type with
    | none => rw [h1] at h; cases h
    | some t1 =>
      rw [h1] at h
      simp only [] at h
      cases h2 : env.fixArrayType t1 with
      | none => rw [h2] at h; cases h
      | some t2 =>
        rw [h2] at h
        simp only [] at h
        split at h
        · cases h
        · rename_i md hmd
          cases h3 : env.renameTyVars md.type with
          | none => rw [h3] at h; cases h
          | some t3 =>
            rw [h3] at h
            cases h
            rfl

theorem fixObjectType_unnamed (env : Env) (d : ObjectDecl) (hf : d.isTypeFixed = false)
    (hn : d.name = "") :
    fixObjectType env d
      = ((env.resolveTypeof d.type).bind env.fixArrayType).bind (fun t =>
          (env.renameTyVars t).map (fun t2 => { d with type := t2, isTypeFixed := true })) := by
  unfold fixObjectType
  rw [hf]
  simp only [Bool.false_eq_true, if_false]
  cases env.resolveTypeof d.type with
  | none => rfl
  | some t1 =>
    simp only [Option.some_bind]
    cases env.fixArrayType t1 with
    | none => rfl
    | some t2 =>
      simp only [Option.some_bind, hn, ne_eq, not_true_eq_false, if_false]
      cases env.renameTyVars t2 <;> rfl

theorem fixObjectType_named (env : Env) (d : ObjectDecl) (hf : d.isTypeFixed = false)
    (hn : d.name ≠ "") :
    fixObjectType env d
      = ((env.resolveTypeof d.type).bind env.fixArrayType).bind (fun t =>
          (Mangle.mangle env.mangler (.decl (.mk d.name d.linkage t))
            Mangle.Mode.default).bind (fun s =>
              (env.renameTyVars t).map (fun t2 =>
                { d with type := t2, mangleName := s, isTypeFixed := true }))) := by
  unfold fixObjectType
  rw [hf]
  simp only [Bool.false_eq_true, if_false]
  cases env.resolveTypeof d.type with
  | none => rfl
  | some t1 =>
    simp only [Option.some_bind]
    cases env.fixArrayType t1 with
    | none => rfl
    | some t2 =>
      simp only [Option.some_bind, ne_eq, hn, not_false_eq_true, if_true]
      cases Mangle.mangle env.mangler (.decl (.mk d.name d.linkage t2)) Mangle.Mode.default with
      | none => rfl
      | some s =>
        simp only [Option.map_some', Option.some_bind]
        cases env.renameTyVars t2 <;> rfl

/-- **C32.** `fixObjectType` writes the mangled name at most once per declaration and is
idempotent: a result has `isTypeFixed` set, a declaration with `isTypeFixed` set is
returned unchanged, hence `fixObjectType` applied to a result returns it again, with the
name that was written, and doing it twice is doing it once. When the name of the
declaration is empty the member `mangleName` is left as it was; otherwise the name
written is the result of `Mangle::mangle` on the declaration with its resolved type. -/
theorem fixObjectType_idempotent (env : Env) (d : ObjectDecl) :
    (∀ r : ObjectDecl, fixObjectType env d = some r → r.isTypeFixed = true)
    ∧ (d.isTypeFixed = true → fixObjectType env d = some d)
    ∧ (∀ r : ObjectDecl, fixObjectType env d = some r → fixObjectType env r = some r)
    ∧ (fixObjectType env d).bind (fixObjectType env) = fixObjectType env d
    ∧ (d.name = "" → ∀ r : ObjectDecl, fixObjectType env d = some r →
        r.mangleName = d.mangleName)
    ∧ (d.isTypeFixed = false → d.name = "" →
        fixObjectType env d
          = ((env.resolveTypeof d.type).bind env.fixArrayType).bind (fun t =>
              (env.renameTyVars t).map (fun t2 =>
                { d with type := t2, isTypeFixed := true })))
    ∧ (d.isTypeFixed = false → d.name ≠ "" →
        fixObjectType env d
          = ((env.resolveTypeof d.type).bind env.fixArrayType).bind (fun t =>
              (Mangle.mangle env.mangler (.decl (.mk d.name d.linkage t))
                Mangle.Mode.default).bind (fun s =>
                  (env.renameTyVars t).map (fun t2 =>
                    { d with type := t2, mangleName := s, isTypeFixed := true })))) := by
  refine ⟨fixObjectType_isTypeFixed env d, fixObjectType_of_fixed env d, ?_, ?_, ?_,
    fixObjectType_unnamed env d, fixObjectType_named env d⟩
  · intro r h
    exact fixObjectType_of_fixed env r (fixObjectType_isTypeFixed env d r h)
  · cases h : fixObjectType env d with
    | none => rfl
    | some r =>
      simp only [Option.some_bind]
      exact fixObjectType_of_fixed env r (fixObjectType_isTypeFixed env d r h)
  · intro hn r h
    by_cases hf : d.isTypeFixed = true
    · rw [fixObjectType_of_fixed env d hf] at h
      cases h
      rfl
    · rw [fixObjectType_unnamed env d (by simpa using hf) hn] at h
      cases h1 : (env.resolveTypeof d.type).bind env.fixArrayType with
      | none => rw [h1] at h; cases h
      | some t =>
        rw [h1] at h
        simp only [Option.some_bind] at h
        cases h2 : env.renameTyVars t with
        | none => rw [h2] at h; cases h
        | some t2 =>
          rw [h2] at h
          cases h
          rfl

/-- The object `x` of type signed int with the sample collaborators: the first call
writes the name `_X1xi` and sets the flag, the second call returns its argument; an
object without a name keeps the empty mangled name. -/
theorem fixObjectType_idempotent_witness :
    fixObjectType sampleEnv ⟨"x", Linkage.Cforall, .BasicType CV.none .SignedInt, "", false⟩
      = some ⟨"x", Linkage.Cforall, .BasicType CV.none .SignedInt, "_X1xi", true⟩
    ∧ fixObjectType sampleEnv
        ⟨"x", Linkage.Cforall, .BasicType CV.none .SignedInt, "_X1xi", true⟩
      = some ⟨"x", Linkage.Cforall, .BasicType CV.none .SignedInt, "_X1xi", true⟩
    ∧ fixObjectType sampleEnv ⟨"", Linkage.Cforall, .BasicType CV.none .SignedInt, "", false⟩
      = some ⟨"", Linkage.Cforall, .BasicType CV.none .SignedInt, "", true⟩ :=
  ⟨((fixObjectType_idempotent sampleEnv
      ⟨"x", Linkage.Cforall, .BasicType CV.none .SignedInt, "", false⟩).2.2.2.2.2.2
      rfl (by decide)).trans (by
        simp only [sampleEnv, Option.some_bind, Option.map_some']
        rfl),
    (fixObjectType_idempotent sampleEnv
      ⟨"x", Linkage.Cforall, .BasicType CV.none .SignedInt, "_X1xi", true⟩).2.1 rfl,
    ((fixObjectType_idempotent sampleEnv
      ⟨"", Linkage.Cforall, .BasicType CV.none .SignedInt, "", false⟩).2.2.2.2.2.1
      rfl rfl).trans rfl⟩

end ResolvExpr

/-! ## Parameters that the mangler does not see -/

namespace CodeGen
open Mangle

theorem accept_ignored (env : Env) (t : Ty)
    (ht : (∃ (q : CV.Qualifiers) (e : Expr) (b : Bool), t = .TypeofType q e b)
      ∨ (∃ (q : CV.Qualifiers) (base : Ty), t = .VTableType q base)
      ∨ t = .GlobalScopeType) (m : Mangler) :
    accept env t m = some m := by
  rcases ht with ⟨q, e1, b, rfl⟩ | ⟨q, base, rfl⟩ | rfl <;> simp only [accept] <;> rfl

theorem accept_each_ignored (env : Env) (xs ys : List Ty) (t : Ty)
    (ht : ∀ m : Mangler, accept env t m = some m) (m : Mangler) :
    accept_each env (xs ++ t :: ys) m = accept_each env (xs ++ ys) m := by
  rw [accept_each_middle, accept_each_append]
  cases accept_each env xs m with
  | none => rfl
  | some m1 => simp only [ht]

theorem mangle_ignored_parameter (env : Env) (name : String) (linkage : Linkage.Spec)
    (q : CV.Qualifiers) (fa : List TypeDecl) (assertions : List DeclWithType)
    (returns before after : List Ty) (va : Bool) (mode : Mode) (t : Ty)
    (ht : ∀ m : Mangler, accept env t m = some m) :
    Mangle.mangle env (.decl (.mk name linkage
        (.FunctionType q fa assertions returns (before ++ t :: after) va))) mode
      = Mangle.mangle env (.decl (.mk name linkage
        (.FunctionType q fa assertions returns (before ++ after) va))) mode := by
  rw [mangle_functionDecl, mangle_functionDecl]
  cases paramsEntry env name q fa assertions returns va mode with
  | none => rfl
  | some m0 =>
    simp only []
    rw [accept_each_ignored env before after t ht]

theorem isMain_ignored_parameter (env : Env) (q : CV.Qualifiers) (fa : List TypeDecl)
    (assertions : List DeclWithType) (returns before after : List Ty) (va : Bool) (t : Ty)
    (ht : (∃ (q : CV.Qualifiers) (e : Expr) (b : Bool), t = .TypeofType q e b)
      ∨ (∃ (q : CV.Qualifiers) (base : Ty), t = .VTableType q base)
      ∨ t = .GlobalScopeType) :
    FixMain.isMain env (.mk "main" Linkage.Cforall
        (.FunctionType q fa assertions returns (before ++ t :: after) va))
      = FixMain.isMain env (.mk "main" Linkage.Cforall
        (.FunctionType q fa assertions returns (before ++ after) va)) := by
  rw [isMain_eq_bind, isMain_eq_bind,
    mangle_ignored_parameter env "main" Linkage.Cforall q fa assertions returns before after
      va Type_ t (accept_ignored env t ht)]

/-- The entry point with a parameter that the mangler does not see. `FixMain::isMain`
accepts a function `main` that returns a signed int and has one parameter whose type is a
typeof type, a vtable type or the global scope: the mangler has no `postvisit` for these
node kinds, so the mangled name is that of the `main` without parameters. On the single
parameter of such a declaration the `switch` of `FixMain::fix` takes its default branch,
`assert( false )`. In the same way a `main` of a signed int, a pointer to pointer to char
and a third parameter of such a type is accepted, which leads to the case of three
parameters. -/
theorem entry_point_with_ignored_parameter (env : Env) (genv : GenEnv) (q qr : CV.Qualifiers)
    (fa : List TypeDecl) (assertions : List DeclWithType) (va : Bool) :
    (∀ (qt : CV.Qualifiers) (e : Expr) (b : Bool),
      FixMain.isMain env (.mk "main" Linkage.Cforall
        (.FunctionType q fa assertions [.BasicType qr .SignedInt] [.TypeofType qt e b] va))
        = some true)
    ∧ (∀ (qt : CV.Qualifiers) (base : Ty),
        FixMain.isMain env (.mk "main" Linkage.Cforall
          (.FunctionType q fa assertions [.BasicType qr .SignedInt] [.VTableType qt base] va))
          = some true)
    ∧ FixMain.isMain env (.mk "main" Linkage.Cforall
        (.FunctionType q fa assertions [.BasicType qr .SignedInt] [.GlobalScopeType] va))
        = some true
    ∧ (∀ t : Ty, FixMain.fixArguments genv [t] = none)
    ∧ (∀ (qt : CV.Qualifiers) (e : Expr) (b : Bool),
        FixMain.isMain env (.mk "main" Linkage.Cforall
          (.FunctionType q fa assertions [.BasicType qr .SignedInt]
            [.BasicType CV.none .SignedInt,
              .PointerType CV.none
                (.PointerType CV.none (.BasicType CV.none .Char) none false false)
                none false false,
              .TypeofType qt e b] va)) = some true) := by
  have h0 : FixMain.isMain env (.mk "main" Linkage.Cforall
      (.FunctionType q fa assertions [.BasicType qr .SignedInt] ([] ++ []) va)) = some true := by
    rw [isMain_eq_bind]
    simp only [List.append_nil]
    rw [mangle_main0 env Linkage.Cforall rfl]
    exact is_main_first env
  have h2 : FixMain.isMain env (.mk "main" Linkage.Cforall
      (.FunctionType q fa assertions [.BasicType qr .SignedInt]
        ([.BasicType CV.none .SignedInt,
          .PointerType CV.none
            (.PointerType CV.none (.BasicType CV.none .Char) none false false)
            none false false] ++ []) va)) = some true := by
    rw [isMain_eq_bind]
    simp only [List.append_nil]
    rw [mangle_main2 env Linkage.Cforall rfl]
    exact is_main_second env
  refine ⟨?_, ?_, ?_, fun t => rfl, ?_⟩
  · intro qt e b
    exact (isMain_ignored_parameter env q fa assertions _ [] [] va _
      (Or.inl ⟨qt, e, b, rfl⟩)).trans h0
  · intro qt base
    exact (isMain_ignored_parameter env q fa assertions _ [] [] va _
      (Or.inr (Or.inl ⟨qt, base, rfl⟩))).trans h0
  · exact (isMain_ignored_parameter env q fa assertions _ [] [] va _
      (Or.inr (Or.inr rfl))).trans h0
  · intro qt e b
    exact (isMain_ignored_parameter env q fa assertions _
      [.BasicType CV.none .SignedInt,
        .PointerType CV.none
          (.PointerType CV.none (.BasicType CV.none .Char) none false false)
          none false false] [] va _ (Or.inl ⟨qt, e, b, rfl⟩)).trans h2

/-- The declaration `int main( typeof( x ) )` in the sample environment: accepted by
`isMain`, mangled in type mode like `int main()`, and without arguments for the call. -/
theorem entry_point_with_typeof_parameter :
    FixMain.isMain Mangle.sampleEnv (.mk "main" Linkage.Cforall
        (.FunctionType CV.none [] [] [.BasicType CV.none .SignedInt]
          [.TypeofType CV.none (.Other "x") false] false)) = some true
    ∧ Mangle.mangle Mangle.sampleEnv (.decl (.mk "main" Linkage.Cforall
        (.FunctionType CV.none [] [] [.BasicType CV.none .SignedInt]
          [.TypeofType CV.none (.Other "x") false] false))) Mangle.Type_
      = some "_X4mainFi__"
    ∧ FixMain.fixArguments sampleGenEnv [.TypeofType CV.none (.Other "x") false] = none
    ∧ FixMain.fixArguments sampleGenEnv [] = some ""
    ∧ FixMain.fixArguments sampleGenEnv [.BasicType CV.none .SignedInt,
        .PointerType CV.none
          (.PointerType CV.none (.BasicType CV.none .Char) none false false) none false false]
      = some "(signed int )argc, (char **)argv" := by
  decide

end CodeGen
